import Mathlib

/-! # Indigo interpreter

A shallow embedding of `src/interpreter.c`: the expression data type, the
module store, deep copy and structural equality, substitution
(`expression_substitute`, `evaluation_substitute`), destructor reduction
(`substitution_destruct`), the printer (`expression_print`,
`evaluation_print`), the lexer, the elaborator (`parser_parseExpression`) and
the statements (`parser_parseStatement`, `module_endNamespace`, `parseFile`)
and the validation (`module_validate`), followed by theorems about them.

Modelling conventions.

* A C array of `Expression` together with its element count is a `List
  Expression`; `argumentCount`, `parameterCount`, `constructorCount`,
  `destructorCount` and `matrixCount` are the lengths of the lists.
* `malloc`/`realloc` are assumed to succeed.
* A C function returning `bool` and writing its result through a pointer
  returns an `Option` (no recursion through rules) or an `Outcome` (recursion
  through rules, which need not terminate).  Such a function takes a budget as
  its first argument, one unit of which is spent by every call of
  `expression_substitute`, `evaluation_substitute`, `substitution_destruct`,
  `expression_print` or `evaluation_print`; the outcome `timeout` says that the
  budget ran out, and a result or a failure obtained under one budget is
  obtained under every larger one.
* An array of `Substitution` under construction is a list of cells, a cell
  being `none` while its content is indeterminate (never written, or copied
  from beyond the end of the source array).  Reading a cell that lies outside
  the array, or whose content is indeterminate, has no defined behaviour in C;
  the model makes the operation that *uses* such a cell fail.
* The parser reads a list of characters; `EOF` is the empty list.  The
  functions of the elaborator and of the statements take the same kind of
  budget, one unit of which is spent by every call of
  `parser_parseExpression`, of its destructor loop, of `parser_parseStatement`,
  of a statement loop or of `parseFile`.
* Of the text written, only standard output of successful statements is
  modelled: not the diagnostics on standard error (except the names
  `module_validate` reports, which are part of its result), and not the text
  of the help form `?`, which fails.
-/

namespace Indigo

/-! ## Expressions -/

mutual
/-- The C `Expression`: a kind tag and the data it points to. -/
inductive Expression where
  | unspecified : Expression
  | construction (index : Nat) (args : List Expression) : Expression
  | evaluation (e : Evaluation) : Expression
/-- The C `Evaluation`: a reference into the environment or a destruction. -/
inductive Evaluation where
  | reference (index : Nat) : Evaluation
  | destruction (caller : Evaluation) (index : Nat) (args : List Expression) : Evaluation
end

instance : Inhabited Expression := ⟨Expression.unspecified⟩
instance : Inhabited Evaluation := ⟨Evaluation.reference 0⟩

/-! ## Module store -/

/-- The C `Constructor`. -/
structure Constructor where
  depth : Nat
  name : String
  parameterTypes : List Expression

/-- The C `Destructor`; `rules` has one entry per constructor of the family. -/
structure Destructor where
  depth : Nat
  name : String
  parameterTypes : List Expression
  returnType : Expression
  rules : List Expression

/-- The C `Matrix`: one type family. -/
structure Matrix where
  constructors : List Constructor
  destructors : List Destructor

/-- The C `Module`: matrix 0 lists the type families themselves. -/
structure Module where
  matrices : List Matrix

/-- The C `Substitution`: a typed value. -/
structure Substitution where
  type : Expression
  value : Expression

/-- An array of `Substitution` cells; `none` is a cell of indeterminate content. -/
abbrev Slots := List (Option Substitution)

/-- The content of cell `i` of an array, when it is inside the array and determinate. -/
def Slots.read (s : Slots) (i : Nat) : Option Substitution :=
  (s.get? i).join

/-! ## Outcomes of possibly non-terminating calls -/

/-- What a call did within the recursion budget it was given: it returned `true`
with a result, it returned `false` (or met undefined behaviour), or the budget
ran out before it returned. -/
inductive Outcome (α : Type) where
  | ok (a : α) : Outcome α
  | fail : Outcome α
  | timeout : Outcome α

namespace Outcome

/-- Sequencing: the continuation runs only after a successful first part. -/
def bind {α β : Type} (x : Outcome α) (f : α → Outcome β) : Outcome β :=
  match x with
  | ok a => f a
  | fail => fail
  | timeout => timeout

/-- An `Option` result of a terminating helper, taken as an outcome. -/
def ofOption {α : Type} : Option α → Outcome α
  | some a => ok a
  | none => fail

/-- The loop `for (i = 0; i < count; i++) if (!f(xs[i], &out[i])) throw ...`. -/
def mapList {α β : Type} (f : α → Outcome β) : List α → Outcome (List β)
  | [] => ok []
  | a :: rest => bind (f a) (fun b => bind (mapList f rest) (fun bs => ok (b :: bs)))

/-- The outcome `y` is `x` continued with a larger budget: once `x` has
returned, `y` is the same. -/
def le {α : Type} (x y : Outcome α) : Prop := x = timeout ∨ x = y

/-- Whatever `x` returns, `y` returns as well. -/
def okLe {α : Type} (x y : Outcome α) : Prop := ∀ r, x = ok r → y = ok r

end Outcome

/-- Every determinate cell of `s` is the same cell of `s'`. -/
def Slots.le (s s' : Slots) : Prop := ∀ i x, s.read i = some x → s'.read i = some x

/-! ## Deep copy -/

mutual
/-- The C `expression_duplicate`: fails on an `UNSPECIFIED_EXPRESSION`. -/
def expression_duplicate : Expression → Option Expression
  | .unspecified => none
  | .construction index args =>
    match expressions_duplicate args with
    | none => none
    | some copies => some (.construction index copies)
  | .evaluation e =>
    match evaluation_duplicate e with
    | none => none
    | some copy => some (.evaluation copy)
/-- The C `evaluation_duplicate`. -/
def evaluation_duplicate : Evaluation → Option Evaluation
  | .reference index => some (.reference index)
  | .destruction caller index args =>
    match evaluation_duplicate caller with
    | none => none
    | some callerCopy =>
      match expressions_duplicate args with
      | none => none
      | some copies => some (.destruction callerCopy index copies)
/-- The argument loop of the two copy functions: stops at the first failure. -/
def expressions_duplicate : List Expression → Option (List Expression)
  | [] => some []
  | a :: rest =>
    match expression_duplicate a with
    | none => none
    | some copy =>
      match expressions_duplicate rest with
      | none => none
      | some copies => some (copy :: copies)
end

/-! ## Substitution and destructor reduction -/

/-- The loops of `substitution_destruct` that fill cells `start, start+1, ...` of
an array of substitutions: cell `start + k` receives the type obtained by
substituting the array as it stands into the `k`-th declared parameter type, and
the `k`-th entry of `values` as its value.  A value read from beyond the end of
`values` leaves the cell indeterminate. -/
def fillSlots (subst : Expression → Slots → Outcome Expression) :
    List Expression → List Expression → Nat → Slots → Outcome Slots
  | [], _, _, slots => .ok slots
  | parameterType :: parameterTypes, values, position, slots =>
    (subst parameterType slots).bind fun type =>
      fillSlots subst parameterTypes values.tail (position + 1)
        (slots.set position (values.head?.map fun value => ⟨type, value⟩))

/-- The C `memcpy(dst, &src[start], count * sizeof(Substitution))`: the `count`
cells read, those beyond the end of `src` being indeterminate. -/
def copySlots (src : Slots) (start count : Nat) : Slots :=
  (List.range count).map fun i => src.read (start + i)

/-- The argument-copy loop of the stuck branch of `substitution_destruct`:
`expression_duplicate(pArguments[j], ...)` for `j < count`. -/
def duplicateArguments (pArguments : List Expression) : Nat → Option (List Expression)
  | 0 => some []
  | count + 1 =>
    match pArguments with
    | [] => none
    | a :: rest =>
      match expression_duplicate a with
      | none => none
      | some copy =>
        match duplicateArguments rest count with
        | none => none
        | some copies => some (copy :: copies)

mutual
/-- The C `expression_substitute`; the first argument bounds the call depth. -/
def expression_substitute : Nat → Module → Expression → Slots → Outcome Expression
  | 0, _, _, _ => .timeout
  | fuel + 1, module, expression, pSubstitutions =>
    match expression with
    | .construction index args =>
      (Outcome.mapList (fun a => expression_substitute fuel module a pSubstitutions) args).bind
        fun pArguments => .ok (.construction index pArguments)
    | .evaluation e =>
      (evaluation_substitute fuel module e pSubstitutions).bind
        fun substitution => .ok substitution.value
    | .unspecified => .fail
/-- The C `evaluation_substitute`. -/
def evaluation_substitute : Nat → Module → Evaluation → Slots → Outcome Substitution
  | 0, _, _, _ => .timeout
  | fuel + 1, module, evaluation, pSubstitutions =>
    match evaluation with
    | .reference index =>
      match pSubstitutions.read index with
      | none => .fail
      | some slot =>
        (Outcome.ofOption (expression_duplicate slot.type)).bind fun type =>
        (Outcome.ofOption (expression_duplicate slot.value)).bind fun value =>
        .ok ⟨type, value⟩
    | .destruction callerEvaluation index args =>
      (evaluation_substitute fuel module callerEvaluation pSubstitutions).bind fun caller =>
      (Outcome.mapList (fun a => expression_substitute fuel module a pSubstitutions) args).bind
        fun pArguments =>
      substitution_destruct fuel module caller index pArguments
/-- The C `substitution_destruct`.  The three arrays are built as in the source:
`pTypeSubstitutions` (one cell per family parameter), `pDestructorSubstitutions`
(the family cells, the target, one cell per destructor parameter) and, for a
Construction, `pRuleSubstitutions`.  After its loop the C variable
`destructorSubstitutionCount` holds the end index `typeSubstitutionCount + 1 +
parameterCount`, and the source uses it as the cell count of the second
`memcpy` and in the size of `pRuleSubstitutions`: the rule array is the family
cells, the constructor cells, the destructor cells, then `typeSubstitutionCount
+ 1` cells copied from beyond the end of `pDestructorSubstitutions`. -/
def substitution_destruct :
    Nat → Module → Substitution → Nat → List Expression → Outcome Substitution
  | 0, _, _, _, _ => .timeout
  | fuel + 1, module, substitution, index, pArguments =>
    match substitution.type with
    | .construction typeIndex typeArguments =>
      (Outcome.ofOption ((module.matrices.get? 0).bind fun m => m.constructors.get? typeIndex)).bind
        fun typeConstructor =>
      let typeSubstitutionCount := typeConstructor.parameterTypes.length
      (fillSlots (expression_substitute fuel module) typeConstructor.parameterTypes typeArguments 0
        (List.replicate typeSubstitutionCount none)).bind fun pTypeSubstitutions =>
      (Outcome.ofOption (module.matrices.get? typeIndex)).bind fun matrix =>
      (Outcome.ofOption (matrix.destructors.get? index)).bind fun destructor =>
      let destructorSubstitutionCount :=
        typeSubstitutionCount + 1 + destructor.parameterTypes.length
      (fillSlots (expression_substitute fuel module) destructor.parameterTypes pArguments
        (typeSubstitutionCount + 1)
        (copySlots pTypeSubstitutions 0 typeSubstitutionCount ++ [some substitution] ++
          List.replicate destructor.parameterTypes.length none)).bind
        fun pDestructorSubstitutions =>
      (expression_substitute fuel module destructor.returnType pDestructorSubstitutions).bind
        fun type =>
      match substitution.value with
      | .construction constructorIndex constructorArguments =>
        (Outcome.ofOption (matrix.constructors.get? constructorIndex)).bind fun constructor =>
        (fillSlots (expression_substitute fuel module) constructor.parameterTypes
          constructorArguments typeSubstitutionCount
          (copySlots pTypeSubstitutions 0 typeSubstitutionCount ++
            List.replicate constructor.parameterTypes.length none ++
            copySlots pDestructorSubstitutions (typeSubstitutionCount + 1)
              destructorSubstitutionCount)).bind fun pRuleSubstitutions =>
        match destructor.rules.get? constructorIndex with
        | none => .fail
        | some .unspecified => .fail
        | some rule =>
          (expression_substitute fuel module rule pRuleSubstitutions).bind fun value =>
          .ok ⟨type, value⟩
      | .evaluation e =>
        (Outcome.ofOption (evaluation_duplicate e)).bind fun caller =>
        (Outcome.ofOption (duplicateArguments pArguments destructor.parameterTypes.length)).bind
          fun pArgumentCopies =>
        .ok ⟨type, .evaluation (.destruction caller index pArgumentCopies)⟩
      | .unspecified => .fail
    | _ => .fail
end

/-! ## Printer -/

/-- The C `Parameter`: a named, typed parameter of the elaboration context. -/
structure Parameter where
  name : String
  type : Expression

/-- The constructor-argument loop of `expression_print`: for each declared
parameter type, substitute the array into it, write a blank, print the argument
against the substituted type, then store the slot.  The result is the text
written.  An argument read from beyond the end of `args` is used at once by the
recursive print, so the loop fails there. -/
def printConstructorArguments (subst : Expression → Slots → Outcome Expression)
    (print : Expression → Expression → Outcome String) :
    List Expression → List Expression → Nat → Slots → Outcome String
  | [], _, _, _ => .ok ""
  | parameterType :: parameterTypes, args, position, slots =>
    (subst parameterType slots).bind fun type =>
      match args with
      | [] => .fail
      | argument :: rest =>
        (print argument type).bind fun text =>
        (printConstructorArguments subst print parameterTypes rest (position + 1)
          (slots.set position (some ⟨type, argument⟩))).bind fun texts =>
        .ok (" " ++ text ++ texts)

/-- The destructor-argument loop of `evaluation_print`: as the constructor loop,
except that before printing the argument the loop also writes the new slot over
the cell at `selfPosition` (the cell of the destructed value).  The result is
the text written and the final array. -/
def printDestructorArguments (subst : Expression → Slots → Outcome Expression)
    (print : Expression → Expression → Outcome String) (selfPosition : Nat) :
    List Expression → List Expression → Nat → Slots → Outcome (String × Slots)
  | [], _, _, slots => .ok ("", slots)
  | parameterType :: parameterTypes, args, position, slots =>
    (subst parameterType slots).bind fun type =>
      match args with
      | [] => .fail
      | argument :: rest =>
        (print argument type).bind fun text =>
        (printDestructorArguments subst print selfPosition parameterTypes rest (position + 1)
          ((slots.set selfPosition (some ⟨type, argument⟩)).set position
            (some ⟨type, argument⟩))).bind fun result =>
        .ok (" " ++ text ++ result.1, result.2)

mutual
/-- The C `expression_print`: the text written to standard output by a call
that returns `true`.  What a failing call has written before failing is not
modelled. -/
def expression_print :
    Nat → Module → List Parameter → Expression → Expression → Outcome String
  | 0, _, _, _, _ => .timeout
  | fuel + 1, module, pParameters, expression, type =>
    match expression with
    | .construction index args =>
      match type with
      | .construction typeIndex typeArguments =>
        (Outcome.ofOption
          ((module.matrices.get? 0).bind fun m => m.constructors.get? typeIndex)).bind
          fun typeConstructor =>
        (Outcome.ofOption (module.matrices.get? typeIndex)).bind fun matrix =>
        (Outcome.ofOption (matrix.constructors.get? index)).bind fun constructor =>
        (fillSlots (expression_substitute fuel module) typeConstructor.parameterTypes
          typeArguments 0
          (List.replicate
            (typeConstructor.parameterTypes.length + constructor.parameterTypes.length)
            none)).bind fun pSubstitutions =>
        (printConstructorArguments (expression_substitute fuel module)
          (expression_print fuel module pParameters) constructor.parameterTypes args
          typeConstructor.parameterTypes.length pSubstitutions).bind fun texts =>
        .ok (constructor.name ++ texts)
      | _ => .fail
    | .evaluation e =>
      (evaluation_print fuel module pParameters e).bind fun result =>
      .ok ("(" ++ result.1 ++ ")")
    | .unspecified => .fail
/-- The C `evaluation_print`: the text written and the type returned through
`pType` by a call that returns `true`. -/
def evaluation_print :
    Nat → Module → List Parameter → Evaluation → Outcome (String × Expression)
  | 0, _, _, _ => .timeout
  | fuel + 1, module, pParameters, evaluation =>
    match evaluation with
    | .reference index =>
      (Outcome.ofOption (pParameters.get? index)).bind fun parameter =>
      (Outcome.ofOption (expression_duplicate parameter.type)).bind fun type =>
      .ok (parameter.name, type)
    | .destruction caller index args =>
      (evaluation_print fuel module pParameters caller).bind fun callerResult =>
      match callerResult.2 with
      | .construction typeIndex typeArguments =>
        (Outcome.ofOption
          ((module.matrices.get? 0).bind fun m => m.constructors.get? typeIndex)).bind
          fun typeConstructor =>
        (Outcome.ofOption (module.matrices.get? typeIndex)).bind fun matrix =>
        (Outcome.ofOption (matrix.destructors.get? index)).bind fun destructor =>
        (fillSlots (expression_substitute fuel module) typeConstructor.parameterTypes
          typeArguments 0
          (List.replicate
            (typeConstructor.parameterTypes.length + 1 + destructor.parameterTypes.length)
            none)).bind fun pTypeSubstitutions =>
        (printDestructorArguments (expression_substitute fuel module)
          (expression_print fuel module pParameters) typeConstructor.parameterTypes.length
          destructor.parameterTypes args (typeConstructor.parameterTypes.length + 1)
          (pTypeSubstitutions.set typeConstructor.parameterTypes.length
            (some ⟨callerResult.2, .evaluation caller⟩))).bind fun result =>
        (expression_substitute fuel module destructor.returnType result.2).bind fun resultType =>
        .ok (callerResult.1 ++ "." ++ destructor.name ++ result.1, resultType)
      | _ => .fail
end

/-! ## Shapes of expressions -/

mutual
/-- The expression contains no `UNSPECIFIED_EXPRESSION` node. -/
def Expression.specified : Expression → Bool
  | .unspecified => false
  | .construction _ args => specifiedList args
  | .evaluation e => e.specified
/-- The evaluation contains no `UNSPECIFIED_EXPRESSION` node. -/
def Evaluation.specified : Evaluation → Bool
  | .reference _ => true
  | .destruction caller _ args => caller.specified && specifiedList args
/-- No expression of the list contains an `UNSPECIFIED_EXPRESSION` node. -/
def specifiedList : List Expression → Bool
  | [] => true
  | a :: rest => a.specified && specifiedList rest
end

mutual
/-- The expression is built from Constructions only: no Reference, no
Destruction, no Unspecified node. -/
def Expression.constructorOnly : Expression → Bool
  | .construction _ args => constructorOnlyList args
  | .evaluation _ => false
  | .unspecified => false
/-- Every expression of the list is built from Constructions only. -/
def constructorOnlyList : List Expression → Bool
  | [] => true
  | a :: rest => a.constructorOnly && constructorOnlyList rest
end

/-- Every determinate cell of the array holds a constructor-only type and value. -/
def Slots.constructorOnly (s : Slots) : Prop :=
  ∀ i x, s.read i = some x → x.type.constructorOnly = true ∧ x.value.constructorOnly = true

mutual
/-- The expression is built only from Constructions and References, every
Reference index lies inside `env`, and every referenced slot of `env` passes
the test `usable`. -/
def Expression.referencesOnly (usable : Substitution → Bool) (env : List Substitution) :
    Expression → Bool
  | .unspecified => false
  | .construction _ args => referencesOnlyList usable env args
  | .evaluation e =>
    match e with
    | .reference index =>
      match env.get? index with
      | some slot => usable slot
      | none => false
    | .destruction _ _ _ => false
/-- Every expression of the list satisfies `Expression.referencesOnly`. -/
def referencesOnlyList (usable : Substitution → Bool) (env : List Substitution) :
    List Expression → Bool
  | [] => true
  | a :: rest => a.referencesOnly usable env && referencesOnlyList usable env rest
end

mutual
/-- The expression with every `Reference(i)` replaced by `env[i].value`;
constructor indices and argument counts are kept. -/
def Expression.instantiate (env : List Substitution) : Expression → Expression
  | .unspecified => .unspecified
  | .construction index args => .construction index (instantiateList env args)
  | .evaluation e =>
    match e with
    | .reference index =>
      match env.get? index with
      | some slot => slot.value
      | none => .evaluation e
    | .destruction _ _ _ => .evaluation e
/-- The list with every expression instantiated. -/
def instantiateList (env : List Substitution) : List Expression → List Expression
  | [] => []
  | a :: rest => a.instantiate env :: instantiateList env rest
end

mutual
/-- The expression contains no Unspecified node, every Reference index in it
(at any depth, also inside Destructions) lies inside `env`, and every referenced
slot of `env` has a type and a value without Unspecified node. -/
def Expression.wellScoped (env : List Substitution) : Expression → Bool
  | .unspecified => false
  | .construction _ args => wellScopedList env args
  | .evaluation e => e.wellScoped env
/-- The evaluation is well scoped in `env`, as `Expression.wellScoped`. -/
def Evaluation.wellScoped (env : List Substitution) : Evaluation → Bool
  | .reference index =>
    match env.get? index with
    | some slot => slot.type.specified && slot.value.specified
    | none => false
  | .destruction caller _ args => caller.wellScoped env && wellScopedList env args
/-- Every expression of the list is well scoped in `env`. -/
def wellScopedList (env : List Substitution) : List Expression → Bool
  | [] => true
  | a :: rest => a.wellScoped env && wellScopedList env rest
end

mutual
/-- Every Reference index in the expression, at any depth, is below `bound`. -/
def Expression.referencesBelow (bound : Nat) : Expression → Bool
  | .unspecified => true
  | .construction _ args => referencesBelowList bound args
  | .evaluation e => e.referencesBelow bound
/-- Every Reference index in the evaluation, at any depth, is below `bound`. -/
def Evaluation.referencesBelow (bound : Nat) : Evaluation → Bool
  | .reference index => decide (index < bound)
  | .destruction caller _ args => caller.referencesBelow bound && referencesBelowList bound args
/-- Every Reference index in the expressions of the list is below `bound`. -/
def referencesBelowList (bound : Nat) : List Expression → Bool
  | [] => true
  | a :: rest => a.referencesBelow bound && referencesBelowList bound rest
end

/-- The scoping rule of specification §3 for the parameter types of a
constructor whose first parameter sits in slot `start`: the `k`-th declared
type mentions only the slots before its own, `[0 .. start + k)`. -/
def parametersScoped : Nat → List Expression → Bool
  | _, [] => true
  | start, parameterType :: parameterTypes =>
    parameterType.referencesBelow start && parametersScoped (start + 1) parameterTypes

/-! ## Budget-free reading of outcomes -/

/-- The call `f`, given enough budget, returns `true` with result `a`. -/
def Returns {α : Type} (f : Nat → Outcome α) (a : α) : Prop := ∃ fuel, f fuel = .ok a

/-- The call `f`, given enough budget, returns `false`. -/
def Fails {α : Type} (f : Nat → Outcome α) : Prop := ∃ fuel, f fuel = .fail

/-! ## The environments of destructor reduction, as the specification words them -/

/-- Specification §4.2: one slot per parameter, appended to `env` in order, whose
value is the corresponding argument and whose type is the declared parameter
type substituted with the slots before it.  A parameter with no corresponding
argument gets an indeterminate slot. -/
def appendSlots (subst : Expression → Slots → Outcome Expression) :
    List Expression → List Expression → Slots → Outcome Slots
  | [], _, env => .ok env
  | parameterType :: parameterTypes, values, env =>
    (subst parameterType env).bind fun type =>
      appendSlots subst parameterTypes values.tail
        (env ++ [values.head?.map fun value => ⟨type, value⟩])

/-- Specification §4.2 step 1, slots `[0..F.arity)`: one slot per family
parameter, value `type.args[i]`, type the declared parameter type substituted
with the earlier slots. -/
def familyEnvironment (fuel : Nat) (module : Module) (typeIndex : Nat)
    (typeArguments : List Expression) : Outcome Slots :=
  (Outcome.ofOption ((module.matrices.get? 0).bind fun m => m.constructors.get? typeIndex)).bind
    fun typeConstructor =>
  appendSlots (expression_substitute fuel module) typeConstructor.parameterTypes typeArguments []

/-- Specification §4.2 step 1, the outer environment: the family slots, the
target itself in slot `F.arity`, then one slot per destructor parameter, value
`args[j]`, type the declared parameter type substituted with the prefix of this
same environment. -/
def outerEnvironment (fuel : Nat) (module : Module) (typeIndex : Nat)
    (typeArguments : List Expression) (value : Expression) (index : Nat)
    (args : List Expression) : Outcome Slots :=
  (familyEnvironment fuel module typeIndex typeArguments).bind fun family =>
  (Outcome.ofOption ((module.matrices.get? typeIndex).bind fun m => m.destructors.get? index)).bind
    fun destructor =>
  appendSlots (expression_substitute fuel module) destructor.parameterTypes args
    (family ++ [some ⟨.construction typeIndex typeArguments, value⟩])

/-- Specification §4.2 step 3, the rule environment: the family slots, one slot
per constructor parameter (values the constructor arguments, types the declared
parameter types substituted with the family slots and the earlier constructor
slots), then the destructor parameter slots of the outer environment.  It has
no slot for the target. -/
def ruleEnvironment (fuel : Nat) (module : Module) (typeIndex : Nat)
    (typeArguments : List Expression) (constructorIndex : Nat)
    (constructorArguments : List Expression) (index : Nat) (args : List Expression) :
    Outcome Slots :=
  (familyEnvironment fuel module typeIndex typeArguments).bind fun family =>
  (Outcome.ofOption
    ((module.matrices.get? typeIndex).bind fun m => m.constructors.get? constructorIndex)).bind
    fun constructor =>
  (appendSlots (expression_substitute fuel module) constructor.parameterTypes
    constructorArguments family).bind fun familyAndConstructor =>
  (outerEnvironment fuel module typeIndex typeArguments
    (.construction constructorIndex constructorArguments) index args).bind fun outer =>
  .ok (familyAndConstructor ++ outer.drop (family.length + 1))

/-! ## Example modules -/

/-- The type `Nat`: constructor 1 of matrix 0. -/
def natType : Expression := .construction 1 []

/-- The numeral `succ^n zero` of family `Nat`. -/
def numeral : Nat → Expression
  | 0 => .construction 0 []
  | n + 1 => .construction 1 [numeral n]

/-- Matrix 0 of Scenario B: the families `Type` and `Nat`. -/
def typeMatrixWithNat : Matrix :=
  { constructors := [⟨0, "Type", []⟩, ⟨0, "Nat", []⟩], destructors := [] }

/-- The destructor `add Nat [m] ~ Nat` with its two rules: `zero.add m = m`,
whose environment is `[m]`, and `(succ n).add m = succ (n.add m)`, whose
environment is `[n, m]`. -/
def addDestructor : Destructor :=
  { depth := 0, name := "add", parameterTypes := [natType], returnType := natType,
    rules := [
      .evaluation (.reference 0),
      .construction 1
        [.evaluation (.destruction (.reference 0) 0 [.evaluation (.reference 1)])]] }

/-- Matrix 1 of Scenario B: the constructors `zero` and `succ Nat [n]` and the
destructor `add`. -/
def natMatrix : Matrix :=
  { constructors := [⟨0, "zero", []⟩, ⟨0, "succ", [natType]⟩],
    destructors := [addDestructor] }

/-- Scenario B: the module holding family `Nat` with `zero`, `succ` and `add`. -/
def natModule : Module :=
  { matrices := [typeMatrixWithNat, natMatrix] }

/-- Scenario B before its rules are given: both rule entries of `add` are unspecified. -/
def natModuleNoRules : Module :=
  { matrices := [
      { constructors := [⟨0, "Type", []⟩, ⟨0, "Nat", []⟩], destructors := [] },
      { constructors := [⟨0, "zero", []⟩, ⟨0, "succ", [natType]⟩],
        destructors := [
          { depth := 0, name := "add", parameterTypes := [natType], returnType := natType,
            rules := [.unspecified, .unspecified] }] }] }

/-! ## Structural equality -/

mutual
/-- The C `expression_equals`.  The argument loop runs over the arguments of the
first operand and never compares the two argument counts; it reads the second
operand's argument with the same index, which lies beyond that operand's array
when it has fewer arguments: the result is then `none` (no defined behaviour). -/
def expression_equals : Expression → Expression → Option Bool
  | .construction index args, other =>
    match other with
    | .construction otherIndex otherArgs =>
      if index ≠ otherIndex then some false else arguments_equal args otherArgs
    | _ => some false
  | .evaluation e, other =>
    match other with
    | .evaluation otherEvaluation => evaluation_equals e otherEvaluation
    | _ => some false
  | .unspecified, _ => some false
/-- The C `evaluation_equals`: callers first, then the destructor index, then
the arguments of the first operand. -/
def evaluation_equals : Evaluation → Evaluation → Option Bool
  | .reference index, other =>
    match other with
    | .reference otherIndex => some (decide (index = otherIndex))
    | _ => some false
  | .destruction caller index args, other =>
    match other with
    | .destruction otherCaller otherIndex otherArgs =>
      match evaluation_equals caller otherCaller with
      | some true => if index ≠ otherIndex then some false else arguments_equal args otherArgs
      | result => result
    | _ => some false
/-- The argument loop of the two equality functions:
`for (i = 0; i < argumentCount; i++) if (!equals(args[i], other[i])) return false`. -/
def arguments_equal : List Expression → List Expression → Option Bool
  | [], _ => some true
  | a :: rest, others =>
    match others with
    | [] => none
    | b :: otherRest =>
      match expression_equals a b with
      | some true => arguments_equal rest otherRest
      | result => result
end

mutual
/-- The two expressions have the same number of arguments at every pair of
corresponding nodes (nodes of different kinds have no corresponding children). -/
def Expression.sameArity : Expression → Expression → Bool
  | .construction _ args, other =>
    match other with
    | .construction _ otherArgs => sameArityList args otherArgs
    | _ => true
  | .evaluation e, other =>
    match other with
    | .evaluation otherEvaluation => e.sameArity otherEvaluation
    | _ => true
  | .unspecified, _ => true
/-- The two evaluations have the same number of arguments at corresponding nodes. -/
def Evaluation.sameArity : Evaluation → Evaluation → Bool
  | .reference _, _ => true
  | .destruction caller _ args, other =>
    match other with
    | .destruction otherCaller _ otherArgs =>
      caller.sameArity otherCaller && sameArityList args otherArgs
    | _ => true
/-- The two lists have the same length and pairwise the same arities. -/
def sameArityList : List Expression → List Expression → Bool
  | [], others => others.isEmpty
  | a :: rest, others =>
    match others with
    | [] => false
    | b :: otherRest => a.sameArity b && sameArityList rest otherRest
end

/-! ## The initial module -/

/-- The C `createEmptyModule`: one matrix, holding the constructor `Type` and
no destructor. -/
def createEmptyModule : Module :=
  { matrices := [
      { constructors := [{ depth := 0, name := "Type", parameterTypes := [] }],
        destructors := [] }] }

/-! ## Lexer -/

/-- The C `Parser`: `input` holds the character `next` followed by the
characters the file will still deliver; it is empty when `next` is `EOF`. -/
structure Parser where
  input : List Char
  lineNumber : Nat
  columnNumber : Nat

/-- The C field `next`: `none` stands for `EOF`. -/
def Parser.next (parser : Parser) : Option Char := parser.input.head?

/-- The parser `createParserFromFile` returns on a file with these characters. -/
def Parser.ofInput (input : List Char) : Parser :=
  { input := input, lineNumber := 1, columnNumber := 1 }

/-- The C `parser_advance`. -/
def parser_advance (parser : Parser) : Parser :=
  match parser.input with
  | [] => { parser with columnNumber := parser.columnNumber + 1 }
  | c :: rest =>
    if c = Char.ofNat 10 then
      { input := rest, lineNumber := parser.lineNumber + 1, columnNumber := 1 }
    else
      { input := rest, lineNumber := parser.lineNumber, columnNumber := parser.columnNumber + 1 }

/-- The C `isspace` in the "C" locale: blank, tab, line feed, vertical tab, form
feed, carriage return. -/
def isspace (c : Char) : Bool :=
  c.toNat == 32 || (Nat.ble 9 c.toNat && Nat.ble c.toNat 13)

/-- The characters a word is made of: `isalnum` in the "C" locale, or one of
`_ + - * / % ^ & =`, the apostrophe, the double quote, the backslash, the comma
and the backquote. -/
def isWordCharacter (c : Char) : Bool :=
  c.isAlphanum ||
    [95, 43, 45, 42, 47, 37, 94, 38, 61, 39, 34, 92, 44, 96].contains c.toNat

/-- The loop `while (isspace(next)) parser_advance`; it runs at most once per
character left. -/
def skipWhitespaceLoop : Nat → Parser → Parser
  | 0, parser => parser
  | count + 1, parser =>
    match parser.next with
    | none => parser
    | some c => if isspace c then skipWhitespaceLoop count (parser_advance parser) else parser

/-- The C `parser_skipWhitespace`. -/
def parser_skipWhitespace (parser : Parser) : Parser :=
  skipWhitespaceLoop parser.input.length parser

/-- The loop of `parser_parseWord` and `parser_parseName` that collects word
characters; it runs at most once per character left. -/
def wordLoop : Nat → Parser → List Char × Parser
  | 0, parser => ([], parser)
  | count + 1, parser =>
    match parser.next with
    | none => ([], parser)
    | some c =>
      if isWordCharacter c then
        let result := wordLoop count (parser_advance parser)
        (c :: result.1, result.2)
      else ([], parser)

/-- The C `parser_parseWord`: the word read and the parser after the whitespace
that follows it. -/
def parser_parseWord (parser : Parser) : String × Parser :=
  let result := wordLoop parser.input.length parser
  (String.mk result.1, parser_skipWhitespace result.2)

/-- The `do ... while (true)` loop of `parser_parseName`: a word, whitespace,
and, when a colon follows, the colon, whitespace and the next round.  Every
round but the last consumes a colon, so there are at most as many rounds as
characters left, plus one. -/
def nameLoop : Nat → List Char → Parser → String × Parser
  | 0, read, parser => (String.mk read, parser)
  | count + 1, read, parser =>
    let word := wordLoop parser.input.length parser
    let afterWord := parser_skipWhitespace word.2
    if afterWord.next = some (Char.ofNat 58) then
      nameLoop count (read ++ word.1 ++ [Char.ofNat 58])
        (parser_skipWhitespace (parser_advance afterWord))
    else (String.mk (read ++ word.1), afterWord)

/-- The C `parser_parseName`: words joined by colons. -/
def parser_parseName (parser : Parser) : String × Parser :=
  nameLoop (parser.input.length + 1) [] parser

/-- The loop of `parser_parseFileName`: it stops at `<` or `>` only, so at the
end of the file it never stops. -/
def fileNameLoop : Nat → Parser → Outcome (List Char × Parser)
  | 0, _ => .timeout
  | count + 1, parser =>
    match parser.next with
    | none => .timeout
    | some c =>
      if c = Char.ofNat 60 || c = Char.ofNat 62 then .ok ([], parser)
      else (fileNameLoop count (parser_advance parser)).bind fun result =>
        .ok (c :: result.1, result.2)

/-- The C `parser_parseFileName`. -/
def parser_parseFileName (parser : Parser) : Outcome (String × Parser) :=
  (fileNameLoop (parser.input.length + 1) parser).bind fun result =>
    .ok (String.mk result.1, result.2)

/-! ## Elaborator -/

/-- The type `Type`: constructor 0 of matrix 0, built on the stack by
`parser_parseType` and `type_print`. -/
def universeType : Expression := .construction 0 []

/-- The name searches of the parser,
`for (index = 0; index < count; index++) if (string_equals(name, names[index])) break`:
the least index holding the name, if any. -/
def findName (name : String) : List String → Option Nat
  | [] => none
  | candidate :: rest =>
    if candidate = name then some 0 else (findName name rest).map (· + 1)

/-- The argument loops of `parser_parseExpression` and of the print statement:
for each declared parameter type, substitute the array into it, elaborate the
next input against the substituted type, and store the slot.  The result is the
list of elaborated arguments and the parser after them. -/
def parseArguments (subst : Expression → Slots → Outcome Expression)
    (parse : Expression → Parser → Outcome (Expression × Parser)) :
    List Expression → Nat → Slots → Parser → Outcome (List Expression × Parser)
  | [], _, _, parser => .ok ([], parser)
  | parameterType :: parameterTypes, position, slots, parser =>
    (subst parameterType slots).bind fun type =>
    (parse type parser).bind fun value =>
    (parseArguments subst parse parameterTypes (position + 1)
      (slots.set position (some ⟨type, value.1⟩)) value.2).bind fun result =>
    .ok (value.1 :: result.1, result.2)

/-- The end of an evaluation form in `parser_parseExpression` (from the test of
the closing bracket on): `]` closes an annotated form and `)` a parameter form;
then the caller's type must be equal to the expected type, and the caller's
value is returned. -/
def closeEvaluation ( isAnnotation : Bool) (type : Expression) (caller : Substitution)
    (parser : Parser) : Outcome (Expression × Parser) :=
  if parser.next = some (Char.ofNat (if isAnnotation then 93 else 41)) then
    match expression_equals caller.type type with
    | some true => .ok (caller.value, parser_skipWhitespace (parser_advance parser))
    | _ => .fail
  else .fail

mutual
/-- The C `parser_parseExpression`: the elaborated expression and the parser
after it.  The help form `?` writes to standard output and fails; the text is
not modelled.  The call of `parser_parseType` is a call of this function with
the type `Type`. -/
def parser_parseExpression :
    Nat → Module → List Parameter → Expression → Parser → Outcome (Expression × Parser)
  | 0, _, _, _, _ => .timeout
  | fuel + 1, module, pParameters, type, parser =>
    match parser.next with
    | none => .fail
    | some c =>
      if isWordCharacter c || c = Char.ofNat 63 then
        match type with
        | .construction typeIndex typeArguments =>
          (Outcome.ofOption
            ((module.matrices.get? 0).bind fun m => m.constructors.get? typeIndex)).bind
            fun typeConstructor =>
          (Outcome.ofOption (module.matrices.get? typeIndex)).bind fun matrix =>
          if c = Char.ofNat 63 then .fail
          else
            let name := parser_parseName parser
            (Outcome.ofOption
              (findName name.1 (matrix.constructors.map fun k => k.name))).bind fun index =>
            (Outcome.ofOption (matrix.constructors.get? index)).bind fun constructor =>
            (fillSlots (expression_substitute fuel module) typeConstructor.parameterTypes
              typeArguments 0
              (List.replicate
                (typeConstructor.parameterTypes.length + constructor.parameterTypes.length)
                none)).bind fun pSubstitutions =>
            (parseArguments (expression_substitute fuel module)
              (parser_parseExpression fuel module pParameters) constructor.parameterTypes
              typeConstructor.parameterTypes.length pSubstitutions name.2).bind fun result =>
            .ok (.construction index result.1, result.2)
        | _ => .fail
      else if c = Char.ofNat 36 then
        (parser_parseExpression fuel module pParameters universeType
          (parser_skipWhitespace (parser_advance parser))).bind fun callerType =>
        if callerType.2.next = some (Char.ofNat 91) then
          (parser_parseExpression fuel module pParameters callerType.1
            (parser_skipWhitespace (parser_advance callerType.2))).bind fun callerValue =>
          (parser_parseDestructions fuel module pParameters ⟨callerType.1, callerValue.1⟩
            callerValue.2).bind fun final =>
          closeEvaluation true type final.1 final.2
        else .fail
      else if c = Char.ofNat 40 then
        let afterParenthesis := parser_skipWhitespace (parser_advance parser)
        if afterParenthesis.next = some (Char.ofNat 63) then .fail
        else
          let name := parser_parseWord afterParenthesis
          (Outcome.ofOption (findName name.1 (pParameters.map fun q => q.name))).bind
            fun index =>
          (Outcome.ofOption (pParameters.get? index)).bind fun parameter =>
          (Outcome.ofOption (expression_duplicate parameter.type)).bind fun callerType =>
          (parser_parseDestructions fuel module pParameters
            ⟨callerType, .evaluation (.reference index)⟩ name.2).bind fun final =>
          closeEvaluation false type final.1 final.2
      else .fail
/-- The loop `while (pParser->next == '.')` of `parser_parseExpression`, which
the print statement repeats: each round resolves a destructor of the caller's
family, elaborates its arguments and replaces the caller by the result of
`substitution_destruct`.  The result is the final caller and the parser at the
character that ended the loop. -/
def parser_parseDestructions :
    Nat → Module → List Parameter → Substitution → Parser → Outcome (Substitution × Parser)
  | 0, _, _, _, _ => .timeout
  | fuel + 1, module, pParameters, caller, parser =>
    if parser.next = some (Char.ofNat 46) then
      let afterPeriod := parser_skipWhitespace (parser_advance parser)
      match caller.type with
      | .construction typeIndex typeArguments =>
        (Outcome.ofOption
          ((module.matrices.get? 0).bind fun m => m.constructors.get? typeIndex)).bind
          fun typeConstructor =>
        (Outcome.ofOption (module.matrices.get? typeIndex)).bind fun matrix =>
        if afterPeriod.next = some (Char.ofNat 63) then .fail
        else
          let name := parser_parseName afterPeriod
          (Outcome.ofOption
            (findName name.1 (matrix.destructors.map fun d => d.name))).bind fun index =>
          (Outcome.ofOption (matrix.destructors.get? index)).bind fun destructor =>
          (fillSlots (expression_substitute fuel module) typeConstructor.parameterTypes
            typeArguments 0
            (List.replicate
              (typeConstructor.parameterTypes.length + 1 + destructor.parameterTypes.length)
              none)).bind fun pTypeSubstitutions =>
          (parseArguments (expression_substitute fuel module)
            (parser_parseExpression fuel module pParameters) destructor.parameterTypes
            (typeConstructor.parameterTypes.length + 1)
            (pTypeSubstitutions.set typeConstructor.parameterTypes.length (some caller))
            name.2).bind fun result =>
          (substitution_destruct fuel module caller index result.1).bind fun newCaller =>
          parser_parseDestructions fuel module pParameters newCaller result.2
      | _ => .fail
    else .ok (caller, parser)
end

/-- The C `parser_parseType`: elaboration against the type `Type`. -/
def parser_parseType (fuel : Nat) (module : Module) (pParameters : List Parameter)
    (parser : Parser) : Outcome (Expression × Parser) :=
  parser_parseExpression fuel module pParameters universeType parser

/-- The part of `parser_parseExpression` that reads an evaluation form up to its
closing bracket: the initial caller, annotated (`$ TYPE [ VALUE`) or a parameter
(`( NAME`), then the destructor applications.  The result is the final caller,
whether the form is annotated, and the parser at the closing bracket. -/
def parser_parseEvaluation (fuel : Nat) (module : Module) (pParameters : List Parameter)
    (parser : Parser) : Outcome (Substitution × Bool × Parser) :=
  if parser.next = some (Char.ofNat 36) then
    (parser_parseExpression fuel module pParameters universeType
      (parser_skipWhitespace (parser_advance parser))).bind fun callerType =>
    if callerType.2.next = some (Char.ofNat 91) then
      (parser_parseExpression fuel module pParameters callerType.1
        (parser_skipWhitespace (parser_advance callerType.2))).bind fun callerValue =>
      (parser_parseDestructions fuel module pParameters ⟨callerType.1, callerValue.1⟩
        callerValue.2).bind fun final =>
      .ok (final.1, true, final.2)
    else .fail
  else if parser.next = some (Char.ofNat 40) then
    let afterParenthesis := parser_skipWhitespace (parser_advance parser)
    if afterParenthesis.next = some (Char.ofNat 63) then .fail
    else
      let name := parser_parseWord afterParenthesis
      (Outcome.ofOption (findName name.1 (pParameters.map fun q => q.name))).bind fun index =>
      (Outcome.ofOption (pParameters.get? index)).bind fun parameter =>
      (Outcome.ofOption (expression_duplicate parameter.type)).bind fun callerType =>
      (parser_parseDestructions fuel module pParameters
        ⟨callerType, .evaluation (.reference index)⟩ name.2).bind fun final =>
      .ok (final.1, false, final.2)
  else .fail

/-! ## Module store operations -/

/-- The element at index `n` of the list replaced by its image under `f`; a
list without such an element is unchanged. -/
def modifyAt {α : Type} (f : α → α) : Nat → List α → List α
  | _, [] => []
  | 0, a :: rest => f a :: rest
  | n + 1, a :: rest => a :: modifyAt f n rest

/-- The C `realloc` of a rule table to `count` entries: the old entries that fit
are kept; an entry beyond the old table, which `realloc` leaves indeterminate,
is shown as Unspecified. -/
def reallocRules (rules : List Expression) (count : Nat) : List Expression :=
  rules.take count ++ List.replicate (count - rules.length) Expression.unspecified

/-- The matrix with one more constructor: the tail of the constructor branch of
`parser_parseStatement` (interpreter.c:2087-2107).  The constructor is stored
at index `constructorCount`, and every destructor's rule table is reallocated
to `constructorCount + 1` entries, the entry `constructorCount` being set to
Unspecified. -/
def Matrix.addConstructor (matrix : Matrix) (constructor : Constructor) : Matrix :=
  { constructors := matrix.constructors ++ [constructor],
    destructors := matrix.destructors.map fun destructor =>
      { destructor with
        rules := (reallocRules destructor.rules (matrix.constructors.length + 1)).set
          matrix.constructors.length Expression.unspecified } }

/-- The module after a constructor declaration on family `typeIndex`
(interpreter.c:2087-2120): the family's matrix gets the constructor, and when
the family is `Type` (index 0) a matrix with no constructor and no destructor
is appended. -/
def Module.addConstructor (module : Module) (typeIndex : Nat) (constructor : Constructor) :
    Module :=
  { matrices :=
      modifyAt (fun matrix => matrix.addConstructor constructor) typeIndex module.matrices ++
        (if typeIndex = 0 then [{ constructors := [], destructors := [] }] else []) }

/-- The matrix with one more destructor, whose rule table has one Unspecified
entry per constructor of the matrix (interpreter.c:2326-2346). -/
def Matrix.addDestructor (matrix : Matrix) (depth : Nat) (name : String)
    (parameterTypes : List Expression) (returnType : Expression) : Matrix :=
  { matrix with
    destructors := matrix.destructors ++
      [{ depth := depth, name := name, parameterTypes := parameterTypes,
         returnType := returnType,
         rules := List.replicate matrix.constructors.length Expression.unspecified }] }

/-- The module after a destructor declaration on family `typeIndex`. -/
def Module.addDestructor (module : Module) (typeIndex : Nat) (depth : Nat) (name : String)
    (parameterTypes : List Expression) (returnType : Expression) : Module :=
  { matrices :=
      modifyAt (fun matrix => matrix.addDestructor depth name parameterTypes returnType)
        typeIndex module.matrices }

/-- The module after a rule statement (interpreter.c:2808):
`pMatrix->pDestructors[destructorIndex].pRules[constructorIndex] = rule`. -/
def Module.setRule (module : Module) (typeIndex destructorIndex constructorIndex : Nat)
    (rule : Expression) : Module :=
  { matrices :=
      modifyAt (fun matrix =>
        { matrix with
          destructors := modifyAt (fun destructor =>
            { destructor with rules := destructor.rules.set constructorIndex rule })
            destructorIndex matrix.destructors })
        typeIndex module.matrices }

/-- The depth after `depth--` on a `size_t` of 64 bits. -/
def decrementDepth (depth : Nat) : Nat :=
  (depth + 18446744073709551615) % 18446744073709551616

/-- What `module_endNamespace` does to one matrix, given the depth of the
family's own entry in matrix 0: an entity declared at `depth` in a family of
smaller depth gets the prefix `pNamespace:`, and every entity declared at
`depth` gets its depth decremented. -/
def Matrix.endNamespace (matrix : Matrix) (familyDepth depth : Nat) (pNamespace : String) :
    Matrix :=
  { constructors := matrix.constructors.map fun constructor =>
      { constructor with
        name :=
          if constructor.depth = depth ∧ familyDepth < depth then
            pNamespace ++ ":" ++ constructor.name
          else constructor.name,
        depth :=
          if constructor.depth = depth then decrementDepth constructor.depth
          else constructor.depth },
    destructors := matrix.destructors.map fun destructor =>
      { destructor with
        name :=
          if destructor.depth = depth ∧ familyDepth < depth then
            pNamespace ++ ":" ++ destructor.name
          else destructor.name,
        depth :=
          if destructor.depth = depth then decrementDepth destructor.depth
          else destructor.depth } }

/-- The matrices of `module_endNamespace`, each with the family entry of the
same index in matrix 0. -/
def endNamespaceMatrices (depth : Nat) (pNamespace : String) :
    List Matrix → List Constructor → Option (List Matrix)
  | [], _ => some []
  | _ :: _, [] => none
  | matrix :: matrices, family :: families =>
    match endNamespaceMatrices depth pNamespace matrices families with
    | none => none
    | some rest => some (matrix.endNamespace family.depth depth pNamespace :: rest)

/-- The C `module_endNamespace`.  The first pass renames, reading but not
changing depths; the second pass decrements depths.  For each matrix the
function reads the entry of the same index in matrix 0; the model fails when
matrix 0 has no such entry. -/
def module_endNamespace (module : Module) (depth : Nat) (pNamespace : String) :
    Option Module :=
  match module.matrices with
  | [] => some module
  | typeMatrix :: _ =>
    match endNamespaceMatrices depth pNamespace module.matrices typeMatrix.constructors with
    | none => none
    | some matrices => some { matrices := matrices }

/-! ## Statements -/

/-- The file system as `parseFile` sees it, by the name `getcwd` returns for the
working directory: whether a name denotes a directory (`stat`), the working
directory after `chdir` to a name, and the characters `fgetc` delivers from a
file opened by name.  `getcwd` is assumed to succeed, and `chdir` to the name it
returned to lead back to the directory it named. -/
structure FileSystem where
  isDirectory : String → String → Bool
  changeDirectory : String → String → Option String
  contents : String → String → Option (List Char)

/-- The outcome of a statement or of a file: on success a value, the module and
the text written to standard output; on failure the module as the failing call
left it.  The text written before a failure and the diagnostics on standard
error are not modelled. -/
inductive Run (α : Type) where
  | ok (value : α) (module : Module) (output : String) : Run α
  | fail (module : Module) : Run α
  | timeout : Run α

/-- The first loop of a declaration (interpreter.c:1974-1998): one
parenthesised name per family parameter. -/
def parseTypeParameters : List Expression → Parser → Option (List Parameter × Parser)
  | [], parser => some ([], parser)
  | parameterType :: parameterTypes, parser =>
    if parser.next = some (Char.ofNat 40) then
      let name := parser_parseWord (parser_skipWhitespace (parser_advance parser))
      if name.2.next = some (Char.ofNat 41) then
        match parseTypeParameters parameterTypes
            (parser_skipWhitespace (parser_advance name.2)) with
        | none => none
        | some result => some (⟨name.1, parameterType⟩ :: result.1, result.2)
      else none
    else none

/-- The parameter loops of the constructor and destructor declarations
(interpreter.c:2015-2073 and 2157-2262), up to the character `stop` (`;` for a
constructor, `~` for a destructor): a type elaborated under the parameters in
scope, then `[ name ]` with a name no parameter in scope has.  `scope` holds the
parameters that precede the declared ones. -/
def parseDeclaredParameters (stop : Char) :
    Nat → Module → List Parameter → List Parameter → Parser →
      Outcome (List Parameter × Parser)
  | 0, _, _, _, _ => .timeout
  | fuel + 1, module, scope, pParameters, parser =>
    if parser.next = some stop then .ok (pParameters, parser)
    else
      (parser_parseType fuel module (scope ++ pParameters) parser).bind fun type =>
      if type.2.next = some (Char.ofNat 91) then
        let name := parser_parseWord (parser_skipWhitespace (parser_advance type.2))
        if (scope ++ pParameters).any fun q => q.name = name.1 then .fail
        else if name.2.next = some (Char.ofNat 93) then
          parseDeclaredParameters stop fuel module scope (pParameters ++ [⟨name.1, type.1⟩])
            (parser_skipWhitespace (parser_advance name.2))
        else .fail
      else .fail

/-- The constructor branch of a declaration (interpreter.c:2000-2141), entered
at the character `|`: the module with the new constructor, and the parser
after the parameters. -/
def parseConstructorDeclaration (fuel : Nat) (module : Module) (typeIndex : Nat)
    (pTypeParameters : List Parameter) (depth : Nat) (parser : Parser) :
    Outcome (Module × Parser) :=
  (Outcome.ofOption (module.matrices.get? typeIndex)).bind fun matrix =>
  let name := parser_parseWord (parser_skipWhitespace (parser_advance parser))
  if matrix.constructors.any fun k => k.name = name.1 then .fail
  else
    (parseDeclaredParameters (Char.ofNat 59) fuel module pTypeParameters [] name.2).bind
      fun result =>
    .ok (module.addConstructor typeIndex
      { depth := depth, name := name.1, parameterTypes := result.1.map fun q => q.type },
      result.2)

/-- The arguments `Reference(start), ..., Reference(start + count - 1)`. -/
def referenceArguments (start count : Nat) : List Expression :=
  (List.range count).map fun i => Expression.evaluation (.reference (start + i))

/-- The parameter that stands for the destructed value in a destructor
declaration: it has the empty name and the type of the family applied to its
own parameters. -/
def selfParameter (typeIndex typeParameterCount : Nat) : Parameter :=
  { name := "", type := .construction typeIndex (referenceArguments 0 typeParameterCount) }

/-- The destructor branch of a declaration (interpreter.c:2142-2381), entered
at the character `.`.  The duplicate test reads the destructors of matrix 0
(the C variable `typeMatrix`). -/
def parseDestructorDeclaration (fuel : Nat) (module : Module) (typeIndex : Nat)
    (pTypeParameters : List Parameter) (depth : Nat) (parser : Parser) :
    Outcome (Module × Parser) :=
  (Outcome.ofOption (module.matrices.get? 0)).bind fun typeMatrix =>
  (Outcome.ofOption (module.matrices.get? typeIndex)).bind fun _ =>
  let name := parser_parseName (parser_skipWhitespace (parser_advance parser))
  if typeMatrix.destructors.any fun d => d.name = name.1 then .fail
  else
    (parseDeclaredParameters (Char.ofNat 126) fuel module
      (pTypeParameters ++ [selfParameter typeIndex pTypeParameters.length]) [] name.2).bind
      fun result =>
    (parser_parseType fuel module
      (pTypeParameters ++ [selfParameter typeIndex pTypeParameters.length] ++ result.1)
      (parser_skipWhitespace (parser_advance result.2))).bind fun returnType =>
    .ok (module.addDestructor typeIndex depth name.1 (result.1.map fun q => q.type)
      returnType.1, returnType.2)

/-- The constructor parameter names of a rule statement
(interpreter.c:2402-2429): one parenthesised name per constructor parameter,
with the declared type. -/
def parseRuleConstructorParameters : List Expression → Parser →
    Option (List Parameter × Parser) :=
  parseTypeParameters

/-- The array of substitutions a rule statement builds (interpreter.c:2479-2607
and 2667-2795): the family parameters as References to themselves, the
destructed value as the constructor applied to References to its parameters,
and the destructor parameters read so far as References to themselves. -/
def ruleSlots (pTypeParameters : List Parameter) (typeIndex constructorIndex : Nat)
    (constructorParameterCount : Nat) (destructorParameters : List Parameter) : Slots :=
  ((List.range pTypeParameters.length).zip pTypeParameters).map (fun q =>
      some ⟨q.2.type, .evaluation (.reference q.1)⟩) ++
    [some ⟨.construction typeIndex (referenceArguments 0 pTypeParameters.length),
      .construction constructorIndex
        (referenceArguments pTypeParameters.length constructorParameterCount)⟩] ++
    ((List.range destructorParameters.length).zip destructorParameters).map (fun q =>
      some ⟨q.2.type,
        .evaluation (.reference (pTypeParameters.length + constructorParameterCount + q.1))⟩)

/-- The destructor parameter loop of a rule statement (interpreter.c:2462-2655):
a parenthesised name per destructor parameter, typed by the declared parameter
type substituted with `ruleSlots`. -/
def parseRuleDestructorParameters (subst : Expression → Slots → Outcome Expression)
    (pTypeParameters : List Parameter) (typeIndex constructorIndex : Nat)
    (constructorParameterCount : Nat) :
    List Expression → List Parameter → Parser → Outcome (List Parameter × Parser)
  | [], destructorParameters, parser => .ok (destructorParameters, parser)
  | parameterType :: parameterTypes, destructorParameters, parser =>
    if parser.next = some (Char.ofNat 40) then
      let name := parser_parseWord (parser_skipWhitespace (parser_advance parser))
      if name.2.next = some (Char.ofNat 41) then
        (subst parameterType (ruleSlots pTypeParameters typeIndex constructorIndex
          constructorParameterCount destructorParameters)).bind fun type =>
        parseRuleDestructorParameters subst pTypeParameters typeIndex constructorIndex
          constructorParameterCount parameterTypes (destructorParameters ++ [⟨name.1, type⟩])
          (parser_skipWhitespace (parser_advance name.2))
      else .fail
    else .fail

/-- The rule branch of a declaration (interpreter.c:2382-2872), entered at the
character `[`. -/
def parseRule (fuel : Nat) (module : Module) (typeIndex : Nat)
    (pTypeParameters : List Parameter) (parser : Parser) : Outcome (Module × Parser) :=
  (Outcome.ofOption (module.matrices.get? typeIndex)).bind fun matrix =>
  let constructorName := parser_parseName (parser_skipWhitespace (parser_advance parser))
  (Outcome.ofOption
    (findName constructorName.1 (matrix.constructors.map fun k => k.name))).bind
    fun constructorIndex =>
  (Outcome.ofOption (matrix.constructors.get? constructorIndex)).bind fun constructor =>
  (Outcome.ofOption
    (parseRuleConstructorParameters constructor.parameterTypes constructorName.2)).bind
    fun constructorParameters =>
  if constructorParameters.2.next = some (Char.ofNat 46) then
    let destructorName :=
      parser_parseName (parser_skipWhitespace (parser_advance constructorParameters.2))
    (Outcome.ofOption
      (findName destructorName.1 (matrix.destructors.map fun d => d.name))).bind
      fun destructorIndex =>
    (Outcome.ofOption (matrix.destructors.get? destructorIndex)).bind fun destructor =>
    match destructor.rules.get? constructorIndex with
    | some .unspecified =>
      (parseRuleDestructorParameters (expression_substitute fuel module) pTypeParameters
        typeIndex constructorIndex constructorParameters.1.length destructor.parameterTypes
        [] destructorName.2).bind fun destructorParameters =>
      if destructorParameters.2.next = some (Char.ofNat 93) then
        let afterBracket := parser_skipWhitespace (parser_advance destructorParameters.2)
        if afterBracket.next = some (Char.ofNat 126) then
          (expression_substitute fuel module destructor.returnType
            (ruleSlots pTypeParameters typeIndex constructorIndex
              constructorParameters.1.length destructorParameters.1)).bind fun type =>
          (parser_parseExpression fuel module
            (pTypeParameters ++ constructorParameters.1 ++ destructorParameters.1) type
            (parser_skipWhitespace (parser_advance afterBracket))).bind fun rule =>
          .ok (module.setRule typeIndex destructorIndex constructorIndex rule.1, rule.2)
        else .fail
      else .fail
    | _ => .fail
  else .fail

/-- The declaration branch of `parser_parseStatement` (interpreter.c:1937-2896):
the family name, the names of its parameters, one of the three declarations,
then `;`.  The declaration has changed the module before the `;` is tested. -/
def parseDeclaration (fuel : Nat) (module : Module) (depth : Nat) (parser : Parser) :
    Run Parser :=
  let typeName := parser_parseName parser
  match module.matrices.get? 0 with
  | none => .fail module
  | some typeMatrix =>
    match findName typeName.1 (typeMatrix.constructors.map fun k => k.name) with
    | none => .fail module
    | some typeIndex =>
      match typeMatrix.constructors.get? typeIndex with
      | none => .fail module
      | some typeConstructor =>
        match parseTypeParameters typeConstructor.parameterTypes typeName.2 with
        | none => .fail module
        | some typeParameters =>
          let declared :=
            if typeParameters.2.next = some (Char.ofNat 124) then
              parseConstructorDeclaration fuel module typeIndex typeParameters.1 depth
                typeParameters.2
            else if typeParameters.2.next = some (Char.ofNat 46) then
              parseDestructorDeclaration fuel module typeIndex typeParameters.1 depth
                typeParameters.2
            else if typeParameters.2.next = some (Char.ofNat 91) then
              parseRule fuel module typeIndex typeParameters.1 typeParameters.2
            else .fail
          match declared with
          | .ok result =>
            if result.2.next = some (Char.ofNat 59) then
              .ok (parser_skipWhitespace (parser_advance result.2)) result.1 ""
            else .fail result.1
          | .fail => .fail module
          | .timeout => .timeout

/-- The print branch of `parser_parseStatement` (interpreter.c:1746-1936):
`$ TYPE [ VALUE ( . DESTRUCTOR ARGUMENTS )* ] ;`, then the value printed and a
line feed. -/
def parsePrint (fuel : Nat) (module : Module) (parser : Parser) : Run Parser :=
  let printed : Outcome (Parser × String) :=
    (parser_parseType fuel module [] (parser_skipWhitespace (parser_advance parser))).bind
      fun type =>
    if type.2.next = some (Char.ofNat 91) then
      (parser_parseExpression fuel module [] type.1
        (parser_skipWhitespace (parser_advance type.2))).bind fun value =>
      (parser_parseDestructions fuel module [] ⟨type.1, value.1⟩ value.2).bind fun final =>
      if final.2.next = some (Char.ofNat 93) then
        let afterBracket := parser_skipWhitespace (parser_advance final.2)
        if afterBracket.next = some (Char.ofNat 59) then
          (expression_print fuel module [] final.1.value final.1.type).bind fun text =>
          .ok (parser_skipWhitespace (parser_advance afterBracket),
            text ++ String.singleton (Char.ofNat 10))
        else .fail
      else .fail
    else .fail
  match printed with
  | .ok result => .ok result.1 module result.2
  | .fail => .fail module
  | .timeout => .timeout

/-- The loop of the comment branch: advance up to the end of the line or of the
file. -/
def skipLineLoop : Nat → Parser → Parser
  | 0, parser => parser
  | count + 1, parser =>
    match parser.next with
    | none => parser
    | some c => if c = Char.ofNat 10 then parser else skipLineLoop count (parser_advance parser)

mutual
/-- The C `parser_parseStatement`. -/
def parser_parseStatement :
    Nat → FileSystem → String → Parser → Module → Nat → Run Parser
  | 0, _, _, _, _, _ => .timeout
  | fuel + 1, fileSystem, directory, parser, module, depth =>
    match parser.next with
    | none => .fail module
    | some c =>
      if c = Char.ofNat 60 then
        match parser_parseFileName (parser_advance parser) with
        | .ok fileName =>
          if fileName.2.next = some (Char.ofNat 62) then
            match parseFile fuel fileSystem directory fileName.1 module depth with
            | .ok _ newModule output =>
              .ok (parser_skipWhitespace (parser_advance fileName.2)) newModule output
            | .fail newModule => .fail newModule
            | .timeout => .timeout
          else .fail module
        | .fail => .fail module
        | .timeout => .timeout
      else if c = Char.ofNat 64 then
        let name := parser_parseName (parser_skipWhitespace (parser_advance parser))
        if name.2.next = some (Char.ofNat 123) then
          match parseNamespaceStatements fuel fileSystem directory
              (parser_skipWhitespace (parser_advance name.2)) module (depth + 1) with
          | .ok inner innerModule output =>
            match module_endNamespace innerModule (depth + 1) name.1 with
            | none => .fail innerModule
            | some closedModule =>
              if inner.next = some (Char.ofNat 125) then
                .ok (parser_skipWhitespace (parser_advance inner)) closedModule output
              else .fail closedModule
          | .fail innerModule => .fail innerModule
          | .timeout => .timeout
        else .fail module
      else if c = Char.ofNat 35 then
        .ok (parser_skipWhitespace
          (skipLineLoop parser.input.length (parser_advance parser))) module ""
      else if c = Char.ofNat 36 then parsePrint fuel module parser
      else if isWordCharacter c then parseDeclaration fuel module depth parser
      else .fail module
termination_by structural fuel => fuel
/-- The loop of the namespace branch:
`while (next != EOF && next != '}') parser_parseStatement(depth + 1)`. -/
def parseNamespaceStatements :
    Nat → FileSystem → String → Parser → Module → Nat → Run Parser
  | 0, _, _, _, _, _ => .timeout
  | fuel + 1, fileSystem, directory, parser, module, depth =>
    if parser.next = none ∨ parser.next = some (Char.ofNat 125) then .ok parser module ""
    else
      match parser_parseStatement fuel fileSystem directory parser module depth with
      | .ok next newModule output =>
        match parseNamespaceStatements fuel fileSystem directory next newModule depth with
        | .ok final finalModule more => .ok final finalModule (output ++ more)
        | .fail finalModule => .fail finalModule
        | .timeout => .timeout
      | .fail newModule => .fail newModule
      | .timeout => .timeout
termination_by structural fuel => fuel
/-- The loop of `parseFile`: `while (next != EOF) parser_parseStatement(depth)`. -/
def parseFileStatements :
    Nat → FileSystem → String → Parser → Module → Nat → Run Unit
  | 0, _, _, _, _, _ => .timeout
  | fuel + 1, fileSystem, directory, parser, module, depth =>
    if parser.next = none then .ok () module ""
    else
      match parser_parseStatement fuel fileSystem directory parser module depth with
      | .ok next newModule output =>
        match parseFileStatements fuel fileSystem directory next newModule depth with
        | .ok _ finalModule more => .ok () finalModule (output ++ more)
        | .fail finalModule => .fail finalModule
        | .timeout => .timeout
      | .fail newModule => .fail newModule
      | .timeout => .timeout
termination_by structural fuel => fuel
/-- The C `parseFile`: a directory is entered, its `main.ind` parsed one level
deeper, and the working directory restored; a file is parsed statement by
statement. -/
def parseFile : Nat → FileSystem → String → String → Module → Nat → Run Unit
  | 0, _, _, _, _, _ => .timeout
  | fuel + 1, fileSystem, directory, pFileName, module, depth =>
    if fileSystem.isDirectory directory pFileName then
      match fileSystem.changeDirectory directory pFileName with
      | none => .fail module
      | some inner =>
        match parseFile fuel fileSystem inner "main.ind" module (depth + 1) with
        | .ok _ newModule output =>
          if (fileSystem.changeDirectory inner directory).isSome then
            .ok () newModule output
          else .fail newModule
        | .fail newModule => .fail newModule
        | .timeout => .timeout
    else
      match fileSystem.contents directory pFileName with
      | none => .fail module
      | some input =>
        parseFileStatements fuel fileSystem directory
          (parser_skipWhitespace (Parser.ofInput input)) module depth
termination_by structural fuel => fuel
end

/-- A file system with no file and no directory. -/
def emptyFileSystem : FileSystem :=
  { isDirectory := fun _ _ => false,
    changeDirectory := fun _ _ => none,
    contents := fun _ _ => none }

/-! ## Scenario A -/

/-- The type `Bool` of Scenario A: constructor 1 of matrix 0. -/
def boolType : Expression := .construction 1 []

/-- The module of Scenario A after its six declarations: the families `Type` and
`Bool`, the constructors `true` and `false`, and the destructor `not` with the
rules `true.not = false` and `false.not = true`. -/
def boolModule : Module :=
  { matrices := [
      { constructors := [⟨0, "Type", []⟩, ⟨0, "Bool", []⟩], destructors := [] },
      { constructors := [⟨0, "true", []⟩, ⟨0, "false", []⟩],
        destructors := [
          { depth := 0, name := "not", parameterTypes := [], returnType := boolType,
            rules := [.construction 1 [], .construction 0 []] }] }] }

/-! ## Reachable modules and the wording of the specification -/

/-- The modules reachable from `createEmptyModule` by successful calls of
`parser_parseStatement` and of `module_endNamespace`. -/
inductive Reachable : Module → Prop where
  | empty : Reachable createEmptyModule
  | statement (fuel : Nat) (fileSystem : FileSystem) (directory : String) (parser : Parser)
      (module : Module) (depth : Nat) (next : Parser) (newModule : Module) (output : String) :
      Reachable module →
      parser_parseStatement fuel fileSystem directory parser module depth
        = .ok next newModule output →
      Reachable newModule
  | endNamespace (module : Module) (depth : Nat) (pNamespace : String) (newModule : Module) :
      Reachable module →
      module_endNamespace module depth pNamespace = some newModule →
      Reachable newModule

/-- Specification, rule-table shape: every destructor of every matrix has as
many rule entries as the matrix has constructors. -/
def Module.ruleTablesShaped (module : Module) : Prop :=
  ∀ matrix ∈ module.matrices, ∀ destructor ∈ matrix.destructors,
    destructor.rules.length = matrix.constructors.length

/-- Specification, family/matrix correspondence: there are as many matrices as
matrix 0 has constructors. -/
def Module.familiesMatch (module : Module) : Prop :=
  ∃ typeMatrix, module.matrices.get? 0 = some typeMatrix ∧
    module.matrices.length = typeMatrix.constructors.length

/-- Specification, constructor application: the arguments as the specification
words them.  The `k`-th argument is the result of elaborating the next input
against the `k`-th declared parameter type substituted with the environment `env`,
which holds the family slots followed by the slots of the earlier arguments. -/
def elaboratedArguments (subst : Expression → Slots → Outcome Expression)
    (parse : Expression → Parser → Outcome (Expression × Parser)) :
    List Expression → Slots → Parser → List Expression → Parser → Prop
  | [], _, parser, args, final => args = [] ∧ final = parser
  | parameterType :: parameterTypes, env, parser, args, final =>
    ∃ type value next rest,
      subst parameterType env = .ok type ∧
      parse type parser = .ok (value, next) ∧
      args = value :: rest ∧
      elaboratedArguments subst parse parameterTypes (env ++ [some ⟨type, value⟩]) next rest final

/-! ## Validation -/

/-- What `module_validate` found: nothing (it returns `true`), or an
unimplemented case, whose family, constructor and destructor names it writes to
standard error before it returns `false`. -/
inductive Validity where
  | valid : Validity
  | unimplemented (typeName constructorName destructorName : String) : Validity

/-- The innermost loop of `module_validate`, over the constructors of a matrix,
`k` being the index of the first one of the list.  A pair of a constructor and
a destructor one of which has a depth below `depth` is skipped.
`typeConstructor` is the entry the function has read from matrix 0 for the
matrix, indeterminate (`none`) when matrix 0 has no such entry; the diagnostic
uses it.  Reading a rule entry beyond the rule table has no defined behaviour. -/
def validateRules (depth : Nat) (typeConstructor : Option Constructor)
    (destructor : Destructor) : List Constructor → Nat → Option Validity
  | [], _ => some .valid
  | constructor :: rest, k =>
    if constructor.depth < depth then
      validateRules depth typeConstructor destructor rest (k + 1)
    else if destructor.depth < depth then
      validateRules depth typeConstructor destructor rest (k + 1)
    else
      match destructor.rules.get? k with
      | none => none
      | some .unspecified =>
        typeConstructor.map fun family =>
          .unimplemented family.name constructor.name destructor.name
      | some _ => validateRules depth typeConstructor destructor rest (k + 1)

/-- The loop of `module_validate` over the destructors of a matrix. -/
def validateDestructors (depth : Nat) (typeConstructor : Option Constructor)
    (constructors : List Constructor) : List Destructor → Option Validity
  | [] => some .valid
  | destructor :: rest =>
    match validateRules depth typeConstructor destructor constructors 0 with
    | some .valid => validateDestructors depth typeConstructor constructors rest
    | result => result

/-- The loop of `module_validate` over the matrices, `i` being the index of the
first one of the list. -/
def validateMatrices (depth : Nat) (typeMatrix : Option Matrix) :
    List Matrix → Nat → Option Validity
  | [], _ => some .valid
  | matrix :: rest, i =>
    match validateDestructors depth (typeMatrix.bind fun m => m.constructors.get? i)
        matrix.constructors matrix.destructors with
    | some .valid => validateMatrices depth typeMatrix rest (i + 1)
    | result => result

/-- The C `module_validate`. -/
def module_validate (module : Module) (depth : Nat) : Option Validity :=
  validateMatrices depth (module.matrices.get? 0) module.matrices 0

/-- Specification, name uniqueness, for constructors: no two constructors of a
matrix have the same name. -/
def Module.constructorNamesUnique (module : Module) : Prop :=
  ∀ matrix ∈ module.matrices, (matrix.constructors.map fun k => k.name).Nodup

/-- The module of Scenario C: Scenario A without the rule for `false`. -/
def boolModuleStuck : Module :=
  { matrices := [
      { constructors := [⟨0, "Type", []⟩, ⟨0, "Bool", []⟩], destructors := [] },
      { constructors := [⟨0, "true", []⟩, ⟨0, "false", []⟩],
        destructors := [
          { depth := 0, name := "not", parameterTypes := [], returnType := boolType,
            rules := [.construction 1 [], .unspecified] }] }] }

/-- The type `Eq a b` of the module `sameModule`: constructor 2 of matrix 0. -/
def eqType (a b : Expression) : Expression := .construction 2 [a, b]

/-- A module whose destructor mentions the destructed value in its return type:
the families `Type`, `Nat` and `Eq Nat [a] Nat [b]`, the constructor `zero` of
`Nat`, and the destructor `same Nat [m] ~ Eq () (m)` of `Nat`, whose return type
refers to the destructed value (slot 0) and to its argument (slot 1). -/
def sameModule : Module :=
  { matrices := [
      { constructors := [⟨0, "Type", []⟩, ⟨0, "Nat", []⟩, ⟨0, "Eq", [natType, natType]⟩],
        destructors := [] },
      { constructors := [⟨0, "zero", []⟩],
        destructors := [
          { depth := 0, name := "same", parameterTypes := [natType],
            returnType := eqType (.evaluation (.reference 0)) (.evaluation (.reference 1)),
            rules := [.unspecified] }] },
      { constructors := [], destructors := [] }] }

/-- Specification, declarations only append, for one matrix: every constructor
of `old` is the constructor of the same index of `new`, and every destructor of
`old` is at the same index of `new` with the same name, depth, parameter types
and return type, and with the same expression in every rule entry, for a
constructor of `old`, that was specified. -/
def Matrix.extendedBy (old new : Matrix) : Prop :=
  (∀ k constructor, old.constructors.get? k = some constructor →
    new.constructors.get? k = some constructor) ∧
  (∀ j destructor, old.destructors.get? j = some destructor →
    ∃ newDestructor, new.destructors.get? j = some newDestructor ∧
      newDestructor.name = destructor.name ∧ newDestructor.depth = destructor.depth ∧
      newDestructor.parameterTypes = destructor.parameterTypes ∧
      newDestructor.returnType = destructor.returnType ∧
      ∀ k rule, k < old.constructors.length → destructor.rules.get? k = some rule →
        rule ≠ .unspecified → newDestructor.rules.get? k = some rule)

/-- Specification, declarations only append: every matrix of `old` is extended
by the matrix of the same index of `new`. -/
def Module.extendedBy (old new : Module) : Prop :=
  ∀ i matrix, old.matrices.get? i = some matrix →
    ∃ newMatrix, new.matrices.get? i = some newMatrix ∧ matrix.extendedBy newMatrix

/-- The destructor `loop Nat [m] ~ Nat` whose rule for `zero` is the stuck term
`(m . loop (m))`: in the rule environment `[m]` the destruction of slot 0 by
`loop` with argument slot 0. -/
def loopDestructor : Destructor :=
  { depth := 0, name := "loop", parameterTypes := [natType], returnType := natType,
    rules := [
      .evaluation (.destruction (.reference 0) 0 [.evaluation (.reference 0)])] }

/-- A module whose reduction does not end: the family `Nat` with the
constructor `zero` and the destructor `loop`. -/
def loopModule : Module :=
  { matrices := [
      typeMatrixWithNat,
      { constructors := [⟨0, "zero", []⟩], destructors := [loopDestructor] }] }

/-! ## Destruction nodes -/

/-- A Destruction node of an expression: the caller, the destructor index and
the arguments, as written in the expression. -/
structure DestructionNode where
  caller : Evaluation
  index : Nat
  args : List Expression

mutual
/-- The Destruction nodes of the expression, at any depth. -/
def Expression.destructions : Expression → List DestructionNode
  | .unspecified => []
  | .construction _ args => destructionsList args
  | .evaluation e => e.destructions
/-- The Destruction nodes of the evaluation, at any depth, itself included. -/
def Evaluation.destructions : Evaluation → List DestructionNode
  | .reference _ => []
  | .destruction caller index args =>
    ⟨caller, index, args⟩ :: (caller.destructions ++ destructionsList args)
/-- The Destruction nodes of the expressions of the list. -/
def destructionsList : List Expression → List DestructionNode
  | [] => []
  | a :: rest => a.destructions ++ destructionsList rest
end

/-! ## Well-formed values and readable names, as the specification words them -/

mutual
theorem expression_duplicate_eq :
    ∀ (e r : Expression), expression_duplicate e = some r → r = e
  | .unspecified, r, h => by simp [expression_duplicate] at h
  | .construction index args, r, h => by
    simp only [expression_duplicate] at h
    split at h
    · exact absurd h (by simp)
    · rename_i copies hc
      have := expressions_duplicate_eq args copies hc
      simp only [Option.some.injEq] at h
      rw [← h, this]
  | .evaluation e, r, h => by
    simp only [expression_duplicate] at h
    split at h
    · exact absurd h (by simp)
    · rename_i copy hc
      have := evaluation_duplicate_eq e copy hc
      simp only [Option.some.injEq] at h
      rw [← h, this]
theorem evaluation_duplicate_eq :
    ∀ (e r : Evaluation), evaluation_duplicate e = some r → r = e
  | .reference index, r, h => by
    simp only [evaluation_duplicate, Option.some.injEq] at h
    exact h.symm
  | .destruction caller index args, r, h => by
    simp only [evaluation_duplicate] at h
    split at h
    · exact absurd h (by simp)
    · rename_i callerCopy hc
      split at h
      · exact absurd h (by simp)
      · rename_i copies ha
        have h1 := evaluation_duplicate_eq caller callerCopy hc
        have h2 := expressions_duplicate_eq args copies ha
        simp only [Option.some.injEq] at h
        rw [← h, h1, h2]
theorem expressions_duplicate_eq :
    ∀ (es rs : List Expression), expressions_duplicate es = some rs → rs = es
  | [], rs, h => by
    simp only [expressions_duplicate, Option.some.injEq] at h
    exact h.symm
  | a :: rest, rs, h => by
    simp only [expressions_duplicate] at h
    split at h
    · exact absurd h (by simp)
    · rename_i copy hc
      split at h
      · exact absurd h (by simp)
      · rename_i copies ha
        have h1 := expression_duplicate_eq a copy hc
        have h2 := expressions_duplicate_eq rest copies ha
        simp only [Option.some.injEq] at h
        rw [← h, h1, h2]
end

namespace Outcome

theorem bind_eq_ok {α β : Type} {x : Outcome α} {f : α → Outcome β} {b : β} :
    x.bind f = ok b ↔ ∃ a, x = ok a ∧ f a = ok b := by
  cases x <;> simp [bind]

theorem bind_eq_fail {α β : Type} {x : Outcome α} {f : α → Outcome β} :
    x.bind f = fail ↔ x = fail ∨ ∃ a, x = ok a ∧ f a = fail := by
  cases x <;> simp [bind]

theorem ofOption_eq_ok {α : Type} {x : Option α} {a : α} :
    ofOption x = ok a ↔ x = some a := by
  cases x <;> simp [ofOption]

theorem le_refl {α : Type} (x : Outcome α) : le x x := Or.inr rfl

theorem le_bind {α β : Type} {x y : Outcome α} {f g : α → Outcome β}
    (h : le x y) (hf : ∀ a, le (f a) (g a)) : le (x.bind f) (y.bind g) := by
  rcases h with h | h
  · subst h; exact Or.inl rfl
  · subst h
    cases x with
    | ok a => exact hf a
    | fail => exact Or.inr rfl
    | timeout => exact Or.inl rfl

theorem le_mapList {α β : Type} {f g : α → Outcome β} (hf : ∀ a, le (f a) (g a)) :
    ∀ xs : List α, le (mapList f xs) (mapList g xs)
  | [] => le_refl _
  | a :: rest =>
    le_bind (hf a) fun _ => le_bind (le_mapList hf rest) fun _ => le_refl _

theorem okLe_refl {α : Type} (x : Outcome α) : okLe x x := fun _ h => h

theorem okLe_of_le {α : Type} {x y : Outcome α} (h : le x y) : okLe x y := by
  intro r hr
  rcases h with h | h
  · rw [h] at hr; cases hr
  · rw [← h]; exact hr

theorem okLe_bind {α β : Type} {x y : Outcome α} {f g : α → Outcome β}
    (h : okLe x y) (hf : ∀ a, okLe (f a) (g a)) : okLe (x.bind f) (y.bind g) := by
  intro r hr
  obtain ⟨a, ha, hfa⟩ := bind_eq_ok.1 hr
  exact bind_eq_ok.2 ⟨a, h a ha, hf a r hfa⟩

theorem okLe_mapList {α β : Type} {f g : α → Outcome β} (hf : ∀ a, okLe (f a) (g a)) :
    ∀ xs : List α, okLe (mapList f xs) (mapList g xs)
  | [] => okLe_refl _
  | a :: rest =>
    okLe_bind (hf a) fun _ => okLe_bind (okLe_mapList hf rest) fun _ => okLe_refl _

end Outcome

theorem fillSlots_le {f g : Expression → Slots → Outcome Expression}
    (hf : ∀ e s, Outcome.le (f e s) (g e s)) :
    ∀ (parameterTypes values : List Expression) (position : Nat) (slots : Slots),
      Outcome.le (fillSlots f parameterTypes values position slots)
        (fillSlots g parameterTypes values position slots)
  | [], _, _, _ => Outcome.le_refl _
  | p :: ps, values, position, slots => by
    simp only [fillSlots]
    exact Outcome.le_bind (hf p slots) fun _ => fillSlots_le hf ps _ _ _

/-- More budget never changes a result already obtained (one step). -/
theorem substitute_le_succ (module : Module) :
    ∀ fuel : Nat,
      (∀ e s, Outcome.le (expression_substitute fuel module e s)
        (expression_substitute (fuel + 1) module e s)) ∧
      (∀ e s, Outcome.le (evaluation_substitute fuel module e s)
        (evaluation_substitute (fuel + 1) module e s)) ∧
      (∀ t i a, Outcome.le (substitution_destruct fuel module t i a)
        (substitution_destruct (fuel + 1) module t i a))
  | 0 => ⟨fun _ _ => Or.inl (by simp [expression_substitute]),
      fun _ _ => Or.inl (by simp [evaluation_substitute]),
      fun _ _ _ => Or.inl (by simp [substitution_destruct])⟩
  | fuel + 1 => by
    obtain ⟨ihx, ihv, ihd⟩ := substitute_le_succ module fuel
    refine ⟨?_, ?_, ?_⟩
    · intro e s
      cases e with
      | unspecified => simp only [expression_substitute]; exact Outcome.le_refl _
      | construction index args =>
        simp only [expression_substitute]
        exact Outcome.le_bind (Outcome.le_mapList (fun a => ihx a s) args)
          fun _ => Outcome.le_refl _
      | evaluation e =>
        simp only [expression_substitute]
        exact Outcome.le_bind (ihv e s) fun _ => Outcome.le_refl _
    · intro e s
      cases e with
      | reference index => simp only [evaluation_substitute]; exact Outcome.le_refl _
      | destruction caller index args =>
        simp only [evaluation_substitute]
        exact Outcome.le_bind (ihv caller s) fun _ =>
          Outcome.le_bind (Outcome.le_mapList (fun a => ihx a s) args) fun _ => ihd _ _ _
    · intro t i a
      rw [substitution_destruct, substitution_destruct]
      cases t.type with
      | unspecified => exact Outcome.le_refl _
      | evaluation e => exact Outcome.le_refl _
      | construction typeIndex typeArguments =>
        dsimp only
        refine Outcome.le_bind (Outcome.le_refl _) fun typeConstructor => ?_
        refine Outcome.le_bind (fillSlots_le ihx _ _ _ _) fun pTypeSubstitutions => ?_
        refine Outcome.le_bind (Outcome.le_refl _) fun matrix => ?_
        refine Outcome.le_bind (Outcome.le_refl _) fun destructor => ?_
        refine Outcome.le_bind (fillSlots_le ihx _ _ _ _) fun pDestructorSubstitutions => ?_
        refine Outcome.le_bind (ihx _ _) fun type => ?_
        cases t.value with
        | unspecified => exact Outcome.le_refl _
        | evaluation e => exact Outcome.le_refl _
        | construction constructorIndex constructorArguments =>
          dsimp only
          refine Outcome.le_bind (Outcome.le_refl _) fun constructor => ?_
          refine Outcome.le_bind (fillSlots_le ihx _ _ _ _) fun pRuleSubstitutions => ?_
          split
          · exact Outcome.le_refl _
          · exact Outcome.le_refl _
          · exact Outcome.le_bind (ihx _ _) fun _ => Outcome.le_refl _

theorem substitute_le_add (module : Module) (fuel : Nat) :
    ∀ extra : Nat,
      (∀ e s, Outcome.le (expression_substitute fuel module e s)
        (expression_substitute (fuel + extra) module e s)) ∧
      (∀ e s, Outcome.le (evaluation_substitute fuel module e s)
        (evaluation_substitute (fuel + extra) module e s)) ∧
      (∀ t i a, Outcome.le (substitution_destruct fuel module t i a)
        (substitution_destruct (fuel + extra) module t i a))
  | 0 => ⟨fun _ _ => Outcome.le_refl _, fun _ _ => Outcome.le_refl _,
      fun _ _ _ => Outcome.le_refl _⟩
  | extra + 1 => by
    obtain ⟨ihx, ihv, ihd⟩ := substitute_le_add module fuel extra
    obtain ⟨sx, sv, sd⟩ := substitute_le_succ module (fuel + extra)
    refine ⟨fun e s => ?_, fun e s => ?_, fun t i a => ?_⟩
    · rcases ihx e s with h | h
      · exact Or.inl h
      · rw [h]; exact sx e s
    · rcases ihv e s with h | h
      · exact Or.inl h
      · rw [h]; exact sv e s
    · rcases ihd t i a with h | h
      · exact Or.inl h
      · rw [h]; exact sd t i a

/-- A result of `expression_substitute` is kept under any larger budget. -/
theorem expression_substitute_mono {module : Module} {fuel fuel' : Nat} (h : fuel ≤ fuel')
    {e : Expression} {s : Slots} {r : Expression}
    (hr : expression_substitute fuel module e s = .ok r) :
    expression_substitute fuel' module e s = .ok r := by
  obtain ⟨extra, rfl⟩ := Nat.exists_eq_add_of_le h
  exact Outcome.okLe_of_le ((substitute_le_add module fuel extra).1 e s) r hr

/-- A result of `evaluation_substitute` is kept under any larger budget. -/
theorem evaluation_substitute_mono {module : Module} {fuel fuel' : Nat} (h : fuel ≤ fuel')
    {e : Evaluation} {s : Slots} {r : Substitution}
    (hr : evaluation_substitute fuel module e s = .ok r) :
    evaluation_substitute fuel' module e s = .ok r := by
  obtain ⟨extra, rfl⟩ := Nat.exists_eq_add_of_le h
  exact Outcome.okLe_of_le ((substitute_le_add module fuel extra).2.1 e s) r hr

/-- A result of `substitution_destruct` is kept under any larger budget. -/
theorem substitution_destruct_mono {module : Module} {fuel fuel' : Nat} (h : fuel ≤ fuel')
    {t : Substitution} {i : Nat} {a : List Expression} {r : Substitution}
    (hr : substitution_destruct fuel module t i a = .ok r) :
    substitution_destruct fuel' module t i a = .ok r := by
  obtain ⟨extra, rfl⟩ := Nat.exists_eq_add_of_le h
  exact Outcome.okLe_of_le ((substitute_le_add module fuel extra).2.2 t i a) r hr

theorem Slots.le_self (s : Slots) : Slots.le s s := fun _ _ h => h

/-- Substitution only looks cells up: what it returns in an array it returns in
any array that has the same determinate cells and possibly more. -/
theorem substitute_okLe (module : Module) {s s' : Slots} (hs : Slots.le s s') :
    ∀ fuel : Nat,
      (∀ e, Outcome.okLe (expression_substitute fuel module e s)
        (expression_substitute fuel module e s')) ∧
      (∀ e, Outcome.okLe (evaluation_substitute fuel module e s)
        (evaluation_substitute fuel module e s'))
  | 0 => ⟨fun _ r h => by simp [expression_substitute] at h,
      fun _ r h => by simp [evaluation_substitute] at h⟩
  | fuel + 1 => by
    obtain ⟨ihx, ihv⟩ := substitute_okLe module hs fuel
    refine ⟨fun e => ?_, fun e => ?_⟩
    · cases e with
      | unspecified => simp only [expression_substitute]; exact Outcome.okLe_refl _
      | construction index args =>
        simp only [expression_substitute]
        exact Outcome.okLe_bind (Outcome.okLe_mapList ihx args) fun _ => Outcome.okLe_refl _
      | evaluation e =>
        simp only [expression_substitute]
        exact Outcome.okLe_bind (ihv e) fun _ => Outcome.okLe_refl _
    · cases e with
      | reference index =>
        simp only [evaluation_substitute]
        intro r hr
        cases hx : s.read index with
        | none => rw [hx] at hr; cases hr
        | some x => rw [hx] at hr; rw [hs index x hx]; exact hr
      | destruction caller index args =>
        simp only [evaluation_substitute]
        exact Outcome.okLe_bind (ihv caller) fun _ =>
          Outcome.okLe_bind (Outcome.okLe_mapList ihx args) fun _ => Outcome.okLe_refl _

theorem expression_substitute_of_le {module : Module} {s s' : Slots} (hs : Slots.le s s')
    {fuel : Nat} {e r : Expression} (hr : expression_substitute fuel module e s = .ok r) :
    expression_substitute fuel module e s' = .ok r :=
  (substitute_okLe module hs fuel).1 e r hr

theorem duplicateArguments_eq :
    ∀ (pArguments : List Expression) (count : Nat) (copies : List Expression),
      duplicateArguments pArguments count = some copies →
      copies = pArguments.take count ∧ count ≤ pArguments.length
  | _, 0, copies, h => by
    simp only [duplicateArguments, Option.some.injEq] at h
    simp [← h]
  | [], count + 1, copies, h => by simp [duplicateArguments] at h
  | a :: rest, count + 1, copies, h => by
    simp only [duplicateArguments] at h
    split at h
    · exact absurd h (by simp)
    · rename_i copy hc
      split at h
      · exact absurd h (by simp)
      · rename_i tailCopies ht
        obtain ⟨h1, h2⟩ := duplicateArguments_eq rest count tailCopies ht
        have h3 := expression_duplicate_eq a copy hc
        simp only [Option.some.injEq] at h
        subst h
        simp [h1, h3, h2]

/-! ## Reading cells -/

theorem Slots.read_of_length_le (s : Slots) {i : Nat} (h : s.length ≤ i) : s.read i = none := by
  simp [Slots.read, List.getElem?_eq_none h]

theorem Slots.read_nil (i : Nat) : Slots.read [] i = none := by
  simp [Slots.read]

theorem Slots.read_append_left (s s' : Slots) {i : Nat} (h : i < s.length) :
    Slots.read (s ++ s') i = s.read i := by
  simp [Slots.read, List.getElem?_append_left h]

theorem Slots.read_append_right (s s' : Slots) {i : Nat} (h : s.length ≤ i) :
    Slots.read (s ++ s') i = s'.read (i - s.length) := by
  simp [Slots.read, List.getElem?_append_right h]

theorem Slots.read_replicate (n i : Nat) :
    Slots.read (List.replicate n none) i = none := by
  simp only [Slots.read, List.get?_eq_getElem?, List.getElem?_replicate]
  split <;> rfl

theorem Slots.read_singleton (c : Option Substitution) (i : Nat) :
    Slots.read [c] i = if i = 0 then c else none := by
  cases i with
  | zero => simp [Slots.read]
  | succ i => simp [Slots.read]

theorem Slots.read_set (s : Slots) (p : Nat) (c : Option Substitution) (i : Nat) :
    Slots.read (s.set p c) i = if i = p ∧ p < s.length then c else s.read i := by
  simp only [Slots.read, List.get?_eq_getElem?, List.getElem?_set]
  by_cases hip : p = i
  · subst hip
    by_cases hlt : p < s.length
    · simp [hlt]
    · simp [hlt, List.getElem?_eq_none (Nat.le_of_not_lt hlt)]
  · have : ¬ (i = p ∧ p < s.length) := fun h => hip h.1.symm
    simp [hip, this]

theorem length_copySlots (s : Slots) (start count : Nat) :
    (copySlots s start count).length = count := by
  simp [copySlots]

theorem read_copySlots (s : Slots) (start count i : Nat) :
    Slots.read (copySlots s start count) i = if i < count then s.read (start + i) else none := by
  simp only [copySlots, Slots.read, List.get?_eq_getElem?, List.getElem?_map]
  by_cases h : i < count
  · simp [h, List.getElem?_range h]
  · simp [h, List.getElem?_eq_none (show (List.range count).length ≤ i by simpa using h)]

theorem length_fillSlots {subst : Expression → Slots → Outcome Expression} :
    ∀ (parameterTypes values : List Expression) (position : Nat) (slots out : Slots),
      fillSlots subst parameterTypes values position slots = .ok out → out.length = slots.length
  | [], _, _, slots, out, h => by
    simp only [fillSlots, Outcome.ok.injEq] at h
    rw [h]
  | p :: ps, values, position, slots, out, h => by
    simp only [fillSlots] at h
    obtain ⟨type, _, h⟩ := Outcome.bind_eq_ok.1 h
    rw [length_fillSlots ps _ _ _ _ h, List.length_set]

/-- The array loop of the code and the slot-by-slot description of the
specification compute the same cells when every cell of the array that is not
yet a slot of the environment is indeterminate. -/
theorem fillSlots_appendSlots {subst : Expression → Slots → Outcome Expression}
    (hsub : ∀ e s s' r, Slots.le s s' → subst e s = .ok r → subst e s' = .ok r) :
    ∀ (parameterTypes values : List Expression) (slots env out : Slots),
      (∀ i, slots.read i = env.read i) →
      env.length + parameterTypes.length ≤ slots.length →
      fillSlots subst parameterTypes values env.length slots = .ok out →
      ∃ appended, appendSlots subst parameterTypes values env = .ok appended ∧
        appended.length = env.length + parameterTypes.length ∧
        ∀ i, out.read i = appended.read i
  | [], _, slots, env, out, hread, _, h => by
    simp only [fillSlots, Outcome.ok.injEq] at h
    subst h
    exact ⟨env, rfl, rfl, hread⟩
  | p :: ps, values, slots, env, out, hread, hlen, h => by
    simp only [fillSlots] at h
    obtain ⟨type, htype, h⟩ := Outcome.bind_eq_ok.1 h
    simp only [List.length_cons] at hlen
    have hstep : ∀ i, Slots.read (slots.set env.length
        (values.head?.map fun value => ⟨type, value⟩)) i
        = Slots.read (env ++ [values.head?.map fun value => ⟨type, value⟩]) i := by
      intro i
      rw [Slots.read_set]
      by_cases hi : i < env.length
      · rw [Slots.read_append_left _ _ hi, if_neg (by omega), hread]
      · rw [Slots.read_append_right _ _ (Nat.le_of_not_lt hi), Slots.read_singleton]
        by_cases he : i = env.length
        · rw [if_pos ⟨he, by omega⟩, if_pos (by omega)]
        · rw [if_neg (fun hh => he hh.1), if_neg (by omega), hread,
            Slots.read_of_length_le _ (Nat.le_of_not_lt hi)]
    have hlen' : (env ++ [values.head?.map fun value => (⟨type, value⟩ : Substitution)]).length
        = env.length + 1 := by simp
    have h' : fillSlots subst ps values.tail
        (env ++ [values.head?.map fun value => (⟨type, value⟩ : Substitution)]).length
        (slots.set env.length (values.head?.map fun value => ⟨type, value⟩)) = .ok out := by
      rw [hlen']; exact h
    obtain ⟨appended, ha, hal, har⟩ := fillSlots_appendSlots hsub ps values.tail _ _ out hstep
      (by rw [hlen', List.length_set]; omega) h'
    refine ⟨appended, ?_, ?_, har⟩
    · simp only [appendSlots]
      exact Outcome.bind_eq_ok.2 ⟨type,
        hsub p slots env type (fun i x hx => by rw [← hread]; exact hx) htype, ha⟩
    · rw [hal, hlen', List.length_cons]; omega

/-- What a successful call of `substitution_destruct` on a target of
Construction type has computed, step by step. -/
theorem substitution_destruct_ok {fuel : Nat} {module : Module} {typeIndex : Nat}
    {typeArguments : List Expression} {value : Expression} {index : Nat}
    {pArguments : List Expression} {r : Substitution}
    (h : substitution_destruct (fuel + 1) module ⟨.construction typeIndex typeArguments, value⟩
      index pArguments = .ok r) :
    ∃ typeConstructor pTypeSubstitutions matrix destructor pDestructorSubstitutions,
      ((module.matrices.get? 0).bind fun m => m.constructors.get? typeIndex)
        = some typeConstructor ∧
      fillSlots (expression_substitute fuel module) typeConstructor.parameterTypes typeArguments 0
        (List.replicate typeConstructor.parameterTypes.length none) = .ok pTypeSubstitutions ∧
      module.matrices.get? typeIndex = some matrix ∧
      matrix.destructors.get? index = some destructor ∧
      fillSlots (expression_substitute fuel module) destructor.parameterTypes pArguments
        (typeConstructor.parameterTypes.length + 1)
        (copySlots pTypeSubstitutions 0 typeConstructor.parameterTypes.length ++
          [some ⟨.construction typeIndex typeArguments, value⟩] ++
          List.replicate destructor.parameterTypes.length none) = .ok pDestructorSubstitutions ∧
      expression_substitute fuel module destructor.returnType pDestructorSubstitutions
        = .ok r.type ∧
      ((∃ constructorIndex constructorArguments constructor pRuleSubstitutions rule,
          value = .construction constructorIndex constructorArguments ∧
          matrix.constructors.get? constructorIndex = some constructor ∧
          fillSlots (expression_substitute fuel module) constructor.parameterTypes
            constructorArguments typeConstructor.parameterTypes.length
            (copySlots pTypeSubstitutions 0 typeConstructor.parameterTypes.length ++
              List.replicate constructor.parameterTypes.length none ++
              copySlots pDestructorSubstitutions (typeConstructor.parameterTypes.length + 1)
                (typeConstructor.parameterTypes.length + 1 + destructor.parameterTypes.length))
            = .ok pRuleSubstitutions ∧
          destructor.rules.get? constructorIndex = some rule ∧
          rule ≠ .unspecified ∧
          expression_substitute fuel module rule pRuleSubstitutions = .ok r.value) ∨
        (∃ e pArgumentCopies,
          value = .evaluation e ∧
          duplicateArguments pArguments destructor.parameterTypes.length
            = some pArgumentCopies ∧
          r.value = .evaluation (.destruction e index pArgumentCopies))) := by
  simp only [substitution_destruct] at h
  obtain ⟨typeConstructor, h1, h⟩ := Outcome.bind_eq_ok.1 h
  obtain ⟨pTypeSubstitutions, h2, h⟩ := Outcome.bind_eq_ok.1 h
  obtain ⟨matrix, h3, h⟩ := Outcome.bind_eq_ok.1 h
  obtain ⟨destructor, h4, h⟩ := Outcome.bind_eq_ok.1 h
  obtain ⟨pDestructorSubstitutions, h5, h⟩ := Outcome.bind_eq_ok.1 h
  obtain ⟨type, h6, h⟩ := Outcome.bind_eq_ok.1 h
  refine ⟨typeConstructor, pTypeSubstitutions, matrix, destructor, pDestructorSubstitutions,
    Outcome.ofOption_eq_ok.1 h1, h2, Outcome.ofOption_eq_ok.1 h3, Outcome.ofOption_eq_ok.1 h4,
    h5, ?_, ?_⟩
  · cases value with
    | unspecified => cases h
    | construction constructorIndex constructorArguments =>
      simp only at h
      obtain ⟨constructor, _, h⟩ := Outcome.bind_eq_ok.1 h
      obtain ⟨pRuleSubstitutions, _, h⟩ := Outcome.bind_eq_ok.1 h
      split at h
      · cases h
      · cases h
      · obtain ⟨v, _, h⟩ := Outcome.bind_eq_ok.1 h
        cases h
        exact h6
    | evaluation e =>
      simp only at h
      obtain ⟨caller, _, h⟩ := Outcome.bind_eq_ok.1 h
      obtain ⟨copies, _, h⟩ := Outcome.bind_eq_ok.1 h
      cases h
      exact h6
  · cases value with
    | unspecified => cases h
    | construction constructorIndex constructorArguments =>
      simp only at h
      obtain ⟨constructor, h7, h⟩ := Outcome.bind_eq_ok.1 h
      obtain ⟨pRuleSubstitutions, h8, h⟩ := Outcome.bind_eq_ok.1 h
      split at h
      · cases h
      · cases h
      · rename_i rule hrule hne
        obtain ⟨v, h9, h⟩ := Outcome.bind_eq_ok.1 h
        cases h
        exact Or.inl ⟨constructorIndex, constructorArguments, constructor, pRuleSubstitutions,
          rule, rfl, Outcome.ofOption_eq_ok.1 h7, h8, hne, hrule, h9⟩
    | evaluation e =>
      simp only at h
      obtain ⟨caller, h7, h⟩ := Outcome.bind_eq_ok.1 h
      obtain ⟨copies, h8, h⟩ := Outcome.bind_eq_ok.1 h
      cases h
      have hc := evaluation_duplicate_eq e caller (Outcome.ofOption_eq_ok.1 h7)
      subst hc
      exact Or.inr ⟨_, copies, rfl, Outcome.ofOption_eq_ok.1 h8, rfl⟩

theorem expression_substitute_transfer (fuel : Nat) (module : Module) :
    ∀ e s s' r, Slots.le s s' → expression_substitute fuel module e s = .ok r →
      expression_substitute fuel module e s' = .ok r :=
  fun _ _ _ _ hs h => expression_substitute_of_le hs h

/-- The family cells the code computes are the family slots of the specification. -/
theorem familyEnvironment_of_fillSlots {fuel : Nat} {module : Module} {typeIndex : Nat}
    {typeArguments : List Expression} {typeConstructor : Constructor}
    {pTypeSubstitutions : Slots}
    (h1 : ((module.matrices.get? 0).bind fun m => m.constructors.get? typeIndex)
      = some typeConstructor)
    (h2 : fillSlots (expression_substitute fuel module) typeConstructor.parameterTypes
      typeArguments 0 (List.replicate typeConstructor.parameterTypes.length none)
      = .ok pTypeSubstitutions) :
    ∃ family, familyEnvironment fuel module typeIndex typeArguments = .ok family ∧
      family.length = typeConstructor.parameterTypes.length ∧
      pTypeSubstitutions.length = typeConstructor.parameterTypes.length ∧
      ∀ i, pTypeSubstitutions.read i = family.read i := by
  obtain ⟨family, hf, hl, hr⟩ := fillSlots_appendSlots (expression_substitute_transfer fuel module)
    typeConstructor.parameterTypes typeArguments
    (List.replicate typeConstructor.parameterTypes.length none) [] pTypeSubstitutions
    (fun i => by rw [Slots.read_replicate, Slots.read_nil]) (by simp) h2
  refine ⟨family, ?_, by simpa using hl, ?_, hr⟩
  · simp only [familyEnvironment, h1]
    exact hf
  · rw [length_fillSlots _ _ _ _ _ h2, List.length_replicate]

/-- The cells of the code's destructor array are the slots of the outer
environment of the specification. -/
theorem outerEnvironment_of_fillSlots {fuel : Nat} {module : Module} {typeIndex : Nat}
    {typeArguments : List Expression} {value : Expression} {index : Nat}
    {pArguments : List Expression} {typeConstructor : Constructor} {matrix : Matrix}
    {destructor : Destructor} {pTypeSubstitutions pDestructorSubstitutions : Slots}
    (h1 : ((module.matrices.get? 0).bind fun m => m.constructors.get? typeIndex)
      = some typeConstructor)
    (h2 : fillSlots (expression_substitute fuel module) typeConstructor.parameterTypes
      typeArguments 0 (List.replicate typeConstructor.parameterTypes.length none)
      = .ok pTypeSubstitutions)
    (h3 : module.matrices.get? typeIndex = some matrix)
    (h4 : matrix.destructors.get? index = some destructor)
    (h5 : fillSlots (expression_substitute fuel module) destructor.parameterTypes pArguments
      (typeConstructor.parameterTypes.length + 1)
      (copySlots pTypeSubstitutions 0 typeConstructor.parameterTypes.length ++
        [some ⟨.construction typeIndex typeArguments, value⟩] ++
        List.replicate destructor.parameterTypes.length none) = .ok pDestructorSubstitutions) :
    ∃ family outer, familyEnvironment fuel module typeIndex typeArguments = .ok family ∧
      family.length = typeConstructor.parameterTypes.length ∧
      (∀ i, pTypeSubstitutions.read i = family.read i) ∧
      outerEnvironment fuel module typeIndex typeArguments value index pArguments = .ok outer ∧
      outer.length
        = typeConstructor.parameterTypes.length + 1 + destructor.parameterTypes.length ∧
      pDestructorSubstitutions.length
        = typeConstructor.parameterTypes.length + 1 + destructor.parameterTypes.length ∧
      ∀ i, pDestructorSubstitutions.read i = outer.read i := by
  obtain ⟨family, hf, hfl, hpl, hfr⟩ := familyEnvironment_of_fillSlots h1 h2
  have hread : ∀ i, Slots.read (copySlots pTypeSubstitutions 0
      typeConstructor.parameterTypes.length ++
        [some ⟨.construction typeIndex typeArguments, value⟩] ++
        List.replicate destructor.parameterTypes.length none) i
      = Slots.read (family ++ [some ⟨.construction typeIndex typeArguments, value⟩]) i := by
    intro i
    rw [List.append_assoc]
    by_cases hi : i < typeConstructor.parameterTypes.length
    · rw [Slots.read_append_left _ _ (by rw [length_copySlots]; exact hi),
        Slots.read_append_left _ _ (by rw [hfl]; exact hi), read_copySlots, if_pos hi,
        Nat.zero_add, hfr]
    · have hl : (copySlots pTypeSubstitutions 0 typeConstructor.parameterTypes.length).length ≤ i := by
        rw [length_copySlots]; omega
      have hr : family.length ≤ i := by rw [hfl]; omega
      rw [Slots.read_append_right _ _ hl, Slots.read_append_right _ _ hr, length_copySlots, hfl]
      by_cases he : i - typeConstructor.parameterTypes.length = 0
      · rw [he, Slots.read_append_left _ _ (by simp)]
      · rw [Slots.read_append_right _ _ (by simp only [List.length_singleton]; omega),
          Slots.read_replicate, Slots.read_singleton, if_neg he]
  have hpos : (family ++ [some (⟨.construction typeIndex typeArguments, value⟩ :
      Substitution)]).length = typeConstructor.parameterTypes.length + 1 := by
    simp [hfl]
  rw [← hpos] at h5
  obtain ⟨outer, ho, hol, hor⟩ := fillSlots_appendSlots (expression_substitute_transfer fuel module)
    destructor.parameterTypes pArguments _ _ pDestructorSubstitutions hread
    (by simp only [List.length_append, length_copySlots, List.length_singleton,
      List.length_replicate, hfl]; omega) h5
  refine ⟨family, outer, hf, hfl, hfr, ?_, by rw [hol, hpos], ?_, hor⟩
  · simp only [outerEnvironment, hf, Outcome.bind, h3, Option.bind, Outcome.ofOption, h4]
    exact ho
  · rw [length_fillSlots _ _ _ _ _ h5]
    simp only [List.length_append, length_copySlots, List.length_singleton,
      List.length_replicate]

/-! ## The result type of destructor reduction -/

/-- C3: for every successful call of `substitution_destruct` on a target
`{type = Construction(F, targs), value}`, whether the value is a Construction or
an Evaluation, the result type is the destructor's return type substituted with
the outer environment: the family slots, the target itself in slot `F.arity`,
then the destructor parameter slots. -/
theorem substitution_destruct_result_type (fuel : Nat) (module : Module) (typeIndex : Nat)
    (typeArguments : List Expression) (value : Expression) (index : Nat)
    (pArguments : List Expression) (r : Substitution)
    (h : substitution_destruct (fuel + 1) module ⟨.construction typeIndex typeArguments, value⟩
      index pArguments = .ok r) :
    ∃ matrix destructor outer,
      module.matrices.get? typeIndex = some matrix ∧
      matrix.destructors.get? index = some destructor ∧
      outerEnvironment fuel module typeIndex typeArguments value index pArguments = .ok outer ∧
      expression_substitute fuel module destructor.returnType outer = .ok r.type := by
  obtain ⟨typeConstructor, pTypeSubstitutions, matrix, destructor, pDestructorSubstitutions,
    h1, h2, h3, h4, h5, h6, _⟩ := substitution_destruct_ok h
  obtain ⟨_, outer, _, _, _, ho, _, _, hor⟩ := outerEnvironment_of_fillSlots h1 h2 h3 h4 h5
  exact ⟨matrix, destructor, outer, h3, h4, ho,
    expression_substitute_of_le (fun i x hx => by rw [← hor]; exact hx) h6⟩

theorem substitution_destruct_result_type_witness :
    ∃ matrix destructor outer,
      natModule.matrices.get? 1 = some matrix ∧
      matrix.destructors.get? 0 = some destructor ∧
      outerEnvironment 6 natModule 1 [] (numeral 1) 0 [numeral 2] = .ok outer ∧
      expression_substitute 6 natModule destructor.returnType outer
        = .ok (⟨natType, numeral 3⟩ : Substitution).type :=
  substitution_destruct_result_type 6 natModule 1 [] (numeral 1) 0 [numeral 2]
    ⟨natType, numeral 3⟩ rfl

/-! ## Canonical reduction -/

theorem Slots.read_drop (s : Slots) (n i : Nat) : Slots.read (s.drop n) i = s.read (n + i) := by
  simp [Slots.read, List.getElem?_drop]

/-- When both the array loop of the code and the slot-by-slot description of the
specification succeed, they compute the same slots, whatever the cells of the
array beyond them hold. -/
theorem fillSlots_eq_appendSlots {subst : Expression → Slots → Outcome Expression}
    (hsub : ∀ e s s' r, Slots.le s s' → subst e s = .ok r → subst e s' = .ok r) :
    ∀ (parameterTypes values : List Expression) (slots env out appended : Slots),
      (∀ i, i < env.length → slots.read i = env.read i) →
      env.length + parameterTypes.length ≤ slots.length →
      fillSlots subst parameterTypes values env.length slots = .ok out →
      appendSlots subst parameterTypes values env = .ok appended →
      appended.length = env.length + parameterTypes.length ∧
        (∀ i, i < appended.length → out.read i = appended.read i) ∧
        (∀ i, appended.length ≤ i → out.read i = slots.read i)
  | [], _, slots, env, out, appended, hread, _, h, ha => by
    simp only [fillSlots, Outcome.ok.injEq] at h
    simp only [appendSlots, Outcome.ok.injEq] at ha
    subst h; subst ha
    exact ⟨rfl, hread, fun _ _ => rfl⟩
  | p :: ps, values, slots, env, out, appended, hread, hlen, h, ha => by
    simp only [fillSlots] at h
    simp only [appendSlots] at ha
    obtain ⟨type, htype, h⟩ := Outcome.bind_eq_ok.1 h
    obtain ⟨type', htype', ha⟩ := Outcome.bind_eq_ok.1 ha
    simp only [List.length_cons] at hlen
    have hle : Slots.le env slots := by
      intro i x hx
      by_cases hi : i < env.length
      · rw [hread i hi]; exact hx
      · rw [Slots.read_of_length_le _ (Nat.le_of_not_lt hi)] at hx; cases hx
    have hsame : type' = type := by
      have := hsub p env slots type' hle htype'
      rw [htype] at this
      cases this
      rfl
    subst hsame
    have hlen' : (env ++ [values.head?.map fun value => (⟨type', value⟩ : Substitution)]).length
        = env.length + 1 := by simp
    have hstep : ∀ i,
        i < (env ++ [values.head?.map fun value => (⟨type', value⟩ : Substitution)]).length →
        Slots.read (slots.set env.length (values.head?.map fun value => ⟨type', value⟩)) i
        = Slots.read (env ++ [values.head?.map fun value => ⟨type', value⟩]) i := by
      intro i hi
      rw [hlen'] at hi
      rw [Slots.read_set]
      by_cases hlt : i < env.length
      · rw [Slots.read_append_left _ _ hlt, if_neg (by omega), hread i hlt]
      · have he : i = env.length := by omega
        rw [Slots.read_append_right _ _ (Nat.le_of_not_lt hlt), Slots.read_singleton,
          if_pos ⟨he, by omega⟩, if_pos (by omega)]
    have h' : fillSlots subst ps values.tail
        (env ++ [values.head?.map fun value => (⟨type', value⟩ : Substitution)]).length
        (slots.set env.length (values.head?.map fun value => ⟨type', value⟩)) = .ok out := by
      rw [hlen']; exact h
    obtain ⟨hal, har, hrest⟩ := fillSlots_eq_appendSlots hsub ps values.tail _ _ out appended
      hstep (by rw [hlen', List.length_set]; omega) h' ha
    rw [hlen'] at hal
    refine ⟨by rw [hal, List.length_cons]; omega, har, ?_⟩
    intro i hi
    rw [hrest i hi, Slots.read_set, if_neg (by omega)]

theorem Outcome.okLe_mapList_of_mem {α β : Type} {f g : α → Outcome β} :
    ∀ xs : List α, (∀ a, a ∈ xs → Outcome.okLe (f a) (g a)) →
      Outcome.okLe (Outcome.mapList f xs) (Outcome.mapList g xs)
  | [], _ => Outcome.okLe_refl _
  | a :: rest, h =>
    Outcome.okLe_bind (h a (List.mem_cons_self a rest)) fun _ =>
      Outcome.okLe_bind
        (Outcome.okLe_mapList_of_mem rest fun b hb => h b (List.mem_cons_of_mem a hb))
        fun _ => Outcome.okLe_refl _

theorem referencesBelow_of_mem {bound : Nat} :
    ∀ {args : List Expression}, referencesBelowList bound args = true →
      ∀ a, a ∈ args → a.referencesBelow bound = true
  | [], _, a, ha => by cases ha
  | b :: rest, h, a, ha => by
    simp only [referencesBelowList, Bool.and_eq_true] at h
    rcases List.mem_cons.1 ha with rfl | ha
    · exact h.1
    · exact referencesBelow_of_mem h.2 a ha

/-- An expression whose Reference indices are all below `bound` is substituted
alike in two arrays that hold the same determinate cells below `bound`. -/
theorem substitute_okLe_below (module : Module) {s s' : Slots} {bound : Nat}
    (hs : ∀ i x, i < bound → s.read i = some x → s'.read i = some x) :
    ∀ fuel : Nat,
      (∀ e, e.referencesBelow bound = true →
        Outcome.okLe (expression_substitute fuel module e s)
          (expression_substitute fuel module e s')) ∧
      (∀ e, Evaluation.referencesBelow bound e = true →
        Outcome.okLe (evaluation_substitute fuel module e s)
          (evaluation_substitute fuel module e s'))
  | 0 => ⟨fun _ _ r h => by simp [expression_substitute] at h,
      fun _ _ r h => by simp [evaluation_substitute] at h⟩
  | fuel + 1 => by
    obtain ⟨ihx, ihv⟩ := substitute_okLe_below module hs fuel
    refine ⟨fun e he => ?_, fun e he => ?_⟩
    · cases e with
      | unspecified => simp only [expression_substitute]; exact Outcome.okLe_refl _
      | construction index args =>
        simp only [Expression.referencesBelow] at he
        simp only [expression_substitute]
        exact Outcome.okLe_bind
          (Outcome.okLe_mapList_of_mem args fun a ha => ihx a (referencesBelow_of_mem he a ha))
          fun _ => Outcome.okLe_refl _
      | evaluation e =>
        simp only [Expression.referencesBelow] at he
        simp only [expression_substitute]
        exact Outcome.okLe_bind (ihv e he) fun _ => Outcome.okLe_refl _
    · cases e with
      | reference index =>
        simp only [Evaluation.referencesBelow, decide_eq_true_eq] at he
        simp only [evaluation_substitute]
        intro r hr
        cases hx : s.read index with
        | none => rw [hx] at hr; cases hr
        | some x => rw [hx] at hr; rw [hs index x he hx]; exact hr
      | destruction caller index args =>
        simp only [Evaluation.referencesBelow, Bool.and_eq_true] at he
        simp only [evaluation_substitute]
        exact Outcome.okLe_bind (ihv caller he.1) fun _ =>
          Outcome.okLe_bind
            (Outcome.okLe_mapList_of_mem args fun a ha =>
              ihx a (referencesBelow_of_mem he.2 a ha))
            fun _ => Outcome.okLe_refl _

/-- When the parameter types respect the scoping rule, the slot-by-slot
description of the specification succeeds wherever the array loop of the code
does, whatever the cells of the array beyond the slots hold. -/
theorem appendSlots_of_fillSlots_scoped (fuel : Nat) (module : Module) :
    ∀ (parameterTypes values : List Expression) (slots env out : Slots),
      parametersScoped env.length parameterTypes = true →
      (∀ i, i < env.length → slots.read i = env.read i) →
      env.length + parameterTypes.length ≤ slots.length →
      fillSlots (expression_substitute fuel module) parameterTypes values env.length slots
        = .ok out →
      ∃ appended,
        appendSlots (expression_substitute fuel module) parameterTypes values env = .ok appended
  | [], _, _, env, _, _, _, _, _ => ⟨env, rfl⟩
  | p :: ps, values, slots, env, out, hscope, hread, hlen, h => by
    simp only [fillSlots] at h
    obtain ⟨type, htype, h⟩ := Outcome.bind_eq_ok.1 h
    simp only [parametersScoped, Bool.and_eq_true] at hscope
    simp only [List.length_cons] at hlen
    have htype' : expression_substitute fuel module p env = .ok type :=
      (substitute_okLe_below module
        (fun i x hi hx => by rw [← hread i hi]; exact hx) fuel).1 p hscope.1 type htype
    have hlen' : (env ++ [values.head?.map fun value => (⟨type, value⟩ : Substitution)]).length
        = env.length + 1 := by simp
    have hstep : ∀ i,
        i < (env ++ [values.head?.map fun value => (⟨type, value⟩ : Substitution)]).length →
        Slots.read (slots.set env.length (values.head?.map fun value => ⟨type, value⟩)) i
        = Slots.read (env ++ [values.head?.map fun value => ⟨type, value⟩]) i := by
      intro i hi
      rw [hlen'] at hi
      rw [Slots.read_set]
      by_cases hlt : i < env.length
      · rw [Slots.read_append_left _ _ hlt, if_neg (by omega), hread i hlt]
      · have he : i = env.length := by omega
        rw [Slots.read_append_right _ _ (Nat.le_of_not_lt hlt), Slots.read_singleton,
          if_pos ⟨he, by omega⟩, if_pos (by omega)]
    have h' : fillSlots (expression_substitute fuel module) ps values.tail
        (env ++ [values.head?.map fun value => (⟨type, value⟩ : Substitution)]).length
        (slots.set env.length (values.head?.map fun value => ⟨type, value⟩)) = .ok out := by
      rw [hlen']; exact h
    obtain ⟨appended, ha⟩ := appendSlots_of_fillSlots_scoped fuel module ps values.tail _ _ out
      (by rw [hlen']; exact hscope.2) hstep (by rw [hlen', List.length_set]; omega) h'
    refine ⟨appended, ?_⟩
    simp only [appendSlots]
    exact Outcome.bind_eq_ok.2 ⟨type, htype', ha⟩

/-- C1: when the target is `{type = Construction(F, targs), value =
Construction(c, cargs)}` and the call succeeds, the rule of the destructor for
constructor `c` is specified and the result value is that rule substituted with
the rule environment: the family slots, then the constructor parameter slots
(types: the declared parameter types substituted with the family slots and the
earlier constructor slots), then the destructor parameter slots of the outer
environment, with no slot for the target.  That environment exists whenever the
constructor's parameter types respect the scoping rule of the data model. -/
theorem substitution_destruct_canonical (fuel : Nat) (module : Module) (typeIndex : Nat)
    (typeArguments : List Expression) (constructorIndex : Nat)
    (constructorArguments : List Expression) (index : Nat) (pArguments : List Expression)
    (r : Substitution)
    (h : substitution_destruct (fuel + 1) module
      ⟨.construction typeIndex typeArguments,
        .construction constructorIndex constructorArguments⟩ index pArguments = .ok r) :
    ∃ typeConstructor matrix destructor constructor rule,
      ((module.matrices.get? 0).bind fun m => m.constructors.get? typeIndex)
        = some typeConstructor ∧
      module.matrices.get? typeIndex = some matrix ∧
      matrix.destructors.get? index = some destructor ∧
      matrix.constructors.get? constructorIndex = some constructor ∧
      destructor.rules.get? constructorIndex = some rule ∧
      rule ≠ .unspecified ∧
      (∀ ruleEnv,
        ruleEnvironment fuel module typeIndex typeArguments constructorIndex
          constructorArguments index pArguments = .ok ruleEnv →
        expression_substitute fuel module rule ruleEnv = .ok r.value) ∧
      (parametersScoped typeConstructor.parameterTypes.length constructor.parameterTypes
          = true →
        ∃ ruleEnv,
          ruleEnvironment fuel module typeIndex typeArguments constructorIndex
            constructorArguments index pArguments = .ok ruleEnv ∧
          ruleEnv.length = typeConstructor.parameterTypes.length +
            constructor.parameterTypes.length + destructor.parameterTypes.length) := by
  obtain ⟨typeConstructor, pTypeSubstitutions, matrix, destructor, pDestructorSubstitutions,
    h1, h2, h3, h4, h5, _, hv⟩ := substitution_destruct_ok h
  rcases hv with ⟨c, cargs, constructor, pRuleSubstitutions, rule, hval, h7, h8, hrule, hne, h9⟩ |
    ⟨_, _, hval, _⟩
  swap
  · cases hval
  cases hval
  obtain ⟨family, outer, hf, hfl, hfr, ho, hol, hdl, hor⟩ :=
    outerEnvironment_of_fillSlots h1 h2 h3 h4 h5
  rw [← hfl] at h8
  have hprefix : ∀ i, i < family.length →
      Slots.read (copySlots pTypeSubstitutions 0 family.length ++
        List.replicate constructor.parameterTypes.length none ++
        copySlots pDestructorSubstitutions (family.length + 1)
          (family.length + 1 + destructor.parameterTypes.length)) i = family.read i := by
    intro i hi
    rw [List.append_assoc, Slots.read_append_left _ _ (by rw [length_copySlots]; omega),
      read_copySlots, if_pos (by omega), Nat.zero_add, hfr]
  have hroom : family.length + constructor.parameterTypes.length ≤
      (copySlots pTypeSubstitutions 0 family.length ++
        List.replicate constructor.parameterTypes.length none ++
        copySlots pDestructorSubstitutions (family.length + 1)
          (family.length + 1 + destructor.parameterTypes.length)).length := by
    simp only [List.length_append, length_copySlots, List.length_replicate]; omega
  have henvEq : ruleEnvironment fuel module typeIndex typeArguments constructorIndex
      constructorArguments index pArguments =
      (appendSlots (expression_substitute fuel module) constructor.parameterTypes
        constructorArguments family).bind fun familyAndConstructor =>
        .ok (familyAndConstructor ++ outer.drop (family.length + 1)) := by
    simp only [ruleEnvironment, hf, Outcome.bind, h3, Option.bind, Outcome.ofOption, h7, ho]
  refine ⟨typeConstructor, matrix, destructor, constructor, rule, h1, h3, h4, h7, hrule, hne,
    ?_, ?_⟩
  · intro ruleEnv henv
    rw [henvEq] at henv
    obtain ⟨familyAndConstructor, hfc, henv⟩ := Outcome.bind_eq_ok.1 henv
    simp only [Outcome.ok.injEq] at henv
    subst henv
    obtain ⟨hal, har, hrest⟩ := fillSlots_eq_appendSlots (expression_substitute_transfer fuel module)
      constructor.parameterTypes constructorArguments _ family pRuleSubstitutions
      familyAndConstructor hprefix hroom h8 hfc
    refine expression_substitute_of_le ?_ h9
    intro i x hx
    by_cases hi : i < familyAndConstructor.length
    · rw [Slots.read_append_left _ _ hi, ← har i hi]; exact hx
    · have hge : familyAndConstructor.length ≤ i := Nat.le_of_not_lt hi
      rw [hrest i hge, Slots.read_append_right _ _ (by
        simp only [List.length_append, length_copySlots, List.length_replicate]; omega),
        read_copySlots] at hx
      simp only [List.length_append, length_copySlots, List.length_replicate] at hx
      split at hx
      · rw [Slots.read_append_right _ _ hge, Slots.read_drop, ← hor, hal, ← hx]
      · cases hx
  · intro hscope
    rw [← hfl] at hscope
    obtain ⟨familyAndConstructor, hfc⟩ := appendSlots_of_fillSlots_scoped fuel module
      constructor.parameterTypes constructorArguments _ family pRuleSubstitutions hscope
      hprefix hroom h8
    obtain ⟨hal, _, _⟩ := fillSlots_eq_appendSlots (expression_substitute_transfer fuel module)
      constructor.parameterTypes constructorArguments _ family pRuleSubstitutions
      familyAndConstructor hprefix hroom h8 hfc
    refine ⟨familyAndConstructor ++ outer.drop (family.length + 1), ?_, ?_⟩
    · rw [henvEq, hfc]; rfl
    · rw [List.length_append, List.length_drop, hal, hol, hfl]; omega

theorem substitution_destruct_canonical_witness :
    ∃ typeConstructor matrix destructor constructor rule,
      ((natModule.matrices.get? 0).bind fun m => m.constructors.get? 1)
        = some typeConstructor ∧
      natModule.matrices.get? 1 = some matrix ∧
      matrix.destructors.get? 0 = some destructor ∧
      matrix.constructors.get? 1 = some constructor ∧
      destructor.rules.get? 1 = some rule ∧
      rule ≠ .unspecified ∧
      (∀ ruleEnv,
        ruleEnvironment 6 natModule 1 [] 1 [numeral 0] 0 [numeral 2] = .ok ruleEnv →
        expression_substitute 6 natModule rule ruleEnv
          = .ok (⟨natType, numeral 3⟩ : Substitution).value) ∧
      (parametersScoped typeConstructor.parameterTypes.length constructor.parameterTypes
          = true →
        ∃ ruleEnv,
          ruleEnvironment 6 natModule 1 [] 1 [numeral 0] 0 [numeral 2] = .ok ruleEnv ∧
          ruleEnv.length = typeConstructor.parameterTypes.length +
            constructor.parameterTypes.length + destructor.parameterTypes.length) :=
  substitution_destruct_canonical 6 natModule 1 [] 1 [numeral 0] 0 [numeral 2]
    ⟨natType, numeral 3⟩ rfl

/-! ## Failures of destructor reduction -/


/-- C5: `substitution_destruct` returns false whenever the type of its target is
not a Construction, that is, it is Unspecified or an Evaluation, whatever the
module, the target's value, the destructor index and the arguments are (at every
budget that lets the call start). -/
theorem substitution_destruct_type_error (module : Module) (substitution : Substitution)
    (index : Nat) (pArguments : List Expression) (fuel : Nat)
    (h : substitution.type = .unspecified ∨ ∃ e, substitution.type = .evaluation e) :
    substitution_destruct (fuel + 1) module substitution index pArguments = .fail := by
  rw [substitution_destruct]
  rcases h with h | ⟨e, h⟩ <;> rw [h]

theorem substitution_destruct_type_error_witness :
    substitution_destruct 1 natModule ⟨.evaluation (.reference 0), numeral 0⟩ 0 [numeral 0]
      = .fail :=
  substitution_destruct_type_error natModule ⟨.evaluation (.reference 0), numeral 0⟩ 0
    [numeral 0] 0 (Or.inr ⟨_, rfl⟩)

/-- C4: when the target's value is a Construction of constructor `c` and the
rule entry of the destructor for `c` is Unspecified, `substitution_destruct`
returns no result, for every argument list and at every budget.  The test of
the rule comes after the substitutions that build the family slots, the
destructor slots, the result type and the constructor slots: whenever these
four computations have returned true, the call returns false; and the call can
fail to return only because one of them does not return. -/
theorem substitution_destruct_unspecified_rule (module : Module) (typeIndex : Nat)
    (typeArguments : List Expression) (constructorIndex : Nat)
    (constructorArguments : List Expression) (index : Nat) (pArguments : List Expression)
    (matrix : Matrix) (destructor : Destructor)
    (hm : module.matrices.get? typeIndex = some matrix)
    (hd : matrix.destructors.get? index = some destructor)
    (hr : destructor.rules.get? constructorIndex = some .unspecified) :
    (∀ fuel r,
      substitution_destruct fuel module
        ⟨.construction typeIndex typeArguments,
          .construction constructorIndex constructorArguments⟩ index pArguments ≠ .ok r) ∧
    (∀ fuel typeConstructor pTypeSubstitutions pDestructorSubstitutions type constructor
        pRuleSubstitutions,
      ((module.matrices.get? 0).bind fun m => m.constructors.get? typeIndex)
        = some typeConstructor →
      fillSlots (expression_substitute fuel module) typeConstructor.parameterTypes typeArguments 0
        (List.replicate typeConstructor.parameterTypes.length none) = .ok pTypeSubstitutions →
      fillSlots (expression_substitute fuel module) destructor.parameterTypes pArguments
        (typeConstructor.parameterTypes.length + 1)
        (copySlots pTypeSubstitutions 0 typeConstructor.parameterTypes.length ++
          [some ⟨.construction typeIndex typeArguments,
            .construction constructorIndex constructorArguments⟩] ++
          List.replicate destructor.parameterTypes.length none) = .ok pDestructorSubstitutions →
      expression_substitute fuel module destructor.returnType pDestructorSubstitutions
        = .ok type →
      matrix.constructors.get? constructorIndex = some constructor →
      fillSlots (expression_substitute fuel module) constructor.parameterTypes
        constructorArguments typeConstructor.parameterTypes.length
        (copySlots pTypeSubstitutions 0 typeConstructor.parameterTypes.length ++
          List.replicate constructor.parameterTypes.length none ++
          copySlots pDestructorSubstitutions (typeConstructor.parameterTypes.length + 1)
            (typeConstructor.parameterTypes.length + 1 + destructor.parameterTypes.length))
        = .ok pRuleSubstitutions →
      substitution_destruct (fuel + 1) module
        ⟨.construction typeIndex typeArguments,
          .construction constructorIndex constructorArguments⟩ index pArguments = .fail) ∧
    (∀ fuel,
      substitution_destruct (fuel + 1) module
        ⟨.construction typeIndex typeArguments,
          .construction constructorIndex constructorArguments⟩ index pArguments = .timeout →
      ∃ typeConstructor,
        ((module.matrices.get? 0).bind fun m => m.constructors.get? typeIndex)
          = some typeConstructor ∧
        (fillSlots (expression_substitute fuel module) typeConstructor.parameterTypes
            typeArguments 0 (List.replicate typeConstructor.parameterTypes.length none)
            = .timeout ∨
          ∃ pTypeSubstitutions,
            fillSlots (expression_substitute fuel module) typeConstructor.parameterTypes
              typeArguments 0 (List.replicate typeConstructor.parameterTypes.length none)
              = .ok pTypeSubstitutions ∧
            (fillSlots (expression_substitute fuel module) destructor.parameterTypes pArguments
                (typeConstructor.parameterTypes.length + 1)
                (copySlots pTypeSubstitutions 0 typeConstructor.parameterTypes.length ++
                  [some ⟨.construction typeIndex typeArguments,
                    .construction constructorIndex constructorArguments⟩] ++
                  List.replicate destructor.parameterTypes.length none) = .timeout ∨
              ∃ pDestructorSubstitutions,
                fillSlots (expression_substitute fuel module) destructor.parameterTypes
                  pArguments (typeConstructor.parameterTypes.length + 1)
                  (copySlots pTypeSubstitutions 0 typeConstructor.parameterTypes.length ++
                    [some ⟨.construction typeIndex typeArguments,
                      .construction constructorIndex constructorArguments⟩] ++
                    List.replicate destructor.parameterTypes.length none)
                  = .ok pDestructorSubstitutions ∧
                (expression_substitute fuel module destructor.returnType
                    pDestructorSubstitutions = .timeout ∨
                  ∃ constructor,
                    matrix.constructors.get? constructorIndex = some constructor ∧
                    fillSlots (expression_substitute fuel module) constructor.parameterTypes
                      constructorArguments typeConstructor.parameterTypes.length
                      (copySlots pTypeSubstitutions 0 typeConstructor.parameterTypes.length ++
                        List.replicate constructor.parameterTypes.length none ++
                        copySlots pDestructorSubstitutions
                          (typeConstructor.parameterTypes.length + 1)
                          (typeConstructor.parameterTypes.length + 1 +
                            destructor.parameterTypes.length)) = .timeout)))) := by
  refine ⟨?_, ?_, ?_⟩
  · intro fuel r hres
    cases fuel with
    | zero =>
      rw [substitution_destruct] at hres
      cases hres
    | succ fuel =>
      obtain ⟨_, _, matrix1, destructor1, _, _, _, hm1, hd1, _, _, hv⟩ :=
        substitution_destruct_ok hres
      rw [hm] at hm1
      cases hm1
      rw [hd] at hd1
      cases hd1
      rcases hv with ⟨c, cargs, _, _, rule, hval, _, _, hrule, hne, _⟩ | ⟨e, _, hval, _⟩
      · cases hval
        rw [hr] at hrule
        cases hrule
        exact hne rfl
      · cases hval
  · intro fuel typeConstructor pTypeSubstitutions pDestructorSubstitutions type constructor
      pRuleSubstitutions htc hfamily hdestructor htype hconstructor hrule
    simp only [substitution_destruct, htc, hm, hd, Outcome.ofOption, Outcome.bind, hfamily,
      hdestructor, htype, hconstructor, hrule, hr]
  · intro fuel h
    simp only [substitution_destruct, hm, hd] at h
    cases htc : (module.matrices.get? 0).bind fun m => m.constructors.get? typeIndex with
    | none =>
      rw [htc] at h
      cases h
    | some typeConstructor =>
      rw [htc] at h
      simp only [Outcome.ofOption, Outcome.bind, hm, hd] at h
      refine ⟨typeConstructor, rfl, ?_⟩
      cases hfamily : fillSlots (expression_substitute fuel module)
          typeConstructor.parameterTypes typeArguments 0
          (List.replicate typeConstructor.parameterTypes.length none) with
      | timeout => exact Or.inl rfl
      | fail =>
        rw [hfamily] at h
        cases h
      | ok pTypeSubstitutions =>
        rw [hfamily] at h
        simp only at h
        refine Or.inr ⟨pTypeSubstitutions, rfl, ?_⟩
        cases hdestructor : fillSlots (expression_substitute fuel module)
            destructor.parameterTypes pArguments (typeConstructor.parameterTypes.length + 1)
            (copySlots pTypeSubstitutions 0 typeConstructor.parameterTypes.length ++
              [some ⟨.construction typeIndex typeArguments,
                .construction constructorIndex constructorArguments⟩] ++
              List.replicate destructor.parameterTypes.length none) with
        | timeout => exact Or.inl rfl
        | fail =>
          rw [hdestructor] at h
          cases h
        | ok pDestructorSubstitutions =>
          rw [hdestructor] at h
          simp only at h
          refine Or.inr ⟨pDestructorSubstitutions, rfl, ?_⟩
          cases htype : expression_substitute fuel module destructor.returnType
              pDestructorSubstitutions with
          | timeout => exact Or.inl rfl
          | fail =>
            rw [htype] at h
            cases h
          | ok type =>
            rw [htype] at h
            simp only at h
            cases hconstructor : matrix.constructors.get? constructorIndex with
            | none =>
              rw [hconstructor] at h
              cases h
            | some constructor =>
              rw [hconstructor] at h
              simp only at h
              refine Or.inr ⟨constructor, rfl, ?_⟩
              cases hrule : fillSlots (expression_substitute fuel module)
                  constructor.parameterTypes constructorArguments
                  typeConstructor.parameterTypes.length
                  (copySlots pTypeSubstitutions 0 typeConstructor.parameterTypes.length ++
                    List.replicate constructor.parameterTypes.length none ++
                    copySlots pDestructorSubstitutions
                      (typeConstructor.parameterTypes.length + 1)
                      (typeConstructor.parameterTypes.length + 1 +
                        destructor.parameterTypes.length)) with
              | timeout => rfl
              | fail =>
                rw [hrule] at h
                cases h
              | ok pRuleSubstitutions =>
                rw [hrule, hr] at h
                cases h

theorem substitution_destruct_unspecified_rule_witness :
    substitution_destruct 2 natModuleNoRules ⟨natType, numeral 1⟩ 0 [numeral 2] = .fail :=
  (substitution_destruct_unspecified_rule natModuleNoRules 1 [] 1 [numeral 0] 0 [numeral 2]
    _ _ rfl rfl rfl).2.1 1 ⟨0, "Nat", []⟩ [] [some ⟨natType, numeral 1⟩, some ⟨natType, numeral 2⟩]
    natType ⟨0, "succ", [natType]⟩
    [some ⟨natType, numeral 0⟩, some ⟨natType, numeral 2⟩, none] rfl rfl rfl rfl rfl rfl

/-! ## The stuck form -/

/-- C2: destructing a target whose value is an Evaluation (a Reference or a
Destruction) yields, whenever the call succeeds, the Evaluation
`Destruction{caller, index, args}` whose caller is the target's evaluation, whose
index is the destructor index, and whose arguments are the first
`parameterCount` input arguments, unchanged.  The value does not depend on the
destructor's rule table. -/
theorem substitution_destruct_stuck (fuel : Nat) (module : Module) (typeIndex : Nat)
    (typeArguments : List Expression) (e : Evaluation) (index : Nat)
    (pArguments : List Expression) (r : Substitution)
    (h : substitution_destruct fuel module
      ⟨.construction typeIndex typeArguments, .evaluation e⟩ index pArguments = .ok r) :
    ∃ matrix destructor pArgumentCopies,
      module.matrices.get? typeIndex = some matrix ∧
      matrix.destructors.get? index = some destructor ∧
      r.value = .evaluation (.destruction e index pArgumentCopies) ∧
      pArgumentCopies.length = destructor.parameterTypes.length ∧
      ∀ j, j < destructor.parameterTypes.length →
        pArgumentCopies.get? j = pArguments.get? j ∧ (pArguments.get? j).isSome := by
  cases fuel with
  | zero => rw [substitution_destruct] at h; cases h
  | succ fuel =>
    obtain ⟨_, _, matrix, destructor, _, _, _, hm, hd, _, _, hv⟩ := substitution_destruct_ok h
    rcases hv with ⟨_, _, _, _, _, hval, _⟩ | ⟨e1, copies, hval, hdup, hvalue⟩
    · cases hval
    · cases hval
      obtain ⟨hc, hlen⟩ := duplicateArguments_eq _ _ _ hdup
      refine ⟨matrix, destructor, copies, hm, hd, hvalue, ?_, ?_⟩
      · rw [hc, List.length_take]; omega
      · intro j hj
        refine ⟨?_, ?_⟩
        · rw [hc, List.get?_eq_getElem?, List.get?_eq_getElem?, List.getElem?_take]
          simp [hj]
        · rw [List.get?_eq_getElem?, List.getElem?_eq_getElem (by omega)]
          rfl

theorem substitution_destruct_stuck_witness :
    ∃ matrix destructor pArgumentCopies,
      natModuleNoRules.matrices.get? 1 = some matrix ∧
      matrix.destructors.get? 0 = some destructor ∧
      (⟨natType, .evaluation (.destruction (.reference 0) 0 [numeral 2])⟩ :
        Substitution).value = .evaluation (.destruction (.reference 0) 0 pArgumentCopies) ∧
      pArgumentCopies.length = destructor.parameterTypes.length ∧
      ∀ j, j < destructor.parameterTypes.length →
        pArgumentCopies.get? j = [numeral 2, numeral 5].get? j ∧
          ([numeral 2, numeral 5].get? j).isSome :=
  substitution_destruct_stuck 2 natModuleNoRules 1 [] (.reference 0) 0 [numeral 2, numeral 5]
    ⟨natType, .evaluation (.destruction (.reference 0) 0 [numeral 2])⟩ rfl

/-! ## Substitution of a Destruction -/

theorem Outcome.mapList_eq_ok {α β : Type} {f : α → Outcome β} :
    ∀ {xs : List α} {ys : List β},
      Outcome.mapList f xs = .ok ys ↔ List.Forall₂ (fun x y => f x = .ok y) xs ys
  | [], ys => by
    simp only [Outcome.mapList, Outcome.ok.injEq]
    constructor
    · intro h; subst h; exact List.Forall₂.nil
    · intro h; cases h; rfl
  | x :: xs, ys => by
    simp only [Outcome.mapList]
    constructor
    · intro h
      obtain ⟨b, hb, h⟩ := Outcome.bind_eq_ok.1 h
      obtain ⟨bs, hbs, h⟩ := Outcome.bind_eq_ok.1 h
      simp only [Outcome.ok.injEq] at h
      subst h
      exact List.Forall₂.cons hb (Outcome.mapList_eq_ok.1 hbs)
    · intro h
      cases h with
      | cons hb hbs =>
        exact Outcome.bind_eq_ok.2 ⟨_, hb, Outcome.bind_eq_ok.2 ⟨_, Outcome.mapList_eq_ok.2 hbs, rfl⟩⟩

theorem Outcome.mapList_eq_fail {α β : Type} {f : α → Outcome β} :
    ∀ {xs : List α},
      Outcome.mapList f xs = .fail ↔
        ∃ before x after done, xs = before ++ x :: after ∧
          List.Forall₂ (fun x y => f x = .ok y) before done ∧ f x = .fail
  | [] => by
    simp only [Outcome.mapList]
    constructor
    · intro h; cases h
    · rintro ⟨before, x, after, _, h, _⟩
      cases before <;> cases h
  | x :: xs => by
    simp only [Outcome.mapList]
    constructor
    · intro h
      rcases Outcome.bind_eq_fail.1 h with h | ⟨b, hb, h⟩
      · exact ⟨[], x, xs, [], rfl, List.Forall₂.nil, h⟩
      · rcases Outcome.bind_eq_fail.1 h with h | ⟨bs, _, h⟩
        · obtain ⟨before, y, after, done, hxs, hdone, hy⟩ := Outcome.mapList_eq_fail.1 h
          exact ⟨x :: before, y, after, b :: done, by rw [hxs]; rfl,
            List.Forall₂.cons hb hdone, hy⟩
        · cases h
    · rintro ⟨before, y, after, done, hxs, hdone, hy⟩
      cases before with
      | nil =>
        simp only [List.nil_append, List.cons.injEq] at hxs
        obtain ⟨rfl, rfl⟩ := hxs
        exact Outcome.bind_eq_fail.2 (Or.inl hy)
      | cons z before =>
        simp only [List.cons_append, List.cons.injEq] at hxs
        obtain ⟨rfl, rfl⟩ := hxs
        cases hdone with
        | cons hz hdone =>
          refine Outcome.bind_eq_fail.2 (Or.inr ⟨_, hz, Outcome.bind_eq_fail.2 (Or.inl ?_)⟩)
          exact Outcome.mapList_eq_fail.2 ⟨before, y, after, _, rfl, hdone, hy⟩

theorem Outcome.eq_of_le {α : Type} {x y : Outcome α} (h : Outcome.le x y)
    (hx : x ≠ .timeout) : y = x := by
  rcases h with h | h
  · exact absurd h hx
  · exact h.symm

theorem expression_substitute_fail_mono {module : Module} {fuel fuel' : Nat} (h : fuel ≤ fuel')
    {e : Expression} {s : Slots} (hr : expression_substitute fuel module e s = .fail) :
    expression_substitute fuel' module e s = .fail := by
  obtain ⟨extra, rfl⟩ := Nat.exists_eq_add_of_le h
  rw [Outcome.eq_of_le ((substitute_le_add module fuel extra).1 e s) (by rw [hr]; simp), hr]

theorem evaluation_substitute_fail_mono {module : Module} {fuel fuel' : Nat} (h : fuel ≤ fuel')
    {e : Evaluation} {s : Slots} (hr : evaluation_substitute fuel module e s = .fail) :
    evaluation_substitute fuel' module e s = .fail := by
  obtain ⟨extra, rfl⟩ := Nat.exists_eq_add_of_le h
  rw [Outcome.eq_of_le ((substitute_le_add module fuel extra).2.1 e s) (by rw [hr]; simp), hr]

theorem substitution_destruct_fail_mono {module : Module} {fuel fuel' : Nat} (h : fuel ≤ fuel')
    {t : Substitution} {i : Nat} {a : List Expression}
    (hr : substitution_destruct fuel module t i a = .fail) :
    substitution_destruct fuel' module t i a = .fail := by
  obtain ⟨extra, rfl⟩ := Nat.exists_eq_add_of_le h
  rw [Outcome.eq_of_le ((substitute_le_add module fuel extra).2.2 t i a) (by rw [hr]; simp), hr]

/-- Arguments that each return under some budget all return under one common budget. -/
theorem forall₂_returns_common (module : Module) (s : Slots) :
    ∀ {args results : List Expression},
      List.Forall₂ (fun a a' => Returns (fun n => expression_substitute n module a s) a')
        args results →
      ∃ fuel, ∀ fuel', fuel ≤ fuel' →
        List.Forall₂ (fun a a' => expression_substitute fuel' module a s = .ok a') args results
  | _, _, List.Forall₂.nil => ⟨0, fun _ _ => List.Forall₂.nil⟩
  | _, _, List.Forall₂.cons ⟨n, hn⟩ hrest => by
    obtain ⟨m, hm⟩ := forall₂_returns_common module s hrest
    refine ⟨max n m, fun fuel' hle => List.Forall₂.cons ?_ (hm fuel' (by omega))⟩
    exact expression_substitute_mono (by omega) hn

theorem forall₂_returns_of_ok (module : Module) (s : Slots) (fuel : Nat) :
    ∀ {args results : List Expression},
      List.Forall₂ (fun a a' => expression_substitute fuel module a s = .ok a') args results →
      List.Forall₂ (fun a a' => Returns (fun n => expression_substitute n module a s) a')
        args results
  | _, _, List.Forall₂.nil => List.Forall₂.nil
  | _, _, List.Forall₂.cons h hrest =>
    List.Forall₂.cons ⟨fuel, h⟩ (forall₂_returns_of_ok module s fuel hrest)

/-- C7: `evaluation_substitute` on `Destruction(caller, index, args)` is
`substitution_destruct` applied to the substituted caller and the substituted
arguments (call by value).  At every budget it is that composition; it returns
`r` exactly when the caller returns some `c`, every argument returns, and the
destruct step on these returns `r`; it fails exactly when the caller's
substitution fails, or an argument's substitution fails after the caller and
the arguments before it have returned, or the destruct step fails. -/
theorem evaluation_substitute_destruction (module : Module) (caller : Evaluation) (index : Nat)
    (args : List Expression) (s : Slots) :
    (∀ fuel, evaluation_substitute (fuel + 1) module (.destruction caller index args) s =
      (evaluation_substitute fuel module caller s).bind fun c =>
      (Outcome.mapList (fun a => expression_substitute fuel module a s) args).bind fun as =>
      substitution_destruct fuel module c index as) ∧
    (∀ r, Returns (fun n => evaluation_substitute n module (.destruction caller index args) s) r ↔
      ∃ c as, Returns (fun n => evaluation_substitute n module caller s) c ∧
        List.Forall₂ (fun a a' => Returns (fun n => expression_substitute n module a s) a')
          args as ∧
        Returns (fun n => substitution_destruct n module c index as) r) ∧
    (Fails (fun n => evaluation_substitute n module (.destruction caller index args) s) ↔
      Fails (fun n => evaluation_substitute n module caller s) ∨
      ∃ c, Returns (fun n => evaluation_substitute n module caller s) c ∧
        ((∃ before a after done, args = before ++ a :: after ∧
            List.Forall₂ (fun a a' => Returns (fun n => expression_substitute n module a s) a')
              before done ∧
            Fails (fun n => expression_substitute n module a s)) ∨
          ∃ as,
            List.Forall₂ (fun a a' => Returns (fun n => expression_substitute n module a s) a')
              args as ∧
            Fails (fun n => substitution_destruct n module c index as))) := by
  have heq : ∀ fuel, evaluation_substitute (fuel + 1) module (.destruction caller index args) s =
      (evaluation_substitute fuel module caller s).bind fun c =>
      (Outcome.mapList (fun a => expression_substitute fuel module a s) args).bind fun as =>
      substitution_destruct fuel module c index as := by
    intro fuel
    simp only [evaluation_substitute]
  refine ⟨heq, fun r => ⟨?_, ?_⟩, ⟨?_, ?_⟩⟩
  · rintro ⟨fuel, h⟩
    cases fuel with
    | zero => simp only [evaluation_substitute] at h; cases h
    | succ fuel =>
      have h : evaluation_substitute (fuel + 1) module (.destruction caller index args) s
        = .ok r := h
      rw [heq] at h
      obtain ⟨c, hc, h⟩ := Outcome.bind_eq_ok.1 h
      obtain ⟨as, has, h⟩ := Outcome.bind_eq_ok.1 h
      exact ⟨c, as, ⟨fuel, hc⟩,
        forall₂_returns_of_ok module s fuel (Outcome.mapList_eq_ok.1 has), ⟨fuel, h⟩⟩
  · rintro ⟨c, as, ⟨n1, h1⟩, hargs, ⟨n3, h3⟩⟩
    obtain ⟨n2, h2⟩ := forall₂_returns_common module s hargs
    refine ⟨max n1 (max n2 n3) + 1, ?_⟩
    show evaluation_substitute (max n1 (max n2 n3) + 1) module _ s = .ok r
    rw [heq]
    exact Outcome.bind_eq_ok.2 ⟨c, evaluation_substitute_mono (by omega) h1,
      Outcome.bind_eq_ok.2 ⟨as, Outcome.mapList_eq_ok.2 (h2 _ (by omega)),
        substitution_destruct_mono (by omega) h3⟩⟩
  · rintro ⟨fuel, h⟩
    cases fuel with
    | zero => simp only [evaluation_substitute] at h; cases h
    | succ fuel =>
      have h : evaluation_substitute (fuel + 1) module (.destruction caller index args) s
        = .fail := h
      rw [heq] at h
      rcases Outcome.bind_eq_fail.1 h with h | ⟨c, hc, h⟩
      · exact Or.inl ⟨fuel, h⟩
      · refine Or.inr ⟨c, ⟨fuel, hc⟩, ?_⟩
        rcases Outcome.bind_eq_fail.1 h with h | ⟨as, has, h⟩
        · obtain ⟨before, a, after, done, hxs, hdone, ha⟩ := Outcome.mapList_eq_fail.1 h
          exact Or.inl ⟨before, a, after, done, hxs,
            forall₂_returns_of_ok module s fuel hdone, ⟨fuel, ha⟩⟩
        · exact Or.inr ⟨as, forall₂_returns_of_ok module s fuel (Outcome.mapList_eq_ok.1 has),
            ⟨fuel, h⟩⟩
  · rintro (⟨n, h⟩ | ⟨c, ⟨n1, h1⟩, h⟩)
    · refine ⟨n + 1, ?_⟩
      show evaluation_substitute (n + 1) module _ s = .fail
      rw [heq]
      exact Outcome.bind_eq_fail.2 (Or.inl h)
    · rcases h with ⟨before, a, after, done, hxs, hdone, ⟨n3, h3⟩⟩ | ⟨as, hargs, ⟨n3, h3⟩⟩
      · obtain ⟨n2, h2⟩ := forall₂_returns_common module s hdone
        refine ⟨max n1 (max n2 n3) + 1, ?_⟩
        show evaluation_substitute (max n1 (max n2 n3) + 1) module _ s = .fail
        rw [heq]
        refine Outcome.bind_eq_fail.2 (Or.inr ⟨c, evaluation_substitute_mono (by omega) h1,
          Outcome.bind_eq_fail.2 (Or.inl ?_)⟩)
        exact Outcome.mapList_eq_fail.2 ⟨before, a, after, done, hxs, h2 _ (by omega),
          expression_substitute_fail_mono (by omega) h3⟩
      · obtain ⟨n2, h2⟩ := forall₂_returns_common module s hargs
        refine ⟨max n1 (max n2 n3) + 1, ?_⟩
        show evaluation_substitute (max n1 (max n2 n3) + 1) module _ s = .fail
        rw [heq]
        exact Outcome.bind_eq_fail.2 (Or.inr ⟨c, evaluation_substitute_mono (by omega) h1,
          Outcome.bind_eq_fail.2 (Or.inr ⟨as, Outcome.mapList_eq_ok.2 (h2 _ (by omega)),
            substitution_destruct_fail_mono (by omega) h3⟩)⟩)

/-! ## Substitution replaces references -/

mutual
theorem expression_duplicate_of_specified :
    ∀ e : Expression, e.specified = true → expression_duplicate e = some e
  | .unspecified, h => by simp [Expression.specified] at h
  | .construction index args, h => by
    simp only [Expression.specified] at h
    simp only [expression_duplicate, expressions_duplicate_of_specified args h]
  | .evaluation e, h => by
    simp only [Expression.specified] at h
    simp only [expression_duplicate, evaluation_duplicate_of_specified e h]
theorem evaluation_duplicate_of_specified :
    ∀ e : Evaluation, e.specified = true → evaluation_duplicate e = some e
  | .reference index, _ => by simp only [evaluation_duplicate]
  | .destruction caller index args, h => by
    simp only [Evaluation.specified, Bool.and_eq_true] at h
    simp only [evaluation_duplicate, evaluation_duplicate_of_specified caller h.1,
      expressions_duplicate_of_specified args h.2]
theorem expressions_duplicate_of_specified :
    ∀ es : List Expression, specifiedList es = true → expressions_duplicate es = some es
  | [], _ => by simp only [expressions_duplicate]
  | a :: rest, h => by
    simp only [specifiedList, Bool.and_eq_true] at h
    simp only [expressions_duplicate, expression_duplicate_of_specified a h.1,
      expressions_duplicate_of_specified rest h.2]
end

theorem Slots.read_map_some (env : List Substitution) (i : Nat) :
    Slots.read (env.map some) i = env.get? i := by
  simp only [Slots.read, List.get?_eq_getElem?, List.getElem?_map]
  cases env[i]? <;> rfl

theorem length_instantiateList (env : List Substitution) :
    ∀ args : List Expression, (instantiateList env args).length = args.length
  | [] => rfl
  | _ :: rest => by simp only [instantiateList, List.length_cons, length_instantiateList env rest]

/-- C6 as stated fails: a slot whose value is a plain Construction but whose
type is Unspecified is referenced by `Reference(0)`; the premises of the claim
hold, yet `expression_substitute` returns false, because copying the slot's
type fails. -/
theorem expression_substitute_reference_unspecified_type :
    Expression.referencesOnly (fun slot => slot.value.specified)
        [⟨.unspecified, .construction 0 []⟩] (.evaluation (.reference 0)) = true ∧
      expression_substitute 2 natModule (.evaluation (.reference 0))
        ([⟨.unspecified, .construction 0 []⟩].map some) = .fail ∧
      ¬ ∃ r, Returns (fun n => expression_substitute n natModule (.evaluation (.reference 0))
        ([⟨.unspecified, .construction 0 []⟩].map some)) r := by
  refine ⟨rfl, rfl, ?_⟩
  rintro ⟨r, n, hn⟩
  have hn : expression_substitute n natModule (.evaluation (.reference 0))
      ([⟨.unspecified, .construction 0 []⟩].map some) = .ok r := hn
  have h2 : expression_substitute 2 natModule (.evaluation (.reference 0))
      ([⟨.unspecified, .construction 0 []⟩].map some) = .fail := rfl
  rcases Nat.le_total n 2 with h | h
  · have := expression_substitute_mono h hn
    rw [h2] at this
    cases this
  · have := expression_substitute_fail_mono h h2
    rw [hn] at this
    cases this

mutual
theorem expression_substitute_instantiate (module : Module) (env : List Substitution) :
    ∀ e : Expression,
      e.referencesOnly (fun slot => slot.type.specified && slot.value.specified) env = true →
      Returns (fun n => expression_substitute n module e (env.map some)) (e.instantiate env)
  | .unspecified, h => by simp [Expression.referencesOnly] at h
  | .construction index args, h => by
    simp only [Expression.referencesOnly] at h
    obtain ⟨n, hn⟩ := forall₂_returns_common module (env.map some)
      (expression_substitute_instantiateList module env args h)
    refine ⟨n + 1, ?_⟩
    show expression_substitute (n + 1) module _ _ = _
    simp only [expression_substitute, Expression.instantiate]
    exact Outcome.bind_eq_ok.2 ⟨_, Outcome.mapList_eq_ok.2 (hn n (Nat.le_refl n)), rfl⟩
  | .evaluation (.reference index), h => by
    simp only [Expression.referencesOnly] at h
    refine ⟨2, ?_⟩
    show expression_substitute 2 module _ _ = _
    simp only [expression_substitute, evaluation_substitute, Expression.instantiate,
      Slots.read_map_some]
    cases hslot : env.get? index with
    | none => rw [hslot] at h; cases h
    | some slot =>
      rw [hslot] at h
      simp only [Bool.and_eq_true] at h
      simp only [expression_duplicate_of_specified _ h.1,
        expression_duplicate_of_specified _ h.2, Outcome.ofOption, Outcome.bind]
  | .evaluation (.destruction _ _ _), h => by simp [Expression.referencesOnly] at h
theorem expression_substitute_instantiateList (module : Module) (env : List Substitution) :
    ∀ args : List Expression,
      referencesOnlyList (fun slot => slot.type.specified && slot.value.specified) env args
        = true →
      List.Forall₂
        (fun a a' => Returns (fun n => expression_substitute n module a (env.map some)) a')
        args (instantiateList env args)
  | [], _ => List.Forall₂.nil
  | a :: rest, h => by
    simp only [referencesOnlyList, Bool.and_eq_true] at h
    exact List.Forall₂.cons (expression_substitute_instantiate module env a h.1)
      (expression_substitute_instantiateList module env rest h.2)
end

theorem instantiateList_eq_map (env : List Substitution) :
    ∀ args : List Expression, instantiateList env args = args.map fun a => a.instantiate env
  | [] => rfl
  | a :: rest => by
    simp only [instantiateList, List.map_cons, instantiateList_eq_map env rest]

/-- C6, amended: for every environment and every expression built only from
Constructions and References whose indices lie inside the environment and whose
referenced slots contain no Unspecified node in their type or in their value,
`expression_substitute` succeeds and returns the expression with every
`Reference(i)` replaced by `env[i].value`, constructor indices and argument
counts unchanged; and `evaluation_substitute` on `Reference(i)` returns the pair
`{env[i].type, env[i].value}` of such a slot. -/
theorem expression_substitute_references (module : Module) (env : List Substitution) :
    (∀ e : Expression,
      e.referencesOnly (fun slot => slot.type.specified && slot.value.specified) env = true →
      Returns (fun n => expression_substitute n module e (env.map some)) (e.instantiate env)) ∧
    (∀ index args,
      (Expression.construction index args).instantiate env
        = .construction index (args.map fun a => a.instantiate env)) ∧
    (∀ index slot, env.get? index = some slot →
      (Expression.evaluation (.reference index)).instantiate env = slot.value) ∧
    (∀ index slot fuel, env.get? index = some slot →
      slot.type.specified = true → slot.value.specified = true →
      evaluation_substitute (fuel + 1) module (.reference index) (env.map some)
        = .ok ⟨slot.type, slot.value⟩) := by
  refine ⟨expression_substitute_instantiate module env, ?_, ?_, ?_⟩
  · intro index args
    simp only [Expression.instantiate, instantiateList_eq_map]
  · intro index slot hslot
    simp only [Expression.instantiate, hslot]
  · intro index slot fuel hslot ht hv
    simp only [evaluation_substitute, Slots.read_map_some, hslot,
      expression_duplicate_of_specified _ ht, expression_duplicate_of_specified _ hv,
      Outcome.ofOption, Outcome.bind]

theorem expression_substitute_references_witness :
    Returns (fun n => expression_substitute n natModule
        (.construction 1 [.evaluation (.reference 1)])
        ([⟨natType, numeral 0⟩, ⟨natType, numeral 2⟩].map some)) (numeral 3) ∧
      evaluation_substitute 1 natModule (.reference 1)
        ([⟨natType, numeral 0⟩, ⟨natType, numeral 2⟩].map some) = .ok ⟨natType, numeral 2⟩ :=
  ⟨(expression_substitute_references natModule [⟨natType, numeral 0⟩, ⟨natType, numeral 2⟩]).1
      (.construction 1 [.evaluation (.reference 1)]) rfl,
    (expression_substitute_references natModule
      [⟨natType, numeral 0⟩, ⟨natType, numeral 2⟩]).2.2.2 1 ⟨natType, numeral 2⟩ 0 rfl rfl rfl⟩

/-! ## Closed terms normalize to constructor-only terms -/

theorem Slots.constructorOnly_replicate (n : Nat) :
    Slots.constructorOnly (List.replicate n none) := by
  intro i x hx
  rw [Slots.read_replicate] at hx
  cases hx

theorem Slots.constructorOnly_append {s s' : Slots} (h : s.constructorOnly)
    (h' : s'.constructorOnly) : Slots.constructorOnly (s ++ s') := by
  intro i x hx
  by_cases hi : i < s.length
  · rw [Slots.read_append_left _ _ hi] at hx; exact h i x hx
  · rw [Slots.read_append_right _ _ (Nat.le_of_not_lt hi)] at hx; exact h' _ x hx

theorem Slots.constructorOnly_copySlots {s : Slots} (h : s.constructorOnly) (start count : Nat) :
    Slots.constructorOnly (copySlots s start count) := by
  intro i x hx
  rw [read_copySlots] at hx
  split at hx
  · exact h _ x hx
  · cases hx

theorem Slots.constructorOnly_singleton {t : Substitution} (ht : t.type.constructorOnly = true)
    (hv : t.value.constructorOnly = true) : Slots.constructorOnly [some t] := by
  intro i x hx
  rw [Slots.read_singleton] at hx
  split at hx
  · cases hx; exact ⟨ht, hv⟩
  · cases hx

theorem constructorOnlyList_tail {values : List Expression}
    (h : constructorOnlyList values = true) : constructorOnlyList values.tail = true := by
  cases values with
  | nil => rfl
  | cons a rest =>
    simp only [constructorOnlyList, Bool.and_eq_true] at h
    exact h.2

/-- Filling cells with constructor-only values, by a substitution that returns
constructor-only types, keeps every determinate cell constructor-only. -/
theorem fillSlots_constructorOnly {subst : Expression → Slots → Outcome Expression}
    (hsubst : ∀ e s r, Slots.constructorOnly s → subst e s = .ok r → r.constructorOnly = true) :
    ∀ (parameterTypes values : List Expression) (position : Nat) (slots out : Slots),
      constructorOnlyList values = true → slots.constructorOnly →
      fillSlots subst parameterTypes values position slots = .ok out → out.constructorOnly
  | [], _, _, slots, out, _, hs, h => by
    simp only [fillSlots, Outcome.ok.injEq] at h
    rw [← h]; exact hs
  | p :: ps, values, position, slots, out, hv, hs, h => by
    simp only [fillSlots] at h
    obtain ⟨type, htype, h⟩ := Outcome.bind_eq_ok.1 h
    refine fillSlots_constructorOnly hsubst ps values.tail (position + 1) _ out
      (constructorOnlyList_tail hv) ?_ h
    intro i x hx
    rw [Slots.read_set] at hx
    split at hx
    · cases values with
      | nil => cases hx
      | cons a rest =>
        simp only [List.head?_cons, Option.map_some', Option.some.injEq] at hx
        simp only [constructorOnlyList, Bool.and_eq_true] at hv
        rw [← hx]
        exact ⟨hsubst p slots type hs htype, hv.1⟩
    · exact hs i x hx

theorem constructorOnlyList_of_forall₂ {P : Expression → Expression → Prop}
    (hP : ∀ a r, P a r → r.constructorOnly = true) :
    ∀ {args results : List Expression}, List.Forall₂ P args results →
      constructorOnlyList results = true
  | _, _, List.Forall₂.nil => rfl
  | _, _, List.Forall₂.cons h hrest => by
    simp only [constructorOnlyList, Bool.and_eq_true]
    exact ⟨hP _ _ h, constructorOnlyList_of_forall₂ hP hrest⟩

/-- C8: in an environment whose determinate slots hold constructor-only types
and values, whatever `expression_substitute` and `evaluation_substitute` return
is constructor-only (value, and type for `evaluation_substitute`): it contains
no Reference, no Destruction and no Unspecified node; and
`substitution_destruct` applied to a constructor-only target and constructor-only
arguments returns, when it succeeds, a constructor-only type and value. -/
theorem substitute_constructorOnly (module : Module) :
    ∀ fuel : Nat,
      (∀ e s r, Slots.constructorOnly s → expression_substitute fuel module e s = .ok r →
        r.constructorOnly = true) ∧
      (∀ e s r, Slots.constructorOnly s → evaluation_substitute fuel module e s = .ok r →
        r.type.constructorOnly = true ∧ r.value.constructorOnly = true) ∧
      (∀ t index args r, t.type.constructorOnly = true → t.value.constructorOnly = true →
        constructorOnlyList args = true →
        substitution_destruct fuel module t index args = .ok r →
        r.type.constructorOnly = true ∧ r.value.constructorOnly = true)
  | 0 => by
    refine ⟨fun e s r _ h => ?_, fun e s r _ h => ?_, fun t index args r _ _ _ h => ?_⟩
    · simp only [expression_substitute] at h; cases h
    · simp only [evaluation_substitute] at h; cases h
    · simp only [substitution_destruct] at h; cases h
  | fuel + 1 => by
    obtain ⟨ihx, ihv, ihd⟩ := substitute_constructorOnly module fuel
    refine ⟨fun e s r hs h => ?_, fun e s r hs h => ?_, fun t index args r ht hv ha h => ?_⟩
    · cases e with
      | unspecified => simp only [expression_substitute] at h; cases h
      | construction i as =>
        simp only [expression_substitute] at h
        obtain ⟨rs, hrs, h⟩ := Outcome.bind_eq_ok.1 h
        simp only [Outcome.ok.injEq] at h
        rw [← h]
        simp only [Expression.constructorOnly]
        exact constructorOnlyList_of_forall₂ (fun a r' hr' => ihx a s r' hs hr')
          (Outcome.mapList_eq_ok.1 hrs)
      | evaluation ev =>
        simp only [expression_substitute] at h
        obtain ⟨sub, hsub, h⟩ := Outcome.bind_eq_ok.1 h
        simp only [Outcome.ok.injEq] at h
        rw [← h]
        exact (ihv ev s sub hs hsub).2
    · cases e with
      | reference i =>
        simp only [evaluation_substitute] at h
        cases hslot : s.read i with
        | none => rw [hslot] at h; cases h
        | some slot =>
          rw [hslot] at h
          obtain ⟨ty, hty, h⟩ := Outcome.bind_eq_ok.1 h
          obtain ⟨va, hva, h⟩ := Outcome.bind_eq_ok.1 h
          simp only [Outcome.ok.injEq] at h
          rw [← h]
          rw [expression_duplicate_eq _ _ (Outcome.ofOption_eq_ok.1 hty),
            expression_duplicate_eq _ _ (Outcome.ofOption_eq_ok.1 hva)]
          exact hs i slot hslot
      | destruction caller i as =>
        simp only [evaluation_substitute] at h
        obtain ⟨c, hc, h⟩ := Outcome.bind_eq_ok.1 h
        obtain ⟨rs, hrs, h⟩ := Outcome.bind_eq_ok.1 h
        obtain ⟨hct, hcv⟩ := ihv caller s c hs hc
        exact ihd c i rs r hct hcv
          (constructorOnlyList_of_forall₂ (fun a r' hr' => ihx a s r' hs hr')
            (Outcome.mapList_eq_ok.1 hrs)) h
    · obtain ⟨type, value⟩ := t
      cases type with
      | unspecified => simp [Expression.constructorOnly] at ht
      | evaluation _ => simp [Expression.constructorOnly] at ht
      | construction typeIndex typeArguments =>
        simp only [Expression.constructorOnly] at ht
        obtain ⟨typeConstructor, pTypeSubstitutions, matrix, destructor,
          pDestructorSubstitutions, _, h2, _, _, h5, h6, hval⟩ := substitution_destruct_ok h
        have hts : pTypeSubstitutions.constructorOnly :=
          fillSlots_constructorOnly ihx _ _ _ _ _ ht (Slots.constructorOnly_replicate _) h2
        have hds : pDestructorSubstitutions.constructorOnly :=
          fillSlots_constructorOnly ihx _ _ _ _ _ ha
            (Slots.constructorOnly_append
              (Slots.constructorOnly_append (Slots.constructorOnly_copySlots hts _ _)
                (Slots.constructorOnly_singleton (by simpa [Expression.constructorOnly] using ht)
                  hv))
              (Slots.constructorOnly_replicate _)) h5
        refine ⟨ihx _ _ _ hds h6, ?_⟩
        rcases hval with ⟨c, cargs, constructor, pRuleSubstitutions, rule, hv', _, h8, _, _, h9⟩ |
          ⟨e, _, hv', _⟩
        · subst hv'
          simp only [Expression.constructorOnly] at hv
          have hrs : pRuleSubstitutions.constructorOnly :=
            fillSlots_constructorOnly ihx _ _ _ _ _ hv
              (Slots.constructorOnly_append
                (Slots.constructorOnly_append (Slots.constructorOnly_copySlots hts _ _)
                  (Slots.constructorOnly_replicate _))
                (Slots.constructorOnly_copySlots hds _ _)) h8
          exact ihx _ _ _ hrs h9
        · subst hv'
          simp [Expression.constructorOnly] at hv

theorem substitute_constructorOnly_witness :
    (⟨natType, numeral 3⟩ : Substitution).type.constructorOnly = true ∧
      (⟨natType, numeral 3⟩ : Substitution).value.constructorOnly = true :=
  (substitute_constructorOnly natModule 7).2.2 ⟨natType, numeral 1⟩ 0 [numeral 2]
    ⟨natType, numeral 3⟩ rfl rfl rfl rfl

/-! ## Scenario B: addition on `Nat` -/

theorem specified_numeral : ∀ n : Nat, (numeral n).specified = true
  | 0 => rfl
  | n + 1 => by
    simp only [numeral, Expression.specified, specifiedList, specified_numeral n, Bool.and_self]

theorem expression_duplicate_numeral (n : Nat) :
    expression_duplicate (numeral n) = some (numeral n) :=
  expression_duplicate_of_specified _ (specified_numeral n)

/-- The rule `zero.add m = m`, fired. -/
theorem add_zero_step (m : Expression) (hm : expression_duplicate m = some m) (fuel : Nat) :
    substitution_destruct (fuel + 3) natModule ⟨natType, numeral 0⟩ 0 [m] = .ok ⟨natType, m⟩ := by
  simp only [substitution_destruct, natModule, typeMatrixWithNat, natMatrix, addDestructor,
    numeral]
  simp [natType, Outcome.ofOption, Outcome.bind, fillSlots, copySlots, expression_substitute,
    evaluation_substitute, Outcome.mapList, Slots.read, expression_duplicate,
    expressions_duplicate, hm]

/-- The rule `(succ n).add m = succ (n.add m)`, fired: one destruct step on
`succ n` is a destruct step on `n` under a `succ`. -/
theorem add_succ_step (n m : Expression) (hn : expression_duplicate n = some n)
    (hm : expression_duplicate m = some m) (k : Nat) :
    substitution_destruct (k + 6) natModule ⟨natType, .construction 1 [n]⟩ 0 [m] =
      (substitution_destruct (k + 2) natModule ⟨natType, n⟩ 0 [m]).bind fun r =>
        .ok ⟨natType, .construction 1 [r.value]⟩ := by
  rw [substitution_destruct]
  simp only [natModule, typeMatrixWithNat, natMatrix, addDestructor]
  simp [natType, Outcome.ofOption, Outcome.bind, fillSlots, copySlots, expression_substitute,
    evaluation_substitute, Outcome.mapList, Slots.read, expression_duplicate,
    expressions_duplicate, hm, hn]
  generalize substitution_destruct (k + 2) _ _ 0 [m] = x
  cases x <;> rfl

theorem add_numerals : ∀ a b : Nat,
    substitution_destruct (4 * a + 3) natModule ⟨natType, numeral a⟩ 0 [numeral b]
      = .ok ⟨natType, numeral (a + b)⟩
  | 0, b => by
    have h := add_zero_step (numeral b) (expression_duplicate_numeral b) 0
    simpa using h
  | a + 1, b => by
    have h := add_succ_step (numeral a) (numeral b) (expression_duplicate_numeral a)
      (expression_duplicate_numeral b) (4 * a + 1)
    have e1 : 4 * (a + 1) + 3 = 4 * a + 1 + 6 := by omega
    have e2 : 4 * a + 1 + 2 = 4 * a + 3 := by omega
    rw [e1]
    show substitution_destruct (4 * a + 1 + 6) natModule ⟨natType, .construction 1 [numeral a]⟩
      0 [numeral b] = _
    rw [h, e2, add_numerals a b]
    have e3 : a + 1 + b = (a + b) + 1 := by omega
    rw [e3]
    rfl

/-- C10: in the module of Scenario B, for all natural numbers `a` and `b`,
destructing the numeral `succ^a zero` of type `Nat` with `add` and the argument
`succ^b zero` terminates successfully (a call depth of `4a + 3` suffices) with
type `Nat` and value `succ^(a+b) zero`; for `a = 1`, `b = 2` the value is
`succ (succ (succ zero))`, which `expression_print` writes as
`succ succ succ zero`. -/
theorem add_scenario :
    (∀ a b : Nat,
      substitution_destruct (4 * a + 3) natModule ⟨natType, numeral a⟩ 0 [numeral b]
        = .ok ⟨natType, numeral (a + b)⟩) ∧
    substitution_destruct 7 natModule
        ⟨natType, .construction 1 [.construction 0 []]⟩ 0
        [.construction 1 [.construction 1 [.construction 0 []]]]
      = .ok ⟨natType,
          .construction 1 [.construction 1 [.construction 1 [.construction 0 []]]]⟩ ∧
    expression_print 5 natModule []
        (.construction 1 [.construction 1 [.construction 1 [.construction 0 []]]]) natType
      = .ok "succ succ succ zero" :=
  ⟨add_numerals, add_numerals 1 2, rfl⟩

/-! ## Totality of substitution -/

mutual
theorem referencesOnly_of_no_destruction (env : List Substitution) :
    ∀ e : Expression, e.wellScoped env = true → e.destructions = [] →
      e.referencesOnly (fun slot => slot.type.specified && slot.value.specified) env = true
  | .unspecified, hw, _ => by simp [Expression.wellScoped] at hw
  | .construction index args, hw, hd => by
    simp only [Expression.wellScoped] at hw
    simp only [Expression.destructions] at hd
    simp only [Expression.referencesOnly]
    exact referencesOnlyList_of_no_destruction env args hw hd
  | .evaluation (.reference index), hw, _ => by
    simp only [Expression.wellScoped, Evaluation.wellScoped] at hw
    simp only [Expression.referencesOnly]
    exact hw
  | .evaluation (.destruction caller index args), _, hd => by
    simp [Expression.destructions, Evaluation.destructions] at hd
theorem referencesOnlyList_of_no_destruction (env : List Substitution) :
    ∀ es : List Expression, wellScopedList env es = true → destructionsList es = [] →
      referencesOnlyList (fun slot => slot.type.specified && slot.value.specified) env es = true
  | [], _, _ => rfl
  | a :: rest, hw, hd => by
    simp only [wellScopedList, Bool.and_eq_true] at hw
    simp only [destructionsList, List.append_eq_nil] at hd
    simp only [referencesOnlyList, Bool.and_eq_true]
    exact ⟨referencesOnly_of_no_destruction env a hw.1 hd.1,
      referencesOnlyList_of_no_destruction env rest hw.2 hd.2⟩
end

mutual
theorem expression_equals_self :
    ∀ e : Expression, e.specified = true → expression_equals e e = some true
  | .unspecified, h => by simp [Expression.specified] at h
  | .construction index args, h => by
    simp only [Expression.specified] at h
    simp only [expression_equals, ne_eq, not_true_eq_false, if_false,
      arguments_equal_self args h]
  | .evaluation e, h => by
    simp only [Expression.specified] at h
    simp only [expression_equals, evaluation_equals_self e h]
theorem evaluation_equals_self :
    ∀ e : Evaluation, e.specified = true → evaluation_equals e e = some true
  | .reference index, _ => by simp only [evaluation_equals, decide_True]
  | .destruction caller index args, h => by
    simp only [Evaluation.specified, Bool.and_eq_true] at h
    simp only [evaluation_equals, evaluation_equals_self caller h.1, ne_eq, not_true_eq_false,
      if_false, arguments_equal_self args h.2]
theorem arguments_equal_self :
    ∀ es : List Expression, specifiedList es = true → arguments_equal es es = some true
  | [], _ => by simp only [arguments_equal]
  | a :: rest, h => by
    simp only [specifiedList, Bool.and_eq_true] at h
    simp only [arguments_equal, expression_equals_self a h.1, arguments_equal_self rest h.2]
end

mutual
theorem eq_of_expression_equals :
    ∀ a b : Expression, expression_equals a b = some true → a.sameArity b = true → a = b
  | .unspecified, _, h, _ => by simp [expression_equals] at h
  | .construction index args, b, h, hs => by
    cases b with
    | construction otherIndex otherArgs =>
      simp only [expression_equals] at h
      simp only [Expression.sameArity] at hs
      split at h
      · cases h
      · rename_i hi
        have hidx : index = otherIndex := by simpa using hi
        rw [hidx, eq_of_arguments_equal args otherArgs h hs]
    | evaluation _ => simp [expression_equals] at h
    | unspecified => simp [expression_equals] at h
  | .evaluation e, b, h, hs => by
    cases b with
    | evaluation f =>
      simp only [expression_equals] at h
      simp only [Expression.sameArity] at hs
      rw [eq_of_evaluation_equals e f h hs]
    | construction _ _ => simp [expression_equals] at h
    | unspecified => simp [expression_equals] at h
theorem eq_of_evaluation_equals :
    ∀ a b : Evaluation, evaluation_equals a b = some true → a.sameArity b = true → a = b
  | .reference index, b, h, _ => by
    cases b with
    | reference otherIndex =>
      simp only [evaluation_equals, Option.some.injEq, decide_eq_true_eq] at h
      rw [h]
    | destruction _ _ _ => simp [evaluation_equals] at h
  | .destruction caller index args, b, h, hs => by
    cases b with
    | reference _ => simp [evaluation_equals] at h
    | destruction otherCaller otherIndex otherArgs =>
      simp only [evaluation_equals] at h
      simp only [Evaluation.sameArity, Bool.and_eq_true] at hs
      split at h
      · rename_i hc
        split at h
        · cases h
        · rename_i hi
          have hidx : index = otherIndex := by simpa using hi
          rw [eq_of_evaluation_equals caller otherCaller hc hs.1, hidx,
            eq_of_arguments_equal args otherArgs h hs.2]
      · rename_i hne
        exact absurd h (hne)
theorem eq_of_arguments_equal :
    ∀ as bs : List Expression, arguments_equal as bs = some true → sameArityList as bs = true →
      as = bs
  | [], bs, _, hs => by
    cases bs with
    | nil => rfl
    | cons _ _ => simp [sameArityList] at hs
  | a :: rest, bs, h, hs => by
    cases bs with
    | nil => simp [sameArityList] at hs
    | cons b otherRest =>
      simp only [arguments_equal] at h
      simp only [sameArityList, Bool.and_eq_true] at hs
      split at h
      · rename_i ha
        rw [eq_of_expression_equals a b ha hs.1, eq_of_arguments_equal rest otherRest h hs.2]
      · rename_i hne
        exact absurd h hne
end

mutual
theorem expression_equals_defined :
    ∀ a b : Expression, a.sameArity b = true → ∃ r, expression_equals a b = some r
  | .unspecified, _, _ => ⟨false, by simp only [expression_equals]⟩
  | .construction index args, b, hs => by
    cases b with
    | construction otherIndex otherArgs =>
      simp only [Expression.sameArity] at hs
      simp only [expression_equals]
      split
      · exact ⟨false, rfl⟩
      · exact arguments_equal_defined args otherArgs hs
    | evaluation _ => exact ⟨false, by simp only [expression_equals]⟩
    | unspecified => exact ⟨false, by simp only [expression_equals]⟩
  | .evaluation e, b, hs => by
    cases b with
    | evaluation f =>
      simp only [Expression.sameArity] at hs
      simp only [expression_equals]
      exact evaluation_equals_defined e f hs
    | construction _ _ => exact ⟨false, by simp only [expression_equals]⟩
    | unspecified => exact ⟨false, by simp only [expression_equals]⟩
theorem evaluation_equals_defined :
    ∀ a b : Evaluation, a.sameArity b = true → ∃ r, evaluation_equals a b = some r
  | .reference index, b, _ => by
    cases b with
    | reference otherIndex => exact ⟨decide (index = otherIndex), by simp only [evaluation_equals]⟩
    | destruction _ _ _ => exact ⟨false, by simp only [evaluation_equals]⟩
  | .destruction caller index args, b, hs => by
    cases b with
    | reference _ => exact ⟨false, by simp only [evaluation_equals]⟩
    | destruction otherCaller otherIndex otherArgs =>
      simp only [Evaluation.sameArity, Bool.and_eq_true] at hs
      obtain ⟨r, hr⟩ := evaluation_equals_defined caller otherCaller hs.1
      simp only [evaluation_equals, hr]
      cases r with
      | false => exact ⟨false, rfl⟩
      | true =>
        simp only
        split
        · exact ⟨false, rfl⟩
        · exact arguments_equal_defined args otherArgs hs.2
theorem arguments_equal_defined :
    ∀ as bs : List Expression, sameArityList as bs = true → ∃ r, arguments_equal as bs = some r
  | [], _, _ => ⟨true, by simp only [arguments_equal]⟩
  | a :: rest, bs, hs => by
    cases bs with
    | nil => simp [sameArityList] at hs
    | cons b otherRest =>
      simp only [sameArityList, Bool.and_eq_true] at hs
      obtain ⟨r, hr⟩ := expression_equals_defined a b hs.1
      simp only [arguments_equal, hr]
      cases r with
      | false => exact ⟨false, rfl⟩
      | true => exact arguments_equal_defined rest otherRest hs.2
end

/-- C12 as stated fails: `expression_equals` does not compare argument counts.
The Construction of constructor 0 with no argument and the Construction of
constructor 0 with one argument contain no Unspecified node and differ, yet
`expression_equals` returns true on them. -/
theorem expression_equals_ignores_extra_arguments :
    (Expression.construction 0 []).specified = true ∧
    (Expression.construction 0 [.construction 0 []]).specified = true ∧
    expression_equals (.construction 0 []) (.construction 0 [.construction 0 []]) = some true ∧
    Expression.construction 0 [] ≠ Expression.construction 0 [.construction 0 []] := by
  refine ⟨rfl, rfl, rfl, ?_⟩
  intro h
  cases h

/-- C12, amended: for every two expressions `a` and `b` where `a` contains no
Unspecified node and the two have the same number of arguments at every pair of
corresponding nodes, `expression_equals(a, b)` returns true if and only if `a`
and `b` are structurally identical, and returns false if and only if they
differ. -/
theorem expression_equals_structural (a b : Expression) (ha : a.specified = true)
    (hs : a.sameArity b = true) :
    (expression_equals a b = some true ↔ a = b) ∧
    (expression_equals a b = some false ↔ a ≠ b) := by
  have h1 : expression_equals a b = some true ↔ a = b :=
    ⟨fun h => eq_of_expression_equals a b h hs, fun h => by
      subst h; exact expression_equals_self a ha⟩
  refine ⟨h1, ?_⟩
  obtain ⟨r, hr⟩ := expression_equals_defined a b hs
  constructor
  · intro hf hab
    rw [h1.2 hab] at hf
    cases hf
  · intro hab
    cases r with
    | false => exact hr
    | true => exact absurd (h1.1 hr) hab

theorem expression_equals_structural_witness :
    (expression_equals (numeral 2) (numeral 2) = some true ↔ numeral 2 = numeral 2) ∧
    (expression_equals (numeral 2) (numeral 2) = some false ↔ numeral 2 ≠ numeral 2) :=
  expression_equals_structural (numeral 2) (numeral 2) rfl rfl

mutual
theorem expression_duplicate_of_not_specified :
    ∀ e : Expression, e.specified = false → expression_duplicate e = none
  | .unspecified, _ => by simp only [expression_duplicate]
  | .construction index args, h => by
    simp only [Expression.specified] at h
    simp only [expression_duplicate, expressions_duplicate_of_not_specified args h]
  | .evaluation e, h => by
    simp only [Expression.specified] at h
    simp only [expression_duplicate, evaluation_duplicate_of_not_specified e h]
theorem evaluation_duplicate_of_not_specified :
    ∀ e : Evaluation, e.specified = false → evaluation_duplicate e = none
  | .reference index, h => by simp [Evaluation.specified] at h
  | .destruction caller index args, h => by
    simp only [Evaluation.specified, Bool.and_eq_false_iff] at h
    simp only [evaluation_duplicate]
    rcases h with h | h
    · simp only [evaluation_duplicate_of_not_specified caller h]
    · simp only [expressions_duplicate_of_not_specified args h]
      split <;> rfl
theorem expressions_duplicate_of_not_specified :
    ∀ es : List Expression, specifiedList es = false → expressions_duplicate es = none
  | [], h => by simp [specifiedList] at h
  | a :: rest, h => by
    simp only [specifiedList, Bool.and_eq_false_iff] at h
    simp only [expressions_duplicate]
    rcases h with h | h
    · simp only [expression_duplicate_of_not_specified a h]
    · simp only [expressions_duplicate_of_not_specified rest h]
      split <;> rfl
end

/-- C13: for every expression containing no Unspecified node,
`expression_duplicate` succeeds and returns a structurally identical expression,
on which `expression_equals` with the original is true; likewise for every
evaluation and `evaluation_duplicate`; and `expression_duplicate` fails on every
expression that is, or contains at any depth, an Unspecified node. -/
theorem expression_duplicate_deep_copy :
    (∀ e : Expression, e.specified = true →
      expression_duplicate e = some e ∧
      ∀ copy, expression_duplicate e = some copy → expression_equals e copy = some true) ∧
    (∀ v : Evaluation, v.specified = true →
      evaluation_duplicate v = some v ∧
      ∀ copy, evaluation_duplicate v = some copy → evaluation_equals v copy = some true) ∧
    (∀ e : Expression, e.specified = false → expression_duplicate e = none) := by
  refine ⟨fun e he => ⟨expression_duplicate_of_specified e he, fun copy hc => ?_⟩,
    fun v hv => ⟨evaluation_duplicate_of_specified v hv, fun copy hc => ?_⟩,
    expression_duplicate_of_not_specified⟩
  · rw [expression_duplicate_eq e copy hc]
    exact expression_equals_self e he
  · rw [evaluation_duplicate_eq v copy hc]
    exact evaluation_equals_self v hv

theorem expression_duplicate_deep_copy_witness :
    (expression_duplicate (numeral 2) = some (numeral 2) ∧
      ∀ copy, expression_duplicate (numeral 2) = some copy →
        expression_equals (numeral 2) copy = some true) ∧
    expression_duplicate (.construction 1 [.unspecified]) = none :=
  ⟨expression_duplicate_deep_copy.1 (numeral 2) rfl,
    expression_duplicate_deep_copy.2.2 (.construction 1 [.unspecified]) rfl⟩

/-! ## The initial module -/

/-- C19: `createEmptyModule` returns a module with exactly one matrix, whose
constructor list is the single constructor named `Type` with no parameter and
depth 0, and whose destructor list is empty. -/
theorem createEmptyModule_shape :
    createEmptyModule.matrices.length = 1 ∧
    ∃ matrix, createEmptyModule.matrices.get? 0 = some matrix ∧
      matrix.destructors = [] ∧
      ∃ constructor, matrix.constructors = [constructor] ∧
        constructor.name = "Type" ∧ constructor.parameterTypes = [] ∧ constructor.depth = 0 :=
  ⟨rfl, _, rfl, rfl, _, rfl, rfl, rfl, rfl⟩

/-! ## Scenario A: Booleans -/

/-- C11: Scenario A end to end.  Starting from the empty module, the six
declarations `Type | Bool ;`, `Bool | true ;`, `Bool | false ;`,
`Bool . not ~ Bool ;`, `Bool [true . not] ~ false ;`, `Bool [false . not] ~ true ;`
are each accepted by `parser_parseStatement`, write nothing, and lead to the
module `boolModule`; in that module the statement
`$ Bool [ $ Bool [ true ] . not ] ;` succeeds and writes `false` and a line feed,
and `$ Bool [ $ Bool [ false ] . not ] ;` succeeds and writes `true` and a line
feed.  This holds in every file system and working directory. -/
theorem scenario_booleans (fileSystem : FileSystem) (directory : String) :
    (∃ p1 m1 p2 m2 p3 m3 p4 m4 p5 m5 p6,
      parser_parseStatement 8 fileSystem directory
        (Parser.ofInput "Type | Bool ;".toList) createEmptyModule 0 = .ok p1 m1 "" ∧
      parser_parseStatement 8 fileSystem directory
        (Parser.ofInput "Bool | true ;".toList) m1 0 = .ok p2 m2 "" ∧
      parser_parseStatement 8 fileSystem directory
        (Parser.ofInput "Bool | false ;".toList) m2 0 = .ok p3 m3 "" ∧
      parser_parseStatement 8 fileSystem directory
        (Parser.ofInput "Bool . not ~ Bool ;".toList) m3 0 = .ok p4 m4 "" ∧
      parser_parseStatement 8 fileSystem directory
        (Parser.ofInput "Bool [true . not] ~ false ;".toList) m4 0 = .ok p5 m5 "" ∧
      parser_parseStatement 8 fileSystem directory
        (Parser.ofInput "Bool [false . not] ~ true ;".toList) m5 0 = .ok p6 boolModule "") ∧
    (∃ p, parser_parseStatement 8 fileSystem directory
      (Parser.ofInput "$ Bool [ $ Bool [ true ] . not ] ;".toList) boolModule 0
        = .ok p boolModule "false\n") ∧
    (∃ p, parser_parseStatement 8 fileSystem directory
      (Parser.ofInput "$ Bool [ $ Bool [ false ] . not ] ;".toList) boolModule 0
        = .ok p boolModule "true\n") :=
  ⟨⟨_, _, _, _, _, _, _, _, _, _, _, rfl, rfl, rfl, rfl, rfl, rfl⟩, ⟨_, rfl⟩, ⟨_, rfl⟩⟩

/-! ## Statements and the module -/

theorem isWordCharacter_not_special {c : Char} (h : isWordCharacter c = true) :
    c ≠ Char.ofNat 60 ∧ c ≠ Char.ofNat 64 ∧ c ≠ Char.ofNat 35 ∧ c ≠ Char.ofNat 36 ∧
      c ≠ Char.ofNat 63 ∧ c ≠ Char.ofNat 40 := by
  refine ⟨?_, ?_, ?_, ?_, ?_, ?_⟩ <;>
  · intro hc
    rw [hc] at h
    exact absurd h (by decide)

/-- A statement that begins with a word character is a declaration. -/
theorem parser_parseStatement_declaration (fuel : Nat) (fileSystem : FileSystem)
    (directory : String) (parser : Parser) (module : Module) (depth : Nat) {c : Char}
    (hnext : parser.next = some c) (hword : isWordCharacter c = true) :
    parser_parseStatement (fuel + 1) fileSystem directory parser module depth
      = parseDeclaration fuel module depth parser := by
  obtain ⟨h1, h2, h3, h4, _, _⟩ := isWordCharacter_not_special hword
  rw [parser_parseStatement]
  simp only [hnext, h1, h2, h3, h4, if_false, hword, if_true]

/-- A print statement leaves the module as it is. -/
theorem parsePrint_module {fuel : Nat} {module : Module} {parser p : Parser} {m' : Module}
    {out : String} (h : parsePrint fuel module parser = .ok p m' out) : m' = module := by
  unfold parsePrint at h
  simp only at h
  split at h
  · simp only [Run.ok.injEq] at h
    exact h.2.1.symm
  · exact absurd h (by simp)
  · exact absurd h (by simp)

/-- What a successful constructor declaration has done to the module. -/
theorem parseConstructorDeclaration_ok {fuel : Nat} {module : Module} {typeIndex : Nat}
    {pTypeParameters : List Parameter} {depth : Nat} {parser : Parser} {m' : Module}
    {p : Parser}
    (h : parseConstructorDeclaration fuel module typeIndex pTypeParameters depth parser
      = .ok (m', p)) :
    ∃ matrix constructor, module.matrices.get? typeIndex = some matrix ∧
      m' = module.addConstructor typeIndex constructor := by
  unfold parseConstructorDeclaration at h
  obtain ⟨matrix, hm, h⟩ := Outcome.bind_eq_ok.1 h
  simp only at h
  split at h
  · exact absurd h (by simp)
  · obtain ⟨result, _, h⟩ := Outcome.bind_eq_ok.1 h
    simp only [Outcome.ok.injEq, Prod.mk.injEq] at h
    exact ⟨matrix, _, Outcome.ofOption_eq_ok.1 hm, h.1.symm⟩

/-- What a successful destructor declaration has done to the module. -/
theorem parseDestructorDeclaration_ok {fuel : Nat} {module : Module} {typeIndex : Nat}
    {pTypeParameters : List Parameter} {depth : Nat} {parser : Parser} {m' : Module}
    {p : Parser}
    (h : parseDestructorDeclaration fuel module typeIndex pTypeParameters depth parser
      = .ok (m', p)) :
    ∃ matrix name parameterTypes returnType, module.matrices.get? typeIndex = some matrix ∧
      m' = module.addDestructor typeIndex depth name parameterTypes returnType := by
  unfold parseDestructorDeclaration at h
  obtain ⟨typeMatrix, _, h⟩ := Outcome.bind_eq_ok.1 h
  obtain ⟨matrix, hm, h⟩ := Outcome.bind_eq_ok.1 h
  simp only at h
  split at h
  · exact absurd h (by simp)
  · obtain ⟨result, _, h⟩ := Outcome.bind_eq_ok.1 h
    obtain ⟨returnType, _, h⟩ := Outcome.bind_eq_ok.1 h
    simp only [Outcome.ok.injEq, Prod.mk.injEq] at h
    exact ⟨matrix, _, _, _, Outcome.ofOption_eq_ok.1 hm, h.1.symm⟩

/-- What a successful rule statement has done to the module. -/
theorem parseRule_ok {fuel : Nat} {module : Module} {typeIndex : Nat}
    {pTypeParameters : List Parameter} {parser : Parser} {m' : Module} {p : Parser}
    (h : parseRule fuel module typeIndex pTypeParameters parser = .ok (m', p)) :
    ∃ destructorIndex constructorIndex rule,
      m' = module.setRule typeIndex destructorIndex constructorIndex rule := by
  unfold parseRule at h
  obtain ⟨matrix, _, h⟩ := Outcome.bind_eq_ok.1 h
  simp only at h
  obtain ⟨constructorIndex, _, h⟩ := Outcome.bind_eq_ok.1 h
  obtain ⟨constructor, _, h⟩ := Outcome.bind_eq_ok.1 h
  obtain ⟨constructorParameters, _, h⟩ := Outcome.bind_eq_ok.1 h
  split at h
  · obtain ⟨destructorIndex, _, h⟩ := Outcome.bind_eq_ok.1 h
    obtain ⟨destructor, _, h⟩ := Outcome.bind_eq_ok.1 h
    split at h
    · obtain ⟨destructorParameters, _, h⟩ := Outcome.bind_eq_ok.1 h
      split at h
      · split at h
        · obtain ⟨type, _, h⟩ := Outcome.bind_eq_ok.1 h
          obtain ⟨rule, _, h⟩ := Outcome.bind_eq_ok.1 h
          simp only [Outcome.ok.injEq, Prod.mk.injEq] at h
          exact ⟨_, _, _, h.1.symm⟩
        · exact absurd h (by simp)
      · exact absurd h (by simp)
    · exact absurd h (by simp)
  · exact absurd h (by simp)

/-- The family and the kind of a successful declaration, and the branch that
produced its module. -/
theorem parseDeclaration_ok {fuel : Nat} {module : Module} {depth : Nat} {parser p : Parser}
    {m' : Module} {out : String}
    (h : parseDeclaration fuel module depth parser = .ok p m' out) :
    ∃ typeMatrix typeIndex typeConstructor typeParameters result,
      module.matrices.get? 0 = some typeMatrix ∧
      findName (parser_parseName parser).1 (typeMatrix.constructors.map fun k => k.name)
        = some typeIndex ∧
      typeMatrix.constructors.get? typeIndex = some typeConstructor ∧
      parseTypeParameters typeConstructor.parameterTypes (parser_parseName parser).2
        = some typeParameters ∧
      ((typeParameters.2.next = some (Char.ofNat 124) ∧
          parseConstructorDeclaration fuel module typeIndex typeParameters.1 depth
            typeParameters.2 = .ok (m', result)) ∨
        (typeParameters.2.next = some (Char.ofNat 46) ∧
          parseDestructorDeclaration fuel module typeIndex typeParameters.1 depth
            typeParameters.2 = .ok (m', result)) ∨
        (typeParameters.2.next = some (Char.ofNat 91) ∧
          parseRule fuel module typeIndex typeParameters.1 typeParameters.2
            = .ok (m', result))) := by
  unfold parseDeclaration at h
  simp only at h
  split at h
  · exact absurd h (by simp)
  · rename_i typeMatrix h0
    split at h
    · exact absurd h (by simp)
    · rename_i typeIndex h1
      split at h
      · exact absurd h (by simp)
      · rename_i typeConstructor h2
        split at h
        · exact absurd h (by simp)
        · rename_i typeParameters h3
          split at h
          · rename_i result hd
            split at h
            · simp only [Run.ok.injEq] at h
              obtain ⟨_, hm, _⟩ := h
              subst hm
              refine ⟨typeMatrix, typeIndex, typeConstructor, typeParameters, result.2,
                h0, h1, h2, h3, ?_⟩
              by_cases c1 : typeParameters.2.next = some (Char.ofNat 124)
              · rw [if_pos c1] at hd
                exact Or.inl ⟨c1, hd⟩
              · rw [if_neg c1] at hd
                by_cases c2 : typeParameters.2.next = some (Char.ofNat 46)
                · rw [if_pos c2] at hd
                  exact Or.inr (Or.inl ⟨c2, hd⟩)
                · rw [if_neg c2] at hd
                  by_cases c3 : typeParameters.2.next = some (Char.ofNat 91)
                  · rw [if_pos c3] at hd
                    exact Or.inr (Or.inr ⟨c3, hd⟩)
                  · rw [if_neg c3] at hd
                    exact absurd hd (by simp)
            · exact absurd h (by simp)
          · exact absurd h (by simp)
          · exact absurd h (by simp)

/-- Every property of modules that successful declarations and successful calls
of `module_endNamespace` preserve is preserved by every successful statement,
statement loop and file. -/
theorem statements_preserve (P : Module → Prop)
    (hdecl : ∀ fuel module depth parser p m' out, P module →
      parseDeclaration fuel module depth parser = .ok p m' out → P m')
    (hend : ∀ module depth pNamespace m', P module →
      module_endNamespace module depth pNamespace = some m' → P m') :
    ∀ fuel : Nat,
      (∀ fileSystem directory parser module depth p m' out, P module →
        parser_parseStatement fuel fileSystem directory parser module depth = .ok p m' out →
        P m') ∧
      (∀ fileSystem directory parser module depth p m' out, P module →
        parseNamespaceStatements fuel fileSystem directory parser module depth
          = .ok p m' out → P m') ∧
      (∀ fileSystem directory parser module depth u m' out, P module →
        parseFileStatements fuel fileSystem directory parser module depth = .ok u m' out →
        P m') ∧
      (∀ fileSystem directory pFileName module depth u m' out, P module →
        parseFile fuel fileSystem directory pFileName module depth = .ok u m' out → P m')
  | 0 => by
    refine ⟨?_, ?_, ?_, ?_⟩ <;>
    · intro _ _ _ _ _ _ _ _ _ h
      first
        | rw [parser_parseStatement] at h
        | rw [parseNamespaceStatements] at h
        | rw [parseFileStatements] at h
        | rw [parseFile] at h
      exact absurd h (by simp)
  | fuel + 1 => by
    obtain ⟨ihS, ihN, ihF, ihP⟩ := statements_preserve P hdecl hend fuel
    refine ⟨?_, ?_, ?_, ?_⟩
    · intro fileSystem directory parser module depth p m' out hP h
      rw [parser_parseStatement] at h
      split at h
      · exact absurd h (by simp)
      · split at h
        · split at h
          · split at h
            · split at h
              · rename_i hfile
                simp only [Run.ok.injEq] at h
                rw [← h.2.1]
                exact ihP _ _ _ _ _ _ _ _ hP hfile
              · exact absurd h (by simp)
              · exact absurd h (by simp)
            · exact absurd h (by simp)
          · exact absurd h (by simp)
          · exact absurd h (by simp)
        · split at h
          · simp only at h
            split at h
            · split at h
              · rename_i hinner
                split at h
                · exact absurd h (by simp)
                · rename_i closedModule hclosed
                  split at h
                  · simp only [Run.ok.injEq] at h
                    rw [← h.2.1]
                    exact hend _ _ _ _ (ihN _ _ _ _ _ _ _ _ hP hinner) hclosed
                  · exact absurd h (by simp)
              · exact absurd h (by simp)
              · exact absurd h (by simp)
            · exact absurd h (by simp)
          · split at h
            · simp only [Run.ok.injEq] at h
              rw [← h.2.1]
              exact hP
            · split at h
              · rw [parsePrint_module h]
                exact hP
              · split at h
                · exact hdecl _ _ _ _ _ _ _ hP h
                · exact absurd h (by simp)
    · intro fileSystem directory parser module depth p m' out hP h
      rw [parseNamespaceStatements] at h
      split at h
      · simp only [Run.ok.injEq] at h
        rw [← h.2.1]
        exact hP
      · split at h
        · rename_i hfirst
          split at h
          · rename_i hrest
            simp only [Run.ok.injEq] at h
            rw [← h.2.1]
            exact ihN _ _ _ _ _ _ _ _ (ihS _ _ _ _ _ _ _ _ hP hfirst) hrest
          · exact absurd h (by simp)
          · exact absurd h (by simp)
        · exact absurd h (by simp)
        · exact absurd h (by simp)
    · intro fileSystem directory parser module depth u m' out hP h
      rw [parseFileStatements] at h
      split at h
      · simp only [Run.ok.injEq] at h
        rw [← h.2.1]
        exact hP
      · split at h
        · rename_i hfirst
          split at h
          · rename_i hrest
            simp only [Run.ok.injEq] at h
            rw [← h.2.1]
            exact ihF _ _ _ _ _ _ _ _ (ihS _ _ _ _ _ _ _ _ hP hfirst) hrest
          · exact absurd h (by simp)
          · exact absurd h (by simp)
        · exact absurd h (by simp)
        · exact absurd h (by simp)
    · intro fileSystem directory pFileName module depth u m' out hP h
      rw [parseFile] at h
      split at h
      · split at h
        · exact absurd h (by simp)
        · split at h
          · rename_i hinner
            split at h
            · simp only [Run.ok.injEq] at h
              rw [← h.2.1]
              exact ihP _ _ _ _ _ _ _ _ hP hinner
            · exact absurd h (by simp)
          · exact absurd h (by simp)
          · exact absurd h (by simp)
      · split at h
        · exact absurd h (by simp)
        · exact ihF _ _ _ _ _ _ _ _ hP h

/-! ## The shape invariants of the module -/

theorem length_modifyAt {α : Type} (f : α → α) :
    ∀ (n : Nat) (l : List α), (modifyAt f n l).length = l.length
  | 0, [] => rfl
  | _ + 1, [] => rfl
  | 0, _ :: _ => rfl
  | n + 1, _ :: rest => by
    simp only [modifyAt, List.length_cons, length_modifyAt f n rest]

theorem mem_modifyAt {α : Type} (f : α → α) :
    ∀ (n : Nat) (l : List α) (x : α), x ∈ modifyAt f n l → x ∈ l ∨ ∃ a ∈ l, x = f a
  | _, [], x, h => by simp [modifyAt] at h
  | 0, a :: rest, x, h => by
    simp only [modifyAt, List.mem_cons] at h
    rcases h with h | h
    · exact Or.inr ⟨a, List.mem_cons_self _ _, h⟩
    · exact Or.inl (List.mem_cons_of_mem _ h)
  | n + 1, a :: rest, x, h => by
    simp only [modifyAt, List.mem_cons] at h
    rcases h with h | h
    · exact Or.inl (by rw [h]; exact List.mem_cons_self _ _)
    · rcases mem_modifyAt f n rest x h with h | ⟨b, hb, hx⟩
      · exact Or.inl (List.mem_cons_of_mem _ h)
      · exact Or.inr ⟨b, List.mem_cons_of_mem _ hb, hx⟩

theorem get?_modifyAt {α : Type} (f : α → α) :
    ∀ (n : Nat) (l : List α) (i : Nat),
      (modifyAt f n l).get? i = if i = n then (l.get? i).map f else l.get? i
  | _, [], i => by simp [modifyAt]
  | 0, a :: rest, 0 => by simp [modifyAt]
  | 0, a :: rest, i + 1 => by simp [modifyAt]
  | n + 1, a :: rest, 0 => by simp [modifyAt]
  | n + 1, a :: rest, i + 1 => by
    simp only [modifyAt, List.get?_cons_succ, get?_modifyAt f n rest i, Nat.add_right_cancel_iff]

theorem ruleTablesShaped_addConstructor {module : Module} (typeIndex : Nat)
    (constructor : Constructor) (h : module.ruleTablesShaped) :
    (module.addConstructor typeIndex constructor).ruleTablesShaped := by
  intro matrix hm destructor hd
  simp only [Module.addConstructor, List.mem_append] at hm
  rcases hm with hm | hm
  · rcases mem_modifyAt _ _ _ _ hm with hm | ⟨a, ha, hx⟩
    · exact h matrix hm destructor hd
    · subst hx
      simp only [Matrix.addConstructor, List.mem_map] at hd
      obtain ⟨d, hd', rfl⟩ := hd
      simp only [Matrix.addConstructor, reallocRules, List.length_set, List.length_append,
        List.length_take, List.length_replicate, List.length_singleton]
      omega
  · split at hm
    · simp only [List.mem_singleton] at hm
      subst hm
      simp at hd
    · simp at hm

theorem ruleTablesShaped_addDestructor {module : Module} (typeIndex depth : Nat)
    (name : String) (parameterTypes : List Expression) (returnType : Expression)
    (h : module.ruleTablesShaped) :
    (module.addDestructor typeIndex depth name parameterTypes returnType).ruleTablesShaped := by
  intro matrix hm destructor hd
  simp only [Module.addDestructor] at hm
  rcases mem_modifyAt _ _ _ _ hm with hm | ⟨a, ha, hx⟩
  · exact h matrix hm destructor hd
  · subst hx
    simp only [Matrix.addDestructor, List.mem_append, List.mem_singleton] at hd
    rcases hd with hd | hd
    · exact h a ha destructor hd
    · subst hd
      simp only [Matrix.addDestructor, List.length_replicate]

theorem ruleTablesShaped_setRule {module : Module} (typeIndex destructorIndex
    constructorIndex : Nat) (rule : Expression) (h : module.ruleTablesShaped) :
    (module.setRule typeIndex destructorIndex constructorIndex rule).ruleTablesShaped := by
  intro matrix hm destructor hd
  simp only [Module.setRule] at hm
  rcases mem_modifyAt _ _ _ _ hm with hm | ⟨a, ha, hx⟩
  · exact h matrix hm destructor hd
  · subst hx
    simp only at hd
    rcases mem_modifyAt _ _ _ _ hd with hd' | ⟨d, hd', hx⟩
    · exact h a ha destructor hd'
    · subst hx
      simp only [List.length_set, h a ha d hd']

/-- What a successful `module_endNamespace` has done to the matrices: each is the
image of the matrix of the same index under `Matrix.endNamespace`. -/
theorem endNamespaceMatrices_ok (depth : Nat) (pNamespace : String) :
    ∀ (matrices : List Matrix) (families : List Constructor) (out : List Matrix),
      endNamespaceMatrices depth pNamespace matrices families = some out →
      List.Forall₂ (fun a x => ∃ familyDepth, x = a.endNamespace familyDepth depth pNamespace)
        matrices out
  | [], _, out, h => by
    simp only [endNamespaceMatrices, Option.some.injEq] at h
    subst h
    exact List.Forall₂.nil
  | _ :: _, [], out, h => by simp [endNamespaceMatrices] at h
  | matrix :: matrices, family :: families, out, h => by
    simp only [endNamespaceMatrices] at h
    split at h
    · exact absurd h (by simp)
    · rename_i rest hrest
      simp only [Option.some.injEq] at h
      subst h
      exact List.Forall₂.cons ⟨_, rfl⟩ (endNamespaceMatrices_ok depth pNamespace _ _ _ hrest)

theorem module_endNamespace_ok {module : Module} {depth : Nat} {pNamespace : String}
    {m' : Module} (h : module_endNamespace module depth pNamespace = some m') :
    List.Forall₂ (fun a x => ∃ familyDepth, x = a.endNamespace familyDepth depth pNamespace)
      module.matrices m'.matrices := by
  unfold module_endNamespace at h
  split at h
  · rename_i hnil
    simp only [Option.some.injEq] at h
    subst h
    rw [hnil]
    exact List.Forall₂.nil
  · split at h
    · exact absurd h (by simp)
    · rename_i matrices hm
      simp only [Option.some.injEq] at h
      subst h
      exact endNamespaceMatrices_ok depth pNamespace _ _ _ hm

theorem mem_of_forall₂_right {α β : Type} {R : α → β → Prop} :
    ∀ {l : List α} {l' : List β}, List.Forall₂ R l l' → ∀ x ∈ l', ∃ a ∈ l, R a x
  | _, _, .nil, x, hx => by simp at hx
  | _, _, .cons hr hrest, x, hx => by
    simp only [List.mem_cons] at hx
    rcases hx with hx | hx
    · subst hx
      exact ⟨_, List.mem_cons_self _ _, hr⟩
    · obtain ⟨a, ha, hra⟩ := mem_of_forall₂_right hrest x hx
      exact ⟨a, List.mem_cons_of_mem _ ha, hra⟩

theorem ruleTablesShaped_endNamespace {module : Module} {depth : Nat} {pNamespace : String}
    {m' : Module} (h : module.ruleTablesShaped)
    (hend : module_endNamespace module depth pNamespace = some m') : m'.ruleTablesShaped := by
  intro matrix hm destructor hd
  obtain ⟨a, ha, familyDepth, hx⟩ := mem_of_forall₂_right (module_endNamespace_ok hend) matrix hm
  subst hx
  simp only [Matrix.endNamespace, List.mem_map] at hd
  obtain ⟨d, hd', rfl⟩ := hd
  simp only [Matrix.endNamespace, List.length_map]
  exact h a ha d hd'

theorem ruleTablesShaped_declaration {fuel : Nat} {module : Module} {depth : Nat}
    {parser p : Parser} {m' : Module} {out : String} (h : module.ruleTablesShaped)
    (hok : parseDeclaration fuel module depth parser = .ok p m' out) :
    m'.ruleTablesShaped := by
  obtain ⟨_, typeIndex, _, _, _, _, _, _, _, hbranch⟩ := parseDeclaration_ok hok
  rcases hbranch with ⟨_, hb⟩ | ⟨_, hb⟩ | ⟨_, hb⟩
  · obtain ⟨_, _, _, rfl⟩ := parseConstructorDeclaration_ok hb
    exact ruleTablesShaped_addConstructor _ _ h
  · obtain ⟨_, _, _, _, _, rfl⟩ := parseDestructorDeclaration_ok hb
    exact ruleTablesShaped_addDestructor _ _ _ _ _ h
  · obtain ⟨_, _, _, rfl⟩ := parseRule_ok hb
    exact ruleTablesShaped_setRule _ _ _ _ h

theorem ruleTablesShaped_createEmptyModule : createEmptyModule.ruleTablesShaped := by
  intro matrix hm destructor hd
  simp only [createEmptyModule, List.mem_singleton] at hm
  subst hm
  simp at hd

theorem ruleTablesShaped_of_reachable {module : Module} (h : Reachable module) :
    module.ruleTablesShaped := by
  induction h with
  | empty => exact ruleTablesShaped_createEmptyModule
  | statement fuel fileSystem directory parser module depth next newModule output _ hs ih =>
    exact (statements_preserve Module.ruleTablesShaped
      (fun _ _ _ _ _ _ _ hP hd => ruleTablesShaped_declaration hP hd)
      (fun _ _ _ _ hP he => ruleTablesShaped_endNamespace hP he) fuel).1
      _ _ _ _ _ _ _ _ ih hs
  | endNamespace module depth pNamespace newModule _ he ih =>
    exact ruleTablesShaped_endNamespace ih he

/-! ## Reachable modules -/

/-- The module of Scenario A is reachable. -/
theorem reachable_boolModule : Reachable boolModule := by
  have h1 := Reachable.statement 8 emptyFileSystem ""
    (Parser.ofInput "Type | Bool ;".toList) createEmptyModule 0 _ _ _ Reachable.empty rfl
  have h2 := Reachable.statement 8 emptyFileSystem ""
    (Parser.ofInput "Bool | true ;".toList) _ 0 _ _ _ h1 rfl
  have h3 := Reachable.statement 8 emptyFileSystem ""
    (Parser.ofInput "Bool | false ;".toList) _ 0 _ _ _ h2 rfl
  have h4 := Reachable.statement 8 emptyFileSystem ""
    (Parser.ofInput "Bool . not ~ Bool ;".toList) _ 0 _ _ _ h3 rfl
  have h5 := Reachable.statement 8 emptyFileSystem ""
    (Parser.ofInput "Bool [true . not] ~ false ;".toList) _ 0 _ _ _ h4 rfl
  exact Reachable.statement 8 emptyFileSystem ""
    (Parser.ofInput "Bool [false . not] ~ true ;".toList) _ 0 _ boolModule _ h5 rfl

/-- C17: rule-table shape.  In every module reachable from `createEmptyModule`
by successful calls of `parser_parseStatement` and of `module_endNamespace`,
every destructor of every matrix has exactly as many rule entries as the matrix
has constructors. -/
theorem rule_table_shape (module : Module) (h : Reachable module) :
    ∀ matrix ∈ module.matrices, ∀ destructor ∈ matrix.destructors,
      destructor.rules.length = matrix.constructors.length :=
  ruleTablesShaped_of_reachable h

theorem rule_table_shape_witness :
    Reachable boolModule ∧
    ∀ matrix ∈ boolModule.matrices, ∀ destructor ∈ matrix.destructors,
      destructor.rules.length = matrix.constructors.length :=
  ⟨reachable_boolModule, rule_table_shape boolModule reachable_boolModule⟩

/-! ## Families and matrices -/

theorem get?_zero_addConstructor {module : Module} {typeMatrix : Matrix} (typeIndex : Nat)
    (constructor : Constructor) (h0 : module.matrices.get? 0 = some typeMatrix) :
    (module.addConstructor typeIndex constructor).matrices.get? 0
      = if 0 = typeIndex then some (typeMatrix.addConstructor constructor)
        else some typeMatrix := by
  have hpos : 0 < (modifyAt (fun matrix : Matrix => matrix.addConstructor constructor)
      typeIndex module.matrices).length := by
    rw [length_modifyAt]
    exact Nat.pos_of_ne_zero fun hz => by
      rw [List.length_eq_zero] at hz
      rw [hz] at h0
      simp at h0
  simp only [Module.addConstructor, List.get?_eq_getElem?]
  rw [List.getElem?_append_left hpos, ← List.get?_eq_getElem?, get?_modifyAt, h0]
  simp

theorem familiesMatch_addConstructor {module : Module} {typeIndex : Nat}
    (constructor : Constructor) (h : module.familiesMatch) :
    (module.addConstructor typeIndex constructor).familiesMatch := by
  obtain ⟨typeMatrix, h0, hlen⟩ := h
  have hget := get?_zero_addConstructor typeIndex constructor h0
  by_cases hz : typeIndex = 0
  · subst hz
    refine ⟨typeMatrix.addConstructor constructor, by rw [hget, if_pos rfl], ?_⟩
    simp only [Module.addConstructor, if_true, List.length_append, length_modifyAt,
      List.length_singleton, Matrix.addConstructor, hlen]
  · refine ⟨typeMatrix, by rw [hget, if_neg (Ne.symm hz)], ?_⟩
    simp only [Module.addConstructor, if_neg hz, List.append_nil, length_modifyAt, hlen]

theorem familiesMatch_modifyAt {module : Module} {typeIndex : Nat} (f : Matrix → Matrix)
    (hf : ∀ matrix, (f matrix).constructors = matrix.constructors) (h : module.familiesMatch) :
    Module.familiesMatch { matrices := modifyAt f typeIndex module.matrices } := by
  obtain ⟨typeMatrix, h0, hlen⟩ := h
  by_cases hz : 0 = typeIndex
  · refine ⟨f typeMatrix, ?_, ?_⟩
    · simp only [get?_modifyAt, if_pos hz, h0, Option.map_some']
    · simp only [length_modifyAt, hf, hlen]
  · refine ⟨typeMatrix, ?_, ?_⟩
    · simp only [get?_modifyAt, if_neg hz, h0]
    · simp only [length_modifyAt, hlen]

theorem familiesMatch_endNamespace {module : Module} {depth : Nat} {pNamespace : String}
    {m' : Module} (h : module.familiesMatch)
    (hend : module_endNamespace module depth pNamespace = some m') : m'.familiesMatch := by
  obtain ⟨typeMatrix, h0, hlen⟩ := h
  have hall := module_endNamespace_ok hend
  have hl := hall.length_eq
  obtain ⟨matrices⟩ := module
  obtain ⟨matrices'⟩ := m'
  simp only at h0 hlen hall hl
  cases hall with
  | nil => simp at h0
  | cons hr hrest =>
    obtain ⟨familyDepth, hx⟩ := hr
    simp only [List.get?_cons_zero, Option.some.injEq] at h0
    refine ⟨_, rfl, ?_⟩
    rw [← hl, hlen, hx, ← h0]
    simp only [Matrix.endNamespace, List.length_map]

theorem familiesMatch_declaration {fuel : Nat} {module : Module} {depth : Nat}
    {parser p : Parser} {m' : Module} {out : String} (h : module.familiesMatch)
    (hok : parseDeclaration fuel module depth parser = .ok p m' out) :
    m'.familiesMatch := by
  obtain ⟨_, typeIndex, _, _, _, _, _, _, _, hbranch⟩ := parseDeclaration_ok hok
  rcases hbranch with ⟨_, hb⟩ | ⟨_, hb⟩ | ⟨_, hb⟩
  · obtain ⟨_, _, _, rfl⟩ := parseConstructorDeclaration_ok hb
    exact familiesMatch_addConstructor _ h
  · obtain ⟨_, _, _, _, _, rfl⟩ := parseDestructorDeclaration_ok hb
    exact familiesMatch_modifyAt _ (fun _ => rfl) h
  · obtain ⟨_, _, _, rfl⟩ := parseRule_ok hb
    exact familiesMatch_modifyAt _ (fun _ => rfl) h

theorem familiesMatch_of_reachable {module : Module} (h : Reachable module) :
    module.familiesMatch := by
  induction h with
  | empty => exact ⟨_, rfl, rfl⟩
  | statement fuel fileSystem directory parser module depth next newModule output _ hs ih =>
    exact (statements_preserve Module.familiesMatch
      (fun _ _ _ _ _ _ _ hP hd => familiesMatch_declaration hP hd)
      (fun _ _ _ _ hP he => familiesMatch_endNamespace hP he) fuel).1
      _ _ _ _ _ _ _ _ ih hs
  | endNamespace module depth pNamespace newModule _ he ih =>
    exact familiesMatch_endNamespace ih he

/-- C18: family/matrix correspondence.  In every module reachable from
`createEmptyModule` by successful statements, the number of matrices is the
number of constructors of matrix 0.  A successful declaration statement whose
family name resolves to index 0 (`Type`) and whose kind is a constructor (`|`)
yields the matrices of a module of the old length followed by exactly one
matrix with no constructor and no destructor; every other successful
declaration statement (a constructor of another family, a destructor, a rule)
leaves the number of matrices unchanged. -/
theorem family_matrix_correspondence :
    (∀ module, Reachable module →
      ∃ typeMatrix, module.matrices.get? 0 = some typeMatrix ∧
        module.matrices.length = typeMatrix.constructors.length) ∧
    (∀ fuel fileSystem directory parser module depth c p m' out,
      parser.next = some c → isWordCharacter c = true →
      parser_parseStatement (fuel + 1) fileSystem directory parser module depth
        = .ok p m' out →
      ∃ typeMatrix typeIndex typeConstructor typeParameters,
        module.matrices.get? 0 = some typeMatrix ∧
        findName (parser_parseName parser).1 (typeMatrix.constructors.map fun k => k.name)
          = some typeIndex ∧
        typeMatrix.constructors.get? typeIndex = some typeConstructor ∧
        parseTypeParameters typeConstructor.parameterTypes (parser_parseName parser).2
          = some typeParameters ∧
        ((typeIndex = 0 ∧ typeParameters.2.next = some (Char.ofNat 124)) →
          ∃ front, m'.matrices = front ++ [{ constructors := [], destructors := [] }] ∧
            front.length = module.matrices.length) ∧
        (¬ (typeIndex = 0 ∧ typeParameters.2.next = some (Char.ofNat 124)) →
          m'.matrices.length = module.matrices.length)) := by
  refine ⟨fun module h => familiesMatch_of_reachable h, ?_⟩
  intro fuel fileSystem directory parser module depth c p m' out hnext hword hok
  rw [parser_parseStatement_declaration fuel fileSystem directory parser module depth
    hnext hword] at hok
  obtain ⟨typeMatrix, typeIndex, typeConstructor, typeParameters, result, h0, h1, h2, h3,
    hbranch⟩ := parseDeclaration_ok hok
  refine ⟨typeMatrix, typeIndex, typeConstructor, typeParameters, h0, h1, h2, h3, ?_, ?_⟩
  · rintro ⟨hz, hbar⟩
    have hne1 : ¬ typeParameters.2.next = some (Char.ofNat 46) := by
      rw [hbar]; decide
    have hne2 : ¬ typeParameters.2.next = some (Char.ofNat 91) := by
      rw [hbar]; decide
    rcases hbranch with ⟨_, hb⟩ | ⟨hc, _⟩ | ⟨hc, _⟩
    · obtain ⟨_, constructor, _, rfl⟩ := parseConstructorDeclaration_ok hb
      refine ⟨modifyAt (fun matrix => matrix.addConstructor constructor) typeIndex
        module.matrices, ?_, length_modifyAt _ _ _⟩
      simp only [Module.addConstructor, if_pos hz]
    · exact absurd hc hne1
    · exact absurd hc hne2
  · intro hnot
    rcases hbranch with ⟨hc, hb⟩ | ⟨_, hb⟩ | ⟨_, hb⟩
    · obtain ⟨_, constructor, _, rfl⟩ := parseConstructorDeclaration_ok hb
      have hz : ¬ typeIndex = 0 := fun hz => hnot ⟨hz, hc⟩
      simp only [Module.addConstructor, if_neg hz, List.append_nil, length_modifyAt]
    · obtain ⟨_, _, _, _, _, rfl⟩ := parseDestructorDeclaration_ok hb
      simp only [Module.addDestructor, length_modifyAt]
    · obtain ⟨_, _, _, rfl⟩ := parseRule_ok hb
      simp only [Module.setRule, length_modifyAt]

theorem family_matrix_correspondence_witness :
    (∃ typeMatrix, boolModule.matrices.get? 0 = some typeMatrix ∧
      boolModule.matrices.length = typeMatrix.constructors.length) ∧
    (∃ typeMatrix typeIndex typeConstructor typeParameters,
      createEmptyModule.matrices.get? 0 = some typeMatrix ∧
      findName (parser_parseName (Parser.ofInput "Type | Bool ;".toList)).1
        (typeMatrix.constructors.map fun k => k.name) = some typeIndex ∧
      typeMatrix.constructors.get? typeIndex = some typeConstructor ∧
      parseTypeParameters typeConstructor.parameterTypes
        (parser_parseName (Parser.ofInput "Type | Bool ;".toList)).2 = some typeParameters ∧
      ((typeIndex = 0 ∧ typeParameters.2.next = some (Char.ofNat 124)) →
        ∃ front,
          (createEmptyModule.addConstructor 0 ⟨0, "Bool", []⟩).matrices
            = front ++ [{ constructors := [], destructors := [] }] ∧
          front.length = createEmptyModule.matrices.length) ∧
      (¬ (typeIndex = 0 ∧ typeParameters.2.next = some (Char.ofNat 124)) →
        (createEmptyModule.addConstructor 0 ⟨0, "Bool", []⟩).matrices.length
          = createEmptyModule.matrices.length)) :=
  ⟨family_matrix_correspondence.1 boolModule reachable_boolModule,
    family_matrix_correspondence.2 7 emptyFileSystem ""
      (Parser.ofInput "Type | Bool ;".toList) createEmptyModule 0 (Char.ofNat 84)
      ⟨[], 1, 14⟩
      (createEmptyModule.addConstructor 0 ⟨0, "Bool", []⟩) "" rfl rfl rfl⟩

/-! ## Destructors of matrix 0 -/

/-- C20 as stated fails.  From the empty module the statement `Type . t ~ Type ;`,
a destructor declaration whose family name is `Type`, is accepted, and in the
module it yields, which is reachable, matrix 0 has one destructor. -/
theorem type_destructor_accepted :
    ∃ p module typeMatrix,
      parser_parseStatement 8 emptyFileSystem "" (Parser.ofInput "Type . t ~ Type ;".toList)
        createEmptyModule 0 = .ok p module "" ∧
      Reachable module ∧
      module.matrices.get? 0 = some typeMatrix ∧
      typeMatrix.destructors.map (fun d => d.name) = ["t"] :=
  ⟨_, _, _, rfl,
    Reachable.statement 8 emptyFileSystem "" (Parser.ofInput "Type . t ~ Type ;".toList)
      createEmptyModule 0 _ _ _ Reachable.empty rfl,
    rfl, rfl⟩

/-- C20, amended: in a module whose matrix 0 has no destructor, a successful
declaration statement yields a module whose matrix 0 has no destructor, unless
it is a destructor declaration (`.`) whose family name resolves to index 0
(`Type`); and a successful `module_endNamespace` yields a module whose matrix 0
has no destructor. -/
theorem type_destructors_preserved :
    (∀ fuel fileSystem directory parser module depth c p m' out typeMatrix,
      parser.next = some c → isWordCharacter c = true →
      module.matrices.get? 0 = some typeMatrix → typeMatrix.destructors = [] →
      parser_parseStatement (fuel + 1) fileSystem directory parser module depth
        = .ok p m' out →
      (∀ typeConstructor typeParameters,
        findName (parser_parseName parser).1 (typeMatrix.constructors.map fun k => k.name)
          = some 0 →
        typeMatrix.constructors.get? 0 = some typeConstructor →
        parseTypeParameters typeConstructor.parameterTypes (parser_parseName parser).2
          = some typeParameters →
        typeParameters.2.next ≠ some (Char.ofNat 46)) →
      ∃ newTypeMatrix, m'.matrices.get? 0 = some newTypeMatrix ∧
        newTypeMatrix.destructors = []) ∧
    (∀ module depth pNamespace m' typeMatrix,
      module.matrices.get? 0 = some typeMatrix → typeMatrix.destructors = [] →
      module_endNamespace module depth pNamespace = some m' →
      ∃ newTypeMatrix, m'.matrices.get? 0 = some newTypeMatrix ∧
        newTypeMatrix.destructors = []) := by
  constructor
  · intro fuel fileSystem directory parser module depth c p m' out typeMatrix hnext hword
      h0 hempty hok hother
    rw [parser_parseStatement_declaration fuel fileSystem directory parser module depth
      hnext hword] at hok
    obtain ⟨typeMatrix', typeIndex, typeConstructor, typeParameters, result, h0', h1, h2, h3,
      hbranch⟩ := parseDeclaration_ok hok
    rw [h0] at h0'
    simp only [Option.some.injEq] at h0'
    subst h0'
    rcases hbranch with ⟨_, hb⟩ | ⟨hc, hb⟩ | ⟨_, hb⟩
    · obtain ⟨_, constructor, _, rfl⟩ := parseConstructorDeclaration_ok hb
      rw [get?_zero_addConstructor typeIndex constructor h0]
      split
      · exact ⟨_, rfl, by simp only [Matrix.addConstructor, hempty, List.map_nil]⟩
      · exact ⟨_, rfl, hempty⟩
    · obtain ⟨_, _, _, _, _, rfl⟩ := parseDestructorDeclaration_ok hb
      have hz : ¬ 0 = typeIndex := by
        intro hz
        subst hz
        exact hother typeConstructor typeParameters h1 h2 h3 hc
      simp only [Module.addDestructor, get?_modifyAt, if_neg hz, h0]
      exact ⟨_, rfl, hempty⟩
    · obtain ⟨_, _, _, rfl⟩ := parseRule_ok hb
      simp only [Module.setRule, get?_modifyAt, h0]
      split
      · exact ⟨_, rfl, by simp only [hempty, modifyAt]⟩
      · exact ⟨_, rfl, hempty⟩
  · intro module depth pNamespace m' typeMatrix h0 hempty hend
    have hall := module_endNamespace_ok hend
    obtain ⟨matrices⟩ := module
    obtain ⟨matrices'⟩ := m'
    simp only at h0 hall
    cases hall with
    | nil => simp at h0
    | cons hr hrest =>
      obtain ⟨familyDepth, hx⟩ := hr
      simp only [List.get?_cons_zero, Option.some.injEq] at h0
      refine ⟨_, rfl, ?_⟩
      rw [hx, h0]
      simp only [Matrix.endNamespace, hempty, List.map_nil]

theorem type_destructors_preserved_witness :
    (∃ newTypeMatrix,
      (createEmptyModule.addConstructor 0 ⟨0, "Bool", []⟩).matrices.get? 0
        = some newTypeMatrix ∧
      newTypeMatrix.destructors = []) ∧
    (∃ newTypeMatrix, boolModule.matrices.get? 0 = some newTypeMatrix ∧
      newTypeMatrix.destructors = []) :=
  ⟨type_destructors_preserved.1 7 emptyFileSystem "" (Parser.ofInput "Type | Bool ;".toList)
      createEmptyModule 0 (Char.ofNat 84) ⟨[], 1, 14⟩
      (createEmptyModule.addConstructor 0 ⟨0, "Bool", []⟩) ""
      ⟨[⟨0, "Type", []⟩], []⟩ rfl rfl rfl rfl rfl
      (fun typeConstructor typeParameters _ h2 h3 => by
        cases h2
        cases h3
        decide),
    type_destructors_preserved.2 boolModule 1 "space" boolModule _ rfl rfl rfl⟩

/-! ## The type check of the elaborator -/

theorem Outcome.bind_assoc {α β γ : Type} (x : Outcome α) (f : α → Outcome β)
    (g : β → Outcome γ) : (x.bind f).bind g = x.bind fun a => (f a).bind g := by
  cases x <;> rfl

/-- An evaluation form is read by `parser_parseEvaluation` up to its closing
bracket and closed by `closeEvaluation`. -/
theorem parser_parseExpression_evaluation (fuel : Nat) (module : Module)
    (pParameters : List Parameter) (type : Expression) (parser : Parser)
    (hform : parser.next = some (Char.ofNat 36) ∨ parser.next = some (Char.ofNat 40)) :
    parser_parseExpression (fuel + 1) module pParameters type parser
      = (parser_parseEvaluation fuel module pParameters parser).bind fun read =>
          closeEvaluation read.2.1 type read.1 read.2.2 := by
  have w36 : isWordCharacter (Char.ofNat 36) = false := by decide
  have w40 : isWordCharacter (Char.ofNat 40) = false := by decide
  have n36 : ¬ Char.ofNat 36 = Char.ofNat 63 := by decide
  have n40 : ¬ Char.ofNat 40 = Char.ofNat 63 := by decide
  have n4036 : ¬ Char.ofNat 40 = Char.ofNat 36 := by decide
  rw [parser_parseExpression, parser_parseEvaluation]
  rcases hform with h | h
  · simp only [h, w36, n36, Bool.false_or, decide_False, if_false, if_true,
      Bool.false_eq_true, Outcome.bind_assoc]
    congr 1
    funext callerType
    split
    · simp only [Outcome.bind_assoc]
      rfl
    · rfl
  · have h' : ¬ some (Char.ofNat 40) = some (Char.ofNat 36) := by decide
    simp only [h, w40, n40, n4036, h', Bool.false_or, decide_False, if_false, if_true,
      Bool.false_eq_true]
    split
    · rfl
    · simp only [Outcome.bind_assoc]
      rfl

/-- C14: the type check of the elaborator.  When `parser_parseExpression` reads
an evaluation form (annotated, `$`, or parameter, `(`), it succeeds only if the
form has been read up to its closing bracket with a final caller whose type
`expression_equals` finds equal to the expected type, and the expression it
returns is that caller's value; if the type of the final caller is not equal to
the expected type it fails; and if the types are equal and the closing bracket
is the one the form requires, it succeeds. -/
theorem parser_parseExpression_type_check (fuel : Nat) (module : Module)
    (pParameters : List Parameter) (type : Expression) (parser : Parser)
    (hform : parser.next = some (Char.ofNat 36) ∨ parser.next = some (Char.ofNat 40)) :
    (∀ expression next,
      parser_parseExpression (fuel + 1) module pParameters type parser
        = .ok (expression, next) →
      ∃ caller isAnnotation closing,
        parser_parseEvaluation fuel module pParameters parser
          = .ok (caller, isAnnotation, closing) ∧
        expression_equals caller.type type = some true ∧ expression = caller.value) ∧
    (∀ caller isAnnotation closing,
      parser_parseEvaluation fuel module pParameters parser
        = .ok (caller, isAnnotation, closing) →
      expression_equals caller.type type ≠ some true →
      parser_parseExpression (fuel + 1) module pParameters type parser = .fail) ∧
    (∀ caller isAnnotation closing,
      parser_parseEvaluation fuel module pParameters parser
        = .ok (caller, isAnnotation, closing) →
      closing.next = some (Char.ofNat (if isAnnotation then 93 else 41)) →
      expression_equals caller.type type = some true →
      parser_parseExpression (fuel + 1) module pParameters type parser
        = .ok (caller.value, parser_skipWhitespace (parser_advance closing))) := by
  rw [parser_parseExpression_evaluation fuel module pParameters type parser hform]
  refine ⟨?_, ?_, ?_⟩
  · intro expression next h
    obtain ⟨read, hread, hclose⟩ := Outcome.bind_eq_ok.1 h
    refine ⟨read.1, read.2.1, read.2.2, hread, ?_⟩
    unfold closeEvaluation at hclose
    by_cases hb : read.2.2.next = some (Char.ofNat (if read.2.1 = true then 93 else 41))
    · rw [if_pos hb] at hclose
      cases heq : expression_equals read.1.type type with
      | none =>
        rw [heq] at hclose
        exact absurd hclose (by simp)
      | some b =>
        rw [heq] at hclose
        cases b with
        | false => exact absurd hclose (by simp)
        | true =>
          simp only [Outcome.ok.injEq, Prod.mk.injEq] at hclose
          exact ⟨rfl, hclose.1.symm⟩
    · rw [if_neg hb] at hclose
      exact absurd hclose (by simp)
  · intro caller isAnnotation closing hread hne
    rw [hread]
    simp only [Outcome.bind, closeEvaluation]
    exact ite_self _
  · intro caller isAnnotation closing hread hclosing heq
    rw [hread]
    simp only [Outcome.bind, closeEvaluation, hclosing, if_true, heq]

theorem parser_parseExpression_type_check_witness :
    parser_parseExpression 7 boolModule [] boolType
        (Parser.ofInput "$ Bool [ true . not ]".toList)
      = .ok (.construction 1 [], ⟨[], 1, 22⟩) ∧
    parser_parseExpression 7 boolModule [] universeType
        (Parser.ofInput "$ Bool [ true . not ]".toList)
      = .fail := by
  have h1 := (parser_parseExpression_type_check 6 boolModule [] boolType
    (Parser.ofInput "$ Bool [ true . not ]".toList) (Or.inl rfl)).2.2 _ _ _ rfl rfl rfl
  have h2 := (parser_parseExpression_type_check 6 boolModule [] universeType
    (Parser.ofInput "$ Bool [ true . not ]".toList) (Or.inl rfl)).2.1 _ _ _ rfl (by decide)
  exact ⟨h1, h2⟩

/-! ## Name resolution -/

theorem findName_eq_none {name : String} :
    ∀ {names : List String}, (∀ x ∈ names, x ≠ name) → findName name names = none
  | [], _ => rfl
  | candidate :: rest, h => by
    have h1 : candidate ≠ name := h candidate (List.mem_cons_self _ _)
    have h2 := findName_eq_none fun x hx => h x (List.mem_cons_of_mem _ hx)
    simp only [findName, if_neg h1, h2, Option.map_none']

/-- `findName` returns the least index that holds the name. -/
theorem findName_eq_some_iff {name : String} :
    ∀ {names : List String} {i : Nat},
      findName name names = some i ↔
        names.get? i = some name ∧ ∀ j, j < i → names.get? j ≠ some name
  | [], i => by simp [findName]
  | candidate :: rest, i => by
    by_cases hc : candidate = name
    · simp only [findName, if_pos hc, Option.some.injEq]
      constructor
      · intro h
        subst h
        exact ⟨by simp [hc], fun j hj => absurd hj (Nat.not_lt_zero j)⟩
      · rintro ⟨_, hleast⟩
        cases i with
        | zero => rfl
        | succ i => exact absurd (by simp [hc]) (hleast 0 (Nat.succ_pos i))
    · simp only [findName, if_neg hc]
      cases i with
      | zero =>
        simp only [List.get?_cons_zero, Option.some.injEq, hc, false_and, iff_false]
        cases findName name rest <;> simp
      | succ i =>
        have ih := @findName_eq_some_iff name rest i
        constructor
        · intro h
          have h' : findName name rest = some i := by
            cases hf : findName name rest with
            | none => rw [hf] at h; simp at h
            | some k =>
              rw [hf] at h
              simp only [Option.map_some', Option.some.injEq, Nat.add_right_cancel_iff] at h
              rw [h]
          obtain ⟨hget, hleast⟩ := ih.1 h'
          refine ⟨by simpa using hget, fun j hj => ?_⟩
          cases j with
          | zero => simpa using hc
          | succ j => simpa using hleast j (Nat.lt_of_succ_lt_succ hj)
        · rintro ⟨hget, hleast⟩
          have h' := ih.2 ⟨by simpa using hget, fun j hj => by
            simpa using hleast (j + 1) (Nat.succ_lt_succ hj)⟩
          rw [h']
          rfl

mutual
theorem specified_of_expression_equals :
    ∀ a b : Expression, expression_equals a b = some true → a.specified = true
  | .unspecified, _, h => by simp [expression_equals] at h
  | .construction index args, b, h => by
    cases b with
    | construction otherIndex otherArgs =>
      simp only [expression_equals] at h
      split at h
      · exact absurd h (by simp)
      · simp only [Expression.specified]
        exact specified_of_arguments_equal args otherArgs h
    | unspecified => simp [expression_equals] at h
    | evaluation e => simp [expression_equals] at h
  | .evaluation e, b, h => by
    cases b with
    | evaluation otherEvaluation =>
      simp only [expression_equals] at h
      simp only [Expression.specified]
      exact specified_of_evaluation_equals e otherEvaluation h
    | unspecified => simp [expression_equals] at h
    | construction _ _ => simp [expression_equals] at h
theorem specified_of_evaluation_equals :
    ∀ a b : Evaluation, evaluation_equals a b = some true → a.specified = true
  | .reference _, _, _ => rfl
  | .destruction caller index args, b, h => by
    cases b with
    | reference _ => simp [evaluation_equals] at h
    | destruction otherCaller otherIndex otherArgs =>
      simp only [evaluation_equals] at h
      split at h
      · rename_i hcaller
        split at h
        · exact absurd h (by simp)
        · simp only [Evaluation.specified, Bool.and_eq_true]
          exact ⟨specified_of_evaluation_equals caller otherCaller hcaller,
            specified_of_arguments_equal args otherArgs h⟩
      · rename_i hnot
        exact absurd h (hnot)
theorem specified_of_arguments_equal :
    ∀ args others : List Expression, arguments_equal args others = some true →
      specifiedList args = true
  | [], _, _ => rfl
  | a :: rest, [], h => by simp [arguments_equal] at h
  | a :: rest, b :: otherRest, h => by
    simp only [arguments_equal] at h
    split at h
    · rename_i hfirst
      simp only [specifiedList, Bool.and_eq_true]
      exact ⟨specified_of_expression_equals a b hfirst,
        specified_of_arguments_equal rest otherRest h⟩
    · rename_i hnot
      exact absurd h hnot
end

/-! ## Constructor applications -/

/-- The argument loop of the code computes the arguments the specification
describes, when every cell of the array that is not yet a slot of the
environment is indeterminate. -/
theorem parseArguments_elaborated {subst : Expression → Slots → Outcome Expression}
    {parse : Expression → Parser → Outcome (Expression × Parser)}
    (hsub : ∀ e s s' r, Slots.le s s' → subst e s = .ok r → subst e s' = .ok r) :
    ∀ (parameterTypes : List Expression) (slots env : Slots) (parser : Parser)
      (args : List Expression) (final : Parser),
      (∀ i, slots.read i = env.read i) →
      env.length + parameterTypes.length ≤ slots.length →
      parseArguments subst parse parameterTypes env.length slots parser = .ok (args, final) →
      args.length = parameterTypes.length ∧
        elaboratedArguments subst parse parameterTypes env parser args final
  | [], slots, env, parser, args, final, _, _, h => by
    simp only [parseArguments, Outcome.ok.injEq, Prod.mk.injEq] at h
    obtain ⟨h1, h2⟩ := h
    subst h1
    subst h2
    exact ⟨rfl, rfl, rfl⟩
  | p :: ps, slots, env, parser, args, final, hread, hlen, h => by
    simp only [parseArguments] at h
    obtain ⟨type, htype, h⟩ := Outcome.bind_eq_ok.1 h
    obtain ⟨value, hvalue, h⟩ := Outcome.bind_eq_ok.1 h
    obtain ⟨result, hresult, h⟩ := Outcome.bind_eq_ok.1 h
    simp only [Outcome.ok.injEq, Prod.mk.injEq] at h
    obtain ⟨h1, h2⟩ := h
    subst h1
    subst h2
    simp only [List.length_cons] at hlen
    have hstep : ∀ i, Slots.read (slots.set env.length (some ⟨type, value.1⟩)) i
        = Slots.read (env ++ [some ⟨type, value.1⟩]) i := by
      intro i
      rw [Slots.read_set]
      by_cases hi : i < env.length
      · rw [Slots.read_append_left _ _ hi, if_neg (by omega), hread]
      · rw [Slots.read_append_right _ _ (Nat.le_of_not_lt hi), Slots.read_singleton]
        by_cases he : i = env.length
        · rw [if_pos ⟨he, by omega⟩, if_pos (by omega)]
        · rw [if_neg (fun hh => he hh.1), if_neg (by omega), hread,
            Slots.read_of_length_le _ (Nat.le_of_not_lt hi)]
    have hlen' : (env ++ [some (⟨type, value.1⟩ : Substitution)]).length = env.length + 1 := by
      simp
    have h' : parseArguments subst parse ps
        (env ++ [some (⟨type, value.1⟩ : Substitution)]).length
        (slots.set env.length (some ⟨type, value.1⟩)) value.2 = .ok (result.1, result.2) := by
      rw [hlen']; exact hresult
    obtain ⟨hl, hrest⟩ := parseArguments_elaborated hsub ps _ _ _ _ _ hstep
      (by rw [hlen', List.length_set]; omega) h'
    refine ⟨by simp only [List.length_cons, hl], type, value.1, value.2, result.1, ?_, hvalue,
      rfl, hrest⟩
    exact hsub p slots env type (fun i x hx => by rw [← hread]; exact hx) htype

/-- The array loop of the code succeeds when the slot-by-slot description of
the specification does, on an array whose cells beyond the environment are
indeterminate. -/
theorem fillSlots_of_appendSlots {subst : Expression → Slots → Outcome Expression}
    (hsub : ∀ e s s' r, Slots.le s s' → subst e s = .ok r → subst e s' = .ok r) :
    ∀ (parameterTypes values : List Expression) (slots env appended : Slots),
      (∀ i, slots.read i = env.read i) →
      env.length + parameterTypes.length ≤ slots.length →
      appendSlots subst parameterTypes values env = .ok appended →
      ∃ out, fillSlots subst parameterTypes values env.length slots = .ok out ∧
        appended.length = env.length + parameterTypes.length ∧
        ∀ i, out.read i = appended.read i
  | [], _, slots, env, appended, hread, _, h => by
    simp only [appendSlots, Outcome.ok.injEq] at h
    subst h
    exact ⟨slots, rfl, rfl, hread⟩
  | p :: ps, values, slots, env, appended, hread, hlen, h => by
    simp only [appendSlots] at h
    obtain ⟨type, htype, h⟩ := Outcome.bind_eq_ok.1 h
    simp only [List.length_cons] at hlen
    have hstep : ∀ i, Slots.read (slots.set env.length
        (values.head?.map fun value => ⟨type, value⟩)) i
        = Slots.read (env ++ [values.head?.map fun value => ⟨type, value⟩]) i := by
      intro i
      rw [Slots.read_set]
      by_cases hi : i < env.length
      · rw [Slots.read_append_left _ _ hi, if_neg (by omega), hread]
      · rw [Slots.read_append_right _ _ (Nat.le_of_not_lt hi), Slots.read_singleton]
        by_cases he : i = env.length
        · rw [if_pos ⟨he, by omega⟩, if_pos (by omega)]
        · rw [if_neg (fun hh => he hh.1), if_neg (by omega), hread,
            Slots.read_of_length_le _ (Nat.le_of_not_lt hi)]
    have hlen' : (env ++ [values.head?.map fun value => (⟨type, value⟩ : Substitution)]).length
        = env.length + 1 := by simp
    obtain ⟨out, hout, hal, hor⟩ := fillSlots_of_appendSlots hsub ps values.tail _ _ appended
      hstep (by rw [hlen', List.length_set]; omega) h
    rw [hlen'] at hout
    refine ⟨out, ?_, ?_, hor⟩
    · simp only [fillSlots]
      exact Outcome.bind_eq_ok.2 ⟨type,
        hsub p env slots type (fun i x hx => by rw [hread]; exact hx) htype, hout⟩
    · rw [hal, hlen', List.length_cons]; omega

/-- The argument loop of the code succeeds with the arguments the specification
describes. -/
theorem parseArguments_of_elaborated {subst : Expression → Slots → Outcome Expression}
    {parse : Expression → Parser → Outcome (Expression × Parser)}
    (hsub : ∀ e s s' r, Slots.le s s' → subst e s = .ok r → subst e s' = .ok r) :
    ∀ (parameterTypes : List Expression) (slots env : Slots) (parser : Parser)
      (args : List Expression) (final : Parser),
      (∀ i, slots.read i = env.read i) →
      env.length + parameterTypes.length ≤ slots.length →
      elaboratedArguments subst parse parameterTypes env parser args final →
      parseArguments subst parse parameterTypes env.length slots parser = .ok (args, final)
  | [], slots, env, parser, args, final, _, _, h => by
    obtain ⟨h1, h2⟩ := h
    subst h1
    subst h2
    rfl
  | p :: ps, slots, env, parser, args, final, hread, hlen, h => by
    obtain ⟨type, value, next, rest, htype, hvalue, hargs, hrest⟩ := h
    subst hargs
    simp only [List.length_cons] at hlen
    have hstep : ∀ i, Slots.read (slots.set env.length (some ⟨type, value⟩)) i
        = Slots.read (env ++ [some ⟨type, value⟩]) i := by
      intro i
      rw [Slots.read_set]
      by_cases hi : i < env.length
      · rw [Slots.read_append_left _ _ hi, if_neg (by omega), hread]
      · rw [Slots.read_append_right _ _ (Nat.le_of_not_lt hi), Slots.read_singleton]
        by_cases he : i = env.length
        · rw [if_pos ⟨he, by omega⟩, if_pos (by omega)]
        · rw [if_neg (fun hh => he hh.1), if_neg (by omega), hread,
            Slots.read_of_length_le _ (Nat.le_of_not_lt hi)]
    have hlen' : (env ++ [some (⟨type, value⟩ : Substitution)]).length = env.length + 1 := by
      simp
    have ih := parseArguments_of_elaborated hsub ps _ _ _ _ _ hstep
      (by rw [hlen', List.length_set]; omega) hrest
    rw [hlen'] at ih
    simp only [parseArguments]
    exact Outcome.bind_eq_ok.2 ⟨type,
      hsub p env slots type (fun i x hx => by rw [hread]; exact hx) htype,
      Outcome.bind_eq_ok.2 ⟨(value, next), hvalue, Outcome.bind_eq_ok.2 ⟨(rest, final), ih, rfl⟩⟩⟩

/-- C15: constructor application and leftmost name resolution.  On an input that
starts with a word character, `parser_parseExpression` fails when the expected
type is not a Construction; against the expected type `Construction(F, targs)`
it fails when no constructor of `F` has the name read; and when it succeeds the
expected type is some `Construction(F, targs)`, the name read is the name of
`F`'s constructor `i` and of no constructor of `F` before it, and the result is
`Construction{index = i, args}` with as many arguments as the constructor has
declared parameter types, the `k`-th being the result of elaborating the next
input against the `k`-th declared parameter type substituted with the family
slots (values `targs`) followed by the slots of the earlier arguments.
Conversely, when the name read is the name of `F`'s constructor `i` and of no
constructor before it, and the arguments elaborate in that way, it succeeds
with `Construction{index = i, args}`. -/
theorem parser_parseExpression_construction (fuel : Nat) (module : Module)
    (pParameters : List Parameter) (type : Expression) (parser : Parser) (c : Char)
    (hnext : parser.next = some c) (hword : isWordCharacter c = true) :
    ((∀ typeIndex typeArguments, type ≠ .construction typeIndex typeArguments) →
      parser_parseExpression (fuel + 1) module pParameters type parser = .fail) ∧
    (∀ typeIndex typeArguments matrix, type = .construction typeIndex typeArguments →
      module.matrices.get? typeIndex = some matrix →
      (∀ constructor ∈ matrix.constructors, constructor.name ≠ (parser_parseName parser).1) →
      parser_parseExpression (fuel + 1) module pParameters type parser = .fail) ∧
    (∀ expression final,
      parser_parseExpression (fuel + 1) module pParameters type parser
        = .ok (expression, final) →
      ∃ typeIndex typeArguments matrix index constructor args family,
        type = .construction typeIndex typeArguments ∧
        module.matrices.get? typeIndex = some matrix ∧
        matrix.constructors.get? index = some constructor ∧
        constructor.name = (parser_parseName parser).1 ∧
        (∀ j other, j < index → matrix.constructors.get? j = some other →
          other.name ≠ (parser_parseName parser).1) ∧
        expression = .construction index args ∧
        args.length = constructor.parameterTypes.length ∧
        familyEnvironment fuel module typeIndex typeArguments = .ok family ∧
        elaboratedArguments (expression_substitute fuel module)
          (parser_parseExpression fuel module pParameters) constructor.parameterTypes family
          (parser_parseName parser).2 args final) ∧
    (∀ typeIndex typeArguments matrix index constructor args family final,
      type = .construction typeIndex typeArguments →
      module.matrices.get? typeIndex = some matrix →
      matrix.constructors.get? index = some constructor →
      constructor.name = (parser_parseName parser).1 →
      (∀ j other, j < index → matrix.constructors.get? j = some other →
        other.name ≠ (parser_parseName parser).1) →
      familyEnvironment fuel module typeIndex typeArguments = .ok family →
      elaboratedArguments (expression_substitute fuel module)
        (parser_parseExpression fuel module pParameters) constructor.parameterTypes family
        (parser_parseName parser).2 args final →
      parser_parseExpression (fuel + 1) module pParameters type parser
        = .ok (.construction index args, final)) := by
  have hhelp : ¬ c = Char.ofNat 63 := (isWordCharacter_not_special hword).2.2.2.2.1
  rw [parser_parseExpression]
  simp only [hnext, hword, Bool.true_or, if_true, if_neg hhelp]
  refine ⟨?_, ?_, ?_, ?_⟩
  · intro hkind
    cases type with
    | construction typeIndex typeArguments => exact absurd rfl (hkind typeIndex typeArguments)
    | unspecified => rfl
    | evaluation e => rfl
  · intro typeIndex typeArguments matrix htype hmatrix hnone
    subst htype
    have hfind : findName (parser_parseName parser).1 (matrix.constructors.map fun k => k.name)
        = none := by
      refine findName_eq_none fun x hx => ?_
      obtain ⟨k, hk, rfl⟩ := List.mem_map.1 hx
      exact hnone k hk
    simp only [hmatrix]
    generalize ((module.matrices.get? 0).bind fun m => m.constructors.get? typeIndex) = found
    cases found with
    | none => rfl
    | some typeConstructor => simp only [Outcome.ofOption, Outcome.bind, hfind]
  · intro expression final h
    cases type with
    | unspecified => exact absurd h (by simp)
    | evaluation e => exact absurd h (by simp)
    | construction typeIndex typeArguments =>
      simp only at h
      obtain ⟨typeConstructor, htc, h⟩ := Outcome.bind_eq_ok.1 h
      obtain ⟨matrix, hmatrix, h⟩ := Outcome.bind_eq_ok.1 h
      obtain ⟨index, hindex, h⟩ := Outcome.bind_eq_ok.1 h
      obtain ⟨constructor, hconstructor, h⟩ := Outcome.bind_eq_ok.1 h
      obtain ⟨pSubstitutions, hslots, h⟩ := Outcome.bind_eq_ok.1 h
      obtain ⟨result, hresult, h⟩ := Outcome.bind_eq_ok.1 h
      simp only [Outcome.ok.injEq, Prod.mk.injEq] at h
      obtain ⟨h1, h2⟩ := h
      subst h1
      subst h2
      have htc := Outcome.ofOption_eq_ok.1 htc
      have hmatrix := Outcome.ofOption_eq_ok.1 hmatrix
      have hindex := Outcome.ofOption_eq_ok.1 hindex
      have hconstructor := Outcome.ofOption_eq_ok.1 hconstructor
      obtain ⟨hget, hleast⟩ := findName_eq_some_iff.1 hindex
      obtain ⟨family, hfamily, hfl, hfr⟩ :=
        fillSlots_appendSlots (expression_substitute_transfer fuel module)
          typeConstructor.parameterTypes typeArguments
          (List.replicate
            (typeConstructor.parameterTypes.length + constructor.parameterTypes.length) none)
          [] pSubstitutions (fun i => by rw [Slots.read_replicate, Slots.read_nil])
          (by simp) hslots
      have hfl' : family.length = typeConstructor.parameterTypes.length := by simpa using hfl
      have hargs : parseArguments (expression_substitute fuel module)
          (parser_parseExpression fuel module pParameters) constructor.parameterTypes
          family.length pSubstitutions (parser_parseName parser).2 = .ok (result.1, result.2) := by
        rw [hfl']; exact hresult
      obtain ⟨hlen, helab⟩ := parseArguments_elaborated
        (expression_substitute_transfer fuel module) constructor.parameterTypes pSubstitutions
        family _ _ _ hfr
        (by rw [length_fillSlots _ _ _ _ _ hslots, List.length_replicate, hfl']) hargs
      refine ⟨typeIndex, typeArguments, matrix, index, constructor, result.1, family, rfl,
        hmatrix, hconstructor, ?_, ?_, rfl, hlen, ?_, helab⟩
      · rw [List.get?_eq_getElem?, List.getElem?_map, ← List.get?_eq_getElem?, hconstructor,
          Option.map_some', Option.some.injEq] at hget
        exact hget
      · intro j other hj hother hcontra
        refine hleast j hj ?_
        rw [List.get?_eq_getElem?, List.getElem?_map, ← List.get?_eq_getElem?, hother,
          Option.map_some', hcontra]
      · simp only [familyEnvironment, htc, Outcome.ofOption, Outcome.bind]
        exact hfamily
  · intro typeIndex typeArguments matrix index constructor args family final htype hmatrix
      hconstructor hname hleast hfamily helab
    subst htype
    simp only [familyEnvironment] at hfamily
    obtain ⟨typeConstructor, htc, happ⟩ := Outcome.bind_eq_ok.1 hfamily
    have hfind : findName (parser_parseName parser).1
        (matrix.constructors.map fun k => k.name) = some index := by
      refine findName_eq_some_iff.2 ⟨?_, ?_⟩
      · rw [List.get?_eq_getElem?, List.getElem?_map, ← List.get?_eq_getElem?, hconstructor,
          Option.map_some', hname]
      · intro j hj hcontra
        rw [List.get?_eq_getElem?, List.getElem?_map, ← List.get?_eq_getElem?] at hcontra
        cases hother : matrix.constructors.get? j with
        | none => rw [hother] at hcontra; simp at hcontra
        | some other =>
          rw [hother] at hcontra
          simp only [Option.map_some', Option.some.injEq] at hcontra
          exact hleast j other hj hother hcontra
    obtain ⟨out, hout, hal, hor⟩ :=
      fillSlots_of_appendSlots (expression_substitute_transfer fuel module)
        typeConstructor.parameterTypes typeArguments
        (List.replicate
          (typeConstructor.parameterTypes.length + constructor.parameterTypes.length) none)
        [] family (fun i => by rw [Slots.read_replicate, Slots.read_nil]) (by simp) happ
    have hfl : family.length = typeConstructor.parameterTypes.length := by simpa using hal
    have hargs := parseArguments_of_elaborated (expression_substitute_transfer fuel module)
      constructor.parameterTypes out family _ args final hor
      (by rw [length_fillSlots _ _ _ _ _ hout, List.length_replicate, hfl]) helab
    rw [hfl] at hargs
    exact Outcome.bind_eq_ok.2 ⟨typeConstructor, htc,
      Outcome.bind_eq_ok.2 ⟨matrix, Outcome.ofOption_eq_ok.2 hmatrix,
      Outcome.bind_eq_ok.2 ⟨index, Outcome.ofOption_eq_ok.2 hfind,
      Outcome.bind_eq_ok.2 ⟨constructor, Outcome.ofOption_eq_ok.2 hconstructor,
      Outcome.bind_eq_ok.2 ⟨out, hout,
      Outcome.bind_eq_ok.2 ⟨(args, final), hargs, rfl⟩⟩⟩⟩⟩⟩

theorem parser_parseExpression_construction_witness :
    parser_parseExpression 4 natModule [] (.evaluation (.reference 0))
        (Parser.ofInput "zero".toList) = .fail ∧
    parser_parseExpression 4 natModule [] natType (Parser.ofInput "one".toList) = .fail ∧
    ∃ typeIndex typeArguments matrix index constructor args family,
      natType = .construction typeIndex typeArguments ∧
      natModule.matrices.get? typeIndex = some matrix ∧
      matrix.constructors.get? index = some constructor ∧
      constructor.name = (parser_parseName (Parser.ofInput "succ zero".toList)).1 ∧
      (∀ j other, j < index → matrix.constructors.get? j = some other →
        other.name ≠ (parser_parseName (Parser.ofInput "succ zero".toList)).1) ∧
      numeral 1 = .construction index args ∧
      args.length = constructor.parameterTypes.length ∧
      familyEnvironment 3 natModule typeIndex typeArguments = .ok family ∧
      elaboratedArguments (expression_substitute 3 natModule)
        (parser_parseExpression 3 natModule []) constructor.parameterTypes family
        (parser_parseName (Parser.ofInput "succ zero".toList)).2 args ⟨[], 1, 10⟩ :=
  ⟨(parser_parseExpression_construction 3 natModule [] (.evaluation (.reference 0))
      (Parser.ofInput "zero".toList) (Char.ofNat 122) rfl rfl).1
      (fun _ _ h => Expression.noConfusion h),
    (parser_parseExpression_construction 3 natModule [] natType
      (Parser.ofInput "one".toList) (Char.ofNat 111) rfl rfl).2.1 1 [] natMatrix rfl rfl
      (fun constructor hmem => by
        simp only [natMatrix, List.mem_cons, List.mem_singleton, List.not_mem_nil,
          or_false] at hmem
        rcases hmem with rfl | rfl <;> decide),
    (parser_parseExpression_construction 3 natModule [] natType
      (Parser.ofInput "succ zero".toList) (Char.ofNat 115) rfl rfl).2.2.1 (numeral 1)
      ⟨[], 1, 10⟩ rfl⟩

/-! ## Parameter references -/

/-- The destructor loop stops at once when the next character is not a period. -/
theorem parser_parseDestructions_stop (fuel : Nat) (module : Module)
    (pParameters : List Parameter) (caller : Substitution) (parser : Parser)
    (h : parser.next ≠ some (Char.ofNat 46)) :
    parser_parseDestructions (fuel + 1) module pParameters caller parser
      = .ok (caller, parser) := by
  rw [parser_parseDestructions, if_neg h]

/-- C16: parameter reference.  Parsing `( name )`, with no destructor
application, under the parameters `ps` against the expected type `T`: when `i`
is the least index with `ps[i].name = name`, the result is the expression
`Evaluation(Reference(i))` if `expression_equals` finds `ps[i].type` equal to
`T`, and a failure otherwise; when no parameter has the name the result is a
failure. -/
theorem parser_parseExpression_parameter (fuel : Nat) (module : Module)
    (pParameters : List Parameter) (type : Expression) (parser : Parser)
    (hopen : parser.next = some (Char.ofNat 40))
    (hhelp : (parser_skipWhitespace (parser_advance parser)).next ≠ some (Char.ofNat 63))
    (hclose : (parser_parseWord (parser_skipWhitespace (parser_advance parser))).2.next
      = some (Char.ofNat 41)) :
    (∀ i parameter, pParameters.get? i = some parameter →
      parameter.name = (parser_parseWord (parser_skipWhitespace (parser_advance parser))).1 →
      (∀ j other, j < i → pParameters.get? j = some other →
        other.name ≠ (parser_parseWord (parser_skipWhitespace (parser_advance parser))).1) →
      (expression_equals parameter.type type = some true →
        parser_parseExpression (fuel + 2) module pParameters type parser
          = .ok (.evaluation (.reference i),
              parser_skipWhitespace (parser_advance
                (parser_parseWord (parser_skipWhitespace (parser_advance parser))).2))) ∧
      (expression_equals parameter.type type ≠ some true →
        parser_parseExpression (fuel + 2) module pParameters type parser = .fail)) ∧
    ((∀ parameter ∈ pParameters,
        parameter.name ≠ (parser_parseWord (parser_skipWhitespace (parser_advance parser))).1) →
      parser_parseExpression (fuel + 2) module pParameters type parser = .fail) := by
  have hnot : ¬ parser.next = some (Char.ofNat 36) := by
    rw [hopen]; decide
  have hperiod : (parser_parseWord (parser_skipWhitespace (parser_advance parser))).2.next
      ≠ some (Char.ofNat 46) := by
    rw [hclose]; decide
  rw [parser_parseExpression_evaluation (fuel + 1) module pParameters type parser
    (Or.inr hopen)]
  unfold parser_parseEvaluation
  simp only [if_neg hnot, if_pos hopen, if_neg hhelp]
  constructor
  · intro i parameter hget hname hleast
    have hfind : findName (parser_parseWord (parser_skipWhitespace (parser_advance parser))).1
        (pParameters.map fun q => q.name) = some i := by
      refine findName_eq_some_iff.2 ⟨?_, ?_⟩
      · rw [List.get?_eq_getElem?, List.getElem?_map, ← List.get?_eq_getElem?, hget,
          Option.map_some', hname]
      · intro j hj hcontra
        rw [List.get?_eq_getElem?, List.getElem?_map, ← List.get?_eq_getElem?] at hcontra
        cases hother : pParameters.get? j with
        | none => rw [hother] at hcontra; simp at hcontra
        | some other =>
          rw [hother] at hcontra
          simp only [Option.map_some', Option.some.injEq] at hcontra
          exact hleast j other hj hother hcontra
    simp only [hfind, hget, Outcome.ofOption, Outcome.bind]
    constructor
    · intro heq
      rw [expression_duplicate_of_specified _ (specified_of_expression_equals _ _ heq)]
      simp only [parser_parseDestructions_stop fuel module pParameters _ _ hperiod,
        closeEvaluation, hclose, Bool.false_eq_true, if_false, if_true, heq]
    · intro hne
      cases hcopy : expression_duplicate parameter.type with
      | none => rfl
      | some copy =>
        have hsame := expression_duplicate_eq _ _ hcopy
        subst hsame
        simp only [parser_parseDestructions_stop fuel module pParameters _ _ hperiod,
          closeEvaluation, hclose, Bool.false_eq_true, if_false, if_true]
  · intro hnone
    have hfind : findName (parser_parseWord (parser_skipWhitespace (parser_advance parser))).1
        (pParameters.map fun q => q.name) = none := by
      refine findName_eq_none fun x hx => ?_
      obtain ⟨q, hq, rfl⟩ := List.mem_map.1 hx
      exact hnone q hq
    simp only [hfind, Outcome.ofOption, Outcome.bind]

theorem parser_parseExpression_parameter_witness :
    parser_parseExpression 2 boolModule [⟨"a", universeType⟩, ⟨"b", boolType⟩, ⟨"b", universeType⟩]
        boolType (Parser.ofInput "( b )".toList)
      = .ok (.evaluation (.reference 1), ⟨[], 1, 6⟩) ∧
    parser_parseExpression 2 boolModule [⟨"a", universeType⟩, ⟨"b", boolType⟩, ⟨"b", universeType⟩]
        universeType (Parser.ofInput "( b )".toList)
      = .fail ∧
    parser_parseExpression 2 boolModule [⟨"a", universeType⟩, ⟨"b", boolType⟩, ⟨"b", universeType⟩]
        boolType (Parser.ofInput "( c )".toList)
      = .fail := by
  have h := parser_parseExpression_parameter 0 boolModule
    [⟨"a", universeType⟩, ⟨"b", boolType⟩, ⟨"b", universeType⟩]
  have hleast : ∀ (j : Nat) (other : Parameter), j < 1 →
      [(⟨"a", universeType⟩ : Parameter), ⟨"b", boolType⟩, ⟨"b", universeType⟩].get? j
        = some other →
      other.name ≠ (parser_parseWord (parser_skipWhitespace
        (parser_advance (Parser.ofInput "( b )".toList)))).1 := by
    intro j other hj hget
    have hj0 : j = 0 := by omega
    subst hj0
    cases hget
    decide
  refine ⟨((h boolType (Parser.ofInput "( b )".toList) rfl (by decide) rfl).1 1
      ⟨"b", boolType⟩ rfl rfl hleast).1 rfl,
    ((h universeType (Parser.ofInput "( b )".toList) rfl (by decide) rfl).1 1
      ⟨"b", boolType⟩ rfl rfl hleast).2 (by decide),
    (h boolType (Parser.ofInput "( c )".toList) rfl (by decide) rfl).2 ?_⟩
  intro parameter hmem
  simp only [List.mem_cons, List.mem_singleton, List.not_mem_nil, or_false] at hmem
  rcases hmem with rfl | rfl | rfl <;> decide

/-! ## Declarations: what is rejected and what is stored -/

/-- A declaration whose family name and family parameter names have been read:
the outcome of its branch, followed by the test of the semicolon. -/
theorem parseDeclaration_resolved (fuel : Nat) (module : Module) (depth : Nat)
    (parser : Parser) {typeMatrix : Matrix} {typeIndex : Nat} {typeConstructor : Constructor}
    {typeParameters : List Parameter × Parser}
    (h0 : module.matrices.get? 0 = some typeMatrix)
    (h1 : findName (parser_parseName parser).1 (typeMatrix.constructors.map fun k => k.name)
      = some typeIndex)
    (h2 : typeMatrix.constructors.get? typeIndex = some typeConstructor)
    (h3 : parseTypeParameters typeConstructor.parameterTypes (parser_parseName parser).2
      = some typeParameters) :
    parseDeclaration fuel module depth parser
      = match (if typeParameters.2.next = some (Char.ofNat 124) then
            parseConstructorDeclaration fuel module typeIndex typeParameters.1 depth
              typeParameters.2
          else if typeParameters.2.next = some (Char.ofNat 46) then
            parseDestructorDeclaration fuel module typeIndex typeParameters.1 depth
              typeParameters.2
          else if typeParameters.2.next = some (Char.ofNat 91) then
            parseRule fuel module typeIndex typeParameters.1 typeParameters.2
          else Outcome.fail) with
        | .ok result =>
          if result.2.next = some (Char.ofNat 59) then
            .ok (parser_skipWhitespace (parser_advance result.2)) result.1 ""
          else .fail result.1
        | .fail => .fail module
        | .timeout => .timeout := by
  unfold parseDeclaration
  simp only [h0, h1, h2, h3]

/-- C21: duplicate constructor rejected.  A constructor declaration (`|`) on a
family whose matrix already holds a constructor with the name read fails, and
the module it leaves is the module it was given. -/
theorem duplicate_constructor_rejected (fuel : Nat) (fileSystem : FileSystem)
    (directory : String) (parser : Parser) (module : Module) (depth : Nat) (c : Char)
    (typeMatrix : Matrix) (typeIndex : Nat) (typeConstructor : Constructor)
    (typeParameters : List Parameter × Parser) (matrix : Matrix) (existing : Constructor)
    (hnext : parser.next = some c) (hword : isWordCharacter c = true)
    (h0 : module.matrices.get? 0 = some typeMatrix)
    (h1 : findName (parser_parseName parser).1 (typeMatrix.constructors.map fun k => k.name)
      = some typeIndex)
    (h2 : typeMatrix.constructors.get? typeIndex = some typeConstructor)
    (h3 : parseTypeParameters typeConstructor.parameterTypes (parser_parseName parser).2
      = some typeParameters)
    (hbar : typeParameters.2.next = some (Char.ofNat 124))
    (hmatrix : module.matrices.get? typeIndex = some matrix)
    (hmem : existing ∈ matrix.constructors)
    (hname : existing.name
      = (parser_parseWord (parser_skipWhitespace (parser_advance typeParameters.2))).1) :
    parser_parseStatement (fuel + 1) fileSystem directory parser module depth
      = .fail module := by
  rw [parser_parseStatement_declaration fuel fileSystem directory parser module depth hnext
    hword, parseDeclaration_resolved fuel module depth parser h0 h1 h2 h3, if_pos hbar]
  have hany : (matrix.constructors.any fun k =>
      decide (k.name
        = (parser_parseWord (parser_skipWhitespace (parser_advance typeParameters.2))).1))
      = true :=
    List.any_eq_true.2 ⟨existing, hmem, decide_eq_true hname⟩
  simp only [parseConstructorDeclaration, hmatrix, Outcome.ofOption, Outcome.bind, hany,
    if_true]

theorem duplicate_constructor_rejected_witness :
    parser_parseStatement 8 emptyFileSystem "" (Parser.ofInput "Bool | true ;".toList)
      boolModule 0 = .fail boolModule :=
  duplicate_constructor_rejected 7 emptyFileSystem "" (Parser.ofInput "Bool | true ;".toList)
    boolModule 0 (Char.ofNat 66)
    { constructors := [⟨0, "Type", []⟩, ⟨0, "Bool", []⟩], destructors := [] } 1
    ⟨0, "Bool", []⟩ ([], ⟨"| true ;".toList, 1, 6⟩)
    { constructors := [⟨0, "true", []⟩, ⟨0, "false", []⟩],
      destructors := [
        { depth := 0, name := "not", parameterTypes := [], returnType := boolType,
          rules := [.construction 1 [], .construction 0 []] }] }
    ⟨0, "true", []⟩ rfl rfl rfl rfl rfl rfl rfl rfl (List.mem_cons_self _ _) rfl

theorem get?_addConstructor {module : Module} {typeIndex : Nat} {matrix : Matrix}
    (constructor : Constructor) (hmatrix : module.matrices.get? typeIndex = some matrix) :
    (module.addConstructor typeIndex constructor).matrices.get? typeIndex
      = some (matrix.addConstructor constructor) := by
  have hlt : typeIndex < module.matrices.length := by
    rw [List.get?_eq_getElem?] at hmatrix
    exact (List.getElem?_eq_some_iff.1 hmatrix).1
  have hpos : typeIndex < (modifyAt (fun m : Matrix => m.addConstructor constructor)
      typeIndex module.matrices).length := by
    rw [length_modifyAt]; exact hlt
  simp only [Module.addConstructor, List.get?_eq_getElem?]
  rw [List.getElem?_append_left hpos, ← List.get?_eq_getElem?, get?_modifyAt, if_pos rfl,
    hmatrix, Option.map_some']

/-- The rule table a constructor declaration leaves: one entry more than the
matrix had constructors, the last one Unspecified, the old entries kept. -/
theorem reallocRules_set (rules : List Expression) (k : Nat) :
    ((reallocRules rules (k + 1)).set k Expression.unspecified).length = k + 1 ∧
    ((reallocRules rules (k + 1)).set k Expression.unspecified).get? k
      = some Expression.unspecified ∧
    (∀ i, i < k → i < rules.length →
      ((reallocRules rules (k + 1)).set k Expression.unspecified).get? i = rules.get? i) ∧
    (rules.length = k →
      (reallocRules rules (k + 1)).set k Expression.unspecified
        = rules ++ [Expression.unspecified]) := by
  have hlen : (reallocRules rules (k + 1)).length = k + 1 := by
    simp only [reallocRules, List.length_append, List.length_take, List.length_replicate]
    omega
  refine ⟨by rw [List.length_set, hlen], ?_, ?_, ?_⟩
  · rw [List.get?_eq_getElem?, List.getElem?_set_self (by rw [hlen]; omega)]
  · intro i hik hil
    rw [List.get?_eq_getElem?, List.getElem?_set_ne (by omega), reallocRules,
      List.getElem?_append_left (by rw [List.length_take]; omega), List.getElem?_take,
      if_pos (by omega), List.get?_eq_getElem?]
  · intro hk
    subst hk
    simp only [reallocRules, List.take_succ, List.take_length, List.getElem?_length,
      Option.toList_none, List.append_nil, Nat.add_sub_cancel_left, List.replicate_one]
    rw [List.set_append_right _ _ (Nat.le_refl _), Nat.sub_self]
    rfl

/-- What a successful constructor declaration has read and stored. -/
theorem parseConstructorDeclaration_stored {fuel : Nat} {module : Module} {typeIndex : Nat}
    {pTypeParameters : List Parameter} {depth : Nat} {parser : Parser} {m' : Module}
    {p : Parser}
    (h : parseConstructorDeclaration fuel module typeIndex pTypeParameters depth parser
      = .ok (m', p)) :
    ∃ parameters,
      parseDeclaredParameters (Char.ofNat 59) fuel module pTypeParameters []
        (parser_parseWord (parser_skipWhitespace (parser_advance parser))).2
        = .ok (parameters, p) ∧
      m' = module.addConstructor typeIndex
        { depth := depth,
          name := (parser_parseWord (parser_skipWhitespace (parser_advance parser))).1,
          parameterTypes := parameters.map fun q => q.type } := by
  unfold parseConstructorDeclaration at h
  obtain ⟨matrix, hm, h⟩ := Outcome.bind_eq_ok.1 h
  simp only at h
  split at h
  · exact absurd h (by simp)
  · obtain ⟨result, hresult, h⟩ := Outcome.bind_eq_ok.1 h
    simp only [Outcome.ok.injEq, Prod.mk.injEq] at h
    obtain ⟨h1, h2⟩ := h
    subst h2
    exact ⟨result.1, hresult, h1.symm⟩

/-- The outcome of a successful declaration statement is the outcome of its
branch. -/
theorem parseDeclaration_branch {fuel : Nat} {module : Module} {depth : Nat}
    {parser p : Parser} {m' : Module} {out : String} {typeMatrix : Matrix} {typeIndex : Nat}
    {typeConstructor : Constructor} {typeParameters : List Parameter × Parser}
    (h0 : module.matrices.get? 0 = some typeMatrix)
    (h1 : findName (parser_parseName parser).1 (typeMatrix.constructors.map fun k => k.name)
      = some typeIndex)
    (h2 : typeMatrix.constructors.get? typeIndex = some typeConstructor)
    (h3 : parseTypeParameters typeConstructor.parameterTypes (parser_parseName parser).2
      = some typeParameters)
    (hok : parseDeclaration fuel module depth parser = .ok p m' out) :
    ∃ closing,
      closing.next = some (Char.ofNat 59) ∧
      p = parser_skipWhitespace (parser_advance closing) ∧ out = "" ∧
      ((typeParameters.2.next = some (Char.ofNat 124) ∧
          parseConstructorDeclaration fuel module typeIndex typeParameters.1 depth
            typeParameters.2 = .ok (m', closing)) ∨
        (typeParameters.2.next = some (Char.ofNat 46) ∧
          parseDestructorDeclaration fuel module typeIndex typeParameters.1 depth
            typeParameters.2 = .ok (m', closing)) ∨
        (typeParameters.2.next = some (Char.ofNat 91) ∧
          parseRule fuel module typeIndex typeParameters.1 typeParameters.2
            = .ok (m', closing))) := by
  rw [parseDeclaration_resolved fuel module depth parser h0 h1 h2 h3] at hok
  split at hok
  · rename_i result hd
    split at hok
    · rename_i hsemi
      simp only [Run.ok.injEq] at hok
      obtain ⟨hp, hm, hout⟩ := hok
      subst hm
      refine ⟨result.2, hsemi, hp.symm, hout.symm, ?_⟩
      by_cases c1 : typeParameters.2.next = some (Char.ofNat 124)
      · rw [if_pos c1] at hd
        exact Or.inl ⟨c1, hd⟩
      · rw [if_neg c1] at hd
        by_cases c2 : typeParameters.2.next = some (Char.ofNat 46)
        · rw [if_pos c2] at hd
          exact Or.inr (Or.inl ⟨c2, hd⟩)
        · rw [if_neg c2] at hd
          by_cases c3 : typeParameters.2.next = some (Char.ofNat 91)
          · rw [if_pos c3] at hd
            exact Or.inr (Or.inr ⟨c3, hd⟩)
          · rw [if_neg c3] at hd
            exact absurd hd (by simp)
    · exact absurd hok (by simp)
  · exact absurd hok (by simp)
  · exact absurd hok (by simp)

/-- C24: adding a constructor extends every rule table.  A successful constructor
declaration (`|`) on a family whose matrix has `k` constructors has read its
parameters up to the semicolon, and in the module it yields the family's matrix
holds the old constructors followed by the new one, with the name read, the
current depth and the parameter types read, and the same number of destructors,
each of which differs from the old one only in its rule table: that has `k + 1`
entries, entry `k` is Unspecified, and every old entry below `k` is kept (the
table is the old one followed by Unspecified when the old one had `k`
entries). -/
theorem constructor_declaration_stored (fuel : Nat) (fileSystem : FileSystem)
    (directory : String) (parser : Parser) (module : Module) (depth : Nat) (c : Char)
    (typeMatrix : Matrix) (typeIndex : Nat) (typeConstructor : Constructor)
    (typeParameters : List Parameter × Parser) (matrix : Matrix) (p : Parser) (m' : Module)
    (out : String)
    (hnext : parser.next = some c) (hword : isWordCharacter c = true)
    (h0 : module.matrices.get? 0 = some typeMatrix)
    (h1 : findName (parser_parseName parser).1 (typeMatrix.constructors.map fun k => k.name)
      = some typeIndex)
    (h2 : typeMatrix.constructors.get? typeIndex = some typeConstructor)
    (h3 : parseTypeParameters typeConstructor.parameterTypes (parser_parseName parser).2
      = some typeParameters)
    (hbar : typeParameters.2.next = some (Char.ofNat 124))
    (hmatrix : module.matrices.get? typeIndex = some matrix)
    (hok : parser_parseStatement (fuel + 1) fileSystem directory parser module depth
      = .ok p m' out) :
    ∃ parameters closing newMatrix,
      parseDeclaredParameters (Char.ofNat 59) fuel module typeParameters.1 []
        (parser_parseWord (parser_skipWhitespace (parser_advance typeParameters.2))).2
        = .ok (parameters, closing) ∧
      m'.matrices.get? typeIndex = some newMatrix ∧
      newMatrix.constructors = matrix.constructors ++
        [{ depth := depth,
           name := (parser_parseWord
             (parser_skipWhitespace (parser_advance typeParameters.2))).1,
           parameterTypes := parameters.map fun q => q.type }] ∧
      newMatrix.destructors.length = matrix.destructors.length ∧
      ∀ j destructor, matrix.destructors.get? j = some destructor →
        ∃ rules, newMatrix.destructors.get? j = some { destructor with rules := rules } ∧
          rules.length = matrix.constructors.length + 1 ∧
          rules.get? matrix.constructors.length = some Expression.unspecified ∧
          (∀ i, i < matrix.constructors.length → i < destructor.rules.length →
            rules.get? i = destructor.rules.get? i) ∧
          (destructor.rules.length = matrix.constructors.length →
            rules = destructor.rules ++ [Expression.unspecified]) := by
  rw [parser_parseStatement_declaration fuel fileSystem directory parser module depth hnext
    hword] at hok
  obtain ⟨closing, _, _, _, hbranch⟩ := parseDeclaration_branch h0 h1 h2 h3 hok
  have hne1 : ¬ typeParameters.2.next = some (Char.ofNat 46) := by
    rw [hbar]; decide
  have hne2 : ¬ typeParameters.2.next = some (Char.ofNat 91) := by
    rw [hbar]; decide
  rcases hbranch with ⟨_, hb⟩ | ⟨hc, _⟩ | ⟨hc, _⟩
  · obtain ⟨parameters, hparameters, hm⟩ := parseConstructorDeclaration_stored hb
    subst hm
    refine ⟨parameters, closing, _, hparameters, get?_addConstructor _ hmatrix, rfl, ?_, ?_⟩
    · simp only [Matrix.addConstructor, List.length_map]
    · intro j destructor hj
      obtain ⟨hl, hk, hold, happ⟩ := reallocRules_set destructor.rules matrix.constructors.length
      refine ⟨_, ?_, hl, hk, hold, happ⟩
      simp only [Matrix.addConstructor]
      rw [List.get?_eq_getElem?, List.getElem?_map, ← List.get?_eq_getElem?, hj,
        Option.map_some']
  · exact absurd hc hne1
  · exact absurd hc hne2

theorem constructor_declaration_stored_witness :
    ∃ parameters closing newMatrix,
      parseDeclaredParameters (Char.ofNat 59) 7 boolModule [] []
        (parser_parseWord (parser_skipWhitespace (parser_advance
          ⟨"| maybe Bool [b] ;".toList, 1, 6⟩))).2 = .ok (parameters, closing) ∧
      (boolModule.addConstructor 1 ⟨3, "maybe", [boolType]⟩).matrices.get? 1
        = some newMatrix ∧
      newMatrix.constructors = [⟨0, "true", []⟩, ⟨0, "false", []⟩] ++
        [{ depth := 3,
           name := (parser_parseWord (parser_skipWhitespace (parser_advance
             ⟨"| maybe Bool [b] ;".toList, 1, 6⟩))).1,
           parameterTypes := parameters.map fun q => q.type }] ∧
      newMatrix.destructors.length
        = [(⟨0, "not", [], boolType, [.construction 1 [], .construction 0 []]⟩ :
            Destructor)].length ∧
      ∀ j destructor,
        [(⟨0, "not", [], boolType, [.construction 1 [], .construction 0 []]⟩ :
            Destructor)].get? j = some destructor →
        ∃ rules, newMatrix.destructors.get? j = some { destructor with rules := rules } ∧
          rules.length = [(⟨0, "true", []⟩ : Constructor), ⟨0, "false", []⟩].length + 1 ∧
          rules.get? [(⟨0, "true", []⟩ : Constructor), ⟨0, "false", []⟩].length
            = some Expression.unspecified ∧
          (∀ i, i < [(⟨0, "true", []⟩ : Constructor), ⟨0, "false", []⟩].length →
            i < destructor.rules.length → rules.get? i = destructor.rules.get? i) ∧
          (destructor.rules.length
              = [(⟨0, "true", []⟩ : Constructor), ⟨0, "false", []⟩].length →
            rules = destructor.rules ++ [Expression.unspecified]) :=
  constructor_declaration_stored 7 emptyFileSystem ""
    (Parser.ofInput "Bool | maybe Bool [b] ;".toList) boolModule 3 (Char.ofNat 66)
    { constructors := [⟨0, "Type", []⟩, ⟨0, "Bool", []⟩], destructors := [] } 1
    ⟨0, "Bool", []⟩ ([], ⟨"| maybe Bool [b] ;".toList, 1, 6⟩)
    { constructors := [⟨0, "true", []⟩, ⟨0, "false", []⟩],
      destructors := [⟨0, "not", [], boolType, [.construction 1 [], .construction 0 []]⟩] }
    ⟨[], 1, 24⟩ (boolModule.addConstructor 1 ⟨3, "maybe", [boolType]⟩) ""
    rfl rfl rfl rfl rfl rfl rfl rfl rfl

theorem get?_addDestructor {module : Module} {typeIndex : Nat} {matrix : Matrix}
    (depth : Nat) (name : String) (parameterTypes : List Expression) (returnType : Expression)
    (hmatrix : module.matrices.get? typeIndex = some matrix) :
    (module.addDestructor typeIndex depth name parameterTypes returnType).matrices.get?
        typeIndex
      = some (matrix.addDestructor depth name parameterTypes returnType) := by
  simp only [Module.addDestructor, get?_modifyAt, if_true, hmatrix, Option.map_some']

/-- What a successful destructor declaration has read and stored. -/
theorem parseDestructorDeclaration_stored {fuel : Nat} {module : Module} {typeIndex : Nat}
    {pTypeParameters : List Parameter} {depth : Nat} {parser : Parser} {m' : Module}
    {p : Parser}
    (h : parseDestructorDeclaration fuel module typeIndex pTypeParameters depth parser
      = .ok (m', p)) :
    ∃ parameters afterParameters returnType,
      parseDeclaredParameters (Char.ofNat 126) fuel module
        (pTypeParameters ++ [selfParameter typeIndex pTypeParameters.length]) []
        (parser_parseName (parser_skipWhitespace (parser_advance parser))).2
        = .ok (parameters, afterParameters) ∧
      parser_parseType fuel module
        (pTypeParameters ++ [selfParameter typeIndex pTypeParameters.length] ++ parameters)
        (parser_skipWhitespace (parser_advance afterParameters)) = .ok (returnType, p) ∧
      m' = module.addDestructor typeIndex depth
        (parser_parseName (parser_skipWhitespace (parser_advance parser))).1
        (parameters.map fun q => q.type) returnType := by
  unfold parseDestructorDeclaration at h
  obtain ⟨typeMatrix, _, h⟩ := Outcome.bind_eq_ok.1 h
  obtain ⟨matrix, hm, h⟩ := Outcome.bind_eq_ok.1 h
  simp only at h
  split at h
  · exact absurd h (by simp)
  · obtain ⟨result, hresult, h⟩ := Outcome.bind_eq_ok.1 h
    obtain ⟨returnType, hreturn, h⟩ := Outcome.bind_eq_ok.1 h
    simp only [Outcome.ok.injEq, Prod.mk.injEq] at h
    obtain ⟨h1, h2⟩ := h
    subst h2
    exact ⟨result.1, result.2, returnType.1, hresult, hreturn, h1.symm⟩

/-- C25: adding a destructor creates an all-unspecified rule table.  A successful
destructor declaration (`.`) on a family whose matrix has `k` constructors has
read its parameters up to `~` and its return type, and in the module it yields
the family's matrix holds the same constructors and the old destructors
followed by the new one, with the name read, the current depth, the parameter
types and the return type read, and a rule table of exactly `k` entries, all
Unspecified. -/
theorem destructor_declaration_stored (fuel : Nat) (fileSystem : FileSystem)
    (directory : String) (parser : Parser) (module : Module) (depth : Nat) (c : Char)
    (typeMatrix : Matrix) (typeIndex : Nat) (typeConstructor : Constructor)
    (typeParameters : List Parameter × Parser) (matrix : Matrix) (p : Parser) (m' : Module)
    (out : String)
    (hnext : parser.next = some c) (hword : isWordCharacter c = true)
    (h0 : module.matrices.get? 0 = some typeMatrix)
    (h1 : findName (parser_parseName parser).1 (typeMatrix.constructors.map fun k => k.name)
      = some typeIndex)
    (h2 : typeMatrix.constructors.get? typeIndex = some typeConstructor)
    (h3 : parseTypeParameters typeConstructor.parameterTypes (parser_parseName parser).2
      = some typeParameters)
    (hperiod : typeParameters.2.next = some (Char.ofNat 46))
    (hmatrix : module.matrices.get? typeIndex = some matrix)
    (hok : parser_parseStatement (fuel + 1) fileSystem directory parser module depth
      = .ok p m' out) :
    ∃ parameters afterParameters returnType closing newMatrix,
      parseDeclaredParameters (Char.ofNat 126) fuel module
        (typeParameters.1 ++ [selfParameter typeIndex typeParameters.1.length]) []
        (parser_parseName (parser_skipWhitespace (parser_advance typeParameters.2))).2
        = .ok (parameters, afterParameters) ∧
      parser_parseType fuel module
        (typeParameters.1 ++ [selfParameter typeIndex typeParameters.1.length] ++ parameters)
        (parser_skipWhitespace (parser_advance afterParameters))
        = .ok (returnType, closing) ∧
      m'.matrices.get? typeIndex = some newMatrix ∧
      newMatrix.constructors = matrix.constructors ∧
      newMatrix.destructors = matrix.destructors ++
        [{ depth := depth,
           name := (parser_parseName
             (parser_skipWhitespace (parser_advance typeParameters.2))).1,
           parameterTypes := parameters.map fun q => q.type,
           returnType := returnType,
           rules := List.replicate matrix.constructors.length Expression.unspecified }] := by
  rw [parser_parseStatement_declaration fuel fileSystem directory parser module depth hnext
    hword] at hok
  obtain ⟨closing, _, _, _, hbranch⟩ := parseDeclaration_branch h0 h1 h2 h3 hok
  have hne1 : ¬ typeParameters.2.next = some (Char.ofNat 124) := by
    rw [hperiod]; decide
  have hne2 : ¬ typeParameters.2.next = some (Char.ofNat 91) := by
    rw [hperiod]; decide
  rcases hbranch with ⟨hc, _⟩ | ⟨_, hb⟩ | ⟨hc, _⟩
  · exact absurd hc hne1
  · obtain ⟨parameters, afterParameters, returnType, hparameters, hreturn, hm⟩ :=
      parseDestructorDeclaration_stored hb
    subst hm
    exact ⟨parameters, afterParameters, returnType, closing, _, hparameters, hreturn,
      get?_addDestructor _ _ _ _ hmatrix, rfl, rfl⟩
  · exact absurd hc hne2

theorem destructor_declaration_stored_witness :
    ∃ parameters afterParameters returnType closing newMatrix,
      parseDeclaredParameters (Char.ofNat 126) 7 boolModule
        ([] ++ [selfParameter 1 ([] : List Parameter).length]) []
        (parser_parseName (parser_skipWhitespace (parser_advance
          ⟨". and Bool [b] ~ Bool ;".toList, 1, 6⟩))).2 = .ok (parameters, afterParameters) ∧
      parser_parseType 7 boolModule
        ([] ++ [selfParameter 1 ([] : List Parameter).length] ++ parameters)
        (parser_skipWhitespace (parser_advance afterParameters))
        = .ok (returnType, closing) ∧
      (boolModule.addDestructor 1 2 "and" [boolType] boolType).matrices.get? 1
        = some newMatrix ∧
      newMatrix.constructors = [⟨0, "true", []⟩, ⟨0, "false", []⟩] ∧
      newMatrix.destructors =
        [(⟨0, "not", [], boolType, [.construction 1 [], .construction 0 []]⟩ : Destructor)] ++
        [{ depth := 2,
           name := (parser_parseName (parser_skipWhitespace (parser_advance
             ⟨". and Bool [b] ~ Bool ;".toList, 1, 6⟩))).1,
           parameterTypes := parameters.map fun q => q.type,
           returnType := returnType,
           rules := List.replicate
             [(⟨0, "true", []⟩ : Constructor), ⟨0, "false", []⟩].length
             Expression.unspecified }] :=
  destructor_declaration_stored 7 emptyFileSystem ""
    (Parser.ofInput "Bool . and Bool [b] ~ Bool ;".toList) boolModule 2 (Char.ofNat 66)
    { constructors := [⟨0, "Type", []⟩, ⟨0, "Bool", []⟩], destructors := [] } 1
    ⟨0, "Bool", []⟩ ([], ⟨". and Bool [b] ~ Bool ;".toList, 1, 6⟩)
    { constructors := [⟨0, "true", []⟩, ⟨0, "false", []⟩],
      destructors := [⟨0, "not", [], boolType, [.construction 1 [], .construction 0 []]⟩] }
    ⟨[], 1, 29⟩ (boolModule.addDestructor 1 2 "and" [boolType] boolType) ""
    rfl rfl rfl rfl rfl rfl rfl rfl rfl

theorem modifyAt_eq_set {α : Type} (f : α → α) :
    ∀ (n : Nat) (l : List α) (a : α), l.get? n = some a → modifyAt f n l = l.set n (f a)
  | _, [], _, h => by simp at h
  | 0, b :: rest, a, h => by
    simp only [List.get?_cons_zero, Option.some.injEq] at h
    subst h
    rfl
  | n + 1, b :: rest, a, h => by
    simp only [List.get?_cons_succ] at h
    simp only [modifyAt, List.set_cons_succ, modifyAt_eq_set f n rest a h]

/-- The module after a rule statement differs from the old one in one rule
entry. -/
theorem setRule_eq_set {module : Module} {typeIndex destructorIndex : Nat} {matrix : Matrix}
    {destructor : Destructor} (constructorIndex : Nat) (rule : Expression)
    (hmatrix : module.matrices.get? typeIndex = some matrix)
    (hdestructor : matrix.destructors.get? destructorIndex = some destructor) :
    module.setRule typeIndex destructorIndex constructorIndex rule
      = { matrices := module.matrices.set typeIndex
            { matrix with
              destructors := matrix.destructors.set destructorIndex
                { destructor with rules := destructor.rules.set constructorIndex rule } } } := by
  simp only [Module.setRule]
  rw [modifyAt_eq_set _ _ _ _ hmatrix, modifyAt_eq_set _ _ _ _ hdestructor]

/-- A rule statement whose constructor and destructor have been resolved: the
test of the rule entry and what follows it. -/
theorem parseRule_resolved (fuel : Nat) (module : Module) (typeIndex : Nat)
    (pTypeParameters : List Parameter) (parser : Parser) {matrix : Matrix}
    {constructorIndex : Nat} {constructor : Constructor}
    {constructorParameters : List Parameter × Parser} {destructorIndex : Nat}
    {destructor : Destructor}
    (hmatrix : module.matrices.get? typeIndex = some matrix)
    (hc : findName (parser_parseName (parser_skipWhitespace (parser_advance parser))).1
      (matrix.constructors.map fun k => k.name) = some constructorIndex)
    (hconstructor : matrix.constructors.get? constructorIndex = some constructor)
    (hcp : parseRuleConstructorParameters constructor.parameterTypes
      (parser_parseName (parser_skipWhitespace (parser_advance parser))).2
      = some constructorParameters)
    (hperiod : constructorParameters.2.next = some (Char.ofNat 46))
    (hd : findName
      (parser_parseName (parser_skipWhitespace (parser_advance constructorParameters.2))).1
      (matrix.destructors.map fun d => d.name) = some destructorIndex)
    (hdestructor : matrix.destructors.get? destructorIndex = some destructor) :
    parseRule fuel module typeIndex pTypeParameters parser
      = match destructor.rules.get? constructorIndex with
        | some .unspecified =>
          (parseRuleDestructorParameters (expression_substitute fuel module) pTypeParameters
            typeIndex constructorIndex constructorParameters.1.length
            destructor.parameterTypes []
            (parser_parseName
              (parser_skipWhitespace (parser_advance constructorParameters.2))).2).bind
            fun destructorParameters =>
          if destructorParameters.2.next = some (Char.ofNat 93) then
            if (parser_skipWhitespace (parser_advance destructorParameters.2)).next
                = some (Char.ofNat 126) then
              (expression_substitute fuel module destructor.returnType
                (ruleSlots pTypeParameters typeIndex constructorIndex
                  constructorParameters.1.length destructorParameters.1)).bind fun type =>
              (parser_parseExpression fuel module
                (pTypeParameters ++ constructorParameters.1 ++ destructorParameters.1) type
                (parser_skipWhitespace (parser_advance
                  (parser_skipWhitespace (parser_advance destructorParameters.2))))).bind
                fun rule =>
              .ok (module.setRule typeIndex destructorIndex constructorIndex rule.1, rule.2)
            else .fail
          else .fail
        | _ => .fail := by
  unfold parseRule
  simp only [hmatrix, hc, hconstructor, hcp, hperiod, hd, hdestructor, Outcome.ofOption,
    Outcome.bind, if_true]

/-- C26: single assignment of rules.  For a rule statement (`[`) on family `F`
whose constructor name resolves to index `c` and whose destructor name resolves
to index `d` of `F`'s matrix: if the rule entry `(d, c)` holds an expression
other than Unspecified, the statement fails and leaves the module it was given;
if the statement succeeds, the entry was Unspecified, the body has been
elaborated against the destructor's return type substituted with the slots of
the rule, and the new module is the old one with exactly that entry replaced by
the elaborated body; and if the entry is Unspecified and the destructor
parameters, the brackets, the return type, the body and the semicolon are read
successfully, the statement succeeds with that module. -/
theorem rule_single_assignment (fuel : Nat) (fileSystem : FileSystem)
    (directory : String) (parser : Parser) (module : Module) (depth : Nat) (c : Char)
    (typeMatrix : Matrix) (typeIndex : Nat) (typeConstructor : Constructor)
    (typeParameters : List Parameter × Parser) (matrix : Matrix) (constructorIndex : Nat)
    (constructor : Constructor) (constructorParameters : List Parameter × Parser)
    (destructorIndex : Nat) (destructor : Destructor)
    (hnext : parser.next = some c) (hword : isWordCharacter c = true)
    (h0 : module.matrices.get? 0 = some typeMatrix)
    (h1 : findName (parser_parseName parser).1 (typeMatrix.constructors.map fun k => k.name)
      = some typeIndex)
    (h2 : typeMatrix.constructors.get? typeIndex = some typeConstructor)
    (h3 : parseTypeParameters typeConstructor.parameterTypes (parser_parseName parser).2
      = some typeParameters)
    (hbracket : typeParameters.2.next = some (Char.ofNat 91))
    (hmatrix : module.matrices.get? typeIndex = some matrix)
    (hc : findName
      (parser_parseName (parser_skipWhitespace (parser_advance typeParameters.2))).1
      (matrix.constructors.map fun k => k.name) = some constructorIndex)
    (hconstructor : matrix.constructors.get? constructorIndex = some constructor)
    (hcp : parseRuleConstructorParameters constructor.parameterTypes
      (parser_parseName (parser_skipWhitespace (parser_advance typeParameters.2))).2
      = some constructorParameters)
    (hperiod : constructorParameters.2.next = some (Char.ofNat 46))
    (hd : findName
      (parser_parseName (parser_skipWhitespace (parser_advance constructorParameters.2))).1
      (matrix.destructors.map fun d => d.name) = some destructorIndex)
    (hdestructor : matrix.destructors.get? destructorIndex = some destructor) :
    (∀ old, destructor.rules.get? constructorIndex = some old → old ≠ .unspecified →
      parser_parseStatement (fuel + 1) fileSystem directory parser module depth
        = .fail module) ∧
    (∀ p m' out,
      parser_parseStatement (fuel + 1) fileSystem directory parser module depth
        = .ok p m' out →
      destructor.rules.get? constructorIndex = some .unspecified ∧
      ∃ destructorParameters type rule closing,
        parseRuleDestructorParameters (expression_substitute fuel module) typeParameters.1
          typeIndex constructorIndex constructorParameters.1.length
          destructor.parameterTypes []
          (parser_parseName
            (parser_skipWhitespace (parser_advance constructorParameters.2))).2
          = .ok destructorParameters ∧
        expression_substitute fuel module destructor.returnType
          (ruleSlots typeParameters.1 typeIndex constructorIndex
            constructorParameters.1.length destructorParameters.1) = .ok type ∧
        parser_parseExpression fuel module
          (typeParameters.1 ++ constructorParameters.1 ++ destructorParameters.1) type
          (parser_skipWhitespace (parser_advance
            (parser_skipWhitespace (parser_advance destructorParameters.2))))
          = .ok (rule, closing) ∧
        m' = { matrices := module.matrices.set typeIndex
                { matrix with
                  destructors := matrix.destructors.set destructorIndex
                    { destructor with
                      rules := destructor.rules.set constructorIndex rule } } }) ∧
    (∀ destructorParameters type rule closing,
      destructor.rules.get? constructorIndex = some .unspecified →
      parseRuleDestructorParameters (expression_substitute fuel module) typeParameters.1
        typeIndex constructorIndex constructorParameters.1.length
        destructor.parameterTypes []
        (parser_parseName
          (parser_skipWhitespace (parser_advance constructorParameters.2))).2
        = .ok destructorParameters →
      destructorParameters.2.next = some (Char.ofNat 93) →
      (parser_skipWhitespace (parser_advance destructorParameters.2)).next
        = some (Char.ofNat 126) →
      expression_substitute fuel module destructor.returnType
        (ruleSlots typeParameters.1 typeIndex constructorIndex
          constructorParameters.1.length destructorParameters.1) = .ok type →
      parser_parseExpression fuel module
        (typeParameters.1 ++ constructorParameters.1 ++ destructorParameters.1) type
        (parser_skipWhitespace (parser_advance
          (parser_skipWhitespace (parser_advance destructorParameters.2))))
        = .ok (rule, closing) →
      closing.next = some (Char.ofNat 59) →
      parser_parseStatement (fuel + 1) fileSystem directory parser module depth
        = .ok (parser_skipWhitespace (parser_advance closing))
            { matrices := module.matrices.set typeIndex
                { matrix with
                  destructors := matrix.destructors.set destructorIndex
                    { destructor with
                      rules := destructor.rules.set constructorIndex rule } } } "") := by
  have hne1 : ¬ typeParameters.2.next = some (Char.ofNat 124) := by
    rw [hbracket]; decide
  have hne2 : ¬ typeParameters.2.next = some (Char.ofNat 46) := by
    rw [hbracket]; decide
  have hstatement : parser_parseStatement (fuel + 1) fileSystem directory parser module depth
      = match parseRule fuel module typeIndex typeParameters.1 typeParameters.2 with
        | .ok result =>
          if result.2.next = some (Char.ofNat 59) then
            .ok (parser_skipWhitespace (parser_advance result.2)) result.1 ""
          else .fail result.1
        | .fail => .fail module
        | .timeout => .timeout := by
    rw [parser_parseStatement_declaration fuel fileSystem directory parser module depth hnext
      hword, parseDeclaration_resolved fuel module depth parser h0 h1 h2 h3, if_neg hne1,
      if_neg hne2, if_pos hbracket]
  have hrule := parseRule_resolved fuel module typeIndex typeParameters.1 typeParameters.2
    hmatrix hc hconstructor hcp hperiod hd hdestructor
  refine ⟨?_, ?_, ?_⟩
  · intro old hold hspecified
    have hfail : parseRule fuel module typeIndex typeParameters.1 typeParameters.2 = .fail := by
      rw [hrule, hold]
      cases old with
      | unspecified => exact absurd rfl hspecified
      | construction _ _ => rfl
      | evaluation _ => rfl
    rw [hstatement, hfail]
  · intro p m' out hok
    rw [hstatement] at hok
    split at hok
    · rename_i result hresult
      split at hok
      · simp only [Run.ok.injEq] at hok
        obtain ⟨_, hm, _⟩ := hok
        subst hm
        rw [hrule] at hresult
        split at hresult
        · rename_i hentry
          obtain ⟨destructorParameters, hdp, hresult⟩ := Outcome.bind_eq_ok.1 hresult
          split at hresult
          · split at hresult
            · obtain ⟨type, htype, hresult⟩ := Outcome.bind_eq_ok.1 hresult
              obtain ⟨rule, hbody, hresult⟩ := Outcome.bind_eq_ok.1 hresult
              simp only [Outcome.ok.injEq] at hresult
              refine ⟨hentry, destructorParameters, type, rule.1, rule.2, hdp, htype, hbody, ?_⟩
              rw [← hresult]
              exact setRule_eq_set constructorIndex rule.1 hmatrix hdestructor
            · exact absurd hresult (by simp)
          · exact absurd hresult (by simp)
        · exact absurd hresult (by simp)
      · exact absurd hok (by simp)
    · exact absurd hok (by simp)
    · exact absurd hok (by simp)
  · intro destructorParameters type rule closing hentry hdp hclose htilde htype hbody hsemi
    have hdone : parseRule fuel module typeIndex typeParameters.1 typeParameters.2
        = .ok (module.setRule typeIndex destructorIndex constructorIndex rule, closing) := by
      rw [hrule, hentry]
      simp only [hdp, Outcome.bind, hclose, htilde, if_true, htype, hbody]
    rw [hstatement, hdone]
    simp only [hsemi, if_true, setRule_eq_set constructorIndex rule hmatrix hdestructor]

theorem rule_single_assignment_witness :
    parser_parseStatement 8 emptyFileSystem "" (Parser.ofInput "Bool [true . not] ~ true ;".toList)
      boolModuleStuck 0 = .fail boolModuleStuck ∧
    parser_parseStatement 8 emptyFileSystem ""
      (Parser.ofInput "Bool [false . not] ~ true ;".toList) boolModuleStuck 0
      = .ok ⟨[], 1, 28⟩ boolModule "" := by
  have h1 := (rule_single_assignment 7 emptyFileSystem ""
    (Parser.ofInput "Bool [true . not] ~ true ;".toList) boolModuleStuck 0 (Char.ofNat 66)
    _ 1 _ _ _ 0 _ _ 0 _ rfl rfl rfl rfl rfl rfl rfl rfl rfl rfl rfl rfl rfl rfl).1
    (.construction 1 []) rfl (fun h => Expression.noConfusion h)
  have h2 := (rule_single_assignment 7 emptyFileSystem ""
    (Parser.ofInput "Bool [false . not] ~ true ;".toList) boolModuleStuck 0 (Char.ofNat 66)
    _ 1 _ _ _ 1 _ _ 0 _ rfl rfl rfl rfl rfl rfl rfl rfl rfl rfl rfl rfl rfl rfl).2.2
    _ _ _ _ rfl rfl rfl rfl rfl rfl rfl
  exact ⟨h1, h2⟩

/-! ## Duplicate names -/

/-- C22 does not hold of the code.  In the module of Scenario A, where family
`Bool` has the destructor `not`, the declaration `Bool . not ~ Bool ;` is
accepted and `Bool` then has two destructors named `not`; and after
`Type | Bool ;` and `Type . t ~ Type ;` the declaration `Bool . t ~ Bool ;` is
rejected although `Bool` has no destructor: the duplicate test reads the
destructors of matrix 0, not those of the family. -/
theorem duplicate_destructor_accepted :
    (∃ p module matrix,
      parser_parseStatement 8 emptyFileSystem "" (Parser.ofInput "Bool . not ~ Bool ;".toList)
        boolModule 0 = .ok p module "" ∧
      module.matrices.get? 1 = some matrix ∧
      matrix.destructors.map (fun d => d.name) = ["not", "not"]) ∧
    (∃ p1 m1 p2 m2 matrix,
      parser_parseStatement 8 emptyFileSystem "" (Parser.ofInput "Type | Bool ;".toList)
        createEmptyModule 0 = .ok p1 m1 "" ∧
      parser_parseStatement 8 emptyFileSystem "" (Parser.ofInput "Type . t ~ Type ;".toList)
        m1 0 = .ok p2 m2 "" ∧
      m2.matrices.get? 1 = some matrix ∧ matrix.destructors = [] ∧
      parser_parseStatement 8 emptyFileSystem "" (Parser.ofInput "Bool . t ~ Bool ;".toList)
        m2 0 = .fail m2) :=
  ⟨⟨_, _, _, rfl, rfl, rfl⟩, ⟨_, _, _, _, _, rfl, rfl, rfl, rfl, rfl⟩⟩
theorem mem_modifyAt_get {α : Type} (f : α → α) :
    ∀ (n : Nat) (l : List α) (x : α), x ∈ modifyAt f n l →
      x ∈ l ∨ ∃ a, l.get? n = some a ∧ x = f a
  | _, [], x, h => by simp [modifyAt] at h
  | 0, a :: rest, x, h => by
    simp only [modifyAt, List.mem_cons] at h
    rcases h with h | h
    · exact Or.inr ⟨a, rfl, h⟩
    · exact Or.inl (List.mem_cons_of_mem _ h)
  | n + 1, a :: rest, x, h => by
    simp only [modifyAt, List.mem_cons] at h
    rcases h with h | h
    · exact Or.inl (by rw [h]; exact List.mem_cons_self _ _)
    · rcases mem_modifyAt_get f n rest x h with h | ⟨b, hb, hx⟩
      · exact Or.inl (List.mem_cons_of_mem _ h)
      · exact Or.inr ⟨b, hb, hx⟩

/-- A successful constructor declaration has found no constructor of the name
read in the family's matrix. -/
theorem parseConstructorDeclaration_fresh {fuel : Nat} {module : Module} {typeIndex : Nat}
    {pTypeParameters : List Parameter} {depth : Nat} {parser : Parser} {m' : Module}
    {p : Parser}
    (h : parseConstructorDeclaration fuel module typeIndex pTypeParameters depth parser
      = .ok (m', p)) :
    ∃ matrix, module.matrices.get? typeIndex = some matrix ∧
      ∀ k ∈ matrix.constructors,
        k.name ≠ (parser_parseWord (parser_skipWhitespace (parser_advance parser))).1 := by
  unfold parseConstructorDeclaration at h
  obtain ⟨matrix, hm, h⟩ := Outcome.bind_eq_ok.1 h
  simp only at h
  split at h
  · exact absurd h (by simp)
  · rename_i hany
    refine ⟨matrix, Outcome.ofOption_eq_ok.1 hm, fun k hk hname => hany ?_⟩
    exact List.any_eq_true.2 ⟨k, hk, decide_eq_true hname⟩

theorem constructorNamesUnique_declaration {fuel : Nat} {module : Module} {depth : Nat}
    {parser p : Parser} {m' : Module} {out : String} (h : module.constructorNamesUnique)
    (hok : parseDeclaration fuel module depth parser = .ok p m' out) :
    m'.constructorNamesUnique := by
  obtain ⟨_, typeIndex, _, _, _, _, _, _, _, hbranch⟩ := parseDeclaration_ok hok
  rcases hbranch with ⟨_, hb⟩ | ⟨_, hb⟩ | ⟨_, hb⟩
  · obtain ⟨matrix, hmatrix, hfresh⟩ := parseConstructorDeclaration_fresh hb
    obtain ⟨parameters, _, rfl⟩ := parseConstructorDeclaration_stored hb
    intro x hx
    simp only [Module.addConstructor, List.mem_append] at hx
    rcases hx with hx | hx
    · rcases mem_modifyAt_get _ _ _ _ hx with hx | ⟨a, ha, rfl⟩
      · exact h x hx
      · rw [hmatrix] at ha
        simp only [Option.some.injEq] at ha
        subst ha
        simp only [Matrix.addConstructor, List.map_append, List.map_cons, List.map_nil]
        refine List.Nodup.append (h matrix (List.get?_mem hmatrix)) (List.nodup_singleton _)
          ?_
        intro name hname hnew
        simp only [List.mem_singleton] at hnew
        obtain ⟨k, hk, rfl⟩ := List.mem_map.1 hname
        exact hfresh k hk hnew
    · split at hx
      · simp only [List.mem_singleton] at hx
        subst hx
        exact List.nodup_nil
      · simp at hx
  · obtain ⟨_, _, _, _, _, rfl⟩ := parseDestructorDeclaration_ok hb
    intro x hx
    simp only [Module.addDestructor] at hx
    rcases mem_modifyAt _ _ _ _ hx with hx | ⟨a, ha, rfl⟩
    · exact h x hx
    · exact h a ha
  · obtain ⟨_, _, _, rfl⟩ := parseRule_ok hb
    intro x hx
    simp only [Module.setRule] at hx
    rcases mem_modifyAt _ _ _ _ hx with hx | ⟨a, ha, rfl⟩
    · exact h x hx
    · exact h a ha

/-- C23 as stated fails.  After `Type | F ;`, the namespace `@n { F | x ; }`
closed twice yields a reachable module in which family `F` has two constructors
named `n:x`: the declaration inside the namespace compares `x` with `n:x`, and
`module_endNamespace` renames without looking at the names already there.  And
the declaration `Bool . not ~ Bool ;` in the module of Scenario A yields a
reachable module in which `Bool` has two destructors named `not`. -/
theorem names_not_unique :
    (∃ module matrix, Reachable module ∧ module.matrices.get? 1 = some matrix ∧
      matrix.constructors.map (fun k => k.name) = ["n:x", "n:x"]) ∧
    (∃ module matrix, Reachable module ∧ module.matrices.get? 1 = some matrix ∧
      matrix.destructors.map (fun d => d.name) = ["not", "not"]) := by
  have h1 := Reachable.statement 8 emptyFileSystem ""
    (Parser.ofInput "Type | F ;".toList) createEmptyModule 0 _ _ _ Reachable.empty rfl
  have h2 := Reachable.statement 8 emptyFileSystem ""
    (Parser.ofInput "@n { F | x ; }".toList) _ 0 _ _ _ h1 rfl
  have h3 := Reachable.statement 8 emptyFileSystem ""
    (Parser.ofInput "@n { F | x ; }".toList) _ 0 _ _ _ h2 rfl
  have h4 := Reachable.statement 8 emptyFileSystem ""
    (Parser.ofInput "Bool . not ~ Bool ;".toList) boolModule 0 _ _ _ reachable_boolModule rfl
  exact ⟨⟨_, _, h3, rfl, rfl⟩, ⟨_, _, h4, rfl, rfl⟩⟩

/-- C23, amended: no two constructors of a matrix of `createEmptyModule` have
the same name, and a successful declaration statement (a constructor, a
destructor or a rule) on a module in which no two constructors of a matrix have
the same name yields such a module. -/
theorem constructor_names_unique_preserved :
    (∀ matrix ∈ createEmptyModule.matrices, (matrix.constructors.map fun k => k.name).Nodup) ∧
    (∀ fuel fileSystem directory parser module depth c p m' out,
      parser.next = some c → isWordCharacter c = true →
      (∀ matrix ∈ module.matrices, (matrix.constructors.map fun k => k.name).Nodup) →
      parser_parseStatement (fuel + 1) fileSystem directory parser module depth
        = .ok p m' out →
      ∀ matrix ∈ m'.matrices, (matrix.constructors.map fun k => k.name).Nodup) := by
  constructor
  · intro matrix hm
    simp only [createEmptyModule, List.mem_singleton] at hm
    subst hm
    exact List.nodup_singleton _
  · intro fuel fileSystem directory parser module depth c p m' out hnext hword hunique hok
    rw [parser_parseStatement_declaration fuel fileSystem directory parser module depth
      hnext hword] at hok
    exact constructorNamesUnique_declaration hunique hok

theorem constructor_names_unique_preserved_witness :
    ∀ matrix ∈ (boolModule.addConstructor 1 ⟨0, "maybe", []⟩).matrices,
      (matrix.constructors.map fun k => k.name).Nodup :=
  constructor_names_unique_preserved.2 7 emptyFileSystem ""
    (Parser.ofInput "Bool | maybe ;".toList) boolModule 0 (Char.ofNat 66) ⟨[], 1, 15⟩
    (boolModule.addConstructor 1 ⟨0, "maybe", []⟩) "" rfl rfl (by decide) rfl

/-! ## Closing a namespace -/

/-- `module_endNamespace` pairs every matrix with the entry of the same index in
matrix 0; it is defined when matrix 0 has an entry for every matrix. -/
theorem endNamespaceMatrices_eq_zipWith (depth : Nat) (pNamespace : String) :
    ∀ (matrices : List Matrix) (families : List Constructor),
      matrices.length ≤ families.length →
      endNamespaceMatrices depth pNamespace matrices families
        = some (List.zipWith (fun matrix family =>
            matrix.endNamespace family.depth depth pNamespace) matrices families)
  | [], _, _ => by simp [endNamespaceMatrices]
  | _ :: _, [], h => by simp at h
  | matrix :: matrices, family :: families, h => by
    simp only [List.length_cons, Nat.add_le_add_iff_right] at h
    simp only [endNamespaceMatrices, endNamespaceMatrices_eq_zipWith depth pNamespace matrices
      families h, List.zipWith_cons_cons]

theorem module_endNamespace_eq_zipWith {module : Module} (depth : Nat) (pNamespace : String)
    {typeMatrix : Matrix} (h0 : module.matrices.get? 0 = some typeMatrix)
    (hlen : module.matrices.length ≤ typeMatrix.constructors.length) :
    module_endNamespace module depth pNamespace
      = some ⟨List.zipWith (fun matrix family =>
          matrix.endNamespace family.depth depth pNamespace) module.matrices
          typeMatrix.constructors⟩ := by
  unfold module_endNamespace
  split
  · rename_i hnil
    rw [hnil] at h0
    simp at h0
  · rename_i first rest hcons
    rw [hcons] at h0
    simp only [List.get?_cons_zero, Option.some.injEq] at h0
    subst h0
    rw [endNamespaceMatrices_eq_zipWith depth pNamespace _ _ hlen]

theorem get?_zipWith_endNamespace (depth : Nat) (pNamespace : String) (matrices : List Matrix)
    (families : List Constructor) (i : Nat) {matrix : Matrix} {family : Constructor}
    (hm : matrices.get? i = some matrix) (hf : families.get? i = some family) :
    (List.zipWith (fun matrix family => matrix.endNamespace family.depth depth pNamespace)
      matrices families).get? i = some (matrix.endNamespace family.depth depth pNamespace) := by
  rw [List.get?_eq_getElem?] at hm hf ⊢
  rw [List.getElem?_zipWith, hm, hf]

theorem name_ne_prefixed (pNamespace name : String) : name ≠ pNamespace ++ ":" ++ name := by
  intro h
  have hl := congrArg String.length h
  simp only [String.length_append] at hl
  have h1 : (":" : String).length = 1 := rfl
  omega

theorem endNamespace_get?_constructor (matrix : Matrix) (familyDepth depth : Nat)
    (pNamespace : String) (j : Nat) {constructor : Constructor}
    (h : matrix.constructors.get? j = some constructor) :
    (matrix.endNamespace familyDepth depth pNamespace).constructors.get? j
      = some { constructor with
          name :=
            if constructor.depth = depth ∧ familyDepth < depth then
              pNamespace ++ ":" ++ constructor.name
            else constructor.name,
          depth :=
            if constructor.depth = depth then decrementDepth constructor.depth
            else constructor.depth } := by
  simp only [Matrix.endNamespace]
  rw [List.get?_eq_getElem?, List.getElem?_map, ← List.get?_eq_getElem?, h, Option.map_some']

theorem endNamespace_get?_destructor (matrix : Matrix) (familyDepth depth : Nat)
    (pNamespace : String) (j : Nat) {destructor : Destructor}
    (h : matrix.destructors.get? j = some destructor) :
    (matrix.endNamespace familyDepth depth pNamespace).destructors.get? j
      = some { destructor with
          name :=
            if destructor.depth = depth ∧ familyDepth < depth then
              pNamespace ++ ":" ++ destructor.name
            else destructor.name,
          depth :=
            if destructor.depth = depth then decrementDepth destructor.depth
            else destructor.depth } := by
  simp only [Matrix.endNamespace]
  rw [List.get?_eq_getElem?, List.getElem?_map, ← List.get?_eq_getElem?, h, Option.map_some']

/-- C27: namespace close renames exactly the exported entities.  On a module
whose matrix 0 has an entry for every matrix, `module_endNamespace(d, ns)`
returns a module with as many matrices, in which matrix `i` has as many
constructors and destructors as before and the name of each of them is
`ns:previous name` if and only if its depth was `d` and the depth of entry `i`
of matrix 0 was below `d`; every other constructor and destructor keeps its
name.  In Scenario D, with the families `A`, `B` and `Pair` declared at depth
0, the statement `@pair { Pair | mk A [a] B [b] ; }` yields a module in which
the constructor of `Pair` is named `pair:mk`. -/
theorem module_endNamespace_names :
    (∀ (module : Module) (depth : Nat) (pNamespace : String) (typeMatrix : Matrix),
      module.matrices.get? 0 = some typeMatrix →
      module.matrices.length ≤ typeMatrix.constructors.length →
      ∃ m', module_endNamespace module depth pNamespace = some m' ∧
        m'.matrices.length = module.matrices.length ∧
        ∀ i matrix, module.matrices.get? i = some matrix →
          ∃ family newMatrix, typeMatrix.constructors.get? i = some family ∧
            m'.matrices.get? i = some newMatrix ∧
            newMatrix.constructors.length = matrix.constructors.length ∧
            newMatrix.destructors.length = matrix.destructors.length ∧
            (∀ j constructor, matrix.constructors.get? j = some constructor →
              ∃ renamed, newMatrix.constructors.get? j = some renamed ∧
                (renamed.name = pNamespace ++ ":" ++ constructor.name ↔
                  constructor.depth = depth ∧ family.depth < depth) ∧
                (¬ (constructor.depth = depth ∧ family.depth < depth) →
                  renamed.name = constructor.name)) ∧
            (∀ j destructor, matrix.destructors.get? j = some destructor →
              ∃ renamed, newMatrix.destructors.get? j = some renamed ∧
                (renamed.name = pNamespace ++ ":" ++ destructor.name ↔
                  destructor.depth = depth ∧ family.depth < depth) ∧
                (¬ (destructor.depth = depth ∧ family.depth < depth) →
                  renamed.name = destructor.name))) ∧
    (∃ p1 m1 p2 m2 p3 m3 p4 m4 matrix,
      parser_parseStatement 8 emptyFileSystem "" (Parser.ofInput "Type | A ;".toList)
        createEmptyModule 0 = .ok p1 m1 "" ∧
      parser_parseStatement 8 emptyFileSystem "" (Parser.ofInput "Type | B ;".toList)
        m1 0 = .ok p2 m2 "" ∧
      parser_parseStatement 8 emptyFileSystem "" (Parser.ofInput "Type | Pair ;".toList)
        m2 0 = .ok p3 m3 "" ∧
      parser_parseStatement 8 emptyFileSystem ""
        (Parser.ofInput "@pair { Pair | mk A [a] B [b] ; }".toList) m3 0 = .ok p4 m4 "" ∧
      m4.matrices.get? 3 = some matrix ∧
      matrix.constructors.map (fun k => (k.name, k.depth)) = [("pair:mk", 0)]) := by
  refine ⟨?_, ⟨_, _, _, _, _, _, _, _, _, rfl, rfl, rfl, rfl, rfl, rfl⟩⟩
  intro module depth pNamespace typeMatrix h0 hlen
  refine ⟨_, module_endNamespace_eq_zipWith depth pNamespace h0 hlen, ?_, ?_⟩
  · simp only [List.length_zipWith]
    omega
  · intro i matrix hi
    have hlt : i < module.matrices.length := by
      rw [List.get?_eq_getElem?] at hi
      exact (List.getElem?_eq_some_iff.1 hi).1
    obtain ⟨family, hfamily⟩ : ∃ family, typeMatrix.constructors.get? i = some family := by
      rw [List.get?_eq_getElem?]
      exact ⟨_, List.getElem?_eq_getElem (by omega)⟩
    refine ⟨family, _, hfamily,
      get?_zipWith_endNamespace depth pNamespace _ _ i hi hfamily, ?_, ?_, ?_, ?_⟩
    · simp only [Matrix.endNamespace, List.length_map]
    · simp only [Matrix.endNamespace, List.length_map]
    · intro j constructor hj
      refine ⟨_, endNamespace_get?_constructor matrix family.depth depth pNamespace j hj,
        ?_, ?_⟩
      · by_cases hc : constructor.depth = depth ∧ family.depth < depth
        · exact ⟨fun _ => hc, fun _ => by simp only [if_pos hc]⟩
        · refine ⟨fun h => ?_, fun h => absurd h hc⟩
          simp only [if_neg hc] at h
          exact absurd h (name_ne_prefixed pNamespace constructor.name)
      · intro hc
        simp only [if_neg hc]
    · intro j destructor hj
      refine ⟨_, endNamespace_get?_destructor matrix family.depth depth pNamespace j hj,
        ?_, ?_⟩
      · by_cases hc : destructor.depth = depth ∧ family.depth < depth
        · exact ⟨fun _ => hc, fun _ => by simp only [if_pos hc]⟩
        · refine ⟨fun h => ?_, fun h => absurd h hc⟩
          simp only [if_neg hc] at h
          exact absurd h (name_ne_prefixed pNamespace destructor.name)
      · intro hc
        simp only [if_neg hc]

theorem module_endNamespace_names_witness :
    ∃ m', module_endNamespace (boolModule.addConstructor 1 ⟨1, "maybe", []⟩) 1 "logic"
        = some m' ∧
      m'.matrices.length = (boolModule.addConstructor 1 ⟨1, "maybe", []⟩).matrices.length ∧
      ∀ i matrix,
        (boolModule.addConstructor 1 ⟨1, "maybe", []⟩).matrices.get? i = some matrix →
        ∃ family newMatrix,
          [(⟨0, "Type", []⟩ : Constructor), ⟨0, "Bool", []⟩].get? i = some family ∧
          m'.matrices.get? i = some newMatrix ∧
          newMatrix.constructors.length = matrix.constructors.length ∧
          newMatrix.destructors.length = matrix.destructors.length ∧
          (∀ j constructor, matrix.constructors.get? j = some constructor →
            ∃ renamed, newMatrix.constructors.get? j = some renamed ∧
              (renamed.name = "logic" ++ ":" ++ constructor.name ↔
                constructor.depth = 1 ∧ family.depth < 1) ∧
              (¬ (constructor.depth = 1 ∧ family.depth < 1) →
                renamed.name = constructor.name)) ∧
          (∀ j destructor, matrix.destructors.get? j = some destructor →
            ∃ renamed, newMatrix.destructors.get? j = some renamed ∧
              (renamed.name = "logic" ++ ":" ++ destructor.name ↔
                destructor.depth = 1 ∧ family.depth < 1) ∧
              (¬ (destructor.depth = 1 ∧ family.depth < 1) →
                renamed.name = destructor.name)) :=
  module_endNamespace_names.1 (boolModule.addConstructor 1 ⟨1, "maybe", []⟩) 1 "logic"
    ⟨[⟨0, "Type", []⟩, ⟨0, "Bool", []⟩], []⟩ rfl (by decide)

theorem decrementDepth_eq {depth : Nat} (h1 : 1 ≤ depth) (h2 : depth < 18446744073709551616) :
    decrementDepth depth = depth - 1 := by
  unfold decrementDepth
  omega

/-- C28: namespace close re-homes depths and touches nothing else.  For a depth
`d` with `1 ≤ d` (and within the range of `size_t`), on a module whose matrix 0
has an entry for every matrix, `module_endNamespace(d, ns)` returns a module
with as many matrices, in which matrix `i` has as many constructors and
destructors as before, each at its index with its parameter types (and, for a
destructor, its return type and rule table) unchanged, and with depth `d - 1`
if its depth was `d` and its previous depth otherwise; no entity has depth `d`
afterwards. -/
theorem module_endNamespace_depths (module : Module) (depth : Nat) (pNamespace : String)
    (typeMatrix : Matrix) (hd : 1 ≤ depth) (hsize : depth < 18446744073709551616)
    (h0 : module.matrices.get? 0 = some typeMatrix)
    (hlen : module.matrices.length ≤ typeMatrix.constructors.length) :
    ∃ m', module_endNamespace module depth pNamespace = some m' ∧
      m'.matrices.length = module.matrices.length ∧
      ∀ i matrix, module.matrices.get? i = some matrix →
        ∃ newMatrix, m'.matrices.get? i = some newMatrix ∧
          newMatrix.constructors.length = matrix.constructors.length ∧
          newMatrix.destructors.length = matrix.destructors.length ∧
          (∀ j constructor, matrix.constructors.get? j = some constructor →
            ∃ moved, newMatrix.constructors.get? j = some moved ∧
              moved.depth = (if constructor.depth = depth then depth - 1
                else constructor.depth) ∧
              moved.depth ≠ depth ∧
              moved.parameterTypes = constructor.parameterTypes) ∧
          (∀ j destructor, matrix.destructors.get? j = some destructor →
            ∃ moved, newMatrix.destructors.get? j = some moved ∧
              moved.depth = (if destructor.depth = depth then depth - 1
                else destructor.depth) ∧
              moved.depth ≠ depth ∧
              moved.parameterTypes = destructor.parameterTypes ∧
              moved.returnType = destructor.returnType ∧
              moved.rules = destructor.rules) := by
  refine ⟨_, module_endNamespace_eq_zipWith depth pNamespace h0 hlen, ?_, ?_⟩
  · simp only [List.length_zipWith]
    omega
  · intro i matrix hi
    have hlt : i < module.matrices.length := by
      rw [List.get?_eq_getElem?] at hi
      exact (List.getElem?_eq_some_iff.1 hi).1
    obtain ⟨family, hfamily⟩ : ∃ family, typeMatrix.constructors.get? i = some family := by
      rw [List.get?_eq_getElem?]
      exact ⟨_, List.getElem?_eq_getElem (by omega)⟩
    refine ⟨_, get?_zipWith_endNamespace depth pNamespace _ _ i hi hfamily, ?_, ?_, ?_, ?_⟩
    · simp only [Matrix.endNamespace, List.length_map]
    · simp only [Matrix.endNamespace, List.length_map]
    · intro j constructor hj
      refine ⟨_, endNamespace_get?_constructor matrix family.depth depth pNamespace j hj,
        ?_, ?_, rfl⟩
      · by_cases hc : constructor.depth = depth
        · simp only [if_pos hc]
          rw [hc, decrementDepth_eq hd hsize]
        · simp only [if_neg hc]
      · by_cases hc : constructor.depth = depth
        · simp only [if_pos hc]
          rw [hc, decrementDepth_eq hd hsize]
          omega
        · simp only [if_neg hc]
          exact hc
    · intro j destructor hj
      refine ⟨_, endNamespace_get?_destructor matrix family.depth depth pNamespace j hj,
        ?_, ?_, rfl, rfl, rfl⟩
      · by_cases hc : destructor.depth = depth
        · simp only [if_pos hc]
          rw [hc, decrementDepth_eq hd hsize]
        · simp only [if_neg hc]
      · by_cases hc : destructor.depth = depth
        · simp only [if_pos hc]
          rw [hc, decrementDepth_eq hd hsize]
          omega
        · simp only [if_neg hc]
          exact hc

theorem module_endNamespace_depths_witness :
    ∃ m', module_endNamespace (boolModule.addDestructor 1 2 "and" [boolType] boolType) 2
        "logic" = some m' ∧
      m'.matrices.length
        = (boolModule.addDestructor 1 2 "and" [boolType] boolType).matrices.length ∧
      ∀ i matrix,
        (boolModule.addDestructor 1 2 "and" [boolType] boolType).matrices.get? i
          = some matrix →
        ∃ newMatrix, m'.matrices.get? i = some newMatrix ∧
          newMatrix.constructors.length = matrix.constructors.length ∧
          newMatrix.destructors.length = matrix.destructors.length ∧
          (∀ j constructor, matrix.constructors.get? j = some constructor →
            ∃ moved, newMatrix.constructors.get? j = some moved ∧
              moved.depth = (if constructor.depth = 2 then 2 - 1 else constructor.depth) ∧
              moved.depth ≠ 2 ∧
              moved.parameterTypes = constructor.parameterTypes) ∧
          (∀ j destructor, matrix.destructors.get? j = some destructor →
            ∃ moved, newMatrix.destructors.get? j = some moved ∧
              moved.depth = (if destructor.depth = 2 then 2 - 1 else destructor.depth) ∧
              moved.depth ≠ 2 ∧
              moved.parameterTypes = destructor.parameterTypes ∧
              moved.returnType = destructor.returnType ∧
              moved.rules = destructor.rules) :=
  module_endNamespace_depths (boolModule.addDestructor 1 2 "and" [boolType] boolType) 2
    "logic" ⟨[⟨0, "Type", []⟩, ⟨0, "Bool", []⟩], []⟩ (by decide) (by decide) rfl (by decide)

/-- A matrix with no entity at the closed depth is left as it is. -/
theorem endNamespace_eq_self (matrix : Matrix) (familyDepth depth : Nat) (pNamespace : String)
    (hc : ∀ k ∈ matrix.constructors, k.depth ≠ depth)
    (hd : ∀ x ∈ matrix.destructors, x.depth ≠ depth) :
    matrix.endNamespace familyDepth depth pNamespace = matrix := by
  obtain ⟨constructors, destructors⟩ := matrix
  simp only at hc hd
  simp only [Matrix.endNamespace, Matrix.mk.injEq]
  constructor
  · conv_rhs => rw [← List.map_id constructors]
    refine List.map_congr_left fun k hk => ?_
    have h := hc k hk
    simp only [h, false_and, if_false, id]
  · conv_rhs => rw [← List.map_id destructors]
    refine List.map_congr_left fun x hx => ?_
    have h := hd x hx
    simp only [h, false_and, if_false, id]

/-- Closing the namespace on a matrix that has just received a constructor at
the closed depth, in a family of smaller depth, gives the matrix that has
received the constructor under its prefixed name one level up. -/
theorem endNamespace_addConstructor (matrix : Matrix) (familyDepth depth : Nat)
    (pNamespace name : String) (parameterTypes : List Expression)
    (hfd : familyDepth < depth) (hsize : depth < 18446744073709551616)
    (hc : ∀ k ∈ matrix.constructors, k.depth ≠ depth)
    (hd : ∀ x ∈ matrix.destructors, x.depth ≠ depth) :
    (matrix.addConstructor ⟨depth, name, parameterTypes⟩).endNamespace familyDepth depth
        pNamespace
      = matrix.addConstructor ⟨depth - 1, pNamespace ++ ":" ++ name, parameterTypes⟩ := by
  obtain ⟨constructors, destructors⟩ := matrix
  simp only at hc hd
  simp only [Matrix.endNamespace, Matrix.addConstructor, Matrix.mk.injEq, List.map_append,
    List.map_cons, List.map_nil, List.map_map]
  constructor
  · refine congrArg₂ _ ?_ ?_
    · conv_rhs => rw [← List.map_id constructors]
      refine List.map_congr_left fun k hk => ?_
      have h := hc k hk
      simp only [h, false_and, if_false, id]
    · simp only [true_and, hfd, if_true, decrementDepth_eq (by omega : 1 ≤ depth) hsize]
  · refine List.map_congr_left fun x hx => ?_
    have h := hd x hx
    simp only [Function.comp, h, false_and, if_false]

/-- Every matrix of the module after a constructor declaration. -/
theorem get?_addConstructor_index (module : Module) (typeIndex : Nat) (constructor : Constructor)
    (i : Nat) :
    (module.addConstructor typeIndex constructor).matrices.get? i
      = if i < module.matrices.length then
          (if i = typeIndex then (module.matrices.get? i).map fun m => m.addConstructor constructor
            else module.matrices.get? i)
        else if typeIndex = 0 ∧ i = module.matrices.length then
          some { constructors := [], destructors := [] }
        else none := by
  simp only [Module.addConstructor, List.get?_eq_getElem?]
  by_cases hi : i < module.matrices.length
  · rw [if_pos hi, List.getElem?_append_left (by rw [length_modifyAt]; exact hi),
      ← List.get?_eq_getElem?, get?_modifyAt]
    simp only [List.get?_eq_getElem?]
  · rw [if_neg hi, List.getElem?_append_right (by rw [length_modifyAt]; omega),
      length_modifyAt]
    by_cases hz : typeIndex = 0
    · simp only [hz, if_true, true_and]
      by_cases he : i = module.matrices.length
      · simp only [he, Nat.sub_self, if_true, List.getElem?_cons_zero]
      · rw [if_neg he]
        have : i - module.matrices.length ≠ 0 := by omega
        obtain ⟨n, hn⟩ := Nat.exists_eq_succ_of_ne_zero this
        rw [hn]
        rfl
    · simp only [hz, if_false, false_and, List.getElem?_nil]

theorem zipWith_endNamespace_eq (depth : Nat) (pNamespace : String) (matrices : List Matrix)
    (families : List Constructor) (target : List Matrix)
    (hlen : matrices.length ≤ families.length) (htarget : target.length = matrices.length)
    (h : ∀ i matrix family, matrices.get? i = some matrix → families.get? i = some family →
      target.get? i = some (matrix.endNamespace family.depth depth pNamespace)) :
    List.zipWith (fun matrix family => matrix.endNamespace family.depth depth pNamespace)
      matrices families = target := by
  apply List.ext_get?
  intro i
  by_cases hi : i < matrices.length
  · obtain ⟨matrix, hm⟩ : ∃ matrix, matrices.get? i = some matrix := by
      rw [List.get?_eq_getElem?]
      exact ⟨_, List.getElem?_eq_getElem hi⟩
    obtain ⟨family, hf⟩ : ∃ family, families.get? i = some family := by
      rw [List.get?_eq_getElem?]
      exact ⟨_, List.getElem?_eq_getElem (by omega)⟩
    rw [get?_zipWith_endNamespace depth pNamespace _ _ i hm hf, h i matrix family hm hf]
  · rw [List.get?_eq_none.2 (by rw [List.length_zipWith]; omega),
      List.get?_eq_none.2 (by omega)]

/-- C29: namespace idempotence.  On a module with no entity at depth `d`, whose
matrix 0 has an entry for every matrix, and for a family `F` of depth below `d`
(so `1 ≤ d`; `d` within the range of `size_t`): appending a constructor named
`X` at depth `d` to `F` and then calling `module_endNamespace(d, ns)` returns
the module obtained by appending the constructor named `ns:X` at depth `d - 1`
to `F`; in particular a name resolves to the same constructor index of `F` in
both. -/
theorem namespace_idempotence (module : Module) (depth : Nat) (pNamespace name : String)
    (parameterTypes : List Expression) (typeMatrix : Matrix) (typeIndex : Nat)
    (family : Constructor) (matrix : Matrix)
    (hsize : depth < 18446744073709551616)
    (h0 : module.matrices.get? 0 = some typeMatrix)
    (hlen : module.matrices.length ≤ typeMatrix.constructors.length)
    (hfamily : typeMatrix.constructors.get? typeIndex = some family)
    (hfd : family.depth < depth)
    (hmatrix : module.matrices.get? typeIndex = some matrix)
    (hnone : ∀ x ∈ module.matrices,
      (∀ k ∈ x.constructors, k.depth ≠ depth) ∧ (∀ d ∈ x.destructors, d.depth ≠ depth)) :
    module_endNamespace (module.addConstructor typeIndex ⟨depth, name, parameterTypes⟩) depth
        pNamespace
      = some (module.addConstructor typeIndex
          ⟨depth - 1, pNamespace ++ ":" ++ name, parameterTypes⟩) ∧
    (∀ closed closedMatrix directMatrix resolved,
      module_endNamespace (module.addConstructor typeIndex ⟨depth, name, parameterTypes⟩)
        depth pNamespace = some closed →
      closed.matrices.get? typeIndex = some closedMatrix →
      (module.addConstructor typeIndex
        ⟨depth - 1, pNamespace ++ ":" ++ name, parameterTypes⟩).matrices.get? typeIndex
        = some directMatrix →
      findName resolved (closedMatrix.constructors.map fun k => k.name)
        = findName resolved (directMatrix.constructors.map fun k => k.name)) := by
  have hti : typeIndex < module.matrices.length := by
    rw [List.get?_eq_getElem?] at hmatrix
    exact (List.getElem?_eq_some_iff.1 hmatrix).1
  have hmain : module_endNamespace
      (module.addConstructor typeIndex ⟨depth, name, parameterTypes⟩) depth pNamespace
      = some (module.addConstructor typeIndex
          ⟨depth - 1, pNamespace ++ ":" ++ name, parameterTypes⟩) := by
    have h01 := get?_zero_addConstructor typeIndex ⟨depth, name, parameterTypes⟩ h0
    -- matrix 0 after the declaration, and its entries
    obtain ⟨newTypeMatrix, hnew0, hnewlen, hnewfamily⟩ : ∃ newTypeMatrix,
        (module.addConstructor typeIndex ⟨depth, name, parameterTypes⟩).matrices.get? 0
          = some newTypeMatrix ∧
        (module.addConstructor typeIndex ⟨depth, name, parameterTypes⟩).matrices.length
          ≤ newTypeMatrix.constructors.length ∧
        newTypeMatrix.constructors.get? typeIndex = some family := by
      by_cases hz : typeIndex = 0
      · refine ⟨typeMatrix.addConstructor ⟨depth, name, parameterTypes⟩, ?_, ?_, ?_⟩
        · rw [h01, if_pos hz.symm]
        · simp only [Module.addConstructor, if_pos hz, List.length_append, length_modifyAt,
            List.length_singleton, Matrix.addConstructor]
          omega
        · have hlt : typeIndex < typeMatrix.constructors.length := by
            rw [List.get?_eq_getElem?] at hfamily
            exact (List.getElem?_eq_some_iff.1 hfamily).1
          simp only [Matrix.addConstructor]
          rw [List.get?_eq_getElem?, List.getElem?_append_left hlt, ← List.get?_eq_getElem?,
            hfamily]
      · refine ⟨typeMatrix, ?_, ?_, hfamily⟩
        · rw [h01, if_neg (Ne.symm hz)]
        · simp only [Module.addConstructor, if_neg hz, List.append_nil, length_modifyAt]
          exact hlen
    rw [module_endNamespace_eq_zipWith depth pNamespace hnew0 hnewlen]
    refine congrArg some ?_
    show Module.mk _ = _
    refine congrArg Module.mk ?_
    refine zipWith_endNamespace_eq depth pNamespace _ _ _ hnewlen ?_ ?_
    · simp only [Module.addConstructor, List.length_append, length_modifyAt]
    · intro i a familyEntry ha hfam
      rw [get?_addConstructor_index] at ha
      change (module.addConstructor typeIndex
        ⟨depth - 1, pNamespace ++ ":" ++ name, parameterTypes⟩).matrices.get? i = _
      rw [get?_addConstructor_index]
      by_cases hi : i < module.matrices.length
      · rw [if_pos hi] at ha ⊢
        by_cases he : i = typeIndex
        · subst he
          rw [if_pos rfl, hmatrix, Option.map_some', Option.some.injEq] at ha
          rw [hnewfamily, Option.some.injEq] at hfam
          subst ha
          subst hfam
          rw [if_pos rfl, hmatrix, Option.map_some',
            endNamespace_addConstructor matrix _ depth pNamespace name parameterTypes hfd hsize
              (hnone matrix (List.get?_mem hmatrix)).1 (hnone matrix (List.get?_mem hmatrix)).2]
        · rw [if_neg he] at ha ⊢
          rw [ha, endNamespace_eq_self a _ depth pNamespace (hnone a (List.get?_mem ha)).1
            (hnone a (List.get?_mem ha)).2]
      · rw [if_neg hi] at ha ⊢
        by_cases he : typeIndex = 0 ∧ i = module.matrices.length
        · rw [if_pos he, Option.some.injEq] at ha
          subst ha
          rw [if_pos he, endNamespace_eq_self _ _ depth pNamespace (by simp) (by simp)]
        · rw [if_neg he] at ha
          exact absurd ha (by simp)
  refine ⟨hmain, ?_⟩
  intro closed closedMatrix directMatrix resolved hclosed hcm hdm
  rw [hmain, Option.some.injEq] at hclosed
  subst hclosed
  rw [hcm, Option.some.injEq] at hdm
  rw [hdm]

theorem namespace_idempotence_witness :
    module_endNamespace (boolModule.addConstructor 1 ⟨1, "maybe", [boolType]⟩) 1 "logic"
      = some (boolModule.addConstructor 1 ⟨0, "logic:maybe", [boolType]⟩) :=
  (namespace_idempotence boolModule 1 "logic" "maybe" [boolType]
    ⟨[⟨0, "Type", []⟩, ⟨0, "Bool", []⟩], []⟩ 1 ⟨0, "Bool", []⟩
    ⟨[⟨0, "true", []⟩, ⟨0, "false", []⟩],
      [⟨0, "not", [], boolType, [.construction 1 [], .construction 0 []]⟩]⟩
    (by decide) rfl (by decide) rfl (by decide) rfl (by
      intro x hx
      simp only [boolModule, List.mem_cons, List.mem_singleton, List.not_mem_nil,
        or_false] at hx
      rcases hx with rfl | rfl <;> decide)).1

/-! ## Validation -/

/-- The innermost loop of `module_validate` runs to its end exactly when every
rule entry it checks is specified. -/
theorem validateRules_valid_iff (depth : Nat) (typeConstructor : Option Constructor)
    (destructor : Destructor) :
    ∀ (constructors : List Constructor) (k : Nat),
      destructor.rules.length = k + constructors.length →
      (validateRules depth typeConstructor destructor constructors k = some .valid ↔
        ∀ j constructor rule, constructors.get? j = some constructor →
          depth ≤ constructor.depth → depth ≤ destructor.depth →
          destructor.rules.get? (k + j) = some rule → rule ≠ .unspecified)
  | [], k, _ => by
    simp only [validateRules, true_iff]
    intro j constructor rule hj
    simp at hj
  | first :: rest, k, hlen => by
    have ih := validateRules_valid_iff depth typeConstructor destructor rest (k + 1)
      (by simp only [List.length_cons] at hlen; omega)
    have hrest : (∀ j constructor rule, rest.get? j = some constructor →
          depth ≤ constructor.depth → depth ≤ destructor.depth →
          destructor.rules.get? (k + 1 + j) = some rule → rule ≠ .unspecified) ↔
        (∀ j constructor rule, (first :: rest).get? (j + 1) = some constructor →
          depth ≤ constructor.depth → depth ≤ destructor.depth →
          destructor.rules.get? (k + (j + 1)) = some rule → rule ≠ .unspecified) := by
      constructor
      · intro h j constructor rule hj h1 h2 hr
        rw [List.get?_cons_succ] at hj
        rw [show k + (j + 1) = k + 1 + j by omega] at hr
        exact h j constructor rule hj h1 h2 hr
      · intro h j constructor rule hj h1 h2 hr
        refine h j constructor rule (by rw [List.get?_cons_succ]; exact hj) h1 h2 ?_
        rw [show k + (j + 1) = k + 1 + j by omega]
        exact hr
    have hsplit : ∀ (P : Nat → Prop), (∀ j, P j) ↔ P 0 ∧ ∀ j, P (j + 1) := by
      intro P
      constructor
      · intro h
        exact ⟨h 0, fun j => h (j + 1)⟩
      · rintro ⟨h0, hs⟩ j
        cases j with
        | zero => exact h0
        | succ j => exact hs j
    rw [hsplit, ← hrest, ← ih]
    simp only [validateRules, List.get?_cons_zero, Option.some.injEq, Nat.add_zero]
    by_cases hc : first.depth < depth
    · rw [if_pos hc]
      refine ⟨fun h => ⟨?_, h⟩, fun h => h.2⟩
      intro constructor rule hfirst h1
      subst hfirst
      omega
    · rw [if_neg hc]
      by_cases hd : destructor.depth < depth
      · rw [if_pos hd]
        refine ⟨fun h => ⟨?_, h⟩, fun h => h.2⟩
        intro constructor rule _ _ h2
        omega
      · rw [if_neg hd]
        have hk : k < destructor.rules.length := by
          simp only [List.length_cons] at hlen
          omega
        obtain ⟨entry, hentry⟩ : ∃ entry, destructor.rules.get? k = some entry := by
          rw [List.get?_eq_getElem?]
          exact ⟨_, List.getElem?_eq_getElem hk⟩
        rw [hentry]
        cases entry with
        | unspecified =>
          simp only
          constructor
          · intro h
            cases typeConstructor <;> simp at h
          · rintro ⟨h, _⟩
            exact absurd rfl (h first .unspecified rfl (by omega) (by omega) rfl)
        | construction index args =>
          simp only
          refine ⟨fun h => ⟨?_, h⟩, fun h => h.2⟩
          intro constructor rule _ _ _ hr
          cases hr
          exact fun h => Expression.noConfusion h
        | evaluation e =>
          simp only
          refine ⟨fun h => ⟨?_, h⟩, fun h => h.2⟩
          intro constructor rule _ _ _ hr
          cases hr
          exact fun h => Expression.noConfusion h

theorem validateDestructors_valid_iff (depth : Nat) (typeConstructor : Option Constructor)
    (constructors : List Constructor) :
    ∀ destructors : List Destructor,
      (validateDestructors depth typeConstructor constructors destructors = some .valid ↔
        ∀ destructor ∈ destructors,
          validateRules depth typeConstructor destructor constructors 0 = some .valid)
  | [] => by simp [validateDestructors]
  | first :: rest => by
    have ih := validateDestructors_valid_iff depth typeConstructor constructors rest
    simp only [validateDestructors, List.mem_cons, forall_eq_or_imp]
    cases hfirst : validateRules depth typeConstructor first constructors 0 with
    | none => simp
    | some found =>
      cases found with
      | valid => simp only [ih, true_and]
      | unimplemented _ _ _ => simp

theorem validateMatrices_valid_iff (depth : Nat) (typeMatrix : Option Matrix) :
    ∀ (matrices : List Matrix) (i : Nat),
      (validateMatrices depth typeMatrix matrices i = some .valid ↔
        ∀ j matrix, matrices.get? j = some matrix →
          validateDestructors depth (typeMatrix.bind fun m => m.constructors.get? (i + j))
            matrix.constructors matrix.destructors = some .valid)
  | [], i => by simp [validateMatrices]
  | first :: rest, i => by
    have ih := validateMatrices_valid_iff depth typeMatrix rest (i + 1)
    have hsplit : (∀ j matrix, (first :: rest).get? j = some matrix →
          validateDestructors depth (typeMatrix.bind fun m => m.constructors.get? (i + j))
            matrix.constructors matrix.destructors = some .valid) ↔
        validateDestructors depth (typeMatrix.bind fun m => m.constructors.get? i)
            first.constructors first.destructors = some .valid ∧
        ∀ j matrix, rest.get? j = some matrix →
          validateDestructors depth (typeMatrix.bind fun m => m.constructors.get? (i + 1 + j))
            matrix.constructors matrix.destructors = some .valid := by
      constructor
      · intro h
        refine ⟨h 0 first rfl, fun j matrix hj => ?_⟩
        have := h (j + 1) matrix (by rw [List.get?_cons_succ]; exact hj)
        rw [show i + (j + 1) = i + 1 + j by omega] at this
        exact this
      · rintro ⟨h0, hs⟩ j matrix hj
        cases j with
        | zero =>
          simp only [List.get?_cons_zero, Option.some.injEq] at hj
          subst hj
          exact h0
        | succ j =>
          rw [List.get?_cons_succ] at hj
          rw [show i + (j + 1) = i + 1 + j by omega]
          exact hs j matrix hj
    rw [hsplit, ← ih]
    simp only [validateMatrices]
    cases hfirst : validateDestructors depth (typeMatrix.bind fun m => m.constructors.get? i)
        first.constructors first.destructors with
    | none => simp
    | some found =>
      cases found with
      | valid => simp only [true_and]
      | unimplemented _ _ _ => simp

theorem validateRules_defined (depth : Nat) (typeConstructor : Constructor)
    (destructor : Destructor) :
    ∀ (constructors : List Constructor) (k : Nat),
      destructor.rules.length = k + constructors.length →
      ∃ found, validateRules depth (some typeConstructor) destructor constructors k = some found
  | [], k, _ => ⟨_, rfl⟩
  | first :: rest, k, hlen => by
    have ih := validateRules_defined depth typeConstructor destructor rest (k + 1)
      (by simp only [List.length_cons] at hlen; omega)
    simp only [validateRules]
    split
    · exact ih
    · split
      · exact ih
      · have hk : k < destructor.rules.length := by
          simp only [List.length_cons] at hlen
          omega
        obtain ⟨entry, hentry⟩ : ∃ entry, destructor.rules.get? k = some entry := by
          rw [List.get?_eq_getElem?]
          exact ⟨_, List.getElem?_eq_getElem hk⟩
        rw [hentry]
        cases entry with
        | unspecified => exact ⟨_, rfl⟩
        | construction _ _ => exact ih
        | evaluation _ => exact ih

theorem validateDestructors_defined (depth : Nat) (typeConstructor : Constructor)
    (constructors : List Constructor) :
    ∀ destructors : List Destructor,
      (∀ destructor ∈ destructors, destructor.rules.length = constructors.length) →
      ∃ found, validateDestructors depth (some typeConstructor) constructors destructors
        = some found
  | [], _ => ⟨_, rfl⟩
  | first :: rest, h => by
    obtain ⟨found, hfound⟩ := validateRules_defined depth typeConstructor first constructors 0
      (by rw [h first (List.mem_cons_self _ _)]; omega)
    simp only [validateDestructors, hfound]
    cases found with
    | valid =>
      exact validateDestructors_defined depth typeConstructor constructors rest
        fun d hd => h d (List.mem_cons_of_mem _ hd)
    | unimplemented _ _ _ => exact ⟨_, rfl⟩

theorem validateMatrices_defined (depth : Nat) (typeMatrix : Matrix) :
    ∀ (matrices : List Matrix) (i : Nat),
      (∀ matrix ∈ matrices, ∀ destructor ∈ matrix.destructors,
        destructor.rules.length = matrix.constructors.length) →
      i + matrices.length ≤ typeMatrix.constructors.length →
      ∃ found, validateMatrices depth (some typeMatrix) matrices i = some found
  | [], _, _, _ => ⟨_, rfl⟩
  | first :: rest, i, h, hlen => by
    simp only [List.length_cons] at hlen
    obtain ⟨family, hfamily⟩ : ∃ family, typeMatrix.constructors.get? i = some family := by
      rw [List.get?_eq_getElem?]
      exact ⟨_, List.getElem?_eq_getElem (by omega)⟩
    obtain ⟨found, hfound⟩ := validateDestructors_defined depth family first.constructors
      first.destructors (h first (List.mem_cons_self _ _))
    simp only [validateMatrices, Option.some_bind, hfamily, hfound]
    cases found with
    | valid =>
      exact validateMatrices_defined depth typeMatrix rest (i + 1)
        (fun m hm => h m (List.mem_cons_of_mem _ hm)) (by omega)
    | unimplemented _ _ _ => exact ⟨_, rfl⟩

/-- C30: validation completeness at the end of a run.  On a module in which
every rule table has as many entries as its matrix has constructors,
`module_validate(module, 0)`, the check `main` performs, returns `true` if and
only if no rule entry of any destructor of any matrix is Unspecified; and it
returns (`true`, or `false` with its diagnostic) whenever matrix 0 has an entry
for every matrix. -/
theorem module_validate_complete (module : Module)
    (hshape : ∀ matrix ∈ module.matrices, ∀ destructor ∈ matrix.destructors,
      destructor.rules.length = matrix.constructors.length) :
    (module_validate module 0 = some .valid ↔
      ∀ matrix ∈ module.matrices, ∀ destructor ∈ matrix.destructors,
        ∀ rule ∈ destructor.rules, rule ≠ .unspecified) ∧
    (∀ typeMatrix, module.matrices.get? 0 = some typeMatrix →
      module.matrices.length ≤ typeMatrix.constructors.length →
      ∃ found, module_validate module 0 = some found) := by
  constructor
  · unfold module_validate
    rw [validateMatrices_valid_iff]
    constructor
    · intro h matrix hm destructor hd rule hr
      obtain ⟨i, hi⟩ := List.get?_of_mem hm
      obtain ⟨j, hj⟩ := List.get?_of_mem hr
      have hvalid := (validateDestructors_valid_iff 0 _ _ _).1 (h i matrix hi) destructor hd
      have hlen := hshape matrix hm destructor hd
      have hjlt : j < matrix.constructors.length := by
        rw [← hlen]
        rw [List.get?_eq_getElem?] at hj
        exact (List.getElem?_eq_some_iff.1 hj).1
      obtain ⟨constructor, hconstructor⟩ : ∃ constructor,
          matrix.constructors.get? j = some constructor := by
        rw [List.get?_eq_getElem?]
        exact ⟨_, List.getElem?_eq_getElem hjlt⟩
      refine (validateRules_valid_iff 0 _ destructor matrix.constructors 0
        (by rw [hlen]; omega)).1 hvalid j constructor rule hconstructor (Nat.zero_le _)
        (Nat.zero_le _) ?_
      rw [Nat.zero_add]
      exact hj
    · intro h i matrix hi
      have hm := List.get?_mem hi
      refine (validateDestructors_valid_iff 0 _ _ _).2 fun destructor hd => ?_
      refine (validateRules_valid_iff 0 _ destructor matrix.constructors 0
        (by rw [hshape matrix hm destructor hd]; omega)).2 ?_
      intro j constructor rule _ _ _ hr
      exact h matrix hm destructor hd rule (List.get?_mem hr)
  · intro typeMatrix h0 hlen
    unfold module_validate
    rw [h0]
    exact validateMatrices_defined 0 typeMatrix module.matrices 0 hshape (by omega)

theorem module_validate_complete_witness :
    (∀ matrix ∈ boolModule.matrices, ∀ destructor ∈ matrix.destructors,
      ∀ rule ∈ destructor.rules, rule ≠ .unspecified) ∧
    ¬ (∀ matrix ∈ boolModuleStuck.matrices, ∀ destructor ∈ matrix.destructors,
      ∀ rule ∈ destructor.rules, rule ≠ .unspecified) := by
  refine ⟨(module_validate_complete boolModule (by decide)).1.1 rfl, fun h => ?_⟩
  have hvalid := (module_validate_complete boolModuleStuck (by decide)).1.2 h
  have hstuck : module_validate boolModuleStuck 0
      = some (.unimplemented "Bool" "false" "not") := rfl
  rw [hstuck] at hvalid
  cases hvalid

/-! ## Validation at a depth -/

/-- The innermost loop of `module_validate` runs to its end exactly when every
rule entry it checks exists and is specified; the entries it checks are those
of the constructors of depth at least `depth`, if the destructor has depth at
least `depth`. -/
theorem validateRules_valid_iff_checked (depth : Nat) (typeConstructor : Option Constructor)
    (destructor : Destructor) :
    ∀ (constructors : List Constructor) (k : Nat),
      (validateRules depth typeConstructor destructor constructors k = some .valid ↔
        ∀ j constructor, constructors.get? j = some constructor →
          depth ≤ constructor.depth → depth ≤ destructor.depth →
          ∃ rule, destructor.rules.get? (k + j) = some rule ∧ rule ≠ .unspecified)
  | [], k => by
    simp only [validateRules, true_iff]
    intro j constructor hj
    simp at hj
  | first :: rest, k => by
    have ih := validateRules_valid_iff_checked depth typeConstructor destructor rest (k + 1)
    have hrest : (∀ j constructor, rest.get? j = some constructor →
          depth ≤ constructor.depth → depth ≤ destructor.depth →
          ∃ rule, destructor.rules.get? (k + 1 + j) = some rule ∧ rule ≠ .unspecified) ↔
        (∀ j constructor, (first :: rest).get? (j + 1) = some constructor →
          depth ≤ constructor.depth → depth ≤ destructor.depth →
          ∃ rule, destructor.rules.get? (k + (j + 1)) = some rule ∧ rule ≠ .unspecified) := by
      constructor
      · intro h j constructor hj h1 h2
        rw [List.get?_cons_succ] at hj
        rw [show k + (j + 1) = k + 1 + j by omega]
        exact h j constructor hj h1 h2
      · intro h j constructor hj h1 h2
        have := h j constructor (by rw [List.get?_cons_succ]; exact hj) h1 h2
        rw [show k + (j + 1) = k + 1 + j by omega] at this
        exact this
    have hsplit : ∀ (P : Nat → Prop), (∀ j, P j) ↔ P 0 ∧ ∀ j, P (j + 1) := by
      intro P
      constructor
      · intro h
        exact ⟨h 0, fun j => h (j + 1)⟩
      · rintro ⟨h0, hs⟩ j
        cases j with
        | zero => exact h0
        | succ j => exact hs j
    rw [hsplit, ← hrest, ← ih]
    simp only [validateRules, List.get?_cons_zero, Option.some.injEq, Nat.add_zero]
    by_cases hc : first.depth < depth
    · rw [if_pos hc]
      refine ⟨fun h => ⟨?_, h⟩, fun h => h.2⟩
      intro constructor hfirst h1
      subst hfirst
      omega
    · rw [if_neg hc]
      by_cases hd : destructor.depth < depth
      · rw [if_pos hd]
        refine ⟨fun h => ⟨?_, h⟩, fun h => h.2⟩
        intro constructor _ _ h2
        omega
      · rw [if_neg hd]
        cases hentry : destructor.rules.get? k with
        | none =>
          simp only
          constructor
          · intro h
            cases h
          · rintro ⟨h, _⟩
            obtain ⟨rule, hrule, _⟩ := h first rfl (by omega) (by omega)
            cases hrule
        | some entry =>
          cases entry with
          | unspecified =>
            simp only
            constructor
            · intro h
              cases typeConstructor <;> simp at h
            · rintro ⟨h, _⟩
              obtain ⟨rule, hrule, hne⟩ := h first rfl (by omega) (by omega)
              cases hrule
              exact absurd rfl hne
          | construction index args =>
            simp only
            refine ⟨fun h => ⟨?_, h⟩, fun h => h.2⟩
            intro constructor _ _ _
            exact ⟨_, rfl, fun h => Expression.noConfusion h⟩
          | evaluation e =>
            simp only
            refine ⟨fun h => ⟨?_, h⟩, fun h => h.2⟩
            intro constructor _ _ _
            exact ⟨_, rfl, fun h => Expression.noConfusion h⟩

/-- `module_validate` returns `true` exactly when every rule entry it checks
exists and is specified. -/
theorem module_validate_valid_iff (module : Module) (depth : Nat) :
    module_validate module depth = some .valid ↔
      ∀ matrix ∈ module.matrices, ∀ destructor ∈ matrix.destructors,
        ∀ j constructor, matrix.constructors.get? j = some constructor →
          depth ≤ constructor.depth → depth ≤ destructor.depth →
          ∃ rule, destructor.rules.get? j = some rule ∧ rule ≠ .unspecified := by
  unfold module_validate
  rw [validateMatrices_valid_iff]
  constructor
  · intro h matrix hm destructor hd j constructor hj h1 h2
    obtain ⟨i, hi⟩ := List.get?_of_mem hm
    have hvalid := (validateDestructors_valid_iff depth _ _ _).1 (h i matrix hi) destructor hd
    have := (validateRules_valid_iff_checked depth _ destructor matrix.constructors 0).1 hvalid
      j constructor hj h1 h2
    rw [Nat.zero_add] at this
    exact this
  · intro h i matrix hi
    have hm := List.get?_mem hi
    refine (validateDestructors_valid_iff depth _ _ _).2 fun destructor hd => ?_
    refine (validateRules_valid_iff_checked depth _ destructor matrix.constructors 0).2 ?_
    intro j constructor hj h1 h2
    rw [Nat.zero_add]
    exact h matrix hm destructor hd j constructor hj h1 h2

/-- C31 as stated fails.  After `Type | Bool ;` at depth 0 and `Bool | true ;`,
`Bool . not ~ Bool ;` at depth 1 (inside a namespace that is still open), no
family has a depth of 1 or more, so every rule entry of every family of depth
at least 1 is specified; yet `module_validate(module, 1)` returns `false`,
reporting `Bool [true.not]`: the function compares the depths of the
constructor and of the destructor with `depth`, never the depth of the
family. -/
theorem module_validate_ignores_family_depth :
    ∃ module typeMatrix, Reachable module ∧
      module.matrices.get? 0 = some typeMatrix ∧
      typeMatrix.constructors.length = module.matrices.length ∧
      (∀ family ∈ typeMatrix.constructors, family.depth < 1) ∧
      module_validate module 1 = some (.unimplemented "Bool" "true" "not") := by
  have h1 := Reachable.statement 8 emptyFileSystem ""
    (Parser.ofInput "Type | Bool ;".toList) createEmptyModule 0 _ _ _ Reachable.empty rfl
  have h2 := Reachable.statement 8 emptyFileSystem ""
    (Parser.ofInput "Bool | true ;".toList) _ 1 _ _ _ h1 rfl
  have h3 := Reachable.statement 8 emptyFileSystem ""
    (Parser.ofInput "Bool . not ~ Bool ;".toList) _ 1 _ _ _ h2 rfl
  exact ⟨_, _, h3, rfl, rfl, by decide, rfl⟩

/-- C31, amended: for every module and every depth `d`,
`module_validate(module, d)` returns `true` if and only if, in every matrix,
every rule entry of a destructor of depth at least `d` for a constructor of
depth at least `d` exists and is specified.  The depth of the family is not
looked at. -/
theorem module_validate_at_depth (module : Module) (depth : Nat) :
    module_validate module depth = some .valid ↔
      ∀ matrix ∈ module.matrices, ∀ destructor ∈ matrix.destructors,
        ∀ j constructor, matrix.constructors.get? j = some constructor →
          depth ≤ constructor.depth → depth ≤ destructor.depth →
          ∃ rule, destructor.rules.get? j = some rule ∧ rule ≠ .unspecified :=
  module_validate_valid_iff module depth

theorem module_validate_at_depth_witness :
    module_validate boolModule 0 = some .valid ↔
      ∀ matrix ∈ boolModule.matrices, ∀ destructor ∈ matrix.destructors,
        ∀ j constructor, matrix.constructors.get? j = some constructor →
          0 ≤ constructor.depth → 0 ≤ destructor.depth →
          ∃ rule, destructor.rules.get? j = some rule ∧ rule ≠ .unspecified :=
  module_validate_at_depth boolModule 0

/-- C39: validation is monotone in the depth.  If `module_validate(module, d)`
returns `true` and `d ≤ d'`, then `module_validate(module, d')` returns `true`;
in particular a module that passes the check at depth 0 passes it at every
depth. -/
theorem module_validate_monotone (module : Module) (depth deeper : Nat)
    (hle : depth ≤ deeper) (hvalid : module_validate module depth = some .valid) :
    module_validate module deeper = some .valid := by
  rw [module_validate_valid_iff] at hvalid ⊢
  intro matrix hm destructor hd j constructor hj h1 h2
  exact hvalid matrix hm destructor hd j constructor hj (by omega) (by omega)

theorem module_validate_monotone_witness :
    module_validate boolModule 0 = some .valid ∧ module_validate boolModule 3 = some .valid :=
  ⟨rfl, module_validate_monotone boolModule 0 3 (by decide) rfl⟩
/-! ## The report of the validation -/

theorem validateRules_unimplemented (depth : Nat) (typeConstructor : Option Constructor)
    (destructor : Destructor) {typeName constructorName destructorName : String} :
    ∀ (constructors : List Constructor) (start : Nat),
      validateRules depth typeConstructor destructor constructors start
        = some (.unimplemented typeName constructorName destructorName) →
      ∃ k constructor family,
        typeConstructor = some family ∧ constructors.get? k = some constructor ∧
        typeName = family.name ∧ constructorName = constructor.name ∧
        destructorName = destructor.name ∧
        depth ≤ constructor.depth ∧ depth ≤ destructor.depth ∧
        destructor.rules.get? (start + k) = some .unspecified ∧
        ∀ earlier other, earlier < k → constructors.get? earlier = some other →
          depth ≤ other.depth →
          ∃ rule, destructor.rules.get? (start + earlier) = some rule ∧ rule ≠ .unspecified
  | [], _, h => by simp [validateRules] at h
  | first :: rest, start, h => by
    have ih := @validateRules_unimplemented depth typeConstructor destructor typeName
      constructorName destructorName rest (start + 1)
    have hlater : validateRules depth typeConstructor destructor rest (start + 1)
          = some (.unimplemented typeName constructorName destructorName) →
        (depth ≤ first.depth → depth ≤ destructor.depth →
          ∃ rule, destructor.rules.get? start = some rule ∧ rule ≠ .unspecified) →
        ∃ k constructor family,
          typeConstructor = some family ∧ (first :: rest).get? k = some constructor ∧
          typeName = family.name ∧ constructorName = constructor.name ∧
          destructorName = destructor.name ∧
          depth ≤ constructor.depth ∧ depth ≤ destructor.depth ∧
          destructor.rules.get? (start + k) = some .unspecified ∧
          ∀ earlier other, earlier < k → (first :: rest).get? earlier = some other →
            depth ≤ other.depth →
            ∃ rule, destructor.rules.get? (start + earlier) = some rule ∧
              rule ≠ .unspecified := by
      intro hrest hfirst
      obtain ⟨k, constructor, family, h1, h2, h3, h4, h5, h6, h7, h8, h9⟩ := ih hrest
      refine ⟨k + 1, constructor, family, h1, by rw [List.get?_cons_succ]; exact h2, h3, h4,
        h5, h6, h7, ?_, ?_⟩
      · rw [show start + (k + 1) = start + 1 + k by omega]
        exact h8
      · intro earlier other hlt hother hdepth
        cases earlier with
        | zero =>
          simp only [List.get?_cons_zero, Option.some.injEq] at hother
          subst hother
          exact hfirst hdepth h7
        | succ earlier =>
          rw [List.get?_cons_succ] at hother
          rw [show start + (earlier + 1) = start + 1 + earlier by omega]
          exact h9 earlier other (by omega) hother hdepth
    simp only [validateRules] at h
    by_cases hc : first.depth < depth
    · rw [if_pos hc] at h
      exact hlater h fun h1 _ => absurd h1 (by omega)
    · rw [if_neg hc] at h
      by_cases hd : destructor.depth < depth
      · rw [if_pos hd] at h
        exact hlater h fun _ h2 => absurd h2 (by omega)
      · rw [if_neg hd] at h
        cases hentry : destructor.rules.get? start with
        | none =>
          rw [hentry] at h
          cases h
        | some entry =>
          rw [hentry] at h
          cases entry with
          | unspecified =>
            simp only at h
            cases typeConstructor with
            | none => simp at h
            | some family =>
              simp only [Option.map_some', Option.some.injEq, Validity.unimplemented.injEq] at h
              obtain ⟨h1, h2, h3⟩ := h
              refine ⟨0, first, family, rfl, rfl, h1.symm, h2.symm, h3.symm, by omega,
                by omega, hentry, ?_⟩
              intro earlier other hlt
              exact absurd hlt (Nat.not_lt_zero _)
          | construction index args =>
            simp only at h
            exact hlater h fun _ _ => ⟨_, hentry, fun e => by cases e⟩
          | evaluation e =>
            simp only at h
            exact hlater h fun _ _ => ⟨_, hentry, fun e => by cases e⟩

theorem validateDestructors_unimplemented (depth : Nat) (typeConstructor : Option Constructor)
    (constructors : List Constructor) {typeName constructorName destructorName : String} :
    ∀ destructors : List Destructor,
      validateDestructors depth typeConstructor constructors destructors
        = some (.unimplemented typeName constructorName destructorName) →
      ∃ j destructor, destructors.get? j = some destructor ∧
        validateRules depth typeConstructor destructor constructors 0
          = some (.unimplemented typeName constructorName destructorName) ∧
        ∀ earlier other, earlier < j → destructors.get? earlier = some other →
          validateRules depth typeConstructor other constructors 0 = some .valid
  | [], h => by simp [validateDestructors] at h
  | first :: rest, h => by
    simp only [validateDestructors] at h
    cases hfirst : validateRules depth typeConstructor first constructors 0 with
    | none =>
      rw [hfirst] at h
      cases h
    | some found =>
      rw [hfirst] at h
      cases found with
      | valid =>
        simp only at h
        obtain ⟨j, destructor, h1, h2, h3⟩ :=
          validateDestructors_unimplemented depth typeConstructor constructors rest h
        refine ⟨j + 1, destructor, by rw [List.get?_cons_succ]; exact h1, h2, ?_⟩
        intro earlier other hlt hother
        cases earlier with
        | zero =>
          simp only [List.get?_cons_zero, Option.some.injEq] at hother
          subst hother
          exact hfirst
        | succ earlier =>
          rw [List.get?_cons_succ] at hother
          exact h3 earlier other (by omega) hother
      | unimplemented a b c =>
        simp only at h
        refine ⟨0, first, rfl, by rw [hfirst, h], ?_⟩
        intro earlier other hlt
        exact absurd hlt (Nat.not_lt_zero _)

theorem validateMatrices_unimplemented (depth : Nat) (typeMatrix : Option Matrix)
    {typeName constructorName destructorName : String} :
    ∀ (matrices : List Matrix) (start : Nat),
      validateMatrices depth typeMatrix matrices start
        = some (.unimplemented typeName constructorName destructorName) →
      ∃ i matrix, matrices.get? i = some matrix ∧
        validateDestructors depth (typeMatrix.bind fun m => m.constructors.get? (start + i))
          matrix.constructors matrix.destructors
          = some (.unimplemented typeName constructorName destructorName) ∧
        ∀ earlier other, earlier < i → matrices.get? earlier = some other →
          validateDestructors depth
            (typeMatrix.bind fun m => m.constructors.get? (start + earlier))
            other.constructors other.destructors = some .valid
  | [], _, h => by simp [validateMatrices] at h
  | first :: rest, start, h => by
    simp only [validateMatrices] at h
    cases hfirst : validateDestructors depth
        (typeMatrix.bind fun m => m.constructors.get? start)
        first.constructors first.destructors with
    | none =>
      rw [hfirst] at h
      cases h
    | some found =>
      rw [hfirst] at h
      cases found with
      | valid =>
        simp only at h
        obtain ⟨i, matrix, h1, h2, h3⟩ :=
          validateMatrices_unimplemented depth typeMatrix rest (start + 1) h
        refine ⟨i + 1, matrix, by rw [List.get?_cons_succ]; exact h1, ?_, ?_⟩
        · rw [show start + (i + 1) = start + 1 + i by omega]
          exact h2
        · intro earlier other hlt hother
          cases earlier with
          | zero =>
            simp only [List.get?_cons_zero, Option.some.injEq] at hother
            subst hother
            exact hfirst
          | succ earlier =>
            rw [List.get?_cons_succ] at hother
            rw [show start + (earlier + 1) = start + 1 + earlier by omega]
            exact h3 earlier other (by omega) hother
      | unimplemented a b c =>
        simp only at h
        refine ⟨0, first, rfl, by rw [Nat.add_zero, hfirst, h], ?_⟩
        intro earlier other hlt
        exact absurd hlt (Nat.not_lt_zero _)

/-- C32: validation reports the unimplemented triple.  Whenever
`module_validate` returns `false`, the names it reports are those of entry `i`
of matrix 0, of a constructor `k` and of a destructor `j` of matrix `i`, both of
depth at least `depth`, whose rule entry is Unspecified, and every entry
checked before it, in the order of the matrix index, then the destructor
index, then the constructor index, exists and is specified.  On the module of
Scenario C, at depth 0, it reports `Bool`, `false`, `not`. -/
theorem module_validate_report :
    (∀ (module : Module) (depth : Nat) (typeName constructorName destructorName : String),
      module_validate module depth
        = some (.unimplemented typeName constructorName destructorName) →
      ∃ i j k typeMatrix family matrix destructor constructor,
        module.matrices.get? 0 = some typeMatrix ∧
        typeMatrix.constructors.get? i = some family ∧
        module.matrices.get? i = some matrix ∧
        matrix.destructors.get? j = some destructor ∧
        matrix.constructors.get? k = some constructor ∧
        typeName = family.name ∧ constructorName = constructor.name ∧
        destructorName = destructor.name ∧
        depth ≤ constructor.depth ∧ depth ≤ destructor.depth ∧
        destructor.rules.get? k = some .unspecified ∧
        (∀ k' other, k' < k → matrix.constructors.get? k' = some other →
          depth ≤ other.depth →
          ∃ rule, destructor.rules.get? k' = some rule ∧ rule ≠ .unspecified) ∧
        (∀ j' otherDestructor, j' < j → matrix.destructors.get? j' = some otherDestructor →
          ∀ k' other, matrix.constructors.get? k' = some other →
            depth ≤ other.depth → depth ≤ otherDestructor.depth →
            ∃ rule, otherDestructor.rules.get? k' = some rule ∧ rule ≠ .unspecified) ∧
        (∀ i' otherMatrix, i' < i → module.matrices.get? i' = some otherMatrix →
          ∀ otherDestructor ∈ otherMatrix.destructors,
            ∀ k' other, otherMatrix.constructors.get? k' = some other →
              depth ≤ other.depth → depth ≤ otherDestructor.depth →
              ∃ rule, otherDestructor.rules.get? k' = some rule ∧ rule ≠ .unspecified)) ∧
    module_validate boolModuleStuck 0 = some (.unimplemented "Bool" "false" "not") := by
  refine ⟨?_, rfl⟩
  intro module depth typeName constructorName destructorName h
  unfold module_validate at h
  obtain ⟨i, matrix, hi, hmatrix, hbefore⟩ := validateMatrices_unimplemented depth _ _ 0 h
  obtain ⟨j, destructor, hj, hdestructor, hbeforeJ⟩ :=
    validateDestructors_unimplemented depth _ _ _ hmatrix
  obtain ⟨k, constructor, family, hfamily, hk, h1, h2, h3, h4, h5, hentry, hbeforeK⟩ :=
    validateRules_unimplemented depth _ destructor _ 0 hdestructor
  rw [Nat.zero_add] at hfamily hentry
  cases htm : module.matrices.get? 0 with
  | none =>
    rw [htm] at hfamily
    simp at hfamily
  | some typeMatrix =>
    rw [htm, Option.some_bind] at hfamily
    refine ⟨i, j, k, typeMatrix, family, matrix, destructor, constructor, rfl, hfamily, hi, hj,
      hk, h1, h2, h3, h4, h5, hentry, ?_, ?_, ?_⟩
    · intro k' other hlt hother hdepth
      have := hbeforeK k' other hlt hother hdepth
      rw [Nat.zero_add] at this
      exact this
    · intro j' otherDestructor hlt hother k' other hk' hd1 hd2
      have := (validateRules_valid_iff_checked depth _ otherDestructor matrix.constructors 0).1
        (hbeforeJ j' otherDestructor hlt hother) k' other hk' hd1 hd2
      rw [Nat.zero_add] at this
      exact this
    · intro i' otherMatrix hlt hother otherDestructor hmem k' other hk' hd1 hd2
      have hvalid := (validateDestructors_valid_iff depth _ _ _).1
        (hbefore i' otherMatrix hlt hother) otherDestructor hmem
      have := (validateRules_valid_iff_checked depth _ otherDestructor
        otherMatrix.constructors 0).1 hvalid k' other hk' hd1 hd2
      rw [Nat.zero_add] at this
      exact this

theorem module_validate_report_witness :
    module_validate boolModuleStuck 0 = some (.unimplemented "Bool" "false" "not") ∧
    ∃ i j k typeMatrix family matrix destructor constructor,
      boolModuleStuck.matrices.get? 0 = some typeMatrix ∧
      typeMatrix.constructors.get? i = some family ∧
      boolModuleStuck.matrices.get? i = some matrix ∧
      matrix.destructors.get? j = some destructor ∧
      matrix.constructors.get? k = some constructor ∧
      "Bool" = family.name ∧ "false" = constructor.name ∧ "not" = destructor.name ∧
      0 ≤ constructor.depth ∧ 0 ≤ destructor.depth ∧
      destructor.rules.get? k = some .unspecified ∧
      (∀ k' other, k' < k → matrix.constructors.get? k' = some other →
        0 ≤ other.depth →
        ∃ rule, destructor.rules.get? k' = some rule ∧ rule ≠ .unspecified) ∧
      (∀ j' otherDestructor, j' < j → matrix.destructors.get? j' = some otherDestructor →
        ∀ k' other, matrix.constructors.get? k' = some other →
          0 ≤ other.depth → 0 ≤ otherDestructor.depth →
          ∃ rule, otherDestructor.rules.get? k' = some rule ∧ rule ≠ .unspecified) ∧
      (∀ i' otherMatrix, i' < i → boolModuleStuck.matrices.get? i' = some otherMatrix →
        ∀ otherDestructor ∈ otherMatrix.destructors,
          ∀ k' other, otherMatrix.constructors.get? k' = some other →
            0 ≤ other.depth → 0 ≤ otherDestructor.depth →
            ∃ rule, otherDestructor.rules.get? k' = some rule ∧ rule ≠ .unspecified) :=
  ⟨rfl, module_validate_report.1 boolModuleStuck 0 "Bool" "false" "not" rfl⟩

/-! ## The cells copied into the rule array -/

theorem get?_fillSlots_of_le {subst : Expression → Slots → Outcome Expression} :
    ∀ (parameterTypes values : List Expression) (position : Nat) (slots out : Slots) (i : Nat),
      fillSlots subst parameterTypes values position slots = .ok out →
      position + parameterTypes.length ≤ i → out.get? i = slots.get? i
  | [], _, _, slots, out, _, h, _ => by
    simp only [fillSlots, Outcome.ok.injEq] at h
    rw [h]
  | p :: ps, values, position, slots, out, i, h, hi => by
    simp only [fillSlots] at h
    obtain ⟨type, _, h⟩ := Outcome.bind_eq_ok.1 h
    simp only [List.length_cons] at hi
    rw [get?_fillSlots_of_le ps _ _ _ _ i h (by omega), List.get?_eq_getElem?,
      List.getElem?_set_ne (by omega), List.get?_eq_getElem?]

theorem get?_copySlots (s : Slots) (start count i : Nat) (h : i < count) :
    (copySlots s start count).get? i = some (s.read (start + i)) := by
  simp only [copySlots, List.get?_eq_getElem?, List.getElem?_map, List.getElem?_range h,
    Option.map_some']

theorem get?_append_of_length {α : Type} (xs ys : List α) (n i : Nat) (h : xs.length = n) :
    (xs ++ ys).get? (n + i) = ys.get? i := by
  subst h
  rw [List.get?_eq_getElem?, List.getElem?_append_right (by omega), Nat.add_sub_cancel_left,
    List.get?_eq_getElem?]

/-- C36 does not hold of the code.  Whenever `substitution_destruct` fires a
rule for a destructor with `p` parameters on a family of arity `n` and a
constructor of arity `c`, the outer array has `n + 1 + p` cells, the rule array
has `n + c + (n + 1 + p)` cells, not `n + c + p`, and its cell `n + c + i` is
a copy of outer index `n + 1 + i` for every `i < n + 1 + p`: for `p ≤ i` the
index read is `n + 1 + p` or more, beyond the end of the outer array, and the
cell copied is indeterminate. -/
theorem rule_environment_copied_beyond_bounds (fuel : Nat) (module : Module)
    (typeIndex : Nat) (typeArguments : List Expression) (constructorIndex : Nat)
    (constructorArguments : List Expression) (index : Nat) (pArguments : List Expression)
    (r : Substitution)
    (h : substitution_destruct (fuel + 1) module
      ⟨.construction typeIndex typeArguments,
        .construction constructorIndex constructorArguments⟩ index pArguments = .ok r) :
    ∃ typeConstructor matrix destructor constructor pTypeSubstitutions
        pDestructorSubstitutions pRuleSubstitutions rule,
      ((module.matrices.get? 0).bind fun m => m.constructors.get? typeIndex)
        = some typeConstructor ∧
      module.matrices.get? typeIndex = some matrix ∧
      matrix.destructors.get? index = some destructor ∧
      matrix.constructors.get? constructorIndex = some constructor ∧
      fillSlots (expression_substitute fuel module) destructor.parameterTypes pArguments
        (typeConstructor.parameterTypes.length + 1)
        (copySlots pTypeSubstitutions 0 typeConstructor.parameterTypes.length ++
          [some ⟨.construction typeIndex typeArguments,
            .construction constructorIndex constructorArguments⟩] ++
          List.replicate destructor.parameterTypes.length none) = .ok pDestructorSubstitutions ∧
      fillSlots (expression_substitute fuel module) constructor.parameterTypes
        constructorArguments typeConstructor.parameterTypes.length
        (copySlots pTypeSubstitutions 0 typeConstructor.parameterTypes.length ++
          List.replicate constructor.parameterTypes.length none ++
          copySlots pDestructorSubstitutions (typeConstructor.parameterTypes.length + 1)
            (typeConstructor.parameterTypes.length + 1 + destructor.parameterTypes.length))
        = .ok pRuleSubstitutions ∧
      destructor.rules.get? constructorIndex = some rule ∧
      expression_substitute fuel module rule pRuleSubstitutions = .ok r.value ∧
      pDestructorSubstitutions.length
        = typeConstructor.parameterTypes.length + 1 + destructor.parameterTypes.length ∧
      pRuleSubstitutions.length
        = typeConstructor.parameterTypes.length + constructor.parameterTypes.length +
          (typeConstructor.parameterTypes.length + 1 + destructor.parameterTypes.length) ∧
      (∀ i, i < typeConstructor.parameterTypes.length + 1 + destructor.parameterTypes.length →
        pRuleSubstitutions.get?
            (typeConstructor.parameterTypes.length + constructor.parameterTypes.length + i)
          = some (pDestructorSubstitutions.read
              (typeConstructor.parameterTypes.length + 1 + i))) ∧
      (∀ i, destructor.parameterTypes.length ≤ i →
        i < typeConstructor.parameterTypes.length + 1 + destructor.parameterTypes.length →
        pDestructorSubstitutions.get? (typeConstructor.parameterTypes.length + 1 + i) = none ∧
        pRuleSubstitutions.get?
            (typeConstructor.parameterTypes.length + constructor.parameterTypes.length + i)
          = some none) := by
  obtain ⟨typeConstructor, pTypeSubstitutions, matrix, destructor, pDestructorSubstitutions,
    h1, _, h3, h4, h5, _, hv⟩ := substitution_destruct_ok h
  rcases hv with ⟨c, cargs, constructor, pRuleSubstitutions, rule, hval, hc, hfill, hrule, _,
    hsub⟩ | ⟨e, _, hval, _⟩
  · cases hval
    have hlenD : pDestructorSubstitutions.length
        = typeConstructor.parameterTypes.length + 1 + destructor.parameterTypes.length := by
      rw [length_fillSlots _ _ _ _ _ h5]
      simp only [List.length_append, length_copySlots, List.length_replicate,
        List.length_singleton]
    have hlenR : pRuleSubstitutions.length
        = typeConstructor.parameterTypes.length + constructor.parameterTypes.length +
          (typeConstructor.parameterTypes.length + 1 + destructor.parameterTypes.length) := by
      rw [length_fillSlots _ _ _ _ _ hfill]
      simp only [List.length_append, length_copySlots, List.length_replicate]
    have hcell : ∀ i,
        i < typeConstructor.parameterTypes.length + 1 + destructor.parameterTypes.length →
        pRuleSubstitutions.get?
            (typeConstructor.parameterTypes.length + constructor.parameterTypes.length + i)
          = some (pDestructorSubstitutions.read
              (typeConstructor.parameterTypes.length + 1 + i)) := by
      intro i hi
      rw [get?_fillSlots_of_le _ _ _ _ _ _ hfill (by omega),
        get?_append_of_length _ _ _ _ (by
          simp only [List.length_append, length_copySlots, List.length_replicate]),
        get?_copySlots _ _ _ _ hi]
    refine ⟨typeConstructor, matrix, destructor, constructor, pTypeSubstitutions,
      pDestructorSubstitutions, pRuleSubstitutions, rule, h1, h3, h4, hc, h5, hfill, hrule,
      hsub, hlenD, hlenR, hcell, ?_⟩
    intro i hp hi
    have hnone : pDestructorSubstitutions.get? (typeConstructor.parameterTypes.length + 1 + i)
        = none := by
      rw [List.get?_eq_getElem?]
      exact List.getElem?_eq_none (by omega)
    refine ⟨hnone, ?_⟩
    rw [hcell i hi, Slots.read, hnone]
    rfl
  · cases hval

theorem rule_environment_copied_beyond_bounds_witness :
    ∃ typeConstructor matrix destructor constructor pTypeSubstitutions
        pDestructorSubstitutions pRuleSubstitutions rule,
      ((boolModule.matrices.get? 0).bind fun m => m.constructors.get? 1)
        = some typeConstructor ∧
      boolModule.matrices.get? 1 = some matrix ∧
      matrix.destructors.get? 0 = some destructor ∧
      matrix.constructors.get? 0 = some constructor ∧
      fillSlots (expression_substitute 2 boolModule) destructor.parameterTypes []
        (typeConstructor.parameterTypes.length + 1)
        (copySlots pTypeSubstitutions 0 typeConstructor.parameterTypes.length ++
          [some ⟨boolType,
            .construction 0 []⟩] ++
          List.replicate destructor.parameterTypes.length none) = .ok pDestructorSubstitutions ∧
      fillSlots (expression_substitute 2 boolModule) constructor.parameterTypes
        [] typeConstructor.parameterTypes.length
        (copySlots pTypeSubstitutions 0 typeConstructor.parameterTypes.length ++
          List.replicate constructor.parameterTypes.length none ++
          copySlots pDestructorSubstitutions (typeConstructor.parameterTypes.length + 1)
            (typeConstructor.parameterTypes.length + 1 + destructor.parameterTypes.length))
        = .ok pRuleSubstitutions ∧
      destructor.rules.get? 0 = some rule ∧
      expression_substitute 2 boolModule rule pRuleSubstitutions = .ok (.construction 1 []) ∧
      pDestructorSubstitutions.length
        = typeConstructor.parameterTypes.length + 1 + destructor.parameterTypes.length ∧
      pRuleSubstitutions.length
        = typeConstructor.parameterTypes.length + constructor.parameterTypes.length +
          (typeConstructor.parameterTypes.length + 1 + destructor.parameterTypes.length) ∧
      (∀ i, i < typeConstructor.parameterTypes.length + 1 + destructor.parameterTypes.length →
        pRuleSubstitutions.get?
            (typeConstructor.parameterTypes.length + constructor.parameterTypes.length + i)
          = some (pDestructorSubstitutions.read
              (typeConstructor.parameterTypes.length + 1 + i))) ∧
      (∀ i, destructor.parameterTypes.length ≤ i →
        i < typeConstructor.parameterTypes.length + 1 + destructor.parameterTypes.length →
        pDestructorSubstitutions.get? (typeConstructor.parameterTypes.length + 1 + i) = none ∧
        pRuleSubstitutions.get?
            (typeConstructor.parameterTypes.length + constructor.parameterTypes.length + i)
          = some none) :=
  rule_environment_copied_beyond_bounds 2 boolModule 1 [] 0 [] 0 []
    ⟨boolType, .construction 1 []⟩ rfl

/-! ## The annotated evaluation form -/

/-- C35 as stated fails.  In the module of Scenario A, on the input
`$ Bool [ true ] . not` against the type `Bool`, `parser_parseExpression`
returns `true`, the value inside the brackets, not `false`, and stops after the
closing bracket: the text `. not` is left unread. -/
theorem annotation_stops_at_bracket :
    parser_parseExpression 3 boolModule [] boolType
        (Parser.ofInput "$ Bool [ true ] . not".toList)
      = .ok (.construction 0 [], ⟨". not".toList, 1, 17⟩) :=
  rfl

/-- C35, amended: the destructor applications of an annotated evaluation stand
before the closing bracket, `$ T [ e . d args ]`.  When `T` elaborates to a type
of family `F`, `e` elaborates against it, a period follows, `d` is the first
destructor of `F` with the name read, its arguments elaborate, the closing
bracket follows and `substitution_destruct` returns a result whose type is
equal to the expected type, `parser_parseExpression` returns the value of that
result and stops after the closing bracket and the whitespace behind it.  When
the closing bracket follows `e` at once, it returns `e` itself, if `T` is equal
to the expected type, and stops after that bracket: a destructor application
written behind the bracket is not read. -/
theorem parser_parseExpression_annotated (fuel : Nat) (module : Module)
    (pParameters : List Parameter) (type : Expression) (parser : Parser)
    (typeIndex : Nat) (typeArguments : List Expression) (afterType : Parser)
    (value : Expression) (afterValue : Parser)
    (hopen : parser.next = some (Char.ofNat 36))
    (htype : parser_parseExpression (fuel + 2) module pParameters universeType
      (parser_skipWhitespace (parser_advance parser))
        = .ok (.construction typeIndex typeArguments, afterType))
    (hbracket : afterType.next = some (Char.ofNat 91))
    (hvalue : parser_parseExpression (fuel + 2) module pParameters
      (.construction typeIndex typeArguments) (parser_skipWhitespace (parser_advance afterType))
        = .ok (value, afterValue)) :
    (∀ typeConstructor matrix index destructor pTypeSubstitutions pArguments afterArguments r,
      afterValue.next = some (Char.ofNat 46) →
      (parser_skipWhitespace (parser_advance afterValue)).next ≠ some (Char.ofNat 63) →
      ((module.matrices.get? 0).bind fun m => m.constructors.get? typeIndex)
        = some typeConstructor →
      module.matrices.get? typeIndex = some matrix →
      findName (parser_parseName (parser_skipWhitespace (parser_advance afterValue))).1
        (matrix.destructors.map fun d => d.name) = some index →
      matrix.destructors.get? index = some destructor →
      fillSlots (expression_substitute (fuel + 1) module) typeConstructor.parameterTypes
        typeArguments 0
        (List.replicate
          (typeConstructor.parameterTypes.length + 1 + destructor.parameterTypes.length)
          none) = .ok pTypeSubstitutions →
      parseArguments (expression_substitute (fuel + 1) module)
        (parser_parseExpression (fuel + 1) module pParameters) destructor.parameterTypes
        (typeConstructor.parameterTypes.length + 1)
        (pTypeSubstitutions.set typeConstructor.parameterTypes.length
          (some ⟨.construction typeIndex typeArguments, value⟩))
        (parser_parseName (parser_skipWhitespace (parser_advance afterValue))).2
        = .ok (pArguments, afterArguments) →
      substitution_destruct (fuel + 1) module ⟨.construction typeIndex typeArguments, value⟩
        index pArguments = .ok r →
      afterArguments.next = some (Char.ofNat 93) →
      expression_equals r.type type = some true →
      parser_parseExpression (fuel + 3) module pParameters type parser
        = .ok (r.value, parser_skipWhitespace (parser_advance afterArguments))) ∧
    (afterValue.next = some (Char.ofNat 93) →
      expression_equals (.construction typeIndex typeArguments) type = some true →
      parser_parseExpression (fuel + 3) module pParameters type parser
        = .ok (value, parser_skipWhitespace (parser_advance afterValue))) := by
  have w36 : isWordCharacter (Char.ofNat 36) = false := by decide
  have n36 : ¬ Char.ofNat 36 = Char.ofNat 63 := by decide
  constructor
  · intro typeConstructor matrix index destructor pTypeSubstitutions pArguments afterArguments r
      hperiod hhelp htc hmatrix hfind hdestructor hfill hargs hdestruct hclose hequal
    have hstop : afterArguments.next ≠ some (Char.ofNat 46) := by
      rw [hclose]; decide
    have hloop : parser_parseDestructions (fuel + 2) module pParameters
        ⟨.construction typeIndex typeArguments, value⟩ afterValue = .ok (r, afterArguments) := by
      rw [parser_parseDestructions, if_pos hperiod]
      simp only [htc, hmatrix, Outcome.ofOption, Outcome.bind, if_neg hhelp, hfind, hdestructor,
        hfill, hargs, hdestruct]
      exact parser_parseDestructions_stop fuel module pParameters r afterArguments hstop
    rw [parser_parseExpression]
    simp only [hopen, w36, n36, Bool.false_or, decide_False, if_false, if_true,
      Bool.false_eq_true, htype, Outcome.bind, hbracket, hvalue, hloop, closeEvaluation, hclose,
      hequal]
  · intro hclose hequal
    have hstop : afterValue.next ≠ some (Char.ofNat 46) := by
      rw [hclose]; decide
    rw [parser_parseExpression]
    simp only [hopen, w36, n36, Bool.false_or, decide_False, if_false, if_true,
      Bool.false_eq_true, htype, Outcome.bind, hbracket, hvalue,
      parser_parseDestructions_stop (fuel + 1) module pParameters _ afterValue hstop,
      closeEvaluation, hclose, hequal]

theorem parser_parseExpression_annotated_witness :
    parser_parseExpression 4 boolModule [] boolType
        (Parser.ofInput "$ Bool [ true . not ]".toList)
      = .ok (.construction 1 [], ⟨[], 1, 22⟩) ∧
    parser_parseExpression 4 boolModule [] boolType
        (Parser.ofInput "$ Bool [ true ] . not".toList)
      = .ok (.construction 0 [], ⟨". not".toList, 1, 17⟩) :=
  ⟨(parser_parseExpression_annotated 1 boolModule [] boolType
      (Parser.ofInput "$ Bool [ true . not ]".toList) 1 [] ⟨"[ true . not ]".toList, 1, 8⟩
      (.construction 0 []) ⟨". not ]".toList, 1, 15⟩ rfl rfl rfl rfl).1
      ⟨0, "Bool", []⟩ _ 0 _ [none] [] ⟨"]".toList, 1, 21⟩ ⟨boolType, .construction 1 []⟩
      rfl (by decide) rfl rfl rfl rfl rfl rfl rfl rfl rfl,
    (parser_parseExpression_annotated 1 boolModule [] boolType
      (Parser.ofInput "$ Bool [ true ] . not".toList) 1 [] ⟨"[ true ] . not".toList, 1, 8⟩
      (.construction 0 []) ⟨"] . not".toList, 1, 15⟩ rfl rfl rfl rfl).2 rfl rfl⟩

/-! ## The types the printer computes -/

theorem reachable_sameModule : Reachable sameModule := by
  have h1 := Reachable.statement 8 emptyFileSystem ""
    (Parser.ofInput "Type | Nat ;".toList) createEmptyModule 0 _ _ _ Reachable.empty rfl
  have h2 := Reachable.statement 8 emptyFileSystem ""
    (Parser.ofInput "Nat | zero ;".toList) _ 0 _ _ _ h1 rfl
  have h3 := Reachable.statement 8 emptyFileSystem ""
    (Parser.ofInput "Type | Eq Nat [a] Nat [b] ;".toList) _ 0 _ _ _ h2 rfl
  exact Reachable.statement 8 emptyFileSystem ""
    (Parser.ofInput "Nat . same Nat [m] ~ Eq () (m) ;".toList) _ 0 _ sameModule "" h3 rfl

/-- C33 does not hold of the code.  In the module with the families `Nat` and
`Eq Nat [a] Nat [b]` and the destructor `Nat . same Nat [m] ~ Eq () (m)`, under
the parameter `x` of type `Nat`, the stuck term `x.same zero` is printed as
`x.same zero` with the type `Eq zero zero`, whereas `substitution_destruct` on
the target `x` with the argument `zero` returns the type `Eq x zero`: the
printer has written the slot of the argument over the slot of the destructed
value. -/
theorem evaluation_print_overwrites_self :
    Reachable sameModule ∧
    evaluation_print 4 sameModule [⟨"x", natType⟩]
        (.destruction (.reference 0) 0 [.construction 0 []])
      = .ok ("x.same zero", eqType (.construction 0 []) (.construction 0 [])) ∧
    substitution_destruct 4 sameModule ⟨natType, .evaluation (.reference 0)⟩ 0
        [.construction 0 []]
      = .ok ⟨eqType (.evaluation (.reference 0)) (.construction 0 []),
          .evaluation (.destruction (.reference 0) 0 [.construction 0 []])⟩ :=
  ⟨reachable_sameModule, rfl, rfl⟩

/-! ## Declarations only append -/

theorem matrix_extendedBy_self (matrix : Matrix) : matrix.extendedBy matrix :=
  ⟨fun _ _ h => h, fun _ destructor h => ⟨destructor, h, rfl, rfl, rfl, rfl, fun _ _ _ h _ => h⟩⟩

theorem Module.extendedBy_self (module : Module) : module.extendedBy module :=
  fun _ matrix h => ⟨matrix, h, matrix_extendedBy_self matrix⟩

theorem matrix_extendedBy_addConstructor (matrix : Matrix) (constructor : Constructor) :
    matrix.extendedBy (matrix.addConstructor constructor) := by
  constructor
  · intro k c hk
    have hlt : k < matrix.constructors.length := by
      rw [List.get?_eq_getElem?] at hk
      exact (List.getElem?_eq_some_iff.1 hk).1
    simp only [Matrix.addConstructor]
    rw [List.get?_eq_getElem?, List.getElem?_append_left hlt, ← List.get?_eq_getElem?, hk]
  · intro j destructor hj
    refine ⟨{ destructor with
      rules := (reallocRules destructor.rules (matrix.constructors.length + 1)).set
        matrix.constructors.length Expression.unspecified }, ?_, rfl, rfl, rfl, rfl, ?_⟩
    · simp only [Matrix.addConstructor]
      rw [List.get?_eq_getElem?, List.getElem?_map, ← List.get?_eq_getElem?, hj,
        Option.map_some']
    · intro k rule hk hrule _
      have hlt : k < destructor.rules.length := by
        rw [List.get?_eq_getElem?] at hrule
        exact (List.getElem?_eq_some_iff.1 hrule).1
      rw [(reallocRules_set destructor.rules matrix.constructors.length).2.2.1 k hk hlt, hrule]

theorem matrix_extendedBy_addDestructor (matrix : Matrix) (depth : Nat) (name : String)
    (parameterTypes : List Expression) (returnType : Expression) :
    matrix.extendedBy (matrix.addDestructor depth name parameterTypes returnType) := by
  constructor
  · intro k c hk
    exact hk
  · intro j destructor hj
    have hlt : j < matrix.destructors.length := by
      rw [List.get?_eq_getElem?] at hj
      exact (List.getElem?_eq_some_iff.1 hj).1
    refine ⟨destructor, ?_, rfl, rfl, rfl, rfl, fun _ _ _ h _ => h⟩
    simp only [Matrix.addDestructor]
    rw [List.get?_eq_getElem?, List.getElem?_append_left hlt, ← List.get?_eq_getElem?, hj]

theorem Module.extendedBy_modifyAt (module : Module) (f : Matrix → Matrix) (typeIndex : Nat)
    (extra : List Matrix) (hf : ∀ matrix, module.matrices.get? typeIndex = some matrix →
      matrix.extendedBy (f matrix)) :
    module.extendedBy { matrices := modifyAt f typeIndex module.matrices ++ extra } := by
  intro i matrix hi
  have hlt : i < (modifyAt f typeIndex module.matrices).length := by
    rw [length_modifyAt]
    rw [List.get?_eq_getElem?] at hi
    exact (List.getElem?_eq_some_iff.1 hi).1
  have hget : (modifyAt f typeIndex module.matrices ++ extra).get? i
      = (modifyAt f typeIndex module.matrices).get? i := by
    rw [List.get?_eq_getElem?, List.getElem?_append_left hlt, ← List.get?_eq_getElem?]
  simp only [hget, get?_modifyAt]
  by_cases h : i = typeIndex
  · subst h
    rw [if_pos rfl, hi]
    exact ⟨f matrix, rfl, hf matrix hi⟩
  · rw [if_neg h]
    exact ⟨matrix, hi, matrix_extendedBy_self matrix⟩

theorem Module.extendedBy_addConstructor (module : Module) (typeIndex : Nat)
    (constructor : Constructor) :
    module.extendedBy (module.addConstructor typeIndex constructor) :=
  module.extendedBy_modifyAt _ typeIndex _ fun matrix _ =>
    matrix_extendedBy_addConstructor matrix constructor

theorem Module.extendedBy_addDestructor (module : Module) (typeIndex depth : Nat)
    (name : String) (parameterTypes : List Expression) (returnType : Expression) :
    module.extendedBy (module.addDestructor typeIndex depth name parameterTypes returnType) := by
  have h := module.extendedBy_modifyAt
    (fun matrix => matrix.addDestructor depth name parameterTypes returnType) typeIndex []
    fun matrix _ => matrix_extendedBy_addDestructor matrix depth name parameterTypes returnType
  rw [List.append_nil] at h
  exact h

/-- Writing a rule entry that is not a specified one keeps every specified entry. -/
theorem Module.extendedBy_setRule (module : Module) (typeIndex destructorIndex
    constructorIndex : Nat) (rule : Expression)
    (hfree : ∀ matrix destructor old, module.matrices.get? typeIndex = some matrix →
      matrix.destructors.get? destructorIndex = some destructor →
      destructor.rules.get? constructorIndex = some old → old = .unspecified) :
    module.extendedBy (module.setRule typeIndex destructorIndex constructorIndex rule) := by
  have h := module.extendedBy_modifyAt
    (fun matrix =>
      { matrix with
        destructors := modifyAt (fun destructor =>
          { destructor with rules := destructor.rules.set constructorIndex rule })
          destructorIndex matrix.destructors }) typeIndex [] ?_
  · rw [List.append_nil] at h
    exact h
  · intro matrix hmatrix
    constructor
    · intro k c hk
      exact hk
    · intro j destructor hj
      simp only [get?_modifyAt]
      by_cases hjd : j = destructorIndex
      · subst hjd
        rw [if_pos rfl, hj]
        refine ⟨_, rfl, rfl, rfl, rfl, rfl, ?_⟩
        intro k old _ hold hne
        simp only
        rw [List.get?_eq_getElem?, List.getElem?_set_ne, ← List.get?_eq_getElem?, hold]
        intro hk
        subst hk
        exact hne (hfree matrix destructor old hmatrix hj hold)
      · rw [if_neg hjd]
        exact ⟨destructor, hj, rfl, rfl, rfl, rfl, fun _ _ _ h _ => h⟩

theorem parseRule_extends {fuel : Nat} {module : Module} {typeIndex : Nat}
    {pTypeParameters : List Parameter} {parser : Parser} {m' : Module} {p : Parser}
    (h : parseRule fuel module typeIndex pTypeParameters parser = .ok (m', p)) :
    module.extendedBy m' := by
  unfold parseRule at h
  obtain ⟨matrix, hmatrix, h⟩ := Outcome.bind_eq_ok.1 h
  simp only at h
  obtain ⟨constructorIndex, _, h⟩ := Outcome.bind_eq_ok.1 h
  obtain ⟨constructor, _, h⟩ := Outcome.bind_eq_ok.1 h
  obtain ⟨constructorParameters, _, h⟩ := Outcome.bind_eq_ok.1 h
  split at h
  · obtain ⟨destructorIndex, _, h⟩ := Outcome.bind_eq_ok.1 h
    obtain ⟨destructor, hdestructor, h⟩ := Outcome.bind_eq_ok.1 h
    split at h
    · rename_i hfree
      obtain ⟨destructorParameters, _, h⟩ := Outcome.bind_eq_ok.1 h
      split at h
      · split at h
        · obtain ⟨type, _, h⟩ := Outcome.bind_eq_ok.1 h
          obtain ⟨rule, _, h⟩ := Outcome.bind_eq_ok.1 h
          simp only [Outcome.ok.injEq, Prod.mk.injEq] at h
          rw [← h.1]
          refine module.extendedBy_setRule _ _ _ _ ?_
          intro matrix1 destructor1 old h1 h2 h3
          rw [Outcome.ofOption_eq_ok.1 hmatrix] at h1
          cases h1
          rw [Outcome.ofOption_eq_ok.1 hdestructor] at h2
          cases h2
          rw [hfree] at h3
          cases h3
          rfl
        · cases h
      · cases h
    · cases h
  · cases h

theorem parseDeclaration_extends {fuel : Nat} {module : Module} {typeIndex : Nat}
    {pTypeParameters : List Parameter} {depth : Nat} {parser : Parser} {m' : Module}
    {p : Parser}
    (h : (parser.next = some (Char.ofNat 124) ∧
          parseConstructorDeclaration fuel module typeIndex pTypeParameters depth parser
            = .ok (m', p)) ∨
        (parser.next = some (Char.ofNat 46) ∧
          parseDestructorDeclaration fuel module typeIndex pTypeParameters depth parser
            = .ok (m', p)) ∨
        (parser.next = some (Char.ofNat 91) ∧
          parseRule fuel module typeIndex pTypeParameters parser = .ok (m', p))) :
    module.extendedBy m' := by
  rcases h with ⟨_, h⟩ | ⟨_, h⟩ | ⟨_, h⟩
  · obtain ⟨_, constructor, _, rfl⟩ := parseConstructorDeclaration_ok h
    exact module.extendedBy_addConstructor typeIndex constructor
  · obtain ⟨_, name, parameterTypes, returnType, _, rfl⟩ := parseDestructorDeclaration_ok h
    exact module.extendedBy_addDestructor typeIndex depth name parameterTypes returnType
  · exact parseRule_extends h

/-- The parameter loop of a declaration stops at its stop character only. -/
theorem parseDeclaredParameters_stop (stop : Char) :
    ∀ (fuel : Nat) (module : Module) (scope pParameters : List Parameter) (parser : Parser)
      (result : List Parameter × Parser),
      parseDeclaredParameters stop fuel module scope pParameters parser = .ok result →
      result.2.next = some stop
  | 0, _, _, _, _, _, h => by
    rw [parseDeclaredParameters] at h
    cases h
  | fuel + 1, module, scope, pParameters, parser, result, h => by
    rw [parseDeclaredParameters] at h
    split at h
    · rename_i hstop
      simp only [Outcome.ok.injEq] at h
      rw [← h]
      exact hstop
    · obtain ⟨type, _, h⟩ := Outcome.bind_eq_ok.1 h
      split at h
      · simp only at h
        split at h
        · cases h
        · split at h
          · exact parseDeclaredParameters_stop stop fuel module scope _ _ result h
          · cases h
      · cases h

/-- A successful constructor branch ends at the semicolon. -/
theorem parseConstructorDeclaration_closing {fuel : Nat} {module : Module} {typeIndex : Nat}
    {pTypeParameters : List Parameter} {depth : Nat} {parser : Parser} {m' : Module}
    {p : Parser}
    (h : parseConstructorDeclaration fuel module typeIndex pTypeParameters depth parser
      = .ok (m', p)) :
    p.next = some (Char.ofNat 59) := by
  unfold parseConstructorDeclaration at h
  obtain ⟨matrix, _, h⟩ := Outcome.bind_eq_ok.1 h
  simp only at h
  split at h
  · cases h
  · obtain ⟨result, hresult, h⟩ := Outcome.bind_eq_ok.1 h
    simp only [Outcome.ok.injEq, Prod.mk.injEq] at h
    rw [← h.2]
    exact parseDeclaredParameters_stop _ _ _ _ _ _ _ hresult

/-- A declaration that fails has left the module as it was, unless one of its
three branches succeeded and the semicolon is missing. -/
theorem parseDeclaration_fail {fuel : Nat} {module : Module} {depth : Nat} {parser : Parser}
    {failed : Module} (h : parseDeclaration fuel module depth parser = .fail failed) :
    failed = module ∨
    ∃ typeMatrix typeIndex typeConstructor typeParameters closing,
      module.matrices.get? 0 = some typeMatrix ∧
      findName (parser_parseName parser).1 (typeMatrix.constructors.map fun k => k.name)
        = some typeIndex ∧
      typeMatrix.constructors.get? typeIndex = some typeConstructor ∧
      parseTypeParameters typeConstructor.parameterTypes (parser_parseName parser).2
        = some typeParameters ∧
      closing.next ≠ some (Char.ofNat 59) ∧
      ((typeParameters.2.next = some (Char.ofNat 124) ∧
          parseConstructorDeclaration fuel module typeIndex typeParameters.1 depth
            typeParameters.2 = .ok (failed, closing)) ∨
        (typeParameters.2.next = some (Char.ofNat 46) ∧
          parseDestructorDeclaration fuel module typeIndex typeParameters.1 depth
            typeParameters.2 = .ok (failed, closing)) ∨
        (typeParameters.2.next = some (Char.ofNat 91) ∧
          parseRule fuel module typeIndex typeParameters.1 typeParameters.2
            = .ok (failed, closing))) := by
  unfold parseDeclaration at h
  simp only at h
  cases h0 : module.matrices.get? 0 with
  | none =>
    rw [h0] at h
    simp only [Run.fail.injEq] at h
    exact Or.inl h.symm
  | some typeMatrix =>
    rw [h0] at h
    simp only at h
    cases h1 : findName (parser_parseName parser).1
        (typeMatrix.constructors.map fun k => k.name) with
    | none =>
      rw [h1] at h
      simp only [Run.fail.injEq] at h
      exact Or.inl h.symm
    | some typeIndex =>
      rw [h1] at h
      simp only at h
      cases h2 : typeMatrix.constructors.get? typeIndex with
      | none =>
        rw [h2] at h
        simp only [Run.fail.injEq] at h
        exact Or.inl h.symm
      | some typeConstructor =>
        rw [h2] at h
        simp only at h
        cases h3 : parseTypeParameters typeConstructor.parameterTypes
            (parser_parseName parser).2 with
        | none =>
          rw [h3] at h
          simp only [Run.fail.injEq] at h
          exact Or.inl h.symm
        | some typeParameters =>
          rw [h3] at h
          simp only at h
          split at h
          · rename_i result hdeclared
            split at h
            · cases h
            · rename_i hclosing
              simp only [Run.fail.injEq] at h
              subst h
              refine Or.inr ⟨typeMatrix, typeIndex, typeConstructor, typeParameters, result.2,
                rfl, h1, h2, h3, hclosing, ?_⟩
              by_cases hc : typeParameters.2.next = some (Char.ofNat 124)
              · rw [if_pos hc] at hdeclared
                exact Or.inl ⟨hc, hdeclared⟩
              · rw [if_neg hc] at hdeclared
                by_cases hd : typeParameters.2.next = some (Char.ofNat 46)
                · rw [if_pos hd] at hdeclared
                  exact Or.inr (Or.inl ⟨hd, hdeclared⟩)
                · rw [if_neg hd] at hdeclared
                  by_cases hr : typeParameters.2.next = some (Char.ofNat 91)
                  · rw [if_pos hr] at hdeclared
                    exact Or.inr (Or.inr ⟨hr, hdeclared⟩)
                  · rw [if_neg hr] at hdeclared
                    cases hdeclared
          · simp only [Run.fail.injEq] at h
            exact Or.inl h.symm
          · cases h

/-- C37 as stated fails.  In the module of Scenario A the statement
`Bool . neg ~ Bool`, whose semicolon is missing, fails, and the module the
failing call leaves has a second destructor `neg` in family `Bool`. -/
theorem failed_declaration_changes_module :
    parser_parseStatement 3 emptyFileSystem "" (Parser.ofInput "Bool . neg ~ Bool".toList)
        boolModule 0
      = .fail (boolModule.addDestructor 1 0 "neg" [] boolType) ∧
    (boolModule.matrices.get? 1).map (fun matrix => matrix.destructors.map fun d => d.name)
      = some ["not"] ∧
    ((boolModule.addDestructor 1 0 "neg" [] boolType).matrices.get? 1).map
        (fun matrix => matrix.destructors.map fun d => d.name)
      = some ["not", "neg"] :=
  ⟨rfl, rfl, rfl⟩

/-- C37, amended: for every module and every constructor, destructor or rule
statement, whether it succeeds or fails, every constructor and destructor that
existed before keeps its family, index, name, depth, parameter types and return
type, and every rule entry that was specified before holds the same expression
afterwards; and a statement that fails leaves the module unchanged, unless it
is a destructor or rule statement (of the family and with the family parameters
read from the statement) that was complete and was applied to the module, and
only the semicolon after it is missing. -/
theorem declarations_only_append (fuel : Nat) (fileSystem : FileSystem) (directory : String)
    (parser : Parser) (module : Module) (depth : Nat) (c : Char)
    (hnext : parser.next = some c) (hword : isWordCharacter c = true) :
    (∀ next newModule output,
      parser_parseStatement (fuel + 1) fileSystem directory parser module depth
        = .ok next newModule output →
      module.extendedBy newModule) ∧
    (∀ failed,
      parser_parseStatement (fuel + 1) fileSystem directory parser module depth
        = .fail failed →
      module.extendedBy failed ∧
      (failed = module ∨
        ∃ typeMatrix typeIndex typeConstructor typeParameters closing,
          module.matrices.get? 0 = some typeMatrix ∧
          findName (parser_parseName parser).1 (typeMatrix.constructors.map fun k => k.name)
            = some typeIndex ∧
          typeMatrix.constructors.get? typeIndex = some typeConstructor ∧
          parseTypeParameters typeConstructor.parameterTypes (parser_parseName parser).2
            = some typeParameters ∧
          closing.next ≠ some (Char.ofNat 59) ∧
          ((typeParameters.2.next = some (Char.ofNat 46) ∧
              parseDestructorDeclaration fuel module typeIndex typeParameters.1 depth
                typeParameters.2 = .ok (failed, closing)) ∨
            (typeParameters.2.next = some (Char.ofNat 91) ∧
              parseRule fuel module typeIndex typeParameters.1 typeParameters.2
                = .ok (failed, closing))))) := by
  rw [parser_parseStatement_declaration fuel fileSystem directory parser module depth hnext
    hword]
  constructor
  · intro next newModule output h
    obtain ⟨_, _, _, _, _, _, _, _, _, hbranch⟩ := parseDeclaration_ok h
    exact parseDeclaration_extends hbranch
  · intro failed h
    rcases parseDeclaration_fail h with rfl | ⟨typeMatrix, typeIndex, typeConstructor,
      typeParameters, closing, h0, h1, h2, h3, hclosing, hbranch⟩
    · exact ⟨failed.extendedBy_self, Or.inl rfl⟩
    · refine ⟨parseDeclaration_extends hbranch, Or.inr ⟨typeMatrix, typeIndex, typeConstructor,
        typeParameters, closing, h0, h1, h2, h3, hclosing, ?_⟩⟩
      rcases hbranch with ⟨_, hc⟩ | hd | hr
      · exact absurd (parseConstructorDeclaration_closing hc) hclosing
      · exact Or.inl hd
      · exact Or.inr hr

theorem declarations_only_append_witness :
    boolModule.extendedBy (boolModule.addConstructor 1 ⟨0, "maybe", []⟩) ∧
    boolModule.extendedBy (boolModule.addDestructor 1 0 "neg" [] boolType) :=
  ⟨(declarations_only_append 2 emptyFileSystem "" (Parser.ofInput "Bool | maybe ;".toList)
      boolModule 0 (Char.ofNat 66) rfl (by decide)).1 ⟨[], 1, 15⟩ _ "" rfl,
    ((declarations_only_append 2 emptyFileSystem "" (Parser.ofInput "Bool . neg ~ Bool".toList)
      boolModule 0 (Char.ofNat 66) rfl (by decide)).2 _ rfl).1⟩

/-! ## Reduction need not end -/

theorem reachable_loopModule : Reachable loopModule := by
  have h1 := Reachable.statement 8 emptyFileSystem ""
    (Parser.ofInput "Type | Nat ;".toList) createEmptyModule 0 _ _ _ Reachable.empty rfl
  have h2 := Reachable.statement 8 emptyFileSystem ""
    (Parser.ofInput "Nat | zero ;".toList) _ 0 _ _ _ h1 rfl
  have h3 := Reachable.statement 8 emptyFileSystem ""
    (Parser.ofInput "Nat . loop Nat [m] ~ Nat ;".toList) _ 0 _ _ _ h2 rfl
  exact Reachable.statement 8 emptyFileSystem ""
    (Parser.ofInput "Nat [zero . loop (m)] ~ (m . loop (m)) ;".toList) _ 0 _ loopModule "" h3
    rfl

/-- The rule `zero.loop m = m.loop m`, fired: one destruct step on `zero` with
the argument `zero` ends with the same destruct step. -/
theorem loop_step (k : Nat) :
    substitution_destruct (k + 5) loopModule ⟨natType, .construction 0 []⟩ 0
        [.construction 0 []] =
      (substitution_destruct (k + 2) loopModule ⟨natType, .construction 0 []⟩ 0
        [.construction 0 []]).bind fun r => .ok ⟨natType, r.value⟩ := by
  rw [substitution_destruct]
  simp only [loopModule, typeMatrixWithNat, loopDestructor]
  simp [natType, Outcome.ofOption, Outcome.bind, fillSlots, copySlots, expression_substitute,
    evaluation_substitute, Outcome.mapList, Slots.read, expression_duplicate,
    expressions_duplicate]
  generalize substitution_destruct (k + 2) _ _ 0 [Expression.construction 0 []] = x
  cases x <;> rfl

theorem loop_timeout : ∀ fuel : Nat,
    substitution_destruct fuel loopModule ⟨natType, .construction 0 []⟩ 0 [.construction 0 []]
      = .timeout
  | 0 => rfl
  | 1 => rfl
  | 2 => rfl
  | 3 => rfl
  | 4 => rfl
  | k + 5 => by
    rw [loop_step, loop_timeout (k + 2)]
    rfl

/-- C40: no termination check.  The module built by the four statements
`Type | Nat ;`, `Nat | zero ;`, `Nat . loop Nat [m] ~ Nat ;` and
`Nat [zero . loop (m)] ~ (m . loop (m)) ;`, each of which `parser_parseStatement`
accepts, passes `module_validate` at depth 0; `zero` elaborates against `Nat`;
and `substitution_destruct` on the target `zero` of type `Nat` with the
destructor `loop` and the argument `zero` returns under no budget: whatever the
amount of recursion allowed, the call has not returned. -/
theorem no_termination_check :
    parser_parseStatement 8 emptyFileSystem "" (Parser.ofInput "Type | Nat ;".toList)
        createEmptyModule 0
      = .ok ⟨[], 1, 13⟩ ⟨[typeMatrixWithNat, ⟨[], []⟩]⟩ "" ∧
    parser_parseStatement 8 emptyFileSystem "" (Parser.ofInput "Nat | zero ;".toList)
        ⟨[typeMatrixWithNat, ⟨[], []⟩]⟩ 0
      = .ok ⟨[], 1, 13⟩ ⟨[typeMatrixWithNat, ⟨[⟨0, "zero", []⟩], []⟩]⟩ "" ∧
    parser_parseStatement 8 emptyFileSystem ""
        (Parser.ofInput "Nat . loop Nat [m] ~ Nat ;".toList)
        ⟨[typeMatrixWithNat, ⟨[⟨0, "zero", []⟩], []⟩]⟩ 0
      = .ok ⟨[], 1, 27⟩
          ⟨[typeMatrixWithNat,
            ⟨[⟨0, "zero", []⟩], [{ loopDestructor with rules := [.unspecified] }]⟩]⟩ "" ∧
    parser_parseStatement 8 emptyFileSystem ""
        (Parser.ofInput "Nat [zero . loop (m)] ~ (m . loop (m)) ;".toList)
        ⟨[typeMatrixWithNat,
          ⟨[⟨0, "zero", []⟩], [{ loopDestructor with rules := [.unspecified] }]⟩]⟩ 0
      = .ok ⟨[], 1, 41⟩ loopModule "" ∧
    Reachable loopModule ∧
    module_validate loopModule 0 = some .valid ∧
    parser_parseExpression 2 loopModule [] natType (Parser.ofInput "zero".toList)
      = .ok (.construction 0 [], ⟨[], 1, 5⟩) ∧
    ∀ fuel : Nat,
      substitution_destruct fuel loopModule ⟨natType, .construction 0 []⟩ 0
        [.construction 0 []] = .timeout :=
  ⟨rfl, rfl, rfl, rfl, reachable_loopModule, rfl, rfl, loop_timeout⟩

/-! ## Results hold no Unspecified node -/

theorem specified_of_expression_duplicate {e r : Expression}
    (h : expression_duplicate e = some r) : r.specified = true := by
  have hr := expression_duplicate_eq e r h
  subst hr
  cases hs : r.specified with
  | true => rfl
  | false =>
    rw [expression_duplicate_of_not_specified r hs] at h
    cases h

theorem specified_of_evaluation_duplicate {e r : Evaluation}
    (h : evaluation_duplicate e = some r) : r.specified = true := by
  have hr := evaluation_duplicate_eq e r h
  subst hr
  cases hs : r.specified with
  | true => rfl
  | false =>
    rw [evaluation_duplicate_of_not_specified r hs] at h
    cases h

theorem specified_of_duplicateArguments :
    ∀ (pArguments : List Expression) (count : Nat) (copies : List Expression),
      duplicateArguments pArguments count = some copies → specifiedList copies = true
  | _, 0, copies, h => by
    simp only [duplicateArguments, Option.some.injEq] at h
    rw [← h]
    rfl
  | [], count + 1, copies, h => by
    simp only [duplicateArguments] at h
    cases h
  | a :: rest, count + 1, copies, h => by
    simp only [duplicateArguments] at h
    cases ha : expression_duplicate a with
    | none =>
      rw [ha] at h
      cases h
    | some copy =>
      rw [ha] at h
      simp only at h
      cases hrest : duplicateArguments rest count with
      | none =>
        rw [hrest] at h
        cases h
      | some others =>
        rw [hrest] at h
        simp only [Option.some.injEq] at h
        rw [← h]
        simp only [specifiedList, Bool.and_eq_true]
        exact ⟨specified_of_expression_duplicate ha,
          specified_of_duplicateArguments rest count others hrest⟩

theorem specifiedList_of_forall₂ {P : Expression → Expression → Prop}
    (hP : ∀ a r, P a r → r.specified = true) :
    ∀ {args results : List Expression}, List.Forall₂ P args results →
      specifiedList results = true
  | _, _, List.Forall₂.nil => rfl
  | _, _, List.Forall₂.cons h hrest => by
    simp only [specifiedList, Bool.and_eq_true]
    exact ⟨hP _ _ h, specifiedList_of_forall₂ hP hrest⟩

/-- Whatever the three functions of the reducer return holds no Unspecified
node, whatever the module, the environment and the input. -/
theorem substitute_specified (module : Module) :
    ∀ fuel : Nat,
      (∀ e s r, expression_substitute fuel module e s = .ok r → r.specified = true) ∧
      (∀ e s r, evaluation_substitute fuel module e s = .ok r →
        r.type.specified = true ∧ r.value.specified = true) ∧
      (∀ t index args r, substitution_destruct fuel module t index args = .ok r →
        r.type.specified = true ∧ r.value.specified = true)
  | 0 => by
    refine ⟨fun e s r h => ?_, fun e s r h => ?_, fun t index args r h => ?_⟩
    · simp only [expression_substitute] at h; cases h
    · simp only [evaluation_substitute] at h; cases h
    · simp only [substitution_destruct] at h; cases h
  | fuel + 1 => by
    obtain ⟨ihx, ihv, ihd⟩ := substitute_specified module fuel
    refine ⟨fun e s r h => ?_, fun e s r h => ?_, fun t index args r h => ?_⟩
    · cases e with
      | unspecified => simp only [expression_substitute] at h; cases h
      | construction i as =>
        simp only [expression_substitute] at h
        obtain ⟨rs, hrs, h⟩ := Outcome.bind_eq_ok.1 h
        simp only [Outcome.ok.injEq] at h
        rw [← h]
        simp only [Expression.specified]
        exact specifiedList_of_forall₂ (fun a r' hr' => ihx a s r' hr')
          (Outcome.mapList_eq_ok.1 hrs)
      | evaluation ev =>
        simp only [expression_substitute] at h
        obtain ⟨sub, hsub, h⟩ := Outcome.bind_eq_ok.1 h
        simp only [Outcome.ok.injEq] at h
        rw [← h]
        exact (ihv ev s sub hsub).2
    · cases e with
      | reference i =>
        simp only [evaluation_substitute] at h
        cases hslot : s.read i with
        | none => rw [hslot] at h; cases h
        | some slot =>
          rw [hslot] at h
          obtain ⟨ty, hty, h⟩ := Outcome.bind_eq_ok.1 h
          obtain ⟨va, hva, h⟩ := Outcome.bind_eq_ok.1 h
          simp only [Outcome.ok.injEq] at h
          rw [← h]
          exact ⟨specified_of_expression_duplicate (Outcome.ofOption_eq_ok.1 hty),
            specified_of_expression_duplicate (Outcome.ofOption_eq_ok.1 hva)⟩
      | destruction caller i as =>
        simp only [evaluation_substitute] at h
        obtain ⟨c, _, h⟩ := Outcome.bind_eq_ok.1 h
        obtain ⟨rs, _, h⟩ := Outcome.bind_eq_ok.1 h
        exact ihd c i rs r h
    · obtain ⟨type, value⟩ := t
      cases type with
      | unspecified => simp only [substitution_destruct] at h; cases h
      | evaluation _ => simp only [substitution_destruct] at h; cases h
      | construction typeIndex typeArguments =>
        obtain ⟨_, _, _, destructor, pDestructorSubstitutions, _, _, _, _, _, htype, hvalue⟩ :=
          substitution_destruct_ok h
        refine ⟨ihx _ _ _ htype, ?_⟩
        rcases hvalue with ⟨_, _, _, pRuleSubstitutions, rule, _, _, _, _, _, hrule⟩ |
          ⟨e, pArgumentCopies, hval, hcopies, hr⟩
        · exact ihx _ _ _ hrule
        · rw [hr]
          subst hval
          simp only [Expression.specified, Evaluation.specified, Bool.and_eq_true]
          refine ⟨?_, specified_of_duplicateArguments _ _ _ hcopies⟩
          simp only [substitution_destruct] at h
          obtain ⟨_, _, h⟩ := Outcome.bind_eq_ok.1 h
          obtain ⟨_, _, h⟩ := Outcome.bind_eq_ok.1 h
          obtain ⟨_, _, h⟩ := Outcome.bind_eq_ok.1 h
          obtain ⟨_, _, h⟩ := Outcome.bind_eq_ok.1 h
          obtain ⟨_, _, h⟩ := Outcome.bind_eq_ok.1 h
          obtain ⟨_, _, h⟩ := Outcome.bind_eq_ok.1 h
          obtain ⟨caller, hcaller, _⟩ := Outcome.bind_eq_ok.1 h
          have hsame := evaluation_duplicate_eq _ _ (Outcome.ofOption_eq_ok.1 hcaller)
          rw [← hsame]
          exact specified_of_evaluation_duplicate (Outcome.ofOption_eq_ok.1 hcaller)
theorem parseArguments_specified {subst : Expression → Slots → Outcome Expression}
    {parse : Expression → Parser → Outcome (Expression × Parser)}
    (hparse : ∀ type parser r, parse type parser = .ok r → r.1.specified = true) :
    ∀ (parameterTypes : List Expression) (position : Nat) (slots : Slots) (parser : Parser)
      (result : List Expression × Parser),
      parseArguments subst parse parameterTypes position slots parser = .ok result →
      specifiedList result.1 = true
  | [], _, _, _, result, h => by
    simp only [parseArguments, Outcome.ok.injEq] at h
    rw [← h]
    rfl
  | p :: ps, position, slots, parser, result, h => by
    simp only [parseArguments] at h
    obtain ⟨type, _, h⟩ := Outcome.bind_eq_ok.1 h
    obtain ⟨value, hvalue, h⟩ := Outcome.bind_eq_ok.1 h
    obtain ⟨rest, hrest, h⟩ := Outcome.bind_eq_ok.1 h
    simp only [Outcome.ok.injEq] at h
    rw [← h]
    simp only [specifiedList, Bool.and_eq_true]
    exact ⟨hparse _ _ _ hvalue, parseArguments_specified hparse ps _ _ _ rest hrest⟩

theorem closeEvaluation_value { isAnnotation : Bool} {type : Expression}
    {caller : Substitution} {parser : Parser} {r : Expression × Parser}
    (h : closeEvaluation isAnnotation type caller parser = .ok r) : r.1 = caller.value := by
  unfold closeEvaluation at h
  by_cases hn : parser.next = some (Char.ofNat (if isAnnotation then 93 else 41))
  · rw [if_pos hn] at h
    split at h
    · simp only [Outcome.ok.injEq] at h
      rw [← h]
    · cases h
  · rw [if_neg hn] at h
    cases h

/-- Whatever the elaborator returns holds no Unspecified node; the destructor
loop keeps a caller whose value holds none. -/
theorem parse_specified (module : Module) (pParameters : List Parameter) :
    ∀ fuel : Nat,
      (∀ type parser r, parser_parseExpression fuel module pParameters type parser = .ok r →
        r.1.specified = true) ∧
      (∀ caller parser r, caller.value.specified = true →
        parser_parseDestructions fuel module pParameters caller parser = .ok r →
        r.1.value.specified = true)
  | 0 => by
    refine ⟨fun type parser r h => ?_, fun caller parser r _ h => ?_⟩
    · simp only [parser_parseExpression] at h; cases h
    · simp only [parser_parseDestructions] at h; cases h
  | fuel + 1 => by
    obtain ⟨ihe, ihd⟩ := parse_specified module pParameters fuel
    refine ⟨fun type parser r h => ?_, fun caller parser r hcaller h => ?_⟩
    · rw [parser_parseExpression] at h
      split at h
      · cases h
      · rename_i c hc
        split at h
        · split at h
          · obtain ⟨typeConstructor, _, h⟩ := Outcome.bind_eq_ok.1 h
            obtain ⟨matrix, _, h⟩ := Outcome.bind_eq_ok.1 h
            split at h
            · cases h
            · simp only at h
              obtain ⟨index, _, h⟩ := Outcome.bind_eq_ok.1 h
              obtain ⟨constructor, _, h⟩ := Outcome.bind_eq_ok.1 h
              obtain ⟨pSubstitutions, _, h⟩ := Outcome.bind_eq_ok.1 h
              obtain ⟨result, hresult, h⟩ := Outcome.bind_eq_ok.1 h
              simp only [Outcome.ok.injEq] at h
              rw [← h]
              simp only [Expression.specified]
              exact parseArguments_specified ihe _ _ _ _ _ hresult
          · cases h
        · split at h
          · obtain ⟨callerType, _, h⟩ := Outcome.bind_eq_ok.1 h
            split at h
            · obtain ⟨callerValue, hcallerValue, h⟩ := Outcome.bind_eq_ok.1 h
              obtain ⟨final, hfinal, h⟩ := Outcome.bind_eq_ok.1 h
              rw [closeEvaluation_value h]
              exact ihd _ _ _ (ihe _ _ _ hcallerValue) hfinal
            · cases h
          · split at h
            · simp only at h
              split at h
              · cases h
              · obtain ⟨index, _, h⟩ := Outcome.bind_eq_ok.1 h
                obtain ⟨parameter, _, h⟩ := Outcome.bind_eq_ok.1 h
                obtain ⟨callerType, _, h⟩ := Outcome.bind_eq_ok.1 h
                obtain ⟨final, hfinal, h⟩ := Outcome.bind_eq_ok.1 h
                rw [closeEvaluation_value h]
                exact ihd ⟨callerType, .evaluation (.reference index)⟩ _ _ rfl hfinal
            · cases h
    · rw [parser_parseDestructions] at h
      split at h
      · simp only at h
        split at h
        · obtain ⟨typeConstructor, _, h⟩ := Outcome.bind_eq_ok.1 h
          obtain ⟨matrix, _, h⟩ := Outcome.bind_eq_ok.1 h
          split at h
          · cases h
          · obtain ⟨index, _, h⟩ := Outcome.bind_eq_ok.1 h
            obtain ⟨destructor, _, h⟩ := Outcome.bind_eq_ok.1 h
            obtain ⟨pTypeSubstitutions, _, h⟩ := Outcome.bind_eq_ok.1 h
            obtain ⟨result, _, h⟩ := Outcome.bind_eq_ok.1 h
            obtain ⟨newCaller, hnew, h⟩ := Outcome.bind_eq_ok.1 h
            exact ihd _ _ _ ((substitute_specified module fuel).2.2 _ _ _ _ hnew).2 h
        · cases h
      · simp only [Outcome.ok.injEq] at h
        rw [← h]
        exact hcaller
theorem get?_set_self {α : Type} (l : List α) (i : Nat) (a b : α) (h : l.get? i = some a) :
    (l.set i b).get? i = some b := by
  have hlt : i < l.length := by
    rw [List.get?_eq_getElem?] at h
    exact (List.getElem?_eq_some_iff.1 h).1
  rw [List.get?_eq_getElem?, List.getElem?_set_self hlt]

/-- The entry a successful rule branch has written: it was Unspecified before,
and it now holds the elaborated rule, which holds no Unspecified node. -/
theorem parseRule_written {fuel : Nat} {module : Module} {typeIndex : Nat}
    {pTypeParameters : List Parameter} {parser : Parser} {m' : Module} {p : Parser}
    (h : parseRule fuel module typeIndex pTypeParameters parser = .ok (m', p)) :
    ∃ matrix destructor destructorIndex constructorIndex rule newMatrix newDestructor,
      module.matrices.get? typeIndex = some matrix ∧
      matrix.destructors.get? destructorIndex = some destructor ∧
      destructor.rules.get? constructorIndex = some .unspecified ∧
      m'.matrices.get? typeIndex = some newMatrix ∧
      newMatrix.destructors.get? destructorIndex = some newDestructor ∧
      newDestructor.rules.get? constructorIndex = some rule ∧
      rule.specified = true := by
  unfold parseRule at h
  obtain ⟨matrix, hmatrix, h⟩ := Outcome.bind_eq_ok.1 h
  simp only at h
  obtain ⟨constructorIndex, _, h⟩ := Outcome.bind_eq_ok.1 h
  obtain ⟨constructor, _, h⟩ := Outcome.bind_eq_ok.1 h
  obtain ⟨constructorParameters, _, h⟩ := Outcome.bind_eq_ok.1 h
  split at h
  · obtain ⟨destructorIndex, _, h⟩ := Outcome.bind_eq_ok.1 h
    obtain ⟨destructor, hdestructor, h⟩ := Outcome.bind_eq_ok.1 h
    split at h
    · rename_i hfree
      obtain ⟨destructorParameters, _, h⟩ := Outcome.bind_eq_ok.1 h
      split at h
      · split at h
        · obtain ⟨type, _, h⟩ := Outcome.bind_eq_ok.1 h
          obtain ⟨rule, hrule, h⟩ := Outcome.bind_eq_ok.1 h
          simp only [Outcome.ok.injEq, Prod.mk.injEq] at h
          have hm := Outcome.ofOption_eq_ok.1 hmatrix
          have hd := Outcome.ofOption_eq_ok.1 hdestructor
          refine ⟨matrix, destructor, destructorIndex, constructorIndex, rule.1,
            { matrix with
              destructors := matrix.destructors.set destructorIndex
                { destructor with rules := destructor.rules.set constructorIndex rule.1 } },
            { destructor with rules := destructor.rules.set constructorIndex rule.1 }, hm, hd,
            hfree, ?_, ?_, ?_, (parse_specified module _ fuel).1 _ _ _ hrule⟩
          · rw [← h.1, setRule_eq_set constructorIndex rule.1 hm hd]
            exact get?_set_self _ _ _ _ hm
          · exact get?_set_self _ _ _ _ hd
          · exact get?_set_self _ _ _ _ hfree
        · cases h
      · cases h
    · cases h
  · cases h

/-- C38: results never contain the unspecified sentinel.  For every module,
environment and input, an expression returned by a successful
`expression_duplicate`, `expression_substitute`, `evaluation_substitute` (type
and value), `substitution_destruct` (type and value) or
`parser_parseExpression` holds no Unspecified node at any depth; the entry a
successful rule statement writes was Unspecified before and holds afterwards an
expression without Unspecified node, so it is not the sentinel; and
`expression_equals` returns false whenever either operand is Unspecified. -/
theorem results_specified (module : Module) :
    (∀ e r, expression_duplicate e = some r → r.specified = true) ∧
    (∀ fuel e s r, expression_substitute fuel module e s = .ok r → r.specified = true) ∧
    (∀ fuel e s r, evaluation_substitute fuel module e s = .ok r →
      r.type.specified = true ∧ r.value.specified = true) ∧
    (∀ fuel t index args r, substitution_destruct fuel module t index args = .ok r →
      r.type.specified = true ∧ r.value.specified = true) ∧
    (∀ fuel pParameters type parser r,
      parser_parseExpression fuel module pParameters type parser = .ok r →
      r.1.specified = true) ∧
    (∀ fuel typeIndex pTypeParameters parser newModule next,
      parseRule fuel module typeIndex pTypeParameters parser = .ok (newModule, next) →
      ∃ matrix destructor destructorIndex constructorIndex rule newMatrix newDestructor,
        module.matrices.get? typeIndex = some matrix ∧
        matrix.destructors.get? destructorIndex = some destructor ∧
        destructor.rules.get? constructorIndex = some .unspecified ∧
        newModule.matrices.get? typeIndex = some newMatrix ∧
        newMatrix.destructors.get? destructorIndex = some newDestructor ∧
        newDestructor.rules.get? constructorIndex = some rule ∧
        rule.specified = true ∧ rule ≠ .unspecified) ∧
    (∀ other, expression_equals .unspecified other = some false) ∧
    (∀ expression, expression_equals expression .unspecified = some false) := by
  refine ⟨fun e r h => specified_of_expression_duplicate h,
    fun fuel e s r h => (substitute_specified module fuel).1 e s r h,
    fun fuel e s r h => (substitute_specified module fuel).2.1 e s r h,
    fun fuel t index args r h => (substitute_specified module fuel).2.2 t index args r h,
    fun fuel pParameters type parser r h => (parse_specified module pParameters fuel).1 _ _ r h,
    ?_, ?_, ?_⟩
  · intro fuel typeIndex pTypeParameters parser newModule next h
    obtain ⟨matrix, destructor, destructorIndex, constructorIndex, rule, newMatrix,
      newDestructor, h1, h2, h3, h4, h5, h6, h7⟩ := parseRule_written h
    refine ⟨matrix, destructor, destructorIndex, constructorIndex, rule, newMatrix,
      newDestructor, h1, h2, h3, h4, h5, h6, h7, ?_⟩
    intro hrule
    rw [hrule] at h7
    cases h7
  · intro other
    simp only [expression_equals]
  · intro expression
    cases expression <;> simp only [expression_equals]

theorem results_specified_witness :
    (⟨natType, numeral 3⟩ : Substitution).type.specified = true ∧
      (⟨natType, numeral 3⟩ : Substitution).value.specified = true :=
  (results_specified natModule).2.2.2.1 7 ⟨natType, numeral 1⟩ 0 [numeral 2]
    ⟨natType, numeral 3⟩ rfl

/-! ## Printing and reading back -/

end Indigo
